import Mathlib

/-! # Train-Simulation: a shallow embedding of `train.h` / `train.cpp`

The program is a discrete-event simulation of one unloading dock.  The
embedding keeps the globals of `train.cpp` in one `State` record and turns
every function into a function on that record.

There are two embeddings of the same functions.  The first one, below, uses
exact arithmetic; it carries the claims that do not depend on the arithmetic
(control flow, queues, pointers, event order) and the runs on small integers,
which `double` represents exactly.  The second one (prefix `Mach`) uses the
arithmetic of the machine, rounded `double`s and bounded `int`s; it carries
the claims about sums of times, the order of times and the counters.

Modelling conventions

* In the first embedding `double` is modelled by `ℚ` (exact arithmetic) and
  `int` by `Int`, `unsigned`/`size_t` by `Nat` (unbounded).
* `Train*` is an index into `State.heap`; `new Train` appends a cell,
  `delete` empties the cell, and dereferencing an empty cell is undefined
  behaviour.
* Undefined behaviour (`front()`/`top()` of an empty container, a dangling
  pointer, a write past the end of the histogram vector) is the result
  `none`.
* `std::priority_queue<Event*, vector<Event*>, comp>` is modelled by the list
  of pending events in push order.  `top()` may return any pending event that
  `comp` does not order below another one; the position of the event that
  `top()` returns is an explicit argument of `checkEvent`, checked by `isTop`.
* The values produced by the random generator `gen` during one dispatch are an
  explicit argument (`Gen`) of the functions that draw from it.
* Printing to `cout` is not part of the state.
-/

namespace TrainSim

/-- Max crew shift time, `#define SHIFT_TIME 12.0`. -/
def SHIFT_TIME : ℚ := 12

/-- Train status, `enum tStat`. -/
inductive tStat where
  | ARRIVED
  | INQ
  | SERVICE
  | DEPARTED
deriving DecidableEq, Repr

/-- Dock status, `enum dStat`. -/
inductive dStat where
  | IDLE
  | IDLE_HOGGED
  | BUSY
deriving DecidableEq, Repr

/-- Crew status, `enum cStat`. -/
inductive cStat where
  | ON_CLOCK
  | HOGGED_OUT
deriving DecidableEq, Repr

/-- The dock, `class Dock` with its default member initialisers. -/
structure Dock where
  dockStatus : dStat := dStat.IDLE
  prevTime : ℚ := 0
  idleTime : ℚ := 0
  busyTime : ℚ := 0
  idleHogTime : ℚ := 0
deriving DecidableEq, Repr

/-- A train, `class Train`. -/
structure Train where
  tid : Int
  cid : Int
  hogouts : Int
  arrivalTime : ℚ
  endQTime : ℚ
  endDockTime : ℚ
  crewArrivalTime : ℚ
  timeTillHogout : ℚ
  unloadTime : ℚ
  trainStatus : tStat
  crewStatus : cStat
deriving DecidableEq, Repr

/-- The constructor `Train::Train`, as called by `new Train(...)`. -/
def newTrain (trainID crewID : Int) (aTime hTime uTime : ℚ) : Train :=
  { tid := trainID
    cid := crewID
    hogouts := 0
    arrivalTime := aTime
    endQTime := aTime
    endDockTime := aTime
    crewArrivalTime := aTime
    timeTillHogout := hTime
    unloadTime := uTime
    trainStatus := tStat.ARRIVED
    crewStatus := cStat.ON_CLOCK }

/-- The four action functions an `Event::function` pointer can hold. -/
inductive EventFunc where
  | arrival
  | departure
  | hogout
  | newCrew
deriving DecidableEq, Repr

/-- An event, `class Event`: action, target train pointer, time. -/
structure Event where
  function : EventFunc
  train : Nat
  eventTime : ℚ
deriving DecidableEq, Repr

/-- The comparator `comp::operator()`. -/
def comp (a b : Event) : Bool := decide (a.eventTime > b.eventTime)

/-- Statistics, `struct Stat`. -/
structure Stat where
  numOfTrainsServed : Int := 0
  sumOfTrainTimes : ℚ := 0
  maxOfTrainTimes : ℚ := 0
  sumOfInQTimes : ℚ := 0
  maxTrainsInQ : Nat := 0
  histogram : List Int := List.replicate 100 0
deriving DecidableEq, Repr

/-- One pre-made train schedule entry, `struct TrainSchedule`. -/
structure TrainSchedule where
  arrivalTime : ℚ
  unloadTime : ℚ
  remainingCrewHours : ℚ
deriving DecidableEq, Repr

/-- What the random generator yields during one dispatch: the value of
`genPoissonProc(rate)` and of the three `genUniform` calls. -/
structure Gen where
  poisson : ℚ
  unload : ℚ
  remain : ℚ
  crew : ℚ
deriving DecidableEq, Repr

/-- The globals of `train.cpp` together with `dock`, `statistics` and the
free store of trains. -/
structure State where
  eventQ : List Event
  trainQ : List Nat
  trainSchedule : List TrainSchedule
  travelTime : List ℚ
  nextTrainId : Int
  nextCrewId : Int
  globalTime : ℚ
  simTime : ℚ
  rate : Int
  premade : Bool
  dock : Dock
  statistics : Stat
  heap : List (Option Train)
deriving DecidableEq, Repr

/-- Dereference a `Train*`; `none` for a dangling pointer. -/
def deref (s : State) (p : Nat) : Option Train := (s.heap.get? p).join

/-- Write through a `Train*`. -/
def store (p : Nat) (t : Train) (s : State) : State :=
  { s with heap := s.heap.set p (some t) }

/-- The function `schedule`: push a new event. -/
def schedule (eventFunc : EventFunc) (train : Nat) (time : ℚ) (s : State) : State :=
  { s with eventQ := s.eventQ ++ [{ function := eventFunc, train := train, eventTime := time }] }

/-- The function `getCrewArrivalTime`. -/
def getCrewArrivalTime (g : Gen) (s : State) : Option (ℚ × State) :=
  if s.premade then
    match s.travelTime with
    | [] => none
    | time :: rest => some (time, { s with travelTime := rest })
  else
    some (g.crew, s)

/-- The function `getTrainValues`. -/
def getTrainValues (g : Gen) (s : State) : Option (TrainSchedule × State) :=
  if s.premade then
    match s.trainSchedule with
    | [] => none
    | ts :: rest => some (ts, { s with trainSchedule := rest })
  else
    some ({ arrivalTime := g.poisson, unloadTime := g.unload, remainingCrewHours := g.remain }, s)

/-- The function `updateDockTimes`. -/
def updateDockTimes (s : State) : State :=
  let d := s.dock
  let d :=
    match d.dockStatus with
    | dStat.IDLE => { d with idleTime := d.idleTime + (s.globalTime - d.prevTime) }
    | dStat.BUSY => { d with busyTime := d.busyTime + (s.globalTime - d.prevTime) }
    | dStat.IDLE_HOGGED =>
        { d with idleHogTime := d.idleHogTime + (s.globalTime - d.prevTime)
                 idleTime := d.idleTime + (s.globalTime - d.prevTime) }
  { s with dock := { d with prevTime := s.globalTime } }

/-- The loop `for (i = 0; i <= hogouts; ++i) histogram[i]++`, given the number
of iterations; `none` when an index is past the end of the vector. -/
def histIncr : Nat → List Int → Option (List Int)
  | 0, h => some h
  | _ + 1, [] => none
  | n + 1, x :: xs => (histIncr n xs).map (fun r => (x + 1) :: r)

/-- The function `updateStat`. -/
def updateStat (train : Nat) (s : State) : Option State := do
  let t ← deref s train
  let st := s.statistics
  let st := { st with numOfTrainsServed := st.numOfTrainsServed + 1 }
  let st := { st with sumOfTrainTimes := st.sumOfTrainTimes + (t.endDockTime - t.arrivalTime) }
  let st := { st with maxOfTrainTimes :=
                if (t.endDockTime - t.arrivalTime) > st.maxOfTrainTimes
                then (t.endDockTime - t.arrivalTime) else st.maxOfTrainTimes }
  let st := { st with sumOfInQTimes := st.sumOfInQTimes + (t.endQTime - t.arrivalTime) }
  let st := { st with maxTrainsInQ :=
                if s.trainQ.length > st.maxTrainsInQ then s.trainQ.length else st.maxTrainsInQ }
  if t.hogouts > 100 then
    some { s with statistics := st }
  else do
    let h ← histIncr (t.hogouts + 1).toNat st.histogram
    some { s with statistics := { st with histogram := h } }

/-- The function `startService`. -/
def startService (train : Nat) (s : State) : Option State := do
  let t ← deref s train
  let t := { t with timeTillHogout := t.timeTillHogout - (s.globalTime - t.crewArrivalTime) }
  let t := { t with endQTime := s.globalTime }
  let t := { t with trainStatus := tStat.SERVICE }
  let s := store train t s
  let s := { s with dock := { s.dock with dockStatus := dStat.BUSY } }
  some (schedule EventFunc.departure train (t.unloadTime + s.globalTime) s)

/-- The function `arrival`. -/
def arrival (currentTrain : Nat) (g : Gen) (s : State) : Option State := do
  let _ ← deref s currentTrain
  let s ←
    if (!s.premade && decide (s.globalTime ≤ s.simTime))
        || (s.premade && !s.trainSchedule.isEmpty) then do
      let (ts, s) ← getTrainValues g s
      let trainPtr := s.heap.length
      let t := newTrain s.nextTrainId s.nextCrewId (ts.arrivalTime + s.globalTime)
                ts.remainingCrewHours ts.unloadTime
      let s := { s with heap := s.heap ++ [some t]
                        nextTrainId := s.nextTrainId + 1
                        nextCrewId := s.nextCrewId + 1 }
      some (schedule EventFunc.arrival trainPtr (ts.arrivalTime + s.globalTime) s)
    else
      some s
  let s ←
    if s.trainQ.isEmpty && decide (s.dock.dockStatus = dStat.IDLE) then
      startService currentTrain s
    else do
      let t ← deref s currentTrain
      let s := store currentTrain { t with trainStatus := tStat.INQ } s
      some { s with trainQ := s.trainQ ++ [currentTrain] }
  let t ← deref s currentTrain
  some (schedule EventFunc.hogout currentTrain (t.timeTillHogout + s.globalTime) s)

/-- The function `departure`. -/
def departure (train : Nat) (s : State) : Option State := do
  let t ← deref s train
  if t.crewStatus = cStat.HOGGED_OUT then
    some s
  else do
    let t := { t with trainStatus := tStat.DEPARTED }
    let t := { t with endDockTime := s.globalTime }
    let s := store train t s
    let s := { s with dock := { s.dock with dockStatus := dStat.IDLE } }
    let s ← updateStat train s
    match s.trainQ with
    | [] => some s
    | front :: rest => do
        let f ← deref s front
        if f.crewStatus = cStat.ON_CLOCK then
          startService front { s with trainQ := rest }
        else
          some s

/-- The function `hogout`. -/
def hogout (train : Nat) (g : Gen) (s : State) : Option State := do
  let t ← deref s train
  let t := { t with crewStatus := cStat.HOGGED_OUT }
  let t := { t with hogouts := t.hogouts + 1 }
  let (newCrewArrival, s) ← getCrewArrivalTime g s
  let t := { t with timeTillHogout := SHIFT_TIME - newCrewArrival }
  let (t, s) :=
    if t.trainStatus = tStat.INQ then
      (t, s)
    else
      ({ t with unloadTime := t.unloadTime - (s.globalTime - t.endQTime) },
       { s with dock := { s.dock with dockStatus := dStat.IDLE_HOGGED } })
  let t := { t with cid := s.nextCrewId }
  let s := { s with nextCrewId := s.nextCrewId + 1 }
  let s := store train t s
  some (schedule EventFunc.newCrew train (s.globalTime + newCrewArrival) s)

/-- The function `newCrew`. -/
def newCrew (train : Nat) (s : State) : Option State := do
  let t ← deref s train
  let t := { t with crewStatus := cStat.ON_CLOCK }
  let t := { t with crewArrivalTime := s.globalTime }
  let s := store train t s
  let s ←
    if s.dock.dockStatus = dStat.IDLE ∧ t.trainStatus = tStat.INQ then
      match s.trainQ with
      | [] => none
      | front :: rest => do
          let f ← deref s front
          if f.tid = t.tid then
            startService front { s with trainQ := rest }
          else if t.trainStatus = tStat.SERVICE then
            some (schedule EventFunc.departure train (s.globalTime + t.unloadTime)
                    { s with dock := { s.dock with dockStatus := dStat.BUSY } })
          else
            some s
    else if t.trainStatus = tStat.SERVICE then
      some (schedule EventFunc.departure train (s.globalTime + t.unloadTime)
              { s with dock := { s.dock with dockStatus := dStat.BUSY } })
    else
      some s
  let t ← deref s train
  if t.trainStatus = tStat.INQ then
    some (schedule EventFunc.hogout train (s.globalTime + t.timeTillHogout) s)
  else
    some s

/-- Whether position `i` of the pending events may be what `eventQ.top()`
returns: the event exists and `comp` orders it below no pending event. -/
def isTop (q : List Event) (i : Nat) : Bool :=
  match q.get? i with
  | none => false
  | some e => q.all (fun e2 => !comp e e2)

/-- Call through the function pointer of an event. -/
def dispatch (f : EventFunc) (train : Nat) (g : Gen) (s : State) : Option State :=
  match f with
  | EventFunc.arrival => arrival train g s
  | EventFunc.departure => departure train s
  | EventFunc.hogout => hogout train g s
  | EventFunc.newCrew => newCrew train s

/-- The function `checkEvent`; `i` is the position of the event that
`eventQ.top()` returns. -/
def checkEvent (i : Nat) (g : Gen) (s : State) : Option State := do
  let e ← s.eventQ.get? i
  if isTop s.eventQ i = false then none
  let s := { s with eventQ := s.eventQ.eraseIdx i }
  let t ← deref s e.train
  if t.trainStatus = tStat.DEPARTED then
    some { s with heap := s.heap.set e.train none }
  else
    dispatch e.function e.train g { s with globalTime := e.eventTime }

/-- The body of the loop of `main`: `checkEvent(); updateDockTimes();`. -/
def driverIter (i : Nat) (g : Gen) (s : State) : Option State :=
  (checkEvent i g s).map updateDockTimes

/-- The condition of the loop of `main`. -/
def loopCond (s : State) : Bool :=
  (!s.premade && !s.eventQ.isEmpty) || (s.premade && !s.trainSchedule.isEmpty)

/-- The loop of `main`, run for one iteration per element of the input list
(the position `top()` picks and the generator output of that iteration). The
result is `none` when the loop would have stopped earlier, or on undefined
behaviour. -/
def driver : List (Nat × Gen) → State → Option State
  | [], s => some s
  | (i, g) :: rest, s =>
      if loopCond s then (driverIter i g s).bind (driver rest) else none

/-- The globals as the argument handling of `main` leaves them. -/
structure Config where
  premade : Bool
  rate : Int
  simTime : ℚ
  trainSchedule : List TrainSchedule
  travelTime : List ℚ
deriving DecidableEq, Repr

/-- The part of `main` before its loop: first train and its arrival. -/
def mainInit (c : Config) (g : Gen) : Option State := do
  let s : State :=
    { eventQ := []
      trainQ := []
      trainSchedule := c.trainSchedule
      travelTime := c.travelTime
      nextTrainId := 0
      nextCrewId := 0
      globalTime := 0
      simTime := c.simTime
      rate := c.rate
      premade := c.premade
      dock := {}
      statistics := {}
      heap := [] }
  let (ts, s) ← getTrainValues g s
  let trainPtr := s.heap.length
  let t := newTrain s.nextTrainId s.nextCrewId 0 ts.remainingCrewHours ts.unloadTime
  let s := { s with heap := s.heap ++ [some t]
                    nextTrainId := s.nextTrainId + 1
                    nextCrewId := s.nextCrewId + 1 }
  some (schedule EventFunc.arrival trainPtr s.globalTime s)

/-- The state of `main` after the given loop iterations. -/
def mainRun (c : Config) (g0 : Gen) (inputs : List (Nat × Gen)) : Option State :=
  (mainInit c g0).bind (driver inputs)

/-- A run of `main` is completed in `s` when the loop condition fails there. -/
@[reducible] def Completed (s : State) : Prop := loopCond s = false

/-! ## The program in machine arithmetic

A second embedding of the same functions, with the arithmetic of the machine:
a `double` is an IEEE 754 binary64 value (`F64`) and every sum and difference
is rounded to nearest, ties to even; `x++` on an `int` that holds `INT_MAX`
is undefined behaviour (`none`); the conversion of `trainQ.size()` to
`unsigned int` is taken modulo `2 ^ 32`.  Control flow, pointers, queues and
the treatment of undefined behaviour are those of the first embedding; the
names are the same, behind the prefix `Mach`.  The sign of a zero and the
payload of a NaN are not kept: no function of the program depends on them.
-/

/-- A `double` (IEEE 754 binary64): a finite value, held as the rational it
denotes, an infinity, or a NaN. -/
inductive F64 where
  | fin (q : ℚ)
  | inf (neg : Bool)
  | nan
deriving DecidableEq

/-- The integer nearest to `n / d`, a tie going to the even one. -/
def F64.rne (n d : Nat) : Nat :=
  let f := n / d
  let r := n % d
  if 2 * r < d then f
  else if d < 2 * r then f + 1
  else if f % 2 = 0 then f else f + 1

/-- The number of binary digits of `n`; the first argument bounds the
recursion. -/
def F64.bitsAux : Nat → Nat → Nat
  | 0, _ => 0
  | fuel + 1, n => if n = 0 then 0 else F64.bitsAux fuel (n / 2) + 1

/-- The number of binary digits of `n`. -/
def F64.bits (n : Nat) : Nat := F64.bitsAux n n

/-- The exponent `e` with `2 ^ e ≤ n / d < 2 ^ (e + 1)`, for positive `n`, `d`. -/
def F64.ilog2 (n d : Nat) : Int :=
  let k : Int := (F64.bits n : Int) - (F64.bits d : Int)
  if 0 ≤ k then (if d * 2 ^ k.toNat ≤ n then k else k - 1)
  else (if d ≤ n * 2 ^ (-k).toNat then k else k - 1)

/-- Rounding of a rational to the nearest `double`, ties to even: 53
significant bits, least exponent `-1074`, overflow to an infinity. -/
def F64.round (q : ℚ) : F64 :=
  if q = 0 then F64.fin 0
  else
    let n := q.num.natAbs
    let d := q.den
    let p : Int := max (F64.ilog2 n d - 52) (-1074)
    if 0 ≤ p then
      let m := F64.rne n (d * 2 ^ p.toNat)
      if 2 ^ 1024 ≤ m * 2 ^ p.toNat then F64.inf (decide (q < 0))
      else F64.fin (if q < 0 then -((m * 2 ^ p.toNat : Nat) : ℚ) else ((m * 2 ^ p.toNat : Nat) : ℚ))
    else
      let m := F64.rne (n * 2 ^ (-p).toNat) d
      F64.fin (if q < 0 then -(mkRat m (2 ^ (-p).toNat)) else mkRat m (2 ^ (-p).toNat))

/-- Negation of a `double`. -/
def F64.neg : F64 → F64
  | F64.fin q => F64.fin (-q)
  | F64.inf s => F64.inf (!s)
  | F64.nan => F64.nan

/-- The sum of two `double`s. -/
def F64.add : F64 → F64 → F64
  | F64.fin a, F64.fin b => F64.round (a + b)
  | F64.fin _, F64.inf s => F64.inf s
  | F64.inf s, F64.fin _ => F64.inf s
  | F64.inf s, F64.inf t => if s = t then F64.inf s else F64.nan
  | _, _ => F64.nan

/-- The difference of two `double`s. -/
def F64.sub (a b : F64) : F64 := F64.add a (F64.neg b)

instance : Add F64 := ⟨F64.add⟩

instance : Sub F64 := ⟨F64.sub⟩

/-- The comparison `a < b` of `double`s; false when a NaN is involved. -/
def F64.lt : F64 → F64 → Bool
  | F64.fin a, F64.fin b => decide (a < b)
  | F64.fin _, F64.inf s => !s
  | F64.inf s, F64.fin _ => s
  | F64.inf s, F64.inf t => s && !t
  | _, _ => false

/-- The comparison `a <= b` of `double`s; false when a NaN is involved. -/
def F64.le : F64 → F64 → Bool
  | F64.fin a, F64.fin b => decide (a ≤ b)
  | F64.fin _, F64.inf s => !s
  | F64.inf s, F64.fin _ => s
  | F64.inf s, F64.inf t => s || !t
  | _, _ => false

/-- The rational a finite `double` denotes (0 for an infinity or a NaN). -/
def F64.toRat : F64 → ℚ
  | F64.fin q => q
  | _ => 0

/-- The largest `int`. -/
def INT_MAX : Int := 2147483647

/-- The expression `x++` on an `int`: the new value; signed overflow is
undefined behaviour. -/
def Mach.incr (x : Int) : Option Int := if x < INT_MAX then some (x + 1) else none

/-- Max crew shift time, `#define SHIFT_TIME 12.0`. -/
def Mach.SHIFT_TIME : F64 := F64.fin 12

/-- The dock, `class Dock` with its default member initialisers. -/
structure Mach.Dock where
  dockStatus : dStat := dStat.IDLE
  prevTime : F64 := F64.fin 0
  idleTime : F64 := F64.fin 0
  busyTime : F64 := F64.fin 0
  idleHogTime : F64 := F64.fin 0
deriving DecidableEq

/-- A train, `class Train`. -/
structure Mach.Train where
  tid : Int
  cid : Int
  hogouts : Int
  arrivalTime : F64
  endQTime : F64
  endDockTime : F64
  crewArrivalTime : F64
  timeTillHogout : F64
  unloadTime : F64
  trainStatus : tStat
  crewStatus : cStat
deriving DecidableEq

/-- The constructor `Train::Train`, as called by `new Train(...)`. -/
def Mach.newTrain (trainID crewID : Int) (aTime hTime uTime : F64) : Train :=
  { tid := trainID
    cid := crewID
    hogouts := 0
    arrivalTime := aTime
    endQTime := aTime
    endDockTime := aTime
    crewArrivalTime := aTime
    timeTillHogout := hTime
    unloadTime := uTime
    trainStatus := tStat.ARRIVED
    crewStatus := cStat.ON_CLOCK }

/-- An event, `class Event`: action, target train pointer, time. -/
structure Mach.Event where
  function : EventFunc
  train : Nat
  eventTime : F64
deriving DecidableEq

/-- The comparator `comp::operator()`: `a->eventTime > b->eventTime`. -/
def Mach.comp (a b : Event) : Bool := F64.lt b.eventTime a.eventTime

/-- Statistics, `struct Stat`. -/
structure Mach.Stat where
  numOfTrainsServed : Int := 0
  sumOfTrainTimes : F64 := F64.fin 0
  maxOfTrainTimes : F64 := F64.fin 0
  sumOfInQTimes : F64 := F64.fin 0
  maxTrainsInQ : Nat := 0
  histogram : List Int := List.replicate 100 0
deriving DecidableEq

/-- One pre-made train schedule entry, `struct TrainSchedule`. -/
structure Mach.TrainSchedule where
  arrivalTime : F64
  unloadTime : F64
  remainingCrewHours : F64
deriving DecidableEq

/-- What the random generator yields during one dispatch: the value of
`genPoissonProc(rate)` and of the three `genUniform` calls. -/
structure Mach.Gen where
  poisson : F64
  unload : F64
  remain : F64
  crew : F64
deriving DecidableEq

/-- The globals of `train.cpp` together with `dock`, `statistics` and the
free store of trains. -/
structure Mach.State where
  eventQ : List Event
  trainQ : List Nat
  trainSchedule : List TrainSchedule
  travelTime : List F64
  nextTrainId : Int
  nextCrewId : Int
  globalTime : F64
  simTime : F64
  rate : Int
  premade : Bool
  dock : Dock
  statistics : Stat
  heap : List (Option Train)
deriving DecidableEq

/-- Dereference a `Train*`; `none` for a dangling pointer. -/
def Mach.deref (s : State) (p : Nat) : Option Train := (s.heap.get? p).join

/-- Write through a `Train*`. -/
def Mach.store (p : Nat) (t : Train) (s : State) : State :=
  { s with heap := s.heap.set p (some t) }

/-- The function `schedule`: push a new event. -/
def Mach.schedule (eventFunc : EventFunc) (train : Nat) (time : F64) (s : State) : State :=
  { s with eventQ := s.eventQ ++ [{ function := eventFunc, train := train, eventTime := time }] }

/-- The function `getCrewArrivalTime`. -/
def Mach.getCrewArrivalTime (g : Gen) (s : State) : Option (F64 × State) :=
  if s.premade then
    match s.travelTime with
    | [] => none
    | time :: rest => some (time, { s with travelTime := rest })
  else
    some (g.crew, s)

/-- The function `getTrainValues`. -/
def Mach.getTrainValues (g : Gen) (s : State) : Option (TrainSchedule × State) :=
  if s.premade then
    match s.trainSchedule with
    | [] => none
    | ts :: rest => some (ts, { s with trainSchedule := rest })
  else
    some ({ arrivalTime := g.poisson, unloadTime := g.unload, remainingCrewHours := g.remain }, s)

/-- The function `updateDockTimes`. -/
def Mach.updateDockTimes (s : State) : State :=
  let d := s.dock
  let d :=
    match d.dockStatus with
    | dStat.IDLE => { d with idleTime := d.idleTime + (s.globalTime - d.prevTime) }
    | dStat.BUSY => { d with busyTime := d.busyTime + (s.globalTime - d.prevTime) }
    | dStat.IDLE_HOGGED =>
        { d with idleHogTime := d.idleHogTime + (s.globalTime - d.prevTime)
                 idleTime := d.idleTime + (s.globalTime - d.prevTime) }
  { s with dock := { d with prevTime := s.globalTime } }

/-- The loop `for (i = 0; i <= hogouts; ++i) histogram[i]++`, given the number
of iterations; `none` when an index is past the end of the vector or a bucket
overflows. -/
def Mach.histIncr : Nat → List Int → Option (List Int)
  | 0, h => some h
  | _ + 1, [] => none
  | n + 1, x :: xs => (incr x).bind (fun y => (histIncr n xs).map (fun r => y :: r))

/-- The function `updateStat`. -/
def Mach.updateStat (train : Nat) (s : State) : Option State := do
  let t ← deref s train
  let st := s.statistics
  let n ← incr st.numOfTrainsServed
  let st := { st with numOfTrainsServed := n }
  let st := { st with sumOfTrainTimes := st.sumOfTrainTimes + (t.endDockTime - t.arrivalTime) }
  let st := { st with maxOfTrainTimes :=
                if F64.lt st.maxOfTrainTimes (t.endDockTime - t.arrivalTime)
                then (t.endDockTime - t.arrivalTime) else st.maxOfTrainTimes }
  let st := { st with sumOfInQTimes := st.sumOfInQTimes + (t.endQTime - t.arrivalTime) }
  let st := { st with maxTrainsInQ :=
                if s.trainQ.length > st.maxTrainsInQ then s.trainQ.length % 2 ^ 32
                else st.maxTrainsInQ }
  if t.hogouts > 100 then
    some { s with statistics := st }
  else do
    let h ← histIncr (t.hogouts + 1).toNat st.histogram
    some { s with statistics := { st with histogram := h } }

/-- The function `startService`. -/
def Mach.startService (train : Nat) (s : State) : Option State := do
  let t ← deref s train
  let t := { t with timeTillHogout := t.timeTillHogout - (s.globalTime - t.crewArrivalTime) }
  let t := { t with endQTime := s.globalTime }
  let t := { t with trainStatus := tStat.SERVICE }
  let s := store train t s
  let s := { s with dock := { s.dock with dockStatus := dStat.BUSY } }
  some (schedule EventFunc.departure train (t.unloadTime + s.globalTime) s)

/-- The function `arrival`. -/
def Mach.arrival (currentTrain : Nat) (g : Gen) (s : State) : Option State := do
  let _ ← deref s currentTrain
  let s ←
    if (!s.premade && F64.le s.globalTime s.simTime)
        || (s.premade && !s.trainSchedule.isEmpty) then do
      let (ts, s) ← getTrainValues g s
      let trainPtr := s.heap.length
      let tid := s.nextTrainId
      let nt ← incr s.nextTrainId
      let cid := s.nextCrewId
      let nc ← incr s.nextCrewId
      let t := newTrain tid cid (ts.arrivalTime + s.globalTime)
                ts.remainingCrewHours ts.unloadTime
      let s := { s with heap := s.heap ++ [some t]
                        nextTrainId := nt
                        nextCrewId := nc }
      some (schedule EventFunc.arrival trainPtr (ts.arrivalTime + s.globalTime) s)
    else
      some s
  let s ←
    if s.trainQ.isEmpty && decide (s.dock.dockStatus = dStat.IDLE) then
      startService currentTrain s
    else do
      let t ← deref s currentTrain
      let s := store currentTrain { t with trainStatus := tStat.INQ } s
      some { s with trainQ := s.trainQ ++ [currentTrain] }
  let t ← deref s currentTrain
  some (schedule EventFunc.hogout currentTrain (t.timeTillHogout + s.globalTime) s)

/-- The function `departure`. -/
def Mach.departure (train : Nat) (s : State) : Option State := do
  let t ← deref s train
  if t.crewStatus = cStat.HOGGED_OUT then
    some s
  else do
    let t := { t with trainStatus := tStat.DEPARTED }
    let t := { t with endDockTime := s.globalTime }
    let s := store train t s
    let s := { s with dock := { s.dock with dockStatus := dStat.IDLE } }
    let s ← updateStat train s
    match s.trainQ with
    | [] => some s
    | front :: rest => do
        let f ← deref s front
        if f.crewStatus = cStat.ON_CLOCK then
          startService front { s with trainQ := rest }
        else
          some s

/-- The function `hogout`. -/
def Mach.hogout (train : Nat) (g : Gen) (s : State) : Option State := do
  let t ← deref s train
  let t := { t with crewStatus := cStat.HOGGED_OUT }
  let h ← incr t.hogouts
  let t := { t with hogouts := h }
  let (newCrewArrival, s) ← getCrewArrivalTime g s
  let t := { t with timeTillHogout := SHIFT_TIME - newCrewArrival }
  let (t, s) :=
    if t.trainStatus = tStat.INQ then
      (t, s)
    else
      ({ t with unloadTime := t.unloadTime - (s.globalTime - t.endQTime) },
       { s with dock := { s.dock with dockStatus := dStat.IDLE_HOGGED } })
  let t := { t with cid := s.nextCrewId }
  let nc ← incr s.nextCrewId
  let s := { s with nextCrewId := nc }
  let s := store train t s
  some (schedule EventFunc.newCrew train (s.globalTime + newCrewArrival) s)

/-- The function `newCrew`. -/
def Mach.newCrew (train : Nat) (s : State) : Option State := do
  let t ← deref s train
  let t := { t with crewStatus := cStat.ON_CLOCK }
  let t := { t with crewArrivalTime := s.globalTime }
  let s := store train t s
  let s ←
    if s.dock.dockStatus = dStat.IDLE ∧ t.trainStatus = tStat.INQ then
      match s.trainQ with
      | [] => none
      | front :: rest => do
          let f ← deref s front
          if f.tid = t.tid then
            startService front { s with trainQ := rest }
          else if t.trainStatus = tStat.SERVICE then
            some (schedule EventFunc.departure train (s.globalTime + t.unloadTime)
                    { s with dock := { s.dock with dockStatus := dStat.BUSY } })
          else
            some s
    else if t.trainStatus = tStat.SERVICE then
      some (schedule EventFunc.departure train (s.globalTime + t.unloadTime)
              { s with dock := { s.dock with dockStatus := dStat.BUSY } })
    else
      some s
  let t ← deref s train
  if t.trainStatus = tStat.INQ then
    some (schedule EventFunc.hogout train (s.globalTime + t.timeTillHogout) s)
  else
    some s

/-- Whether position `i` of the pending events may be what `eventQ.top()`
returns: the event exists and `comp` orders it below no pending event. -/
def Mach.isTop (q : List Event) (i : Nat) : Bool :=
  match q.get? i with
  | none => false
  | some e => q.all (fun e2 => !comp e e2)

/-- Call through the function pointer of an event. -/
def Mach.dispatch (f : EventFunc) (train : Nat) (g : Gen) (s : State) : Option State :=
  match f with
  | EventFunc.arrival => arrival train g s
  | EventFunc.departure => departure train s
  | EventFunc.hogout => hogout train g s
  | EventFunc.newCrew => newCrew train s

/-- The function `checkEvent`; `i` is the position of the event that
`eventQ.top()` returns. -/
def Mach.checkEvent (i : Nat) (g : Gen) (s : State) : Option State := do
  let e ← s.eventQ.get? i
  if isTop s.eventQ i = false then none
  let s := { s with eventQ := s.eventQ.eraseIdx i }
  let t ← deref s e.train
  if t.trainStatus = tStat.DEPARTED then
    some { s with heap := s.heap.set e.train none }
  else
    dispatch e.function e.train g { s with globalTime := e.eventTime }

/-- The body of the loop of `main`: `checkEvent(); updateDockTimes();`. -/
def Mach.driverIter (i : Nat) (g : Gen) (s : State) : Option State :=
  (checkEvent i g s).map updateDockTimes

/-- The condition of the loop of `main`. -/
def Mach.loopCond (s : State) : Bool :=
  (!s.premade && !s.eventQ.isEmpty) || (s.premade && !s.trainSchedule.isEmpty)

/-- The loop of `main`, run for one iteration per element of the input list
(the position `top()` picks and the generator output of that iteration). The
result is `none` when the loop would have stopped earlier, or on undefined
behaviour. -/
def Mach.driver : List (Nat × Gen) → State → Option State
  | [], s => some s
  | (i, g) :: rest, s =>
      if loopCond s then (driverIter i g s).bind (driver rest) else none

/-- The globals as the argument handling of `main` leaves them. -/
structure Mach.Config where
  premade : Bool
  rate : Int
  simTime : F64
  trainSchedule : List TrainSchedule
  travelTime : List F64
deriving DecidableEq

/-- The part of `main` before its loop: first train and its arrival. -/
def Mach.mainInit (c : Config) (g : Gen) : Option State := do
  let s : State :=
    { eventQ := []
      trainQ := []
      trainSchedule := c.trainSchedule
      travelTime := c.travelTime
      nextTrainId := 0
      nextCrewId := 0
      globalTime := F64.fin 0
      simTime := c.simTime
      rate := c.rate
      premade := c.premade
      dock := {}
      statistics := {}
      heap := [] }
  let (ts, s) ← getTrainValues g s
  let trainPtr := s.heap.length
  let t := newTrain s.nextTrainId s.nextCrewId (F64.fin 0) ts.remainingCrewHours ts.unloadTime
  let s := { s with heap := s.heap ++ [some t]
                    nextTrainId := s.nextTrainId + 1
                    nextCrewId := s.nextCrewId + 1 }
  some (schedule EventFunc.arrival trainPtr s.globalTime s)

/-- The state of `main` after the given loop iterations. -/
def Mach.mainRun (c : Config) (g0 : Gen) (inputs : List (Nat × Gen)) : Option State :=
  (mainInit c g0).bind (driver inputs)

/-! ## Auxiliary definitions

The definitions below are not functions of the program.  They name the states
and records the functions leave behind branch by branch, the invariants of the
reachable states, and the concrete runs the theorems are evaluated on.
-/

/-- Lookup in the free store. -/
def hget (h : List (Option Train)) (p : Nat) : Option Train := (h.get? p).join

/-- The train record `startService` leaves behind. -/
def serviceTrain (now : ℚ) (t : Train) : Train :=
  { t with timeTillHogout := t.timeTillHogout - (now - t.crewArrivalTime)
           endQTime := now
           trainStatus := tStat.SERVICE }

/-- The state `startService` leaves behind when the pointer holds `t`. -/
def startServiceAt (p : Nat) (t : Train) (s : State) : State :=
  { s with heap := s.heap.set p (some (serviceTrain s.globalTime t))
           dock := { s.dock with dockStatus := dStat.BUSY }
           eventQ := s.eventQ ++
             [{ function := EventFunc.departure, train := p, eventTime := t.unloadTime + s.globalTime }] }

/-- The train record a real departure leaves behind. -/
def departedTrain (now : ℚ) (t : Train) : Train :=
  { t with trainStatus := tStat.DEPARTED, endDockTime := now }

/-- The state of `departure` after the departing train, the dock and the
statistics are updated, before the wait queue is looked at. -/
def departAt (p : Nat) (t : Train) (st : Stat) (s : State) : State :=
  { s with heap := s.heap.set p (some (departedTrain s.globalTime t))
           dock := { s.dock with dockStatus := dStat.IDLE }
           statistics := st }

/-- The train record `hogout` leaves behind; `d` is the drawn replacement
delay and `cid` the new crew id. -/
def hoggedTrain (now d : ℚ) (cid : Int) (t : Train) : Train :=
  { t with crewStatus := cStat.HOGGED_OUT
           hogouts := t.hogouts + 1
           timeTillHogout := SHIFT_TIME - d
           unloadTime := if t.trainStatus = tStat.INQ then t.unloadTime
                         else t.unloadTime - (now - t.endQTime)
           cid := cid }

/-- The state `hogout` leaves behind; `tt` is what is left of `travelTime`. -/
def hogoutAt (p : Nat) (t : Train) (d : ℚ) (tt : List ℚ) (s : State) : State :=
  { s with travelTime := tt
           heap := s.heap.set p (some (hoggedTrain s.globalTime d s.nextCrewId t))
           dock := if t.trainStatus = tStat.INQ then s.dock
                   else { s.dock with dockStatus := dStat.IDLE_HOGGED }
           nextCrewId := s.nextCrewId + 1
           eventQ := s.eventQ ++
             [{ function := EventFunc.newCrew, train := p, eventTime := s.globalTime + d }] }

/-- The train record `newCrew` writes first. -/
def crewOnTrain (now : ℚ) (t : Train) : Train :=
  { t with crewStatus := cStat.ON_CLOCK, crewArrivalTime := now }

/-- The state of `newCrew` after the crew fields are written. -/
def crewOnAt (p : Nat) (t : Train) (s : State) : State :=
  { s with heap := s.heap.set p (some (crewOnTrain s.globalTime t)) }

/-- The event `newCrew` pushes for a train that is still in the queue. -/
def nextHogout (p : Nat) (t : Train) (s : State) : Event :=
  { function := EventFunc.hogout, train := p
    eventTime := s.globalTime + (crewOnTrain s.globalTime t).timeTillHogout }

/-- The middle part of `newCrew`: the queue-advance or resume decision. -/
def newCrewMid (p : Nat) (t : Train) (s : State) : Option State :=
  if s.dock.dockStatus = dStat.IDLE ∧ t.trainStatus = tStat.INQ then
    (match s.trainQ with
      | [] => none
      | front :: rest => (deref (crewOnAt p t s) front).bind (fun f =>
          if f.tid = t.tid then startService front { crewOnAt p t s with trainQ := rest }
          else if t.trainStatus = tStat.SERVICE then
            some (schedule EventFunc.departure p (s.globalTime + t.unloadTime)
              { crewOnAt p t s with dock := { s.dock with dockStatus := dStat.BUSY } })
          else some (crewOnAt p t s)))
  else if t.trainStatus = tStat.SERVICE then
    some (schedule EventFunc.departure p (s.globalTime + t.unloadTime)
      { crewOnAt p t s with dock := { s.dock with dockStatus := dStat.BUSY } })
  else some (crewOnAt p t s)

/-- The state of `arrival` after the next train is created and its arrival
scheduled; `ts` are the drawn values and `rest` what is left of
`trainSchedule`. -/
def nextTrainAt (ts : TrainSchedule) (rest : List TrainSchedule) (s : State) : State :=
  { s with trainSchedule := rest
           heap := s.heap ++ [some (newTrain s.nextTrainId s.nextCrewId
                    (ts.arrivalTime + s.globalTime) ts.remainingCrewHours ts.unloadTime)]
           nextTrainId := s.nextTrainId + 1
           nextCrewId := s.nextCrewId + 1
           eventQ := s.eventQ ++
             [{ function := EventFunc.arrival, train := s.heap.length
                eventTime := ts.arrivalTime + s.globalTime }] }

/-- The first part of `arrival`: admit the next train if the horizon or the
pre-made schedule allows it. -/
def arrivalNext (g : Gen) (s : State) : Option State :=
  if (!s.premade && decide (s.globalTime ≤ s.simTime))
      || (s.premade && !s.trainSchedule.isEmpty) then
    (getTrainValues g s).bind (fun x => some (nextTrainAt x.1 x.2.trainSchedule s))
  else some s

/-- The state of `arrival` when the train goes straight into the dock. -/
def enterServiceAt (p : Nat) (t : Train) (s : State) : State :=
  { s with heap := s.heap.set p (some (serviceTrain s.globalTime t))
           dock := { s.dock with dockStatus := dStat.BUSY }
           eventQ := s.eventQ ++
             [{ function := EventFunc.departure, train := p, eventTime := t.unloadTime + s.globalTime },
              { function := EventFunc.hogout, train := p
                eventTime := (serviceTrain s.globalTime t).timeTillHogout + s.globalTime }] }

/-- The state of `arrival` when the train joins the wait queue. -/
def enqueueAt (p : Nat) (t : Train) (s : State) : State :=
  { s with heap := s.heap.set p (some { t with trainStatus := tStat.INQ })
           trainQ := s.trainQ ++ [p]
           eventQ := s.eventQ ++
             [{ function := EventFunc.hogout, train := p
                eventTime := t.timeTillHogout + s.globalTime }] }

/-- The second part of `arrival`: dock or queue, then the hogout. -/
def arrivalEnter (p : Nat) (s : State) : Option State :=
  (deref s p).bind (fun t =>
    if s.trainQ.isEmpty && decide (s.dock.dockStatus = dStat.IDLE) then
      some (enterServiceAt p t s)
    else some (enqueueAt p t s))

/-- The state `checkEvent` hands to the handler: the event is popped and the
clock is set to its time. -/
def popAt (i : Nat) (e : Event) (s : State) : State :=
  { s with eventQ := s.eventQ.eraseIdx i, globalTime := e.eventTime }

/-- The state `checkEvent` leaves behind when it drops an event of a departed
train. -/
def dropAt (i : Nat) (e : Event) (s : State) : State :=
  { s with eventQ := s.eventQ.eraseIdx i, heap := s.heap.set e.train none }

/-- The dock accumulators and the sample watermark agree in two states. -/
def SameAcc (s s2 : State) : Prop :=
  s2.dock.prevTime = s.dock.prevTime ∧ s2.dock.idleTime = s.dock.idleTime ∧
  s2.dock.busyTime = s.dock.busyTime ∧ s2.dock.idleHogTime = s.dock.idleHogTime

/-- Generative mode with the given horizon (`./train rate simTime`). -/
def genCfg (simTime : ℚ) : Config :=
  { premade := false, rate := 10, simTime := simTime, trainSchedule := [], travelTime := [] }

/-- Replay mode (`./train -s trains crews`) with the given file contents. -/
def replayCfg (trains : List TrainSchedule) (crews : List ℚ) : Config :=
  { premade := true, rate := 0, simTime := 0, trainSchedule := trains, travelTime := crews }

/-- Generator output: unload 10, remaining shift 3, replacement delay 2. -/
def hogGen : Gen := { poisson := 1, unload := 10, remain := 3, crew := 2 }

/-- The run of a single train (unload 10, shift 3, delay 2) with a horizon
below zero: arrival, hogout, crew replacement, departure, dropped event. -/
def hogRun : List (Nat × Gen) := [(0, hogGen), (1, hogGen), (1, hogGen), (0, hogGen), (0, hogGen)]

/-- The state in which `hogRun` ends. -/
def hogFinal : State :=
  { eventQ := []
    trainQ := []
    trainSchedule := []
    travelTime := []
    nextTrainId := 1
    nextCrewId := 2
    globalTime := 10
    simTime := -1
    rate := 10
    premade := false
    dock := { dockStatus := dStat.IDLE, prevTime := 10, idleTime := 8, busyTime := 2, idleHogTime := 3 }
    statistics :=
      { numOfTrainsServed := 1, sumOfTrainTimes := 10, maxOfTrainTimes := 10, sumOfInQTimes := 0
        maxTrainsInQ := 0, histogram := 1 :: 1 :: List.replicate 98 0 }
    heap := [none] }

/-- The state of `hogRun` before its last iteration: the train has departed
and its second departure event is still pending. -/
def hogDeparted : State :=
  { eventQ := [{ function := EventFunc.departure, train := 0, eventTime := 12 }]
    trainQ := []
    trainSchedule := []
    travelTime := []
    nextTrainId := 1
    nextCrewId := 2
    globalTime := 10
    simTime := -1
    rate := 10
    premade := false
    dock := { dockStatus := dStat.IDLE, prevTime := 10, idleTime := 8, busyTime := 2, idleHogTime := 3 }
    statistics :=
      { numOfTrainsServed := 1, sumOfTrainTimes := 10, maxOfTrainTimes := 10, sumOfInQTimes := 0
        maxTrainsInQ := 0, histogram := 1 :: 1 :: List.replicate 98 0 }
    heap := [some { tid := 0, cid := 1, hogouts := 1, arrivalTime := 0, endQTime := 0
                    endDockTime := 10, crewArrivalTime := 5, timeTillHogout := 10, unloadTime := 7
                    trainStatus := tStat.DEPARTED, crewStatus := cStat.ON_CLOCK }] }

/-- Generator output: unload 5, remaining shift 100. -/
def plainGen : Gen := { poisson := 1, unload := 5, remain := 100, crew := 2 }

/-- The run of a single train (unload 5, shift 100) with a horizon below zero:
arrival, departure, dropped hogout. -/
def plainRun : List (Nat × Gen) := [(0, plainGen), (0, plainGen), (0, plainGen)]

/-- The state in which the loop of `main` starts for the replay input with the
single train (gap 0, unload 5, shift 100): its arrival is pending and the train
sequence is already empty. -/
def replayOneInit : State :=
  { eventQ := [{ function := EventFunc.arrival, train := 0, eventTime := 0 }]
    trainQ := []
    trainSchedule := []
    travelTime := []
    nextTrainId := 1
    nextCrewId := 1
    globalTime := 0
    simTime := 0
    rate := 0
    premade := true
    dock := {}
    statistics := {}
    heap := [some (newTrain 0 0 0 100 5)] }

/-- The replay input of two trains: A = (gap 0, unload 5, shift 100), then
B = (gap 1, unload 2, shift 100); no replacement delays. -/
def replayTwo : Config :=
  replayCfg [{ arrivalTime := 0, unloadTime := 5, remainingCrewHours := 100 },
             { arrivalTime := 1, unloadTime := 2, remainingCrewHours := 100 }] []

/-- The state in which the loop of `main` starts on `replayTwo`. -/
def replayTwoInit : State :=
  { eventQ := [{ function := EventFunc.arrival, train := 0, eventTime := 0 }]
    trainQ := []
    trainSchedule := [{ arrivalTime := 1, unloadTime := 2, remainingCrewHours := 100 }]
    travelTime := []
    nextTrainId := 1
    nextCrewId := 1
    globalTime := 0
    simTime := 0
    rate := 0
    premade := true
    dock := {}
    statistics := {}
    heap := [some (newTrain 0 0 0 100 5)] }

/-- The state of the run on `replayTwo` after the arrival of A: B is created
and its arrival is pending at time 1, A is in the dock, and the train sequence
is empty. -/
def replayTwoEnd : State :=
  { eventQ := [{ function := EventFunc.arrival, train := 1, eventTime := 1 },
               { function := EventFunc.departure, train := 0, eventTime := 5 },
               { function := EventFunc.hogout, train := 0, eventTime := 100 }]
    trainQ := []
    trainSchedule := []
    travelTime := []
    nextTrainId := 2
    nextCrewId := 2
    globalTime := 0
    simTime := 0
    rate := 0
    premade := true
    dock := { dockStatus := dStat.BUSY }
    statistics := {}
    heap := [some { tid := 0, cid := 0, hogouts := 0, arrivalTime := 0, endQTime := 0
                    endDockTime := 0, crewArrivalTime := 0, timeTillHogout := 100, unloadTime := 5
                    trainStatus := tStat.SERVICE, crewStatus := cStat.ON_CLOCK },
             some { tid := 1, cid := 1, hogouts := 0, arrivalTime := 1, endQTime := 1
                    endDockTime := 1, crewArrivalTime := 1, timeTillHogout := 100, unloadTime := 2
                    trainStatus := tStat.ARRIVED, crewStatus := cStat.ON_CLOCK }] }

/-- Generator output for train B: gap 1, unload 2, remaining shift 100. -/
def trainBGen : Gen := { poisson := 1, unload := 2, remain := 100, crew := 2 }

/-- The generative run of train A (unload 5, shift 100) and train B (gap 1,
unload 2, shift 100) with horizon 0: arrival of A, arrival of B, departure of
A, departure of B, two dropped hogouts. -/
def twoRun : List (Nat × Gen) :=
  [(0, trainBGen), (0, trainBGen), (0, trainBGen), (2, trainBGen), (0, trainBGen), (0, trainBGen)]

/-- The state of `hogRun` after the hogout at time 3: the train is in the dock
with its crew hogged out, the departure scheduled for time 10 is pending. -/
def hogHogged : State :=
  { eventQ := [{ function := EventFunc.departure, train := 0, eventTime := 10 },
               { function := EventFunc.newCrew, train := 0, eventTime := 5 }]
    trainQ := []
    trainSchedule := []
    travelTime := []
    nextTrainId := 1
    nextCrewId := 2
    globalTime := 3
    simTime := -1
    rate := 10
    premade := false
    dock := { dockStatus := dStat.IDLE_HOGGED, prevTime := 3, idleTime := 3, busyTime := 0
              idleHogTime := 3 }
    statistics := {}
    heap := [some { tid := 0, cid := 1, hogouts := 1, arrivalTime := 0, endQTime := 0
                    endDockTime := 0, crewArrivalTime := 0, timeTillHogout := 10, unloadTime := 7
                    trainStatus := tStat.SERVICE, crewStatus := cStat.HOGGED_OUT }] }

/-- The state of `hogRun` after the arrival at time 0: the train is in the
dock, its departure is pending at 10 and its hogout at 3. -/
def hogService : State :=
  { eventQ := [{ function := EventFunc.departure, train := 0, eventTime := 10 },
               { function := EventFunc.hogout, train := 0, eventTime := 3 }]
    trainQ := []
    trainSchedule := []
    travelTime := []
    nextTrainId := 1
    nextCrewId := 1
    globalTime := 0
    simTime := -1
    rate := 10
    premade := false
    dock := { dockStatus := dStat.BUSY }
    statistics := {}
    heap := [some { tid := 0, cid := 0, hogouts := 0, arrivalTime := 0, endQTime := 0
                    endDockTime := 0, crewArrivalTime := 0, timeTillHogout := 3
                    unloadTime := 10, trainStatus := tStat.SERVICE
                    crewStatus := cStat.ON_CLOCK }] }

/-- The event is a hogout or a crew replacement of train `p`. -/
def isChain (p : Nat) (e : Event) : Bool :=
  decide (e.train = p ∧ (e.function = EventFunc.hogout ∨ e.function = EventFunc.newCrew))

/-- The event is an arrival. -/
def isArrival (e : Event) : Bool := decide (e.function = EventFunc.arrival)

/-- What the pending events `q` and the wait queue `tq` require of the train
`t` stored at `p`. -/
structure TrainOK (q : List Event) (tq : List Nat) (p : Nat) (t : Train) : Prop where
  tid : t.tid = p
  arr : ∀ e ∈ q, e.train = p → e.function = EventFunc.arrival →
    t.trainStatus = tStat.ARRIVED ∧ t.arrivalTime = e.eventTime ∧
    t.crewArrivalTime = e.eventTime
  arrived : t.trainStatus = tStat.ARRIVED →
    t.crewStatus = cStat.ON_CLOCK ∧ p ∉ tq ∧
    ∀ e ∈ q, e.train = p → e.function = EventFunc.arrival
  dep : ∀ e ∈ q, e.train = p → e.function = EventFunc.departure →
    t.trainStatus = tStat.SERVICE ∨ t.trainStatus = tStat.DEPARTED
  inq : t.trainStatus = tStat.INQ → p ∈ tq
  hog : ∀ e ∈ q, e.train = p → e.function = EventFunc.hogout →
    t.crewStatus = cStat.ON_CLOCK
  crew : ∀ e ∈ q, e.train = p → e.function = EventFunc.newCrew →
    t.crewStatus = cStat.HOGGED_OUT

/-- The structural invariant, on the event queue `q`, the wait queue `tq`, the
free store `h` and the next train id `nid`. -/
structure InvA (q : List Event) (tq : List Nat) (h : List (Option Train)) (nid : Int) : Prop where
  ev_ptr : ∀ e ∈ q, e.train < h.length
  next_id : nid = h.length
  arr_one : q.countP isArrival ≤ 1
  arr_last : ∀ e ∈ q, e.function = EventFunc.arrival → e.train + 1 = h.length
  chain_one : ∀ p, q.countP (isChain p) ≤ 1
  q_inq : ∀ p ∈ tq, ∃ t, hget h p = some t ∧ t.trainStatus = tStat.INQ
  q_sorted : tq.Pairwise (fun a b => a < b)
  trains : ∀ p t, hget h p = some t → TrainOK q tq p t

/-- The structural invariant of a state. -/
def SInvA (s : State) : Prop := InvA s.eventQ s.trainQ s.heap s.nextTrainId

/-- Arrival times are ordered like the pointers, and the remaining pre-made
gaps are non-negative. -/
structure InvB (h : List (Option Train)) (sched : List TrainSchedule) : Prop where
  arr_mono : ∀ p p2 t t2, p ≤ p2 → hget h p = some t → hget h p2 = some t2 →
    t.arrivalTime ≤ t2.arrivalTime
  gaps : ∀ ts ∈ sched, 0 ≤ ts.arrivalTime

/-- The arrival-order invariant of a state. -/
def SInvB (s : State) : Prop := InvB s.heap s.trainSchedule

/-- Every train of `h2` is a train of `h` with the same arrival time. -/
def SameArr (h h2 : List (Option Train)) : Prop :=
  ∀ p u2, hget h2 p = some u2 → ∃ u, hget h p = some u ∧ u.arrivalTime = u2.arrivalTime

/-- Generator output for the first train of `blockRun`: unload 10, shift 100. -/
def blockGenA : Gen := { poisson := 1, unload := 10, remain := 100, crew := 10 }

/-- Generator output for the second train: gap 1, unload 2, shift 2; the
replacement delay drawn at its hogout is 10. -/
def blockGenB : Gen := { poisson := 1, unload := 2, remain := 2, crew := 10 }

/-- Generator output for the third train: gap 1, unload 2, shift 100. -/
def blockGenC : Gen := { poisson := 1, unload := 2, remain := 100, crew := 10 }

/-- A generative run with horizon 1 and three trains 0, 1, 2 arriving at times
0, 1, 2: train 1 joins the queue and hogs out at time 3, train 2 joins the queue
behind it. -/
def blockRun : List (Nat × Gen) :=
  [(0, blockGenB), (0, blockGenC), (2, blockGenC), (2, blockGenB)]

/-- The state after `blockRun`: train 0 is in the dock, the queue holds train 1
(crew hogged out) and train 2 (crew on the clock). -/
def blockBefore : State := (mainRun (genCfg 1) blockGenA blockRun).getD replayOneInit

/-- The state after the departure of train 0 at time 10. -/
def blockAfter : State := (driverIter 0 blockGenA blockBefore).getD replayOneInit

/-- Replay input with a negative arrival gap: train file `0 10 100`,
`5 1 100`, `-2 1 100`, `100 1 100`, `1 1 1`, empty crew file. -/
def backCfg : Config :=
  replayCfg [{ arrivalTime := 0, unloadTime := 10, remainingCrewHours := 100 },
             { arrivalTime := 5, unloadTime := 1, remainingCrewHours := 100 },
             { arrivalTime := -2, unloadTime := 1, remainingCrewHours := 100 },
             { arrivalTime := 100, unloadTime := 1, remainingCrewHours := 100 },
             { arrivalTime := 1, unloadTime := 1, remainingCrewHours := 1 }] []

/-- The first three iterations on `backCfg`: arrival of train 0 at 0, arrival
of train 1 at 5, arrival of train 2 at 3. -/
def backRun : List (Nat × Gen) := [(0, hogGen), (0, hogGen), (2, hogGen)]

/-- The drawn values of one dispatch are admissible: none is negative and the
replacement delay is at most `SHIFT_TIME`. -/
def GoodGen (g : Gen) : Prop :=
  0 ≤ g.poisson ∧ 0 ≤ g.unload ∧ 0 ≤ g.remain ∧ 0 ≤ g.crew ∧ g.crew ≤ SHIFT_TIME

/-- The pre-made values are admissible. -/
def GoodConfig (c : Config) : Prop :=
  (∀ ts ∈ c.trainSchedule, 0 ≤ ts.arrivalTime ∧ 0 ≤ ts.unloadTime ∧ 0 ≤ ts.remainingCrewHours) ∧
  (∀ d ∈ c.travelTime, 0 ≤ d ∧ d ≤ SHIFT_TIME)

/-- What the pending events `q` and the clock `now` require of the times of
the train `t` stored at `p`. -/
structure TrainOKC (q : List Event) (now : ℚ) (p : Nat) (t : Train) : Prop where
  unload : 0 ≤ t.unloadTime
  hogdep : ∀ e ∈ q, e.train = p → e.function = EventFunc.hogout →
    t.trainStatus = tStat.SERVICE →
    ∃ e2 ∈ q, e2.function = EventFunc.departure ∧ e2.train = p ∧
      e2.eventTime = t.endQTime + t.unloadTime
  crew_tth : ∀ e ∈ q, e.train = p → e.function = EventFunc.newCrew → 0 ≤ t.timeTillHogout
  arrived_tth : t.trainStatus = tStat.ARRIVED → 0 ≤ t.timeTillHogout
  inq_time : t.trainStatus = tStat.INQ → t.arrivalTime ≤ now
  svc_time : t.trainStatus = tStat.SERVICE → t.arrivalTime ≤ t.endQTime ∧ t.endQTime ≤ now
  dep_time : t.trainStatus = tStat.DEPARTED →
    t.arrivalTime ≤ t.endQTime ∧ t.endQTime ≤ t.endDockTime

/-- The time invariant, on the event queue, the free store, the clock and the
pre-made values that are left. -/
structure InvC (q : List Event) (h : List (Option Train)) (now : ℚ)
    (sched : List TrainSchedule) (travel : List ℚ) : Prop where
  ev_ge : ∀ e ∈ q, now ≤ e.eventTime
  trains : ∀ p t, hget h p = some t → TrainOKC q now p t
  sched_ok : ∀ ts ∈ sched, 0 ≤ ts.arrivalTime ∧ 0 ≤ ts.unloadTime ∧ 0 ≤ ts.remainingCrewHours
  travel_ok : ∀ d ∈ travel, 0 ≤ d ∧ d ≤ SHIFT_TIME

/-- The time invariant of a state. -/
def SInvC (s : State) : Prop :=
  InvC s.eventQ s.heap s.globalTime s.trainSchedule s.travelTime

instance (g : Gen) : Decidable (GoodGen g) := by
  unfold GoodGen
  infer_instance

instance (c : Config) : Decidable (GoodConfig c) := by
  unfold GoodConfig
  infer_instance

/-- The record of the train of `hogDeparted`. -/
def hogDepartedTrain : Train :=
  { tid := 0, cid := 1, hogouts := 1, arrivalTime := 0, endQTime := 0, endDockTime := 10
    crewArrivalTime := 5, timeTillHogout := 10, unloadTime := 7
    trainStatus := tStat.DEPARTED, crewStatus := cStat.ON_CLOCK }

/-- The number of pending events that target the train at `p`. -/
def evCount (q : List Event) (p : Nat) : Nat := q.countP (fun e => decide (e.train = p))

/-- How many pending events may target a train, by its status. -/
def evBound : tStat → Nat
  | tStat.SERVICE => 2
  | _ => 1

/-- Every pending event targets a stored train, and a train is the target of
at most `evBound` pending events. -/
structure InvE (q : List Event) (h : List (Option Train)) : Prop where
  live : ∀ e ∈ q, ∃ t, hget h e.train = some t
  bound : ∀ p t, hget h p = some t → evCount q p ≤ evBound t.trainStatus

/-- The event-count invariant of a state. -/
def SInvE (s : State) : Prop := InvE s.eventQ s.heap

/-- A departed train that waits for its last pending event. -/
def tieTrain (n : Int) : Train :=
  { tid := n, cid := n, hogouts := 0, arrivalTime := 0, endQTime := 0, endDockTime := 5
    crewArrivalTime := 0, timeTillHogout := 50, unloadTime := 5
    trainStatus := tStat.DEPARTED, crewStatus := cStat.ON_CLOCK }

/-- Four departed trains, no pending event. -/
def tieBase : State :=
  { eventQ := []
    trainQ := []
    trainSchedule := []
    travelTime := []
    nextTrainId := 4
    nextCrewId := 4
    globalTime := 5
    simTime := 0
    rate := 1
    premade := false
    dock := { dockStatus := dStat.IDLE, prevTime := 5, idleTime := 0, busyTime := 5 }
    statistics := {}
    heap := [some (tieTrain 0), some (tieTrain 1), some (tieTrain 2), some (tieTrain 3)] }

/-- Four events with the same time, scheduled for the trains 0, 1, 2, 3 in
this order. -/
def tieQ : State :=
  schedule EventFunc.hogout 3 50 (schedule EventFunc.hogout 2 50
    (schedule EventFunc.hogout 1 50 (schedule EventFunc.hogout 0 50 tieBase)))

/-- The trains and times of the pending events, in the order of their
insertion. -/
def pendingOf (s : State) : List (Nat × ℚ) := s.eventQ.map (fun e => (e.train, e.eventTime))

/-- A replay input with three trains and no replacement delay. -/
def exhaustCfg : Config :=
  replayCfg [{ arrivalTime := 0, unloadTime := 10, remainingCrewHours := 3 },
             { arrivalTime := 100, unloadTime := 5, remainingCrewHours := 100 },
             { arrivalTime := 1, unloadTime := 1, remainingCrewHours := 1 }] []

/-- The state of the run of `exhaustCfg` after the arrival of the first
train. -/
def exhaustState : State :=
  { eventQ := [{ function := EventFunc.arrival, train := 1, eventTime := 100 },
               { function := EventFunc.departure, train := 0, eventTime := 10 },
               { function := EventFunc.hogout, train := 0, eventTime := 3 }]
    trainQ := []
    trainSchedule := [{ arrivalTime := 1, unloadTime := 1, remainingCrewHours := 1 }]
    travelTime := []
    nextTrainId := 2
    nextCrewId := 2
    globalTime := 0
    simTime := 0
    rate := 0
    premade := true
    dock := { dockStatus := dStat.BUSY }
    statistics := {}
    heap := [some { tid := 0, cid := 0, hogouts := 0, arrivalTime := 0, endQTime := 0
                    endDockTime := 0, crewArrivalTime := 0, timeTillHogout := 3
                    unloadTime := 10, trainStatus := tStat.SERVICE
                    crewStatus := cStat.ON_CLOCK },
             some (newTrain 1 1 100 100 5)] }

/-- Every crew id in use is below the counter `n`. -/
def CidLt (h : List (Option Train)) (n : Int) : Prop :=
  ∀ q u, hget h q = some u → u.cid < n

/-- The statistics after the five scalar updates of `updateStat`, for the
departing train `t` and the length `qlen` of the wait queue. -/
def statAfter (t : Train) (qlen : Nat) (st : Stat) : Stat :=
  { st with numOfTrainsServed := st.numOfTrainsServed + 1
            sumOfTrainTimes := st.sumOfTrainTimes + (t.endDockTime - t.arrivalTime)
            maxOfTrainTimes :=
              if (t.endDockTime - t.arrivalTime) > st.maxOfTrainTimes
              then (t.endDockTime - t.arrivalTime) else st.maxOfTrainTimes
            sumOfInQTimes := st.sumOfInQTimes + (t.endQTime - t.arrivalTime)
            maxTrainsInQ := if qlen > st.maxTrainsInQ then qlen else st.maxTrainsInQ }

/-- Neighbouring entries do not increase. -/
def NonIncr (l : List Int) : Prop :=
  ∀ i a b, l.get? i = some a → l.get? (i + 1) = some b → b ≤ a

/-- The invariant of the histogram: 100 buckets, no bucket above its left
neighbour, bucket 0 not above the number of trains served. -/
def InvH (st : Stat) : Prop :=
  st.histogram.length = 100 ∧ NonIncr st.histogram ∧
  ∀ a, st.histogram.get? 0 = some a → a ≤ st.numOfTrainsServed

/-- The cell holds a train whose status is SERVICE. -/
def isSvc (c : Option Train) : Bool :=
  match c with
  | some t => decide (t.trainStatus = tStat.SERVICE)
  | none => false

/-- The number of stored trains whose status is SERVICE. -/
def svcCount (h : List (Option Train)) : Nat := h.countP isSvc

/-- A SERVICE train fixes the dock status by its crew status, there is at most
one SERVICE train, and a dock that is not IDLE has one. -/
structure InvD (h : List (Option Train)) (d : dStat) : Prop where
  occ : ∀ p t, hget h p = some t → t.trainStatus = tStat.SERVICE →
    (d = dStat.BUSY ∧ t.crewStatus = cStat.ON_CLOCK) ∨
    (d = dStat.IDLE_HOGGED ∧ t.crewStatus = cStat.HOGGED_OUT)
  uniq : ∀ p p2 t t2, hget h p = some t → hget h p2 = some t2 →
    t.trainStatus = tStat.SERVICE → t2.trainStatus = tStat.SERVICE → p = p2
  busy : d ≠ dStat.IDLE → ∃ p t, hget h p = some t ∧ t.trainStatus = tStat.SERVICE

/-- The dock-occupancy invariant of a state. -/
def SInvD (s : State) : Prop := InvD s.heap s.dock.dockStatus

/-- No hogout of train `p` is pending. -/
def NoHog (q : List Event) (p : Nat) : Prop :=
  ∀ x ∈ q, x.train = p → x.function ≠ EventFunc.hogout

/-- The train at `p`, if stored, is SERVICE or DEPARTED. -/
def SvcOrDep (h : List (Option Train)) (p : Nat) : Prop :=
  ∀ t, hget h p = some t → t.trainStatus = tStat.SERVICE ∨ t.trainStatus = tStat.DEPARTED

/-- The train at `p` has been created, no hogout of it is pending, and it is
SERVICE or DEPARTED while it is stored. -/
def PastHog (s : State) (p : Nat) : Prop :=
  p < s.heap.length ∧ NoHog s.eventQ p ∧ SvcOrDep s.heap p

/-- Every train of `h2` at a position of `h` is a train of `h` with the same
unloadTime; `h2` is at least as long as `h`. -/
structure UStep (h h2 : List (Option Train)) : Prop where
  len : h.length ≤ h2.length
  back : ∀ q u2, q < h.length → hget h2 q = some u2 →
    ∃ u, hget h q = some u ∧ u2.unloadTime = u.unloadTime

/-- What the sign of `unloadTime` needs of the train `t` stored at `p`: the
value is not negative, and a pending hogout of a train in service comes with a
pending departure at `endQTime + unloadTime`. -/
structure TrainOKU (q : List Event) (p : Nat) (t : Train) : Prop where
  unl : 0 ≤ t.unloadTime
  hogdep_u : ∀ e ∈ q, e.train = p → e.function = EventFunc.hogout →
    t.trainStatus = tStat.SERVICE →
    ∃ e2 ∈ q, e2.function = EventFunc.departure ∧ e2.train = p ∧
      e2.eventTime = t.endQTime + t.unloadTime

/-- The unload invariant of pending events, stored trains and the unread part
of the pre-made schedule. -/
structure InvU (q : List Event) (h : List (Option Train)) (sched : List TrainSchedule) :
    Prop where
  trains_u : ∀ p t, hget h p = some t → TrainOKU q p t
  sched_u : ∀ ts ∈ sched, 0 ≤ ts.unloadTime

/-- The unload invariant of a state. -/
def SInvU (s : State) : Prop := InvU s.eventQ s.heap s.trainSchedule

/-- The unload invariant for all trains but the one at `p`. -/
def InvUx (q : List Event) (h : List (Option Train)) (sched : List TrainSchedule) (p : Nat) :
    Prop :=
  (∀ x u, x ≠ p → hget h x = some u → TrainOKU q x u) ∧ ∀ ts ∈ sched, 0 ≤ ts.unloadTime

/-- Lookup in the free store. -/
def Mach.hget (h : List (Option Train)) (p : Nat) : Option Train := (h.get? p).join

/-- The train record `startService` leaves behind. -/
def Mach.serviceTrain (now : F64) (t : Train) : Train :=
  { t with timeTillHogout := t.timeTillHogout - (now - t.crewArrivalTime)
           endQTime := now
           trainStatus := tStat.SERVICE }

/-- The state `startService` leaves behind when the pointer holds `t`. -/
def Mach.startServiceAt (p : Nat) (t : Train) (s : State) : State :=
  { s with heap := s.heap.set p (some (serviceTrain s.globalTime t))
           dock := { s.dock with dockStatus := dStat.BUSY }
           eventQ := s.eventQ ++
             [{ function := EventFunc.departure, train := p, eventTime := t.unloadTime + s.globalTime }] }

/-- The train record a real departure leaves behind. -/
def Mach.departedTrain (now : F64) (t : Train) : Train :=
  { t with trainStatus := tStat.DEPARTED, endDockTime := now }

/-- The state of `departure` after the departing train, the dock and the
statistics are updated, before the wait queue is looked at. -/
def Mach.departAt (p : Nat) (t : Train) (st : Stat) (s : State) : State :=
  { s with heap := s.heap.set p (some (departedTrain s.globalTime t))
           dock := { s.dock with dockStatus := dStat.IDLE }
           statistics := st }

/-- The train record `hogout` leaves behind; `d` is the drawn replacement
delay and `cid` the new crew id. -/
def Mach.hoggedTrain (now d : F64) (cid : Int) (t : Train) : Train :=
  { t with crewStatus := cStat.HOGGED_OUT
           hogouts := t.hogouts + 1
           timeTillHogout := SHIFT_TIME - d
           unloadTime := if t.trainStatus = tStat.INQ then t.unloadTime
                         else t.unloadTime - (now - t.endQTime)
           cid := cid }

/-- The state `hogout` leaves behind; `tt` is what is left of `travelTime`. -/
def Mach.hogoutAt (p : Nat) (t : Train) (d : F64) (tt : List F64) (s : State) : State :=
  { s with travelTime := tt
           heap := s.heap.set p (some (hoggedTrain s.globalTime d s.nextCrewId t))
           dock := if t.trainStatus = tStat.INQ then s.dock
                   else { s.dock with dockStatus := dStat.IDLE_HOGGED }
           nextCrewId := s.nextCrewId + 1
           eventQ := s.eventQ ++
             [{ function := EventFunc.newCrew, train := p, eventTime := s.globalTime + d }] }

/-- The train record `newCrew` writes first. -/
def Mach.crewOnTrain (now : F64) (t : Train) : Train :=
  { t with crewStatus := cStat.ON_CLOCK, crewArrivalTime := now }

/-- The state of `newCrew` after the crew fields are written. -/
def Mach.crewOnAt (p : Nat) (t : Train) (s : State) : State :=
  { s with heap := s.heap.set p (some (crewOnTrain s.globalTime t)) }

/-- The event `newCrew` pushes for a train that is still in the queue. -/
def Mach.nextHogout (p : Nat) (t : Train) (s : State) : Event :=
  { function := EventFunc.hogout, train := p
    eventTime := s.globalTime + (crewOnTrain s.globalTime t).timeTillHogout }

/-- The middle part of `newCrew`: the queue-advance or resume decision. -/
def Mach.newCrewMid (p : Nat) (t : Train) (s : State) : Option State :=
  if s.dock.dockStatus = dStat.IDLE ∧ t.trainStatus = tStat.INQ then
    (match s.trainQ with
      | [] => none
      | front :: rest => (deref (crewOnAt p t s) front).bind (fun f =>
          if f.tid = t.tid then startService front { crewOnAt p t s with trainQ := rest }
          else if t.trainStatus = tStat.SERVICE then
            some (schedule EventFunc.departure p (s.globalTime + t.unloadTime)
              { crewOnAt p t s with dock := { s.dock with dockStatus := dStat.BUSY } })
          else some (crewOnAt p t s)))
  else if t.trainStatus = tStat.SERVICE then
    some (schedule EventFunc.departure p (s.globalTime + t.unloadTime)
      { crewOnAt p t s with dock := { s.dock with dockStatus := dStat.BUSY } })
  else some (crewOnAt p t s)

/-- The state of `arrival` after the next train is created and its arrival
scheduled; `ts` are the drawn values and `rest` what is left of
`trainSchedule`. -/
def Mach.nextTrainAt (ts : TrainSchedule) (rest : List TrainSchedule) (s : State) : State :=
  { s with trainSchedule := rest
           heap := s.heap ++ [some (newTrain s.nextTrainId s.nextCrewId
                    (ts.arrivalTime + s.globalTime) ts.remainingCrewHours ts.unloadTime)]
           nextTrainId := s.nextTrainId + 1
           nextCrewId := s.nextCrewId + 1
           eventQ := s.eventQ ++
             [{ function := EventFunc.arrival, train := s.heap.length
                eventTime := ts.arrivalTime + s.globalTime }] }

/-- The first part of `arrival`: admit the next train if the horizon or the
pre-made schedule allows it. -/
def Mach.arrivalNext (g : Gen) (s : State) : Option State :=
  if (!s.premade && F64.le s.globalTime s.simTime)
      || (s.premade && !s.trainSchedule.isEmpty) then
    (getTrainValues g s).bind (fun x =>
      (incr s.nextTrainId).bind (fun _ => (incr s.nextCrewId).bind (fun _ =>
        some (nextTrainAt x.1 x.2.trainSchedule s))))
  else some s

/-- The state of `arrival` when the train goes straight into the dock. -/
def Mach.enterServiceAt (p : Nat) (t : Train) (s : State) : State :=
  { s with heap := s.heap.set p (some (serviceTrain s.globalTime t))
           dock := { s.dock with dockStatus := dStat.BUSY }
           eventQ := s.eventQ ++
             [{ function := EventFunc.departure, train := p, eventTime := t.unloadTime + s.globalTime },
              { function := EventFunc.hogout, train := p
                eventTime := (serviceTrain s.globalTime t).timeTillHogout + s.globalTime }] }

/-- The state of `arrival` when the train joins the wait queue. -/
def Mach.enqueueAt (p : Nat) (t : Train) (s : State) : State :=
  { s with heap := s.heap.set p (some { t with trainStatus := tStat.INQ })
           trainQ := s.trainQ ++ [p]
           eventQ := s.eventQ ++
             [{ function := EventFunc.hogout, train := p
                eventTime := t.timeTillHogout + s.globalTime }] }

/-- The second part of `arrival`: dock or queue, then the hogout. -/
def Mach.arrivalEnter (p : Nat) (s : State) : Option State :=
  (deref s p).bind (fun t =>
    if s.trainQ.isEmpty && decide (s.dock.dockStatus = dStat.IDLE) then
      some (enterServiceAt p t s)
    else some (enqueueAt p t s))

/-- The state `checkEvent` hands to the handler: the event is popped and the
clock is set to its time. -/
def Mach.popAt (i : Nat) (e : Event) (s : State) : State :=
  { s with eventQ := s.eventQ.eraseIdx i, globalTime := e.eventTime }

/-- The state `checkEvent` leaves behind when it drops an event of a departed
train. -/
def Mach.dropAt (i : Nat) (e : Event) (s : State) : State :=
  { s with eventQ := s.eventQ.eraseIdx i, heap := s.heap.set e.train none }

/-- The dock accumulators and the sample watermark agree in two states. -/
def Mach.SameAcc (s s2 : State) : Prop :=
  s2.dock.prevTime = s.dock.prevTime ∧ s2.dock.idleTime = s.dock.idleTime ∧
  s2.dock.busyTime = s.dock.busyTime ∧ s2.dock.idleHogTime = s.dock.idleHogTime

/-- Every crew id in use is below the counter `n`. -/
def Mach.CidLt (h : List (Option Train)) (n : Int) : Prop :=
  ∀ q u, hget h q = some u → u.cid < n

/-- Generator output of a replay run (never read there). -/
def Mach.zeroGen : Mach.Gen :=
  { poisson := F64.fin 0, unload := F64.fin 0, remain := F64.fin 0, crew := F64.fin 0 }

/-- Replay mode (`./train -s trains crews`) with the given file contents. -/
def Mach.replayCfg (trains : List Mach.TrainSchedule) (crews : List F64) : Mach.Config :=
  { premade := true, rate := 0, simTime := F64.fin 0, trainSchedule := trains
    travelTime := crews }

/-- Replay input with the train file `0 3.9 0.3`, `1000 1 1000`, `1 1 1` and
the crew file `2.7`; every decimal is the `double` nearest to it. -/
def Mach.roundCfg : Mach.Config :=
  Mach.replayCfg
    [{ arrivalTime := F64.fin 0, unloadTime := F64.round (39 / 10)
       remainingCrewHours := F64.round (3 / 10) },
     { arrivalTime := F64.fin 1000, unloadTime := F64.fin 1, remainingCrewHours := F64.fin 1000 },
     { arrivalTime := F64.fin 1, unloadTime := F64.fin 1, remainingCrewHours := F64.fin 1 }]
    [F64.round (27 / 10)]

/-- The completed run on `roundCfg`: arrival at 0, hogout at 0.3, crew
replacement at 3, departure at 3.9 (through the departure scheduled before the
hogout), dropped second departure, arrival of the second train at 1000. -/
def Mach.roundRun : List (Nat × Mach.Gen) :=
  [(0, Mach.zeroGen), (2, Mach.zeroGen), (2, Mach.zeroGen), (1, Mach.zeroGen),
   (1, Mach.zeroGen), (0, Mach.zeroGen)]

/-- The state of the run on `roundCfg` after the arrival at time 0: the train
is in the dock, its departure is pending at 3.9 and its hogout at 0.3. -/
def Mach.roundService : Mach.State :=
  { eventQ := [{ function := EventFunc.arrival, train := 1, eventTime := F64.fin 1000 },
               { function := EventFunc.departure, train := 0, eventTime := F64.round (39 / 10) },
               { function := EventFunc.hogout, train := 0, eventTime := F64.round (3 / 10) }]
    trainQ := []
    trainSchedule :=
      [{ arrivalTime := F64.fin 1, unloadTime := F64.fin 1, remainingCrewHours := F64.fin 1 }]
    travelTime := [F64.round (27 / 10)]
    nextTrainId := 2
    nextCrewId := 2
    globalTime := F64.fin 0
    simTime := F64.fin 0
    rate := 0
    premade := true
    dock := { dockStatus := dStat.BUSY }
    statistics := {}
    heap := [some { tid := 0, cid := 0, hogouts := 0, arrivalTime := F64.fin 0
                    endQTime := F64.fin 0, endDockTime := F64.fin 0
                    crewArrivalTime := F64.fin 0, timeTillHogout := F64.round (3 / 10)
                    unloadTime := F64.round (39 / 10), trainStatus := tStat.SERVICE
                    crewStatus := cStat.ON_CLOCK },
             some (Mach.newTrain 1 1 (F64.fin 1000) (F64.fin 1000) (F64.fin 1))] }

/-- The state `roundService` with the crew counter at `INT_MAX`. -/
def Mach.maxCrewState : Mach.State := { Mach.roundService with nextCrewId := INT_MAX }

/-- Replay input with the train file `1 2 1000`, `1 2.4 3.4`, `4.7 1 1000`,
`500 1 1000`, `1 1 1` and the crew file `1.3`; every decimal is the `double`
nearest to it. -/
def Mach.tieCfg : Mach.Config :=
  Mach.replayCfg
    [{ arrivalTime := F64.fin 1, unloadTime := F64.fin 2, remainingCrewHours := F64.fin 1000 },
     { arrivalTime := F64.fin 1, unloadTime := F64.round (24 / 10)
       remainingCrewHours := F64.round (34 / 10) },
     { arrivalTime := F64.round (47 / 10), unloadTime := F64.fin 1
       remainingCrewHours := F64.fin 1000 },
     { arrivalTime := F64.fin 500, unloadTime := F64.fin 1, remainingCrewHours := F64.fin 1000 },
     { arrivalTime := F64.fin 1, unloadTime := F64.fin 1, remainingCrewHours := F64.fin 1 }]
    [F64.round (13 / 10)]

/-- The first nine iterations of the program on `tieCfg`, in the order in
which `eventQ.top()` hands the events out: arrival of train 0, arrival of
train 1 (queued), departure of train 0 (train 1 enters the dock), hogout of
train 1, stale departure of train 1, arrival of train 2 (queued), crew
replacement of train 1, departure of train 1 (train 2 enters the dock),
departure of train 2. -/
def Mach.tieRun : List (Nat × Mach.Gen) :=
  [(0, Mach.zeroGen), (0, Mach.zeroGen), (0, Mach.zeroGen), (2, Mach.zeroGen),
   (2, Mach.zeroGen), (1, Mach.zeroGen), (1, Mach.zeroGen), (3, Mach.zeroGen),
   (3, Mach.zeroGen)]

/-! # Theorems
-/

/-! ## Closed forms

Each function of the program is rewritten, branch by branch, as an explicit
record update of the state it starts from.  These lemmas carry no content of
their own: every later proof about a handler starts from them.
-/

theorem deref_eq (s : State) (p : Nat) : deref s p = hget s.heap p := rfl

theorem hget_lt {h : List (Option Train)} {p : Nat} {t : Train} (e : hget h p = some t) :
    p < h.length := by
  unfold hget at e
  by_contra hc
  rw [List.get?_eq_getElem?, List.getElem?_eq_none (by omega)] at e
  simp at e

theorem hget_set_some (h : List (Option Train)) (p : Nat) (t : Train) (q : Nat) :
    hget (h.set p (some t)) q = if q = p ∧ p < h.length then some t else hget h q := by
  unfold hget
  rw [List.get?_eq_getElem?, List.get?_eq_getElem?, List.getElem?_set]
  by_cases hq : q = p
  · subst hq
    by_cases hp : q < h.length
    · simp [hp]
    · have : h.length ≤ q := by omega
      simp [hp, List.getElem?_eq_none this]
  · have : ¬ p = q := fun e => hq e.symm
    simp [hq, this]

theorem hget_set_none (h : List (Option Train)) (p q : Nat) :
    hget (h.set p none) q = if q = p then none else hget h q := by
  unfold hget
  rw [List.get?_eq_getElem?, List.get?_eq_getElem?, List.getElem?_set]
  by_cases hq : q = p
  · subst hq
    by_cases hp : q < h.length <;> simp [hp]
  · have : ¬ p = q := fun e => hq e.symm
    simp [hq, this]

theorem hget_append (h : List (Option Train)) (t : Train) (q : Nat) :
    hget (h ++ [some t]) q = if q = h.length then some t else hget h q := by
  unfold hget
  rw [List.get?_eq_getElem?, List.get?_eq_getElem?, List.getElem?_append]
  by_cases hq : q < h.length
  · have : ¬ q = h.length := by omega
    simp [hq, this]
  · by_cases he : q = h.length
    · subst he
      simp
    · have h1 : h.length ≤ q := by omega
      have h2 : ¬ q - h.length = 0 := by omega
      rw [List.getElem?_eq_none h1]
      have h3 : ([some t] : List (Option Train))[q - h.length]? = none := by
        apply List.getElem?_eq_none
        simp
        omega
      simp [hq, he, h3]

theorem startService_eq {p : Nat} {t : Train} {s : State} (h : deref s p = some t) :
    startService p s = some (startServiceAt p t s) := by
  unfold startService
  rw [h]
  rfl

theorem startService_some {p : Nat} {s s2 : State} (h : startService p s = some s2) :
    ∃ t, deref s p = some t ∧ s2 = startServiceAt p t s := by
  cases ht : deref s p with
  | none =>
    unfold startService at h
    rw [ht] at h
    exact absurd h (by simp)
  | some t =>
    rw [startService_eq ht] at h
    exact ⟨t, rfl, (Option.some.inj h).symm⟩

theorem updateStat_some {p : Nat} {s s2 : State} (h : updateStat p s = some s2) :
    ∃ st, s2 = { s with statistics := st } := by
  unfold updateStat at h
  simp only [Option.bind_eq_bind, Option.bind_eq_some] at h
  obtain ⟨t, _, h⟩ := h
  split at h
  · exact ⟨_, (Option.some.inj h).symm⟩
  · simp only [Option.bind_eq_some, Option.some.injEq] at h
    obtain ⟨hh, _, h⟩ := h
    exact ⟨_, h.symm⟩

theorem departure_stale {p : Nat} {t : Train} {s : State} (h : deref s p = some t)
    (hc : t.crewStatus = cStat.HOGGED_OUT) : departure p s = some s := by
  unfold departure
  rw [h]
  simp [hc]

theorem departure_some {p : Nat} {t : Train} {s s2 : State} (h : deref s p = some t)
    (hc : t.crewStatus ≠ cStat.HOGGED_OUT) (h2 : departure p s = some s2) :
    ∃ st, (s.trainQ = [] ∧ s2 = departAt p t st s) ∨
      (∃ front rest f, s.trainQ = front :: rest ∧ deref (departAt p t st s) front = some f ∧
        ((f.crewStatus = cStat.ON_CLOCK ∧
            s2 = startServiceAt front f { departAt p t st s with trainQ := rest }) ∨
         (f.crewStatus ≠ cStat.ON_CLOCK ∧ s2 = departAt p t st s))) := by
  unfold departure at h2
  rw [h] at h2
  simp only [Option.bind_eq_bind, Option.some_bind, hc, if_false, Option.bind_eq_some] at h2
  obtain ⟨s1, h1, h2⟩ := h2
  obtain ⟨st, hst⟩ := updateStat_some h1
  have e1 : s1 = departAt p t st s := hst
  subst e1
  refine ⟨st, ?_⟩
  have eq : (departAt p t st s).trainQ = s.trainQ := rfl
  cases hq : s.trainQ with
  | nil =>
    left
    rw [eq, hq] at h2
    exact ⟨rfl, (Option.some.inj h2).symm⟩
  | cons front rest =>
    right
    rw [eq, hq] at h2
    simp only [Option.bind_eq_some] at h2
    obtain ⟨f, hf, h2⟩ := h2
    refine ⟨front, rest, f, rfl, hf, ?_⟩
    by_cases hfc : f.crewStatus = cStat.ON_CLOCK
    · left
      simp only [hfc, if_true] at h2
      have hf2 : deref { departAt p t st s with trainQ := rest } front = some f := hf
      rw [startService_eq hf2] at h2
      exact ⟨hfc, (Option.some.inj h2).symm⟩
    · right
      simp only [hfc, if_false] at h2
      exact ⟨hfc, (Option.some.inj h2).symm⟩

theorem getCrewArrivalTime_some {g : Gen} {s s1 : State} {d : ℚ}
    (h : getCrewArrivalTime g s = some (d, s1)) :
    s1 = { s with travelTime := s1.travelTime } ∧
      ((s.premade = true ∧ s.travelTime = d :: s1.travelTime) ∨
       (s.premade = false ∧ d = g.crew ∧ s1.travelTime = s.travelTime)) := by
  unfold getCrewArrivalTime at h
  by_cases hp : s.premade = true
  · rw [if_pos hp] at h
    cases ht : s.travelTime with
    | nil =>
      rw [ht] at h
      simp at h
    | cons x rest =>
      rw [ht] at h
      simp only [Option.some.injEq, Prod.mk.injEq] at h
      obtain ⟨rfl, rfl⟩ := h
      exact ⟨rfl, Or.inl ⟨hp, rfl⟩⟩
  · rw [if_neg hp] at h
    simp only [Option.some.injEq, Prod.mk.injEq] at h
    obtain ⟨rfl, rfl⟩ := h
    exact ⟨rfl, Or.inr ⟨by simpa using hp, rfl, rfl⟩⟩

theorem getTrainValues_some {g : Gen} {s s1 : State} {ts : TrainSchedule}
    (h : getTrainValues g s = some (ts, s1)) :
    s1 = { s with trainSchedule := s1.trainSchedule } ∧
      ((s.premade = true ∧ s.trainSchedule = ts :: s1.trainSchedule) ∨
       (s.premade = false ∧
        ts = { arrivalTime := g.poisson, unloadTime := g.unload, remainingCrewHours := g.remain } ∧
        s1.trainSchedule = s.trainSchedule)) := by
  unfold getTrainValues at h
  by_cases hp : s.premade = true
  · rw [if_pos hp] at h
    cases ht : s.trainSchedule with
    | nil =>
      rw [ht] at h
      simp at h
    | cons x rest =>
      rw [ht] at h
      simp only [Option.some.injEq, Prod.mk.injEq] at h
      obtain ⟨rfl, rfl⟩ := h
      exact ⟨rfl, Or.inl ⟨hp, rfl⟩⟩
  · rw [if_neg hp] at h
    simp only [Option.some.injEq, Prod.mk.injEq] at h
    obtain ⟨rfl, rfl⟩ := h
    exact ⟨rfl, Or.inr ⟨by simpa using hp, rfl, rfl⟩⟩

theorem hogout_some {p : Nat} {t : Train} {g : Gen} {s s2 : State} (h : deref s p = some t)
    (h2 : hogout p g s = some s2) :
    ∃ d tt, s2 = hogoutAt p t d tt s ∧
      ((s.premade = true ∧ s.travelTime = d :: tt) ∨
       (s.premade = false ∧ d = g.crew ∧ tt = s.travelTime)) := by
  unfold hogout at h2
  rw [h] at h2
  simp only [Option.bind_eq_bind, Option.some_bind, Option.bind_eq_some] at h2
  obtain ⟨⟨d, s1⟩, h1, h2⟩ := h2
  obtain ⟨e1, hd⟩ := getCrewArrivalTime_some h1
  refine ⟨d, s1.travelTime, ?_, hd⟩
  rw [e1] at h2
  by_cases hq : t.trainStatus = tStat.INQ
  · simp only [hq, if_true] at h2
    rw [← Option.some.inj h2]
    simp [hogoutAt, hoggedTrain, store, schedule, hq]
  · simp only [hq, if_false] at h2
    rw [← Option.some.inj h2]
    simp [hogoutAt, hoggedTrain, store, schedule, hq]

theorem newCrew_unfold (p : Nat) (s : State) :
    newCrew p s = (deref s p).bind (fun t => (newCrewMid p t s).bind (fun s1 =>
      (deref s1 p).bind (fun t3 =>
        if t3.trainStatus = tStat.INQ then
          some (schedule EventFunc.hogout p (s1.globalTime + t3.timeTillHogout) s1)
        else some s1))) := by
  unfold newCrew newCrewMid
  cases deref s p with
  | none => rfl
  | some t =>
    simp only [Option.bind_eq_bind, Option.some_bind]
    by_cases hc : s.dock.dockStatus = dStat.IDLE ∧ t.trainStatus = tStat.INQ
    · rw [if_pos hc]
      split
      · rename_i hc2
        cases hq : s.trainQ with
        | nil =>
          have : (store p { t with crewStatus := cStat.ON_CLOCK, crewArrivalTime := s.globalTime } s).trainQ = [] := hq
          simp only [this]
        | cons front rest =>
          have : (store p { t with crewStatus := cStat.ON_CLOCK, crewArrivalTime := s.globalTime } s).trainQ = front :: rest := hq
          simp only [this]
          cases hf : deref (crewOnAt p t s) front with
          | none =>
            have : deref (store p { t with crewStatus := cStat.ON_CLOCK, crewArrivalTime := s.globalTime } s) front = none := hf
            simp only [this]
            rfl
          | some f =>
            have : deref (store p { t with crewStatus := cStat.ON_CLOCK, crewArrivalTime := s.globalTime } s) front = some f := hf
            simp only [this, Option.some_bind]
            by_cases hid : f.tid = t.tid
            · simp only [if_pos hid]
              rfl
            · simp only [if_neg hid]
              have hs : ¬ t.trainStatus = tStat.SERVICE := by rw [hc.2]; decide
              simp only [if_neg hs]
              rfl
      · rename_i hc2
        exact absurd hc hc2
    · rw [if_neg hc]
      split
      · rename_i hc2
        exact absurd hc2 hc
      · by_cases hs : t.trainStatus = tStat.SERVICE
        · simp only [if_pos hs]
          rfl
        · simp only [if_neg hs]
          rfl

theorem newCrew_some {p : Nat} {t : Train} {s s2 : State} (h : deref s p = some t)
    (h2 : newCrew p s = some s2) :
    (s.dock.dockStatus = dStat.IDLE ∧ t.trainStatus = tStat.INQ ∧
      ∃ front rest f, s.trainQ = front :: rest ∧ deref (crewOnAt p t s) front = some f ∧
        f.tid = t.tid ∧
        ((front = p ∧ s2 = startServiceAt front f { crewOnAt p t s with trainQ := rest }) ∨
         (front ≠ p ∧
          s2 = { startServiceAt front f { crewOnAt p t s with trainQ := rest } with
                 eventQ := (startServiceAt front f { crewOnAt p t s with trainQ := rest }).eventQ
                            ++ [nextHogout p t s] }))) ∨
    (t.trainStatus = tStat.SERVICE ∧
      s2 = { crewOnAt p t s with
             dock := { s.dock with dockStatus := dStat.BUSY }
             eventQ := s.eventQ ++
               [{ function := EventFunc.departure, train := p
                  eventTime := s.globalTime + t.unloadTime }] }) ∨
    (t.trainStatus = tStat.INQ ∧
      (s.dock.dockStatus ≠ dStat.IDLE ∨
        ∃ front rest f, s.trainQ = front :: rest ∧ deref (crewOnAt p t s) front = some f ∧
          f.tid ≠ t.tid) ∧
      s2 = { crewOnAt p t s with eventQ := s.eventQ ++ [nextHogout p t s] }) ∨
    (t.trainStatus ≠ tStat.INQ ∧ t.trainStatus ≠ tStat.SERVICE ∧ s2 = crewOnAt p t s) := by
  have hp : p < s.heap.length := hget_lt h
  have hself : deref (crewOnAt p t s) p = some (crewOnTrain s.globalTime t) := by
    simp [deref_eq, crewOnAt, hget_set_some, hp]
  rw [newCrew_unfold, h] at h2
  simp only [Option.some_bind] at h2
  cases h1 : newCrewMid p t s with
  | none =>
    rw [h1] at h2
    simp at h2
  | some s1 =>
  rw [h1] at h2
  simp only [Option.some_bind] at h2
  unfold newCrewMid at h1
  cases h3 : deref s1 p with
  | none =>
    rw [h3] at h2
    simp at h2
  | some t3 =>
  rw [h3] at h2
  simp only [Option.some_bind] at h2
  by_cases hc : s.dock.dockStatus = dStat.IDLE ∧ t.trainStatus = tStat.INQ
  · rw [if_pos hc] at h1
    obtain ⟨hd, hq⟩ := hc
    cases hl : s.trainQ with
    | nil =>
      rw [hl] at h1
      simp at h1
    | cons front rest =>
      rw [hl] at h1
      simp only [Option.bind_eq_some] at h1
      obtain ⟨f, hf, h1⟩ := h1
      by_cases hid : f.tid = t.tid
      · left
        rw [if_pos hid] at h1
        have hf2 : deref { crewOnAt p t s with trainQ := rest } front = some f := hf
        rw [startService_eq hf2] at h1
        have e1 := (Option.some.inj h1).symm
        subst e1
        refine ⟨hd, hq, front, rest, f, rfl, hf, hid, ?_⟩
        have hfl : front < s.heap.length := by
          have := hget_lt hf
          simpa [crewOnAt] using this
        by_cases hfp : front = p
        · left
          subst hfp
          have e3 : t3 = serviceTrain s.globalTime f := by
            have : deref (startServiceAt front f { crewOnAt front t s with trainQ := rest }) front
                = some (serviceTrain s.globalTime f) := by
              simp [deref_eq, startServiceAt, crewOnAt, hget_set_some, hp]
            rw [this] at h3
            exact (Option.some.inj h3).symm
          subst e3
          simp only [serviceTrain, reduceCtorEq, if_false] at h2
          exact ⟨rfl, (Option.some.inj h2).symm⟩
        · right
          have e3 : t3 = crewOnTrain s.globalTime t := by
            have hpf : ¬ p = front := fun e => hfp e.symm
            have : deref (startServiceAt front f { crewOnAt p t s with trainQ := rest }) p
                = some (crewOnTrain s.globalTime t) := by
              simp [deref_eq, startServiceAt, crewOnAt, hget_set_some, hp, hfl, hpf]
            rw [this] at h3
            exact (Option.some.inj h3).symm
          subst e3
          simp only [crewOnTrain, hq, if_true] at h2
          exact ⟨hfp, (Option.some.inj h2).symm⟩
      · right; right; left
        have hns : ¬ t.trainStatus = tStat.SERVICE := by rw [hq]; decide
        rw [if_neg hid, if_neg hns] at h1
        have e1 := (Option.some.inj h1).symm
        subst e1
        rw [hself] at h3
        have e3 := (Option.some.inj h3).symm
        subst e3
        simp only [crewOnTrain, hq, if_true] at h2
        exact ⟨hq, Or.inr ⟨front, rest, f, rfl, hf, hid⟩, (Option.some.inj h2).symm⟩
  · rw [if_neg hc] at h1
    by_cases hs : t.trainStatus = tStat.SERVICE
    · right; left
      rw [if_pos hs] at h1
      have e1 := (Option.some.inj h1).symm
      subst e1
      have : deref (schedule EventFunc.departure p (s.globalTime + t.unloadTime)
          { crewOnAt p t s with dock := { s.dock with dockStatus := dStat.BUSY } }) p
          = some (crewOnTrain s.globalTime t) := hself
      rw [this] at h3
      have e3 := (Option.some.inj h3).symm
      subst e3
      have hnq : ¬ t.trainStatus = tStat.INQ := by rw [hs]; decide
      simp only [crewOnTrain, hnq, if_false] at h2
      exact ⟨hs, (Option.some.inj h2).symm⟩
    · rw [if_neg hs] at h1
      have e1 := (Option.some.inj h1).symm
      subst e1
      rw [hself] at h3
      have e3 := (Option.some.inj h3).symm
      subst e3
      by_cases hq : t.trainStatus = tStat.INQ
      · right; right; left
        simp only [crewOnTrain, hq, if_true] at h2
        have hd : s.dock.dockStatus ≠ dStat.IDLE := fun e => hc ⟨e, hq⟩
        exact ⟨hq, Or.inl hd, (Option.some.inj h2).symm⟩
      · right; right; right
        simp only [crewOnTrain, hq, if_false] at h2
        exact ⟨hq, hs, (Option.some.inj h2).symm⟩

theorem arrival_unfold (p : Nat) (g : Gen) (s : State) :
    arrival p g s =
      (deref s p).bind (fun _ => (arrivalNext g s).bind (fun s1 => arrivalEnter p s1)) := by
  have key : ∀ s1 : State,
      (if (s1.trainQ.isEmpty && decide (s1.dock.dockStatus = dStat.IDLE)) = true then
          (startService p s1).bind (fun y => (deref y p).bind (fun t =>
            some (schedule EventFunc.hogout p (t.timeTillHogout + y.globalTime) y)))
        else
          (deref s1 p).bind (fun t =>
            (some { store p { t with trainStatus := tStat.INQ } s1 with
                    trainQ := (store p { t with trainStatus := tStat.INQ } s1).trainQ ++ [p] }).bind
              (fun y => (deref y p).bind (fun t =>
                some (schedule EventFunc.hogout p (t.timeTillHogout + y.globalTime) y)))))
      = arrivalEnter p s1 := by
    intro s1
    unfold arrivalEnter
    cases ht : deref s1 p with
    | none =>
      split
      · unfold startService
        rw [ht]
        rfl
      · rfl
    | some t =>
      have hp : p < s1.heap.length := hget_lt ht
      split
      · rw [startService_eq ht]
        simp only [Option.some_bind]
        have : deref (startServiceAt p t s1) p = some (serviceTrain s1.globalTime t) := by
          simp [deref_eq, startServiceAt, hget_set_some, hp]
        rw [this]
        simp [schedule, startServiceAt, enterServiceAt]
      · simp only [Option.some_bind]
        have : deref { store p { t with trainStatus := tStat.INQ } s1 with
                    trainQ := (store p { t with trainStatus := tStat.INQ } s1).trainQ ++ [p] } p
              = some { t with trainStatus := tStat.INQ } := by
          simp [deref_eq, store, hget_set_some, hp]
        rw [this]
        simp [schedule, store, enqueueAt]
  unfold arrival arrivalNext
  cases deref s p with
  | none => rfl
  | some t =>
    simp only [Option.bind_eq_bind, Option.some_bind]
    split
    · cases hg : getTrainValues g s with
      | none => rfl
      | some x =>
        obtain ⟨ts, s1⟩ := x
        have hx : ∃ r, s1 = { s with trainSchedule := r } :=
          ⟨s1.trainSchedule, (getTrainValues_some hg).1⟩
        obtain ⟨r, rfl⟩ := hx
        simp only [Option.some_bind]
        rw [← key]
        rfl
    · simp only [Option.some_bind]
      rw [← key]
      rfl

theorem arrivalNext_some {g : Gen} {s s1 : State} (h : arrivalNext g s = some s1) :
    s1 = s ∨ ∃ ts rest, s1 = nextTrainAt ts rest s ∧
      ((s.premade = true ∧ s.trainSchedule = ts :: rest) ∨
       (s.premade = false ∧ s.globalTime ≤ s.simTime ∧
        ts = { arrivalTime := g.poisson, unloadTime := g.unload, remainingCrewHours := g.remain } ∧
        rest = s.trainSchedule)) := by
  unfold arrivalNext at h
  split at h
  · rename_i hc
    right
    simp only [Option.bind_eq_some, Option.some.injEq] at h
    obtain ⟨⟨ts, s2⟩, hg, h⟩ := h
    obtain ⟨_, hd⟩ := getTrainValues_some hg
    refine ⟨ts, s2.trainSchedule, h.symm, ?_⟩
    rcases hd with ⟨hp, hl⟩ | ⟨hp, hts, hl⟩
    · exact Or.inl ⟨hp, hl⟩
    · right
      simp only [hp, Bool.not_false, Bool.true_and, Bool.false_and, Bool.or_false,
        decide_eq_true_eq] at hc
      exact ⟨hp, hc, hts, hl⟩
  · left
    exact (Option.some.inj h).symm

theorem arrival_some {p : Nat} {t : Train} {g : Gen} {s s2 : State} (h : deref s p = some t)
    (h2 : arrival p g s = some s2) :
    ∃ s1, arrivalNext g s = some s1 ∧ deref s1 p = some t ∧
      ((s.trainQ = [] ∧ s.dock.dockStatus = dStat.IDLE ∧ s2 = enterServiceAt p t s1) ∨
       (¬ (s.trainQ = [] ∧ s.dock.dockStatus = dStat.IDLE) ∧ s2 = enqueueAt p t s1)) := by
  rw [arrival_unfold, h] at h2
  simp only [Option.some_bind, Option.bind_eq_some] at h2
  obtain ⟨s1, h1, h2⟩ := h2
  have hp : p < s.heap.length := hget_lt h
  have hne : ¬ p = s.heap.length := by omega
  have hq : s1.trainQ = s.trainQ ∧ s1.dock = s.dock ∧ deref s1 p = some t := by
    rcases arrivalNext_some h1 with rfl | ⟨ts, rest, rfl, _⟩
    · exact ⟨rfl, rfl, h⟩
    · refine ⟨rfl, rfl, ?_⟩
      rw [deref_eq] at h
      simp [deref_eq, nextTrainAt, hget_append, hne, h]
  obtain ⟨hq1, hq2, hq3⟩ := hq
  refine ⟨s1, h1, hq3, ?_⟩
  unfold arrivalEnter at h2
  rw [hq3] at h2
  simp only [Option.some_bind, hq1, hq2] at h2
  by_cases hc : s.trainQ = [] ∧ s.dock.dockStatus = dStat.IDLE
  · left
    have : (s.trainQ.isEmpty && decide (s.dock.dockStatus = dStat.IDLE)) = true := by
      simp [hc.1, hc.2]
    rw [if_pos this] at h2
    exact ⟨hc.1, hc.2, (Option.some.inj h2).symm⟩
  · right
    have : ¬ (s.trainQ.isEmpty && decide (s.dock.dockStatus = dStat.IDLE)) = true := by
      simpa [List.isEmpty_iff] using hc
    rw [if_neg this] at h2
    exact ⟨hc, (Option.some.inj h2).symm⟩

theorem checkEvent_some {i : Nat} {g : Gen} {s s2 : State} (h : checkEvent i g s = some s2) :
    ∃ e t, s.eventQ.get? i = some e ∧ isTop s.eventQ i = true ∧ deref s e.train = some t ∧
      ((t.trainStatus = tStat.DEPARTED ∧ s2 = dropAt i e s) ∨
       (t.trainStatus ≠ tStat.DEPARTED ∧ dispatch e.function e.train g (popAt i e s) = some s2)) := by
  unfold checkEvent at h
  cases he : s.eventQ.get? i with
  | none =>
    rw [he] at h
    simp at h
  | some e =>
    rw [he] at h
    simp only [Option.bind_eq_bind, Option.some_bind] at h
    cases htop : isTop s.eventQ i with
    | false =>
      rw [htop] at h
      simp at h
    | true =>
      rw [htop] at h
      simp only [Bool.true_eq_false, if_false, Option.pure_def, Option.some_bind] at h
      cases ht : deref s e.train with
      | none =>
        have : deref { s with eventQ := s.eventQ.eraseIdx i } e.train = none := ht
        rw [this] at h
        simp at h
      | some t =>
        have : deref { s with eventQ := s.eventQ.eraseIdx i } e.train = some t := ht
        rw [this] at h
        simp only [Option.some_bind] at h
        refine ⟨e, t, rfl, rfl, ht, ?_⟩
        by_cases hd : t.trainStatus = tStat.DEPARTED
        · left
          rw [if_pos hd] at h
          exact ⟨hd, (Option.some.inj h).symm⟩
        · right
          rw [if_neg hd] at h
          exact ⟨hd, h⟩

theorem checkEvent_drop {i : Nat} {g : Gen} {s : State} {e : Event} {t : Train}
    (he : s.eventQ.get? i = some e) (htop : isTop s.eventQ i = true)
    (ht : deref s e.train = some t) (hd : t.trainStatus = tStat.DEPARTED) :
    checkEvent i g s = some (dropAt i e s) := by
  unfold checkEvent
  rw [he]
  simp only [Option.bind_eq_bind, Option.some_bind, htop, Bool.true_eq_false, if_false,
    Option.pure_def]
  have : deref { s with eventQ := s.eventQ.eraseIdx i } e.train = some t := ht
  rw [this]
  simp only [Option.some_bind, if_pos hd]
  rfl

/-! ## Frame facts and the driver loop
-/

/-- Induction along the loop of `main`. -/
theorem driver_induction (P : State → Prop)
    (hstep : ∀ s i g s2, P s → loopCond s = true → driverIter i g s = some s2 → P s2) :
    ∀ (inputs : List (Nat × Gen)) (s s2 : State), P s → driver inputs s = some s2 → P s2 := by
  intro inputs
  induction inputs with
  | nil =>
    intro s s2 hP h
    simp only [driver, Option.some.injEq] at h
    exact h ▸ hP
  | cons x rest ih =>
    intro s s2 hP h
    obtain ⟨i, g⟩ := x
    simp only [driver] at h
    split at h
    · rename_i hc
      simp only [Option.bind_eq_some] at h
      obtain ⟨s1, h1, h2⟩ := h
      exact ih s1 s2 (hstep s i g s1 hP hc h1) h2
    · exact absurd h (by simp)

theorem mainInit_some {c : Config} {g : Gen} {s : State} (h : mainInit c g = some s) :
    ∃ ts rest, s =
      { eventQ := [{ function := EventFunc.arrival, train := 0, eventTime := 0 }]
        trainQ := []
        trainSchedule := rest
        travelTime := c.travelTime
        nextTrainId := 0 + 1
        nextCrewId := 0 + 1
        globalTime := 0
        simTime := c.simTime
        rate := c.rate
        premade := c.premade
        dock := {}
        statistics := {}
        heap := [some (newTrain 0 0 0 ts.remainingCrewHours ts.unloadTime)] } ∧
      ((c.premade = true ∧ c.trainSchedule = ts :: rest) ∨
       (c.premade = false ∧
        ts = { arrivalTime := g.poisson, unloadTime := g.unload, remainingCrewHours := g.remain } ∧
        rest = c.trainSchedule)) := by
  unfold mainInit at h
  simp only [Option.bind_eq_bind, Option.bind_eq_some] at h
  obtain ⟨⟨ts, s1⟩, h1, h⟩ := h
  obtain ⟨e1, hd⟩ := getTrainValues_some h1
  refine ⟨ts, s1.trainSchedule, ?_, hd⟩
  rw [e1] at h
  exact (Option.some.inj h).symm

theorem hogRun_eq : mainRun (genCfg (-1)) hogGen hogRun = some hogFinal := by decide!

theorem hogDeparted_eq : mainRun (genCfg (-1)) hogGen (hogRun.take 4) = some hogDeparted := by
  decide!

/-- C2 (the code at the failing input).  Single train, unload 10, remaining
shift 3, replacement delay 2.  The hogout fires at 3 (dock IDLE_HOGGED,
remaining unload 7), the crew replacement at 5 (dock BUSY, departures pending
at 10 and at 12), and the train is DEPARTED at time 10, through the departure
event that was scheduled before the hogout, with one hogout counted. -/
theorem C2_departs_at_stale_departure :
    (mainRun (genCfg (-1)) hogGen (hogRun.take 2)).map
        (fun s => (s.globalTime, s.dock.dockStatus, (deref s 0).map (fun t => t.unloadTime)))
      = some (3, dStat.IDLE_HOGGED, some 7) ∧
    (mainRun (genCfg (-1)) hogGen (hogRun.take 3)).map
        (fun s => (s.globalTime, s.dock.dockStatus, s.eventQ))
      = some (5, dStat.BUSY,
          [{ function := EventFunc.departure, train := 0, eventTime := 10 },
           { function := EventFunc.departure, train := 0, eventTime := 12 }]) ∧
    (mainRun (genCfg (-1)) hogGen (hogRun.take 4)).map
        (fun s => (s.globalTime,
          (deref s 0).map (fun t => (t.trainStatus, t.endDockTime, t.hogouts))))
      = some (10, some (tStat.DEPARTED, 10, 1)) := by
  decide!

theorem replayOne_init (g : Gen) :
    mainInit (replayCfg [{ arrivalTime := 0, unloadTime := 5, remainingCrewHours := 100 }] []) g
      = some replayOneInit := rfl

/-- C3 (counterexample).  In replay mode with the single triple (0, 5, 100)
and no replacement delays the loop of `main` stops before its first iteration:
the run is completed with the arrival still pending and numOfTrainsServed = 0,
not 1. -/
theorem C3_counterexample :
    ∃ s, mainRun (replayCfg [{ arrivalTime := 0, unloadTime := 5, remainingCrewHours := 100 }] [])
            plainGen [] = some s ∧
      Completed s ∧ s.statistics.numOfTrainsServed = 0 ∧
      s.eventQ = [{ function := EventFunc.arrival, train := 0, eventTime := 0 }] :=
  ⟨replayOneInit, rfl, by decide!, by decide!, by decide!⟩

/-- C3 (amended).  Every replay-mode run of the loop of `main` on the single
triple (0, 5, 100) makes no iteration and ends at time 0 with the arrival
pending, numOfTrainsServed = 0, sumOfTrainTimes = 0 and maxTrainsInQ = 0.  The
same train in generative mode with a horizon below zero, where the loop runs
until the event queue is empty, departs at time 5 and the run is completed
with numOfTrainsServed = 1, sumOfTrainTimes = 5 and maxTrainsInQ = 0. -/
theorem C3_single_train (g : Gen) (inputs : List (Nat × Gen)) (s : State)
    (hrun : mainRun (replayCfg [{ arrivalTime := 0, unloadTime := 5, remainingCrewHours := 100 }] [])
              g inputs = some s) :
    (inputs = [] ∧ Completed s ∧ s.globalTime = 0 ∧
      s.eventQ = [{ function := EventFunc.arrival, train := 0, eventTime := 0 }] ∧
      s.statistics.numOfTrainsServed = 0 ∧ s.statistics.sumOfTrainTimes = 0 ∧
      s.statistics.maxTrainsInQ = 0) ∧
    ((mainRun (genCfg (-1)) plainGen (plainRun.take 2)).map
        (fun s => (s.globalTime, (deref s 0).map (fun t => (t.trainStatus, t.endDockTime))))
      = some (5, some (tStat.DEPARTED, 5)) ∧
     (mainRun (genCfg (-1)) plainGen plainRun).map
        (fun s => (loopCond s, s.globalTime, s.statistics.numOfTrainsServed,
          s.statistics.sumOfTrainTimes, s.statistics.maxTrainsInQ))
      = some (false, 5, 1, 5, 0)) := by
  refine ⟨?_, by decide!, by decide!⟩
  unfold mainRun at hrun
  rw [replayOne_init] at hrun
  cases inputs with
  | nil =>
    have e : s = replayOneInit := (Option.some.inj hrun).symm
    subst e
    exact ⟨rfl, by decide!, by decide!, by decide!, by decide!, by decide!, by decide!⟩
  | cons x rest =>
    obtain ⟨i, g1⟩ := x
    have hl : loopCond replayOneInit = false := by decide!
    simp [driver, hl] at hrun

/-- C3 (witness): the amended statement at the run without iterations. -/
theorem C3_single_train_witness :
    mainRun (replayCfg [{ arrivalTime := 0, unloadTime := 5, remainingCrewHours := 100 }] [])
        plainGen [] = some replayOneInit ∧
    ((([] : List (Nat × Gen)) = [] ∧ Completed replayOneInit ∧ replayOneInit.globalTime = 0 ∧
      replayOneInit.eventQ = [{ function := EventFunc.arrival, train := 0, eventTime := 0 }] ∧
      replayOneInit.statistics.numOfTrainsServed = 0 ∧
      replayOneInit.statistics.sumOfTrainTimes = 0 ∧
      replayOneInit.statistics.maxTrainsInQ = 0) ∧
    ((mainRun (genCfg (-1)) plainGen (plainRun.take 2)).map
        (fun s => (s.globalTime, (deref s 0).map (fun t => (t.trainStatus, t.endDockTime))))
      = some (5, some (tStat.DEPARTED, 5)) ∧
     (mainRun (genCfg (-1)) plainGen plainRun).map
        (fun s => (loopCond s, s.globalTime, s.statistics.numOfTrainsServed,
          s.statistics.sumOfTrainTimes, s.statistics.maxTrainsInQ))
      = some (false, 5, 1, 5, 0))) :=
  ⟨rfl, C3_single_train plainGen [] replayOneInit rfl⟩

theorem replayTwo_init (g : Gen) : mainInit replayTwo g = some replayTwoInit := rfl

theorem replayTwo_iter (i : Nat) (g : Gen) (s : State)
    (h : driverIter i g replayTwoInit = some s) : s = replayTwoEnd := by
  cases i with
  | zero =>
    have e : driverIter 0 g replayTwoInit = some replayTwoEnd := by
      with_unfolding_all rfl
    rw [e] at h
    exact (Option.some.inj h).symm
  | succ k =>
    have e : driverIter (k + 1) g replayTwoInit = none := rfl
    rw [e] at h
    exact absurd h (by simp)

/-- C4 (counterexample).  The replay run on A = (0, 5, 100), B = (1, 2, 100)
is completed after one iteration (the arrival of A): B has not arrived, the
wait queue is empty, maxTrainsInQ = 0 and sumOfInQTimes = 0. -/
theorem C4_counterexample :
    ∃ s, mainRun replayTwo plainGen [(0, plainGen)] = some s ∧ Completed s ∧
      s.globalTime = 0 ∧ s.trainQ = [] ∧
      (deref s 1).map (fun t => t.trainStatus) = some tStat.ARRIVED ∧
      s.statistics.maxTrainsInQ = 0 ∧ s.statistics.sumOfInQTimes = 0 :=
  ⟨replayTwoEnd, by decide!, by decide!, by decide!, by decide!, by decide!, by decide!,
    by decide!⟩

/-- C4 (amended).  Every completed replay run on A = (0, 5, 100),
B = (1, 2, 100) ends after the arrival of A, at time 0, with B not yet arrived,
the wait queue empty, maxTrainsInQ = 0 and sumOfInQTimes = 0.  The same two
trains in generative mode with horizon 0, where the loop runs until the event
queue is empty: B is put in the wait queue at time 1, B starts service at
time 5 (when A departs), B departs at time 7, and the completed run has
maxTrainsInQ = 1 and sumOfInQTimes = 4. -/
theorem C4_two_trains (g : Gen) (inputs : List (Nat × Gen)) (s : State)
    (hrun : mainRun replayTwo g inputs = some s) (hdone : Completed s) :
    (s.globalTime = 0 ∧ s.trainQ = [] ∧
      (deref s 1).map (fun t => t.trainStatus) = some tStat.ARRIVED ∧
      s.statistics.maxTrainsInQ = 0 ∧ s.statistics.sumOfInQTimes = 0) ∧
    ((mainRun (genCfg 0) plainGen (twoRun.take 2)).map
        (fun s => (s.globalTime, s.trainQ, (deref s 1).map (fun t => t.trainStatus)))
      = some (1, [1], some tStat.INQ) ∧
     (mainRun (genCfg 0) plainGen (twoRun.take 3)).map
        (fun s => (s.globalTime, (deref s 0).map (fun t => (t.trainStatus, t.endDockTime))))
      = some (5, some (tStat.DEPARTED, 5)) ∧
     (mainRun (genCfg 0) plainGen (twoRun.take 3)).map
        (fun s => (s.trainQ, (deref s 1).map (fun t => (t.trainStatus, t.endQTime))))
      = some ([], some (tStat.SERVICE, 5)) ∧
     (mainRun (genCfg 0) plainGen (twoRun.take 4)).map
        (fun s => (s.globalTime, (deref s 1).map (fun t => (t.trainStatus, t.endDockTime))))
      = some (7, some (tStat.DEPARTED, 7)) ∧
     (mainRun (genCfg 0) plainGen twoRun).map
        (fun s => (loopCond s, s.statistics.maxTrainsInQ, s.statistics.sumOfInQTimes))
      = some (false, 1, 4)) := by
  refine ⟨?_, by decide!, by decide!, by decide!, by decide!, by decide!⟩
  unfold mainRun at hrun
  rw [replayTwo_init] at hrun
  have hl0 : loopCond replayTwoInit = true := by decide!
  have hl1 : loopCond replayTwoEnd = false := by decide!
  cases inputs with
  | nil =>
    have e : s = replayTwoInit := (Option.some.inj hrun).symm
    subst e
    rw [Completed, hl0] at hdone
    exact absurd hdone (by simp)
  | cons x rest =>
    obtain ⟨i, g1⟩ := x
    simp only [Option.some_bind, driver, hl0, if_true, Option.bind_eq_some] at hrun
    obtain ⟨s1, h1, h2⟩ := hrun
    have e1 := replayTwo_iter i g1 s1 h1
    subst e1
    cases rest with
    | nil =>
      have e : s = replayTwoEnd := (Option.some.inj h2).symm
      subst e
      exact ⟨by decide!, by decide!, by decide!, by decide!, by decide!⟩
    | cons y rest2 =>
      obtain ⟨j, g2⟩ := y
      simp [driver, hl1] at h2

/-- C4 (witness): the amended statement at the replay run of one iteration. -/
theorem C4_two_trains_witness :
    (mainRun replayTwo plainGen [(0, plainGen)] = some replayTwoEnd ∧ Completed replayTwoEnd) ∧
    ((replayTwoEnd.globalTime = 0 ∧ replayTwoEnd.trainQ = [] ∧
      (deref replayTwoEnd 1).map (fun t => t.trainStatus) = some tStat.ARRIVED ∧
      replayTwoEnd.statistics.maxTrainsInQ = 0 ∧ replayTwoEnd.statistics.sumOfInQTimes = 0) ∧
    ((mainRun (genCfg 0) plainGen (twoRun.take 2)).map
        (fun s => (s.globalTime, s.trainQ, (deref s 1).map (fun t => t.trainStatus)))
      = some (1, [1], some tStat.INQ) ∧
     (mainRun (genCfg 0) plainGen (twoRun.take 3)).map
        (fun s => (s.globalTime, (deref s 0).map (fun t => (t.trainStatus, t.endDockTime))))
      = some (5, some (tStat.DEPARTED, 5)) ∧
     (mainRun (genCfg 0) plainGen (twoRun.take 3)).map
        (fun s => (s.trainQ, (deref s 1).map (fun t => (t.trainStatus, t.endQTime))))
      = some ([], some (tStat.SERVICE, 5)) ∧
     (mainRun (genCfg 0) plainGen (twoRun.take 4)).map
        (fun s => (s.globalTime, (deref s 1).map (fun t => (t.trainStatus, t.endDockTime))))
      = some (7, some (tStat.DEPARTED, 7)) ∧
     (mainRun (genCfg 0) plainGen twoRun).map
        (fun s => (loopCond s, s.statistics.maxTrainsInQ, s.statistics.sumOfInQTimes))
      = some (false, 1, 4))) :=
  ⟨⟨by decide!, by decide!⟩,
   C4_two_trains plainGen [(0, plainGen)] replayTwoEnd (by decide!) (by decide!)⟩

theorem hogHogged_eq : mainRun (genCfg (-1)) hogGen (hogRun.take 2) = some hogHogged := by
  decide!

/-- C5.  Stale-departure law: in every state, the departure handler run on a
train whose crew is HOGGED_OUT returns the state it was given: dock,
statistics, wait queue, event queue and every train are unchanged. -/
theorem C5_stale_departure (s : State) (train : Nat) (t : Train)
    (ht : deref s train = some t) (hc : t.crewStatus = cStat.HOGGED_OUT) :
    departure train s = some s :=
  departure_stale ht hc

/-- C5 (witness): the departure handler on the hogged-out train of `hogRun`. -/
theorem C5_stale_departure_witness :
    (deref hogHogged 0 = some
        { tid := 0, cid := 1, hogouts := 1, arrivalTime := 0, endQTime := 0
          endDockTime := 0, crewArrivalTime := 0, timeTillHogout := 10, unloadTime := 7
          trainStatus := tStat.SERVICE, crewStatus := cStat.HOGGED_OUT }) ∧
    departure 0 hogHogged = some hogHogged :=
  ⟨rfl, C5_stale_departure hogHogged 0 _ rfl rfl⟩

/-- C9 (the code at the failing input).  In the run of a single train (unload
5, no hogout) the dock is BUSY from the arrival at time 0 until the next
processed event, the departure at time 5.  `main` calls `updateDockTimes` only
after the handler of the later event, which has set the dock IDLE: the
interval 0..5 is credited to idleTime, and the completed run ends with
busyTime = 0 and idleTime = 5. -/
theorem C9_busy_interval_credited_idle :
    (mainRun (genCfg (-1)) plainGen (plainRun.take 1)).map
        (fun s => (s.globalTime, s.dock.dockStatus)) = some (0, dStat.BUSY) ∧
    (mainRun (genCfg (-1)) plainGen (plainRun.take 2)).map
        (fun s => (s.globalTime, s.dock.busyTime, s.dock.idleTime)) = some (5, 0, 5) ∧
    (mainRun (genCfg (-1)) plainGen plainRun).map
        (fun s => (loopCond s, s.dock.busyTime, s.dock.idleTime, s.dock.idleHogTime))
      = some (false, 0, 5, 0) := by
  decide!

theorem get?_split {α : Type} {l : List α} {i : Nat} {a : α} (h : l.get? i = some a) :
    ∃ l1 l2, l = l1 ++ a :: l2 ∧ l.eraseIdx i = l1 ++ l2 := by
  induction l generalizing i with
  | nil => simp at h
  | cons x xs ih =>
    cases i with
    | zero =>
      simp only [List.get?_cons_zero, Option.some.injEq] at h
      subst h
      exact ⟨[], xs, rfl, rfl⟩
    | succ k =>
      simp only [List.get?_cons_succ] at h
      obtain ⟨l1, l2, e1, e2⟩ := ih h
      refine ⟨x :: l1, l2, ?_, ?_⟩
      · simp [e1]
      · simp [List.eraseIdx_cons_succ, e2]

theorem isTop_le {q : List Event} {i : Nat} {e : Event} (he : q.get? i = some e)
    (h : isTop q i = true) : ∀ e2 ∈ q, e.eventTime ≤ e2.eventTime := by
  unfold isTop at h
  rw [he] at h
  simp only [List.all_eq_true, Bool.not_eq_true', comp, decide_eq_false_iff_not, gt_iff_lt,
    not_lt] at h
  exact h

/-- A train keeps `TrainOK` when its own events only get fewer and its
membership in the wait queue does not change. -/
theorem TrainOK.frame {q q2 : List Event} {tq tq2 : List Nat} {p : Nat} {t : Train}
    (a : TrainOK q tq p t) (hq : ∀ e ∈ q2, e.train = p → e ∈ q) (ht : p ∈ tq2 ↔ p ∈ tq) :
    TrainOK q2 tq2 p t := by
  constructor
  · exact a.tid
  · exact fun e he hp => a.arr e (hq e he hp) hp
  · intro hs
    obtain ⟨h1, h2, h3⟩ := a.arrived hs
    exact ⟨h1, fun hc => h2 (ht.1 hc), fun e he hp => h3 e (hq e he hp) hp⟩
  · exact fun e he hp => a.dep e (hq e he hp) hp
  · exact fun hs => ht.2 (a.inq hs)
  · exact fun e he hp => a.hog e (hq e he hp) hp
  · exact fun e he hp => a.crew e (hq e he hp) hp

theorem mem_pop {l1 l2 : List Event} {e x : Event} (hx : x ∈ l1 ++ l2) : x ∈ l1 ++ e :: l2 := by
  simp only [List.mem_append, List.mem_cons] at hx ⊢
  tauto

/-- Popping an event keeps `InvA`. -/
theorem InvA.pop {l1 l2 : List Event} {e : Event} {tq : List Nat} {h : List (Option Train)}
    {nid : Int} (a : InvA (l1 ++ e :: l2) tq h nid) : InvA (l1 ++ l2) tq h nid := by
  constructor
  · exact fun x hx => a.ev_ptr x (mem_pop hx)
  · exact a.next_id
  · have := a.arr_one
    simp only [List.countP_append, List.countP_cons] at this ⊢
    omega
  · exact fun x hx => a.arr_last x (mem_pop hx)
  · intro p
    have := a.chain_one p
    simp only [List.countP_append, List.countP_cons] at this ⊢
    omega
  · exact a.q_inq
  · exact a.q_sorted
  · exact fun p t hp => (a.trains p t hp).frame (fun x hx _ => mem_pop hx) Iff.rfl

/-- After a hogout or crew replacement of `p` is popped, none is pending. -/
theorem InvA.pop_chain {l1 l2 : List Event} {e : Event} {tq : List Nat}
    {h : List (Option Train)} {nid : Int} (a : InvA (l1 ++ e :: l2) tq h nid)
    (he : e.function = EventFunc.hogout ∨ e.function = EventFunc.newCrew) :
    (l1 ++ l2).countP (isChain e.train) = 0 := by
  have := a.chain_one e.train
  have h1 : isChain e.train e = true := by simp [isChain, he]
  simp only [List.countP_append, List.countP_cons, h1, if_true] at this ⊢
  omega

/-- After an arrival is popped, none is pending. -/
theorem InvA.pop_arrival {l1 l2 : List Event} {e : Event} {tq : List Nat}
    {h : List (Option Train)} {nid : Int} (a : InvA (l1 ++ e :: l2) tq h nid)
    (he : e.function = EventFunc.arrival) :
    (l1 ++ l2).countP isArrival = 0 := by
  have := a.arr_one
  have h1 : isArrival e = true := by simp [isArrival, he]
  simp only [List.countP_append, List.countP_cons, h1, if_true] at this ⊢
  omega

theorem hget_set_none_some {h : List (Option Train)} {p q : Nat} {u : Train}
    (hu : hget (h.set p none) q = some u) : q ≠ p ∧ hget h q = some u := by
  rw [hget_set_none] at hu
  by_cases hq : q = p
  · simp [hq] at hu
  · simp only [hq, if_false] at hu
    exact ⟨hq, hu⟩

/-- Dropping the event of a departed train and freeing the train. -/
theorem InvA.drop {l1 l2 : List Event} {e : Event} {tq : List Nat} {h : List (Option Train)}
    {nid : Int} {t : Train} (a : InvA (l1 ++ e :: l2) tq h nid)
    (ht : hget h e.train = some t) (hd : t.trainStatus = tStat.DEPARTED) :
    InvA (l1 ++ l2) tq (h.set e.train none) nid := by
  have b := a.pop
  constructor
  · simpa using b.ev_ptr
  · simpa using b.next_id
  · exact b.arr_one
  · simpa using b.arr_last
  · exact b.chain_one
  · intro p hp
    obtain ⟨u, hu, hs⟩ := b.q_inq p hp
    refine ⟨u, ?_, hs⟩
    rw [hget_set_none]
    have : ¬ p = e.train := by
      intro hpe
      subst hpe
      rw [ht] at hu
      have := Option.some.inj hu
      subst this
      rw [hd] at hs
      exact absurd hs (by decide)
    simp [this, hu]
  · exact b.q_sorted
  · exact fun p u hu => b.trains p u (hget_set_none_some hu).2

theorem hget_set_some_cases {h : List (Option Train)} {p q : Nat} {t u : Train}
    (hu : hget (h.set p (some t)) q = some u) :
    (q = p ∧ u = t) ∨ (q ≠ p ∧ hget h q = some u) := by
  rw [hget_set_some] at hu
  by_cases hq : q = p
  · by_cases hp : p < h.length
    · simp only [hq, hp, and_self, if_true, Option.some.injEq] at hu
      exact Or.inl ⟨hq, hu.symm⟩
    · have : hget h p = none := by
        unfold hget
        rw [List.get?_eq_getElem?, List.getElem?_eq_none (by omega)]
        rfl
      simp [hq, hp, this] at hu
  · simp only [hq, false_and, if_false] at hu
    exact Or.inr ⟨hq, hu⟩

/-- Writing a train and changing the wait queue at that train only. -/
theorem InvA.set_q {q : List Event} {tq tq2 : List Nat} {h : List (Option Train)} {nid : Int}
    {p : Nat} {t t1 : Train} (a : InvA q tq h nid) (hp : hget h p = some t)
    (ok : TrainOK q tq2 p t1) (hmem : ∀ x, x ≠ p → (x ∈ tq2 ↔ x ∈ tq))
    (hin : p ∈ tq2 → t1.trainStatus = tStat.INQ)
    (hsort : tq2.Pairwise (fun a b => a < b)) :
    InvA q tq2 (h.set p (some t1)) nid := by
  have hlt : p < h.length := hget_lt hp
  constructor
  · simpa using a.ev_ptr
  · simpa using a.next_id
  · exact a.arr_one
  · simpa using a.arr_last
  · exact a.chain_one
  · intro x hx
    by_cases hxp : x = p
    · subst hxp
      exact ⟨t1, by simp [hget_set_some, hlt], hin hx⟩
    · obtain ⟨u, hu, hs⟩ := a.q_inq x ((hmem x hxp).1 hx)
      exact ⟨u, by simp [hget_set_some, hxp, hu], hs⟩
  · exact hsort
  · intro x u hu
    rcases hget_set_some_cases hu with ⟨rfl, rfl⟩ | ⟨hxp, hu2⟩
    · exact ok
    · exact (a.trains x u hu2).frame (fun e he _ => he) (hmem x hxp)

/-- A train without pending events that is neither newly created nor waiting
outside the queue satisfies `TrainOK`. -/
theorem TrainOK.of_no_events {q : List Event} {tq : List Nat} {p : Nat} {t : Train}
    (htid : t.tid = p) (hnone : ∀ e ∈ q, e.train ≠ p)
    (hs : t.trainStatus ≠ tStat.ARRIVED) (hq : t.trainStatus = tStat.INQ → p ∈ tq) :
    TrainOK q tq p t := by
  constructor
  · exact htid
  · exact fun e he hp => absurd hp (hnone e he)
  · exact fun h => absurd h hs
  · exact fun e he hp => absurd hp (hnone e he)
  · exact hq
  · exact fun e he hp => absurd hp (hnone e he)
  · exact fun e he hp => absurd hp (hnone e he)

/-- A train that has arrived may move on to SERVICE or DEPARTED. -/
theorem TrainOK.to_service {q : List Event} {tq tq2 : List Nat} {p : Nat} {t t1 : Train}
    (a : TrainOK q tq p t) (hs : t.trainStatus ≠ tStat.ARRIVED) (htid : t1.tid = t.tid)
    (hcrew : t1.crewStatus = t.crewStatus)
    (h1 : t1.trainStatus = tStat.SERVICE ∨ t1.trainStatus = tStat.DEPARTED) :
    TrainOK q tq2 p t1 := by
  constructor
  · rw [htid]; exact a.tid
  · exact fun e he hp hf => absurd (a.arr e he hp hf).1 hs
  · intro h
    rcases h1 with h1 | h1 <;> rw [h1] at h <;> exact absurd h (by decide)
  · exact fun _ _ _ _ => h1
  · intro h
    rcases h1 with h1 | h1 <;> rw [h1] at h <;> exact absurd h (by decide)
  · exact fun e he hp hf => hcrew ▸ a.hog e he hp hf
  · exact fun e he hp hf => hcrew ▸ a.crew e he hp hf

theorem not_chain_of_count {q : List Event} {p : Nat} (h : q.countP (isChain p) = 0)
    {e : Event} (he : e ∈ q) (hp : e.train = p) :
    e.function ≠ EventFunc.hogout ∧ e.function ≠ EventFunc.newCrew := by
  have := (List.countP_eq_zero.1 h) e he
  simp only [isChain, decide_eq_true_eq, not_and, not_or] at this
  exact this hp

/-- A train with no hogout or crew replacement pending may change crew. -/
theorem TrainOK.crew_change {q : List Event} {tq : List Nat} {p : Nat} {t t1 : Train}
    (a : TrainOK q tq p t) (hs : t.trainStatus ≠ tStat.ARRIVED)
    (hcnt : q.countP (isChain p) = 0) (htid : t1.tid = t.tid)
    (hst : t1.trainStatus = t.trainStatus) : TrainOK q tq p t1 := by
  constructor
  · rw [htid]; exact a.tid
  · exact fun e he hp hf => absurd (a.arr e he hp hf).1 hs
  · intro h
    rw [hst] at h
    exact absurd h hs
  · intro e he hp hf
    rw [hst]
    exact a.dep e he hp hf
  · intro h
    rw [hst] at h
    exact a.inq h
  · exact fun e he hp hf => absurd hf (not_chain_of_count hcnt he hp).1
  · exact fun e he hp hf => absurd hf (not_chain_of_count hcnt he hp).2

/-- Pushing a departure, hogout or crew replacement of a train. -/
theorem InvA.push {q : List Event} {tq : List Nat} {h : List (Option Train)} {nid : Int}
    (a : InvA q tq h nid) (x : Event) (hx : x.train < h.length)
    (hna : x.function ≠ EventFunc.arrival)
    (hchain : x.function ≠ EventFunc.departure → q.countP (isChain x.train) = 0)
    (ht : ∀ t, hget h x.train = some t →
      t.trainStatus ≠ tStat.ARRIVED ∧
      (x.function = EventFunc.departure →
        t.trainStatus = tStat.SERVICE ∨ t.trainStatus = tStat.DEPARTED) ∧
      (x.function = EventFunc.hogout → t.crewStatus = cStat.ON_CLOCK) ∧
      (x.function = EventFunc.newCrew → t.crewStatus = cStat.HOGGED_OUT)) :
    InvA (q ++ [x]) tq h nid := by
  have hxa : isArrival x = false := by simp [isArrival, hna]
  constructor
  · intro e he
    rcases List.mem_append.1 he with he | he
    · exact a.ev_ptr e he
    · rw [List.mem_singleton.1 he]; exact hx
  · exact a.next_id
  · have := a.arr_one
    simp only [List.countP_append, List.countP_cons, List.countP_nil, hxa] at this ⊢
    simpa using this
  · intro e he hf
    rcases List.mem_append.1 he with he | he
    · exact a.arr_last e he hf
    · rw [List.mem_singleton.1 he] at hf; exact absurd hf hna
  · intro p
    have := a.chain_one p
    simp only [List.countP_append, List.countP_cons, List.countP_nil]
    by_cases hc : isChain p x = true
    · have hp : x.train = p ∧ (x.function = EventFunc.hogout ∨ x.function = EventFunc.newCrew) := by
        simpa [isChain] using hc
      have hnd : x.function ≠ EventFunc.departure := by
        rcases hp.2 with h2 | h2 <;> rw [h2] <;> decide
      have h0 := hchain hnd
      rw [hp.1] at h0
      simp [hc, h0]
    · simp only [hc]
      simpa using this
  · exact a.q_inq
  · exact a.q_sorted
  · intro p t hp
    have ok := a.trains p t hp
    by_cases hxp : x.train = p
    · subst hxp
      obtain ⟨h1, h2, h3, h4⟩ := ht t hp
      have old : ∀ e ∈ q ++ [x], e ≠ x → e ∈ q := by
        intro e he hne
        rcases List.mem_append.1 he with he | he
        · exact he
        · exact absurd (List.mem_singleton.1 he) hne
      constructor
      · exact ok.tid
      · intro e he hp hf
        have : e ≠ x := fun h => hna (h ▸ hf)
        exact ok.arr e (old e he this) hp hf
      · exact fun h => absurd h h1
      · intro e he hp hf
        by_cases hex : e = x
        · exact h2 (hex ▸ hf)
        · exact ok.dep e (old e he hex) hp hf
      · exact ok.inq
      · intro e he hp hf
        by_cases hex : e = x
        · exact h3 (hex ▸ hf)
        · exact ok.hog e (old e he hex) hp hf
      · intro e he hp hf
        by_cases hex : e = x
        · exact h4 (hex ▸ hf)
        · exact ok.crew e (old e he hex) hp hf
    · refine ok.frame ?_ Iff.rfl
      intro e he hep
      rcases List.mem_append.1 he with he | he
      · exact he
      · rw [List.mem_singleton.1 he] at hep; exact absurd hep hxp

theorem hget_append_cases {h : List (Option Train)} {t u : Train} {q : Nat}
    (hu : hget (h ++ [some t]) q = some u) :
    (q = h.length ∧ u = t) ∨ (q < h.length ∧ hget h q = some u) := by
  rw [hget_append] at hu
  by_cases hq : q = h.length
  · simp only [hq, if_true, Option.some.injEq] at hu
    exact Or.inl ⟨hq, hu.symm⟩
  · simp only [hq, if_false] at hu
    exact Or.inr ⟨hget_lt hu, hu⟩

/-- Creating the next train and scheduling its arrival. -/
theorem InvA.alloc {q : List Event} {tq : List Nat} {h : List (Option Train)} {nid : Int}
    (a : InvA q tq h nid) (h0 : q.countP isArrival = 0) (cid : Int) (time hT uT : ℚ) :
    InvA (q ++ [{ function := EventFunc.arrival, train := h.length, eventTime := time }]) tq
      (h ++ [some (newTrain nid cid time hT uT)]) (nid + 1) := by
  have hno : ∀ e ∈ q, e.function ≠ EventFunc.arrival := by
    intro e he
    have := (List.countP_eq_zero.1 h0) e he
    simpa [isArrival] using this
  have hq : ∀ p ∈ tq, p < h.length := fun p hp => by
    obtain ⟨t, ht, _⟩ := a.q_inq p hp
    exact hget_lt ht
  constructor
  · intro e he
    rcases List.mem_append.1 he with he | he
    · have := a.ev_ptr e he
      simp only [List.length_append, List.length_singleton]
      omega
    · rw [List.mem_singleton.1 he]
      simp
  · rw [a.next_id]
    simp
  · simp only [List.countP_append, h0, List.countP_cons, List.countP_nil]
    simp [isArrival]
  · intro e he hf
    rcases List.mem_append.1 he with he | he
    · exact absurd hf (hno e he)
    · rw [List.mem_singleton.1 he]
      simp
  · intro p
    have := a.chain_one p
    simp only [List.countP_append, List.countP_cons, List.countP_nil]
    have : isChain p { function := EventFunc.arrival, train := h.length, eventTime := time }
        = false := by simp [isChain]
    simp only [this]
    simpa using a.chain_one p
  · intro p hp
    obtain ⟨t, ht, hs⟩ := a.q_inq p hp
    refine ⟨t, ?_, hs⟩
    have : ¬ p = h.length := by have := hget_lt ht; omega
    simp [hget_append, this, ht]
  · exact a.q_sorted
  · intro p t hp
    rcases hget_append_cases hp with ⟨rfl, rfl⟩ | ⟨hlt, hp2⟩
    · have hold : ∀ e ∈ q, e.train ≠ h.length := fun e he => by
        have := a.ev_ptr e he
        omega
      constructor
      · simp [newTrain, a.next_id]
      · intro e he hp hf
        rcases List.mem_append.1 he with he | he
        · exact absurd hp (hold e he)
        · rw [List.mem_singleton.1 he]
          simp [newTrain]
      · intro _
        refine ⟨rfl, fun hc => absurd (hq _ hc) (by omega), ?_⟩
        intro e he hp
        rcases List.mem_append.1 he with he | he
        · exact absurd hp (hold e he)
        · rw [List.mem_singleton.1 he]
      · intro e he hp hf
        rcases List.mem_append.1 he with he | he
        · exact absurd hp (hold e he)
        · rw [List.mem_singleton.1 he] at hf
          simp at hf
      · intro hs
        simp [newTrain] at hs
      · intro e he hp hf
        rcases List.mem_append.1 he with he | he
        · exact absurd hp (hold e he)
        · rw [List.mem_singleton.1 he] at hf
          simp at hf
      · intro e he hp hf
        rcases List.mem_append.1 he with he | he
        · exact absurd hp (hold e he)
        · rw [List.mem_singleton.1 he] at hf
          simp at hf
    · refine (a.trains p t hp2).frame ?_ Iff.rfl
      intro e he hep
      rcases List.mem_append.1 he with he | he
      · exact he
      · rw [List.mem_singleton.1 he] at hep
        simp only at hep
        omega

/-- The head of the wait queue enters the dock. -/
theorem InvA.startQ {q : List Event} {rest : List Nat} {h : List (Option Train)} {nid : Int}
    {p : Nat} {f : Train} (a : InvA q (p :: rest) h nid) (hf : hget h p = some f)
    (now time : ℚ) :
    InvA (q ++ [{ function := EventFunc.departure, train := p, eventTime := time }]) rest
      (h.set p (some (serviceTrain now f))) nid := by
  have hlt : p < h.length := hget_lt hf
  have hinq : f.trainStatus = tStat.INQ := by
    obtain ⟨t, ht, hs⟩ := a.q_inq p (List.mem_cons_self _ _)
    rw [hf] at ht
    exact (Option.some.inj ht) ▸ hs
  have hsort := List.pairwise_cons.1 a.q_sorted
  have hnot : p ∉ rest := fun hc => absurd (hsort.1 p hc) (by omega)
  have b : InvA q rest (h.set p (some (serviceTrain now f))) nid := by
    refine a.set_q hf ?_ ?_ ?_ hsort.2
    · exact (a.trains p f hf).to_service (by rw [hinq]; decide) rfl rfl (Or.inl rfl)
    · intro x hx
      simp [hx]
    · exact fun hc => absurd hc hnot
  refine b.push _ (by simpa using hlt) (by simp) (fun hc => absurd rfl hc) ?_
  intro t ht
  have : t = serviceTrain now f := by
    simp only [hget_set_some, hlt, and_self, if_true, Option.some.injEq] at ht
    exact ht.symm
  subst this
  exact ⟨by simp [serviceTrain], fun _ => Or.inl rfl, fun hc => by simp at hc,
    fun hc => by simp at hc⟩

theorem hget_set_self {h : List (Option Train)} {p : Nat} {t t1 u : Train}
    (hp : hget h p = some t) (hu : hget (h.set p (some t1)) p = some u) : u = t1 := by
  have hlt := hget_lt hp
  simp only [hget_set_some, hlt, and_self, if_true, Option.some.injEq] at hu
  exact hu.symm

theorem InvA.inq_of_mem {q : List Event} {tq : List Nat} {h : List (Option Train)} {nid : Int}
    (a : InvA q tq h nid) {p : Nat} {t : Train} (hp : hget h p = some t) (hm : p ∈ tq) :
    t.trainStatus = tStat.INQ := by
  obtain ⟨u, hu, hs⟩ := a.q_inq p hm
  rw [hp] at hu
  exact (Option.some.inj hu) ▸ hs

/-- The hogout handler keeps the structural invariant. -/
theorem SInvA.of_hogout {st s2 : State} {p : Nat} {t : Train} {g : Gen} (a : SInvA st)
    (ht : deref st p = some t) (hs : t.trainStatus ≠ tStat.ARRIVED)
    (hcnt : st.eventQ.countP (isChain p) = 0) (h : hogout p g st = some s2) : SInvA s2 := by
  obtain ⟨d, tt, rfl, _⟩ := hogout_some ht h
  have hlt : p < st.heap.length := hget_lt ht
  have b : InvA st.eventQ st.trainQ
      (st.heap.set p (some (hoggedTrain st.globalTime d st.nextCrewId t))) st.nextTrainId := by
    refine InvA.set_q a ht ?_ (fun _ _ => Iff.rfl) ?_ a.q_sorted
    · exact (a.trains p t ht).crew_change hs hcnt rfl rfl
    · exact fun hm => (a.inq_of_mem ht hm : t.trainStatus = tStat.INQ)
  refine b.push { function := EventFunc.newCrew, train := p, eventTime := st.globalTime + d }
    (by simpa using hlt) (by simp) (fun _ => hcnt) ?_
  intro u hu
  have := hget_set_self ht hu
  subst this
  exact ⟨hs, fun hc => by simp at hc, fun hc => by simp at hc, fun _ => rfl⟩

/-- The crew-replacement handler keeps the structural invariant. -/
theorem SInvA.of_newCrew {st s2 : State} {p : Nat} {t : Train} (a : SInvA st)
    (ht : deref st p = some t) (hs : t.trainStatus ≠ tStat.ARRIVED)
    (hcnt : st.eventQ.countP (isChain p) = 0) (h : newCrew p st = some s2) : SInvA s2 := by
  have hlt : p < st.heap.length := hget_lt ht
  have b : InvA st.eventQ st.trainQ
      (st.heap.set p (some (crewOnTrain st.globalTime t))) st.nextTrainId := by
    refine InvA.set_q a ht ?_ (fun _ _ => Iff.rfl) ?_ a.q_sorted
    · exact (a.trains p t ht).crew_change hs hcnt rfl rfl
    · exact fun hm => (a.inq_of_mem ht hm : t.trainStatus = tStat.INQ)
  have hself : hget (st.heap.set p (some (crewOnTrain st.globalTime t))) p
      = some (crewOnTrain st.globalTime t) := by
    simp [hget_set_some, hlt]
  rcases newCrew_some ht h with
    ⟨_, hq, front, rest, f, hl, hf, hid, ⟨hfp, rfl⟩ | ⟨hfp, _⟩⟩ | ⟨hsv, rfl⟩ | ⟨hq, _, rfl⟩ |
      ⟨_, _, rfl⟩
  · subst hfp
    have b2 : InvA st.eventQ (front :: rest)
        (st.heap.set front (some (crewOnTrain st.globalTime t))) st.nextTrainId := hl ▸ b
    exact b2.startQ hf st.globalTime _
  · exfalso
    have hf2 : hget st.heap front = some f := by
      rcases hget_set_some_cases hf with ⟨h1, _⟩ | ⟨_, h2⟩
      · exact absurd h1 hfp
      · exact h2
    have e1 := (a.trains front f hf2).tid
    have e2 := (a.trains p t ht).tid
    rw [hid, e2] at e1
    exact hfp (by exact_mod_cast e1.symm)
  · refine b.push { function := EventFunc.departure, train := p
                    eventTime := st.globalTime + t.unloadTime }
      (by simpa using hlt) (by simp) (fun hc => absurd rfl hc) ?_
    intro u hu
    rw [hself] at hu
    have := (Option.some.inj hu).symm
    subst this
    exact ⟨hs, fun _ => Or.inl hsv, fun hc => by simp at hc, fun hc => by simp at hc⟩
  · refine b.push (nextHogout p t st) (by simpa using hlt) (by simp [nextHogout])
      (fun _ => hcnt) ?_
    intro u hu
    have hu2 : hget (st.heap.set p (some (crewOnTrain st.globalTime t))) p = some u := hu
    rw [hself] at hu2
    have := (Option.some.inj hu2).symm
    subst this
    exact ⟨hs, fun hc => by simp [nextHogout] at hc, fun _ => rfl,
      fun hc => by simp [nextHogout] at hc⟩
  · exact b

/-- The departure handler keeps the structural invariant. -/
theorem SInvA.of_departure {st s2 : State} {p : Nat} {t : Train} (a : SInvA st)
    (ht : deref st p = some t) (hs : t.trainStatus = tStat.SERVICE)
    (h : departure p st = some s2) : SInvA s2 := by
  by_cases hc : t.crewStatus = cStat.HOGGED_OUT
  · rw [departure_stale ht hc] at h
    exact (Option.some.inj h) ▸ a
  · have hlt : p < st.heap.length := hget_lt ht
    have hnq : p ∉ st.trainQ := by
      intro hm
      have := a.inq_of_mem ht hm
      rw [hs] at this
      exact absurd this (by decide)
    have b : InvA st.eventQ st.trainQ
        (st.heap.set p (some (departedTrain st.globalTime t))) st.nextTrainId := by
      refine InvA.set_q a ht ?_ (fun _ _ => Iff.rfl) (fun hm => absurd hm hnq) a.q_sorted
      exact (a.trains p t ht).to_service (by rw [hs]; decide) rfl rfl (Or.inr rfl)
    obtain ⟨stt, h3⟩ := departure_some ht hc h
    rcases h3 with ⟨_, rfl⟩ | ⟨front, rest, f, hl, hf, ⟨_, rfl⟩ | ⟨_, rfl⟩⟩
    · exact b
    · have b2 : InvA st.eventQ (front :: rest)
          (st.heap.set p (some (departedTrain st.globalTime t))) st.nextTrainId := hl ▸ b
      exact b2.startQ hf st.globalTime _
    · exact b

/-- The arrival handler keeps the structural invariant. -/
theorem SInvA.of_arrival {st s2 : State} {p : Nat} {t : Train} {g : Gen} (a : SInvA st)
    (ht : deref st p = some t) (hs : t.trainStatus = tStat.ARRIVED)
    (h0 : st.eventQ.countP isArrival = 0) (hlast : p + 1 = st.heap.length)
    (h : arrival p g st = some s2) : SInvA s2 := by
  obtain ⟨hcrew, hnq, hev⟩ := (a.trains p t ht).arrived hs
  have hnone : ∀ e ∈ st.eventQ, e.train ≠ p := by
    intro e he hp
    have h1 := hev e he hp
    have h2 := (List.countP_eq_zero.1 h0) e he
    simp [isArrival, h1] at h2
  have hbelow : ∀ x ∈ st.trainQ, x < p := by
    intro x hx
    obtain ⟨u, hu, _⟩ := a.q_inq x hx
    have h1 := hget_lt hu
    have h2 : x ≠ p := fun hc => hnq (hc ▸ hx)
    omega
  obtain ⟨s1, h1, ht1, h3⟩ := arrival_some ht h
  have hlt1 : p < s1.heap.length := hget_lt ht1
  have a1 : SInvA s1 ∧ s1.trainQ = st.trainQ ∧ (∀ e ∈ s1.eventQ, e.train ≠ p) := by
    rcases arrivalNext_some h1 with rfl | ⟨ts, rest, rfl, _⟩
    · exact ⟨a, rfl, hnone⟩
    · refine ⟨InvA.alloc a h0 _ _ _ _, rfl, ?_⟩
      intro e he
      rcases List.mem_append.1 he with he | he
      · exact hnone e he
      · rw [List.mem_singleton.1 he]
        simp only
        omega
  obtain ⟨a1, hq1, hnone1⟩ := a1
  have htid := (a.trains p t ht).tid
  have hcnt1 : s1.eventQ.countP (isChain p) = 0 := by
    apply List.countP_eq_zero.2
    intro e he
    simp only [isChain, decide_eq_true_eq, not_and]
    exact fun hp => absurd hp (hnone1 e he)
  rcases h3 with ⟨_, _, rfl⟩ | ⟨_, rfl⟩
  · have b : InvA s1.eventQ s1.trainQ
        (s1.heap.set p (some (serviceTrain s1.globalTime t))) s1.nextTrainId := by
      refine InvA.set_q a1 ht1 ?_ (fun _ _ => Iff.rfl) ?_ a1.q_sorted
      · exact TrainOK.of_no_events htid hnone1 (by simp [serviceTrain]) (by simp [serviceTrain])
      · exact fun hm => absurd (hq1 ▸ hm) hnq
    have hself : ∀ u, hget (s1.heap.set p (some (serviceTrain s1.globalTime t))) p = some u →
        u = serviceTrain s1.globalTime t := fun u hu => hget_set_self ht1 hu
    have b2 := b.push { function := EventFunc.departure, train := p
                        eventTime := t.unloadTime + s1.globalTime }
      (by simpa using hlt1) (by simp) (fun hc => absurd rfl hc)
      (fun u hu => by
        rw [hself u hu]
        exact ⟨by simp [serviceTrain], fun _ => Or.inl rfl, fun hc => by simp at hc,
          fun hc => by simp at hc⟩)
    have b3 := b2.push { function := EventFunc.hogout, train := p
                         eventTime := (serviceTrain s1.globalTime t).timeTillHogout + s1.globalTime }
      (by simpa using hlt1) (by simp)
      (fun _ => by
        simp only [List.countP_append, hcnt1, List.countP_cons, List.countP_nil]
        simp [isChain])
      (fun u hu => by
        rw [hself u hu]
        exact ⟨by simp [serviceTrain], fun hc => by simp at hc, fun _ => hcrew,
          fun hc => by simp at hc⟩)
    have e : s1.eventQ ++
        [{ function := EventFunc.departure, train := p, eventTime := t.unloadTime + s1.globalTime },
         { function := EventFunc.hogout, train := p
           eventTime := (serviceTrain s1.globalTime t).timeTillHogout + s1.globalTime }]
        = s1.eventQ ++
        [{ function := EventFunc.departure, train := p, eventTime := t.unloadTime + s1.globalTime }]
        ++ [{ function := EventFunc.hogout, train := p
              eventTime := (serviceTrain s1.globalTime t).timeTillHogout + s1.globalTime }] := by
      simp
    unfold SInvA enterServiceAt
    simp only
    rw [e]
    exact b3
  · have b : InvA s1.eventQ (s1.trainQ ++ [p])
        (s1.heap.set p (some { t with trainStatus := tStat.INQ })) s1.nextTrainId := by
      refine InvA.set_q a1 ht1 ?_ ?_ (fun _ => rfl) ?_
      · exact TrainOK.of_no_events htid hnone1 (by simp) (fun _ => by simp)
      · intro x hx
        simp [hx]
      · rw [List.pairwise_append]
        refine ⟨a1.q_sorted, by simp, ?_⟩
        intro x hx y hy
        rw [List.mem_singleton.1 hy]
        exact hbelow x (hq1 ▸ hx)
    refine b.push { function := EventFunc.hogout, train := p
                    eventTime := t.timeTillHogout + s1.globalTime }
      (by simpa using hlt1) (by simp) (fun _ => hcnt1) ?_
    intro u hu
    rw [hget_set_self ht1 hu]
    exact ⟨by simp, fun hc => by simp at hc, fun _ => hcrew, fun hc => by simp at hc⟩

/-- What the popped event tells about its train. -/
theorem InvA.popped {l1 l2 : List Event} {e : Event} {tq : List Nat} {h : List (Option Train)}
    {nid : Int} {t : Train} (a : InvA (l1 ++ e :: l2) tq h nid) (ht : hget h e.train = some t) :
    (e.function = EventFunc.arrival →
      t.trainStatus = tStat.ARRIVED ∧ t.arrivalTime = e.eventTime ∧
      t.crewArrivalTime = e.eventTime ∧ e.train + 1 = h.length ∧
      (l1 ++ l2).countP isArrival = 0) ∧
    (e.function = EventFunc.departure →
      t.trainStatus = tStat.SERVICE ∨ t.trainStatus = tStat.DEPARTED) ∧
    (e.function = EventFunc.hogout ∨ e.function = EventFunc.newCrew →
      t.trainStatus ≠ tStat.ARRIVED ∧ (l1 ++ l2).countP (isChain e.train) = 0) ∧
    (e.function = EventFunc.hogout → t.crewStatus = cStat.ON_CLOCK) ∧
    (e.function = EventFunc.newCrew → t.crewStatus = cStat.HOGGED_OUT) := by
  have hm : e ∈ l1 ++ e :: l2 := by simp
  have ok := a.trains e.train t ht
  refine ⟨?_, ?_, ?_, ?_, ?_⟩
  · intro hf
    obtain ⟨h1, h2, h3⟩ := ok.arr e hm rfl hf
    exact ⟨h1, h2, h3, a.arr_last e hm hf, a.pop_arrival hf⟩
  · exact fun hf => ok.dep e hm rfl hf
  · intro hf
    refine ⟨?_, a.pop_chain hf⟩
    intro hs
    have := (ok.arrived hs).2.2 e hm rfl
    rcases hf with hf | hf <;> rw [hf] at this <;> exact absurd this (by decide)
  · exact fun hf => ok.hog e hm rfl hf
  · exact fun hf => ok.crew e hm rfl hf

/-- One call of `checkEvent` keeps the structural invariant. -/
theorem SInvA.of_checkEvent {s s2 : State} {i : Nat} {g : Gen} (a : SInvA s)
    (h : checkEvent i g s = some s2) : SInvA s2 := by
  obtain ⟨e, t, he, _, ht, hcase⟩ := checkEvent_some h
  obtain ⟨l1, l2, hq, hers⟩ := get?_split he
  have a2 : InvA (l1 ++ e :: l2) s.trainQ s.heap s.nextTrainId := hq ▸ a
  obtain ⟨p1, p2, p3, _, _⟩ := a2.popped ht
  rcases hcase with ⟨hd, rfl⟩ | ⟨hnd, hd⟩
  · show InvA (s.eventQ.eraseIdx i) s.trainQ (s.heap.set e.train none) s.nextTrainId
    rw [hers]
    exact a2.drop ht hd
  · have ast : SInvA (popAt i e s) := by
      show InvA (s.eventQ.eraseIdx i) s.trainQ s.heap s.nextTrainId
      rw [hers]
      exact a2.pop
    have hst : deref (popAt i e s) e.train = some t := ht
    have hq2 : (popAt i e s).eventQ = l1 ++ l2 := hers
    cases hf : e.function with
    | arrival =>
      rw [hf] at hd
      obtain ⟨h1, _, _, h4, h5⟩ := p1 hf
      exact ast.of_arrival hst h1 (hq2 ▸ h5) h4 hd
    | departure =>
      rw [hf] at hd
      rcases p2 hf with h1 | h1
      · exact ast.of_departure hst h1 hd
      · exact absurd h1 hnd
    | hogout =>
      rw [hf] at hd
      obtain ⟨h1, h2⟩ := p3 (Or.inl hf)
      exact ast.of_hogout hst h1 (hq2 ▸ h2) hd
    | newCrew =>
      rw [hf] at hd
      obtain ⟨h1, h2⟩ := p3 (Or.inr hf)
      exact ast.of_newCrew hst h1 (hq2 ▸ h2) hd

theorem SInvA.of_driverIter {s s2 : State} {i : Nat} {g : Gen} (a : SInvA s)
    (h : driverIter i g s = some s2) : SInvA s2 := by
  unfold driverIter at h
  simp only [Option.map_eq_some'] at h
  obtain ⟨s1, h1, rfl⟩ := h
  have b : SInvA s1 := a.of_checkEvent h1
  exact b

theorem InvA.empty : InvA [] [] [] 0 := by
  constructor
  · simp
  · simp
  · simp
  · simp
  · simp
  · simp
  · simp
  · intro p t hp
    simp [hget] at hp

theorem SInvA.of_mainInit {c : Config} {g : Gen} {s : State} (h : mainInit c g = some s) :
    SInvA s := by
  obtain ⟨ts, rest, rfl, _⟩ := mainInit_some h
  have := InvA.alloc InvA.empty (by simp) 0 0 ts.remainingCrewHours ts.unloadTime
  exact this

theorem SInvA.of_mainRun {c : Config} {g0 : Gen} {inputs : List (Nat × Gen)} {s : State}
    (h : mainRun c g0 inputs = some s) : SInvA s := by
  unfold mainRun at h
  simp only [Option.bind_eq_some] at h
  obtain ⟨s0, h0, h1⟩ := h
  exact driver_induction SInvA (fun _ _ _ _ hP _ hs => hP.of_driverIter hs)
    inputs s0 s (SInvA.of_mainInit h0) h1

/-! ## Arrival order

`InvB` orders the arrival times of the trains by their creation.  It needs the
arrival gaps to be non-negative.
-/

theorem SameArr.refl_arr (h : List (Option Train)) : SameArr h h :=
  fun _ u2 hu => ⟨u2, hu, rfl⟩

theorem SameArr.trans {h h2 h3 : List (Option Train)} (a : SameArr h h2) (b : SameArr h2 h3) :
    SameArr h h3 := by
  intro p u3 hu3
  obtain ⟨u2, hu2, e2⟩ := b p u3 hu3
  obtain ⟨u, hu, e1⟩ := a p u2 hu2
  exact ⟨u, hu, e1.trans e2⟩

theorem SameArr.set {h : List (Option Train)} {p : Nat} {t t1 : Train}
    (hp : hget h p = some t) (h1 : t1.arrivalTime = t.arrivalTime) :
    SameArr h (h.set p (some t1)) := by
  intro x u2 hu
  rcases hget_set_some_cases hu with ⟨rfl, rfl⟩ | ⟨_, hu2⟩
  · exact ⟨t, hp, h1.symm⟩
  · exact ⟨u2, hu2, rfl⟩

theorem SameArr.drop_arr (h : List (Option Train)) (p : Nat) : SameArr h (h.set p none) :=
  fun _ u2 hu => ⟨u2, (hget_set_none_some hu).2, rfl⟩

theorem InvB.of_sameArr {h h2 : List (Option Train)} {sched sched2 : List TrainSchedule}
    (b : InvB h sched) (hs : SameArr h h2) (hsub : ∀ ts ∈ sched2, ts ∈ sched) :
    InvB h2 sched2 := by
  constructor
  · intro p p2 t t2 hle hp hp2
    obtain ⟨u, hu, e1⟩ := hs p t hp
    obtain ⟨u2, hu2, e2⟩ := hs p2 t2 hp2
    rw [← e1, ← e2]
    exact b.arr_mono p p2 u u2 hle hu hu2
  · exact fun ts hts => b.gaps ts (hsub ts hts)

/-- The next train arrives no earlier than the train whose arrival creates
it. -/
theorem InvB.alloc_arr {h : List (Option Train)} {sched sched2 : List TrainSchedule} {p : Nat}
    {t : Train} (b : InvB h sched) (hp : hget h p = some t) (hlast : p + 1 = h.length)
    (hsub : ∀ ts ∈ sched2, ts ∈ sched) (nid cid : Int) (gap hT uT : ℚ) (hgap : 0 ≤ gap) :
    InvB (h ++ [some (newTrain nid cid (gap + t.arrivalTime) hT uT)]) sched2 := by
  constructor
  · intro x x2 u u2 hle hx hx2
    rcases hget_append_cases hx with ⟨rfl, rfl⟩ | ⟨hlt, hx⟩
    · rcases hget_append_cases hx2 with ⟨_, rfl⟩ | ⟨hlt2, _⟩
      · exact le_refl _
      · omega
    · rcases hget_append_cases hx2 with ⟨_, rfl⟩ | ⟨hlt2, hx2⟩
      · have := b.arr_mono x p u t (by omega) hx hp
        simp only [newTrain]
        linarith
      · exact b.arr_mono x x2 u u2 hle hx hx2
  · exact fun ts hts => b.gaps ts (hsub ts hts)

theorem departure_sameArr {st s2 : State} {p : Nat} {t : Train} (ht : deref st p = some t)
    (h : departure p st = some s2) :
    SameArr st.heap s2.heap ∧ s2.trainSchedule = st.trainSchedule := by
  by_cases hc : t.crewStatus = cStat.HOGGED_OUT
  · rw [departure_stale ht hc] at h
    rw [← Option.some.inj h]
    exact ⟨SameArr.refl_arr _, rfl⟩
  · have b : SameArr st.heap (st.heap.set p (some (departedTrain st.globalTime t))) :=
      SameArr.set ht rfl
    obtain ⟨stt, h3⟩ := departure_some ht hc h
    rcases h3 with ⟨_, rfl⟩ | ⟨front, rest, f, hl, hf, ⟨_, rfl⟩ | ⟨_, rfl⟩⟩
    · exact ⟨b, rfl⟩
    · exact ⟨b.trans (SameArr.set hf rfl), rfl⟩
    · exact ⟨b, rfl⟩

theorem hogout_sameArr {st s2 : State} {p : Nat} {t : Train} {g : Gen}
    (ht : deref st p = some t) (h : hogout p g st = some s2) :
    SameArr st.heap s2.heap ∧ s2.trainSchedule = st.trainSchedule := by
  obtain ⟨d, tt, rfl, _⟩ := hogout_some ht h
  exact ⟨SameArr.set ht rfl, rfl⟩

theorem newCrew_sameArr {st s2 : State} {p : Nat} {t : Train}
    (ht : deref st p = some t) (h : newCrew p st = some s2) :
    SameArr st.heap s2.heap ∧ s2.trainSchedule = st.trainSchedule := by
  have b : SameArr st.heap (st.heap.set p (some (crewOnTrain st.globalTime t))) :=
    SameArr.set ht rfl
  rcases newCrew_some ht h with
    ⟨_, hq, front, rest, f, hl, hf, hid, ⟨hfp, rfl⟩ | ⟨hfp, rfl⟩⟩ | ⟨hsv, rfl⟩ | ⟨hq, _, rfl⟩ |
      ⟨_, _, rfl⟩
  · exact ⟨b.trans (SameArr.set hf rfl), rfl⟩
  · exact ⟨b.trans (SameArr.set hf rfl), rfl⟩
  · exact ⟨b, rfl⟩
  · exact ⟨b, rfl⟩
  · exact ⟨b, rfl⟩

/-- The arrival handler keeps the arrival order. -/
theorem SInvB.of_arrival_arr {st s2 : State} {p : Nat} {t : Train} {g : Gen} (b : SInvB st)
    (ht : deref st p = some t) (hlast : p + 1 = st.heap.length)
    (hnow : t.arrivalTime = st.globalTime) (hg : 0 ≤ g.poisson)
    (h : arrival p g st = some s2) : SInvB s2 := by
  obtain ⟨s1, h1, ht1, h3⟩ := arrival_some ht h
  have b1 : SInvB s1 := by
    rcases arrivalNext_some h1 with rfl | ⟨ts, rest, rfl, hsrc⟩
    · exact b
    · have hgap : 0 ≤ ts.arrivalTime := by
        rcases hsrc with ⟨_, hl⟩ | ⟨_, _, hts, _⟩
        · exact b.gaps ts (by rw [hl]; simp)
        · rw [hts]; exact hg
      have hsub : ∀ x ∈ rest, x ∈ st.trainSchedule := by
        rcases hsrc with ⟨_, hl⟩ | ⟨_, _, _, hl⟩
        · intro x hx
          rw [hl]
          exact List.mem_cons_of_mem _ hx
        · intro x hx
          rw [← hl]
          exact hx
      have := InvB.alloc_arr b ht hlast hsub st.nextTrainId st.nextCrewId ts.arrivalTime
        ts.remainingCrewHours ts.unloadTime hgap
      rw [hnow] at this
      exact this
  rcases h3 with ⟨_, _, rfl⟩ | ⟨_, rfl⟩
  · exact InvB.of_sameArr b1 (SameArr.set ht1 rfl) (fun _ hx => hx)
  · exact InvB.of_sameArr b1 (SameArr.set ht1 rfl) (fun _ hx => hx)

/-- One call of `checkEvent` keeps the arrival order. -/
theorem SInvB.of_checkEvent_arr {s s2 : State} {i : Nat} {g : Gen} (a : SInvA s) (b : SInvB s)
    (hg : 0 ≤ g.poisson) (h : checkEvent i g s = some s2) : SInvB s2 := by
  obtain ⟨e, t, he, _, ht, hcase⟩ := checkEvent_some h
  obtain ⟨l1, l2, hq, hers⟩ := get?_split he
  have a2 : InvA (l1 ++ e :: l2) s.trainQ s.heap s.nextTrainId := hq ▸ a
  obtain ⟨p1, _, _, _, _⟩ := a2.popped ht
  rcases hcase with ⟨hd, rfl⟩ | ⟨hnd, hd⟩
  · exact InvB.of_sameArr b (SameArr.drop_arr _ _) (fun _ hx => hx)
  · have bst : SInvB (popAt i e s) := b
    have hst : deref (popAt i e s) e.train = some t := ht
    cases hf : e.function with
    | arrival =>
      rw [hf] at hd
      obtain ⟨_, h2, _, h4, _⟩ := p1 hf
      exact bst.of_arrival_arr hst h4 h2 hg hd
    | departure =>
      rw [hf] at hd
      obtain ⟨h1, h2⟩ := departure_sameArr hst hd
      exact InvB.of_sameArr bst h1 (fun x hx => by rw [h2] at hx; exact hx)
    | hogout =>
      rw [hf] at hd
      obtain ⟨h1, h2⟩ := hogout_sameArr hst hd
      exact InvB.of_sameArr bst h1 (fun x hx => by rw [h2] at hx; exact hx)
    | newCrew =>
      rw [hf] at hd
      obtain ⟨h1, h2⟩ := newCrew_sameArr hst hd
      exact InvB.of_sameArr bst h1 (fun x hx => by rw [h2] at hx; exact hx)

/-- Induction along the loop of `main` with a condition on the generator
outputs. -/
theorem driver_induction_gen (G : Gen → Prop) (P : State → Prop)
    (hstep : ∀ s i g s2, P s → G g → driverIter i g s = some s2 → P s2) :
    ∀ (inputs : List (Nat × Gen)), (∀ x ∈ inputs, G x.2) →
      ∀ (s s2 : State), P s → driver inputs s = some s2 → P s2 := by
  intro inputs
  induction inputs with
  | nil =>
    intro _ s s2 hP h
    simp only [driver, Option.some.injEq] at h
    exact h ▸ hP
  | cons x rest ih =>
    intro hG s s2 hP h
    obtain ⟨i, g⟩ := x
    simp only [driver] at h
    split at h
    · simp only [Option.bind_eq_some] at h
      obtain ⟨s1, h1, h2⟩ := h
      have hg : G g := hG (i, g) (List.mem_cons_self _ _)
      exact ih (fun y hy => hG y (List.mem_cons_of_mem _ hy)) s1 s2 (hstep s i g s1 hP hg h1) h2
    · exact absurd h (by simp)

theorem SInvB.of_mainRun_arr {c : Config} {g0 : Gen} {inputs : List (Nat × Gen)} {s : State}
    (hc : ∀ ts ∈ c.trainSchedule, 0 ≤ ts.arrivalTime) (hi : ∀ x ∈ inputs, 0 ≤ x.2.poisson)
    (h : mainRun c g0 inputs = some s) : SInvA s ∧ SInvB s := by
  unfold mainRun at h
  simp only [Option.bind_eq_some] at h
  obtain ⟨s0, h0, h1⟩ := h
  have a0 : SInvA s0 := SInvA.of_mainInit h0
  have b0 : SInvB s0 := by
    obtain ⟨ts, rest, rfl, hsrc⟩ := mainInit_some h0
    constructor
    · intro p p2 t t2 _ hp hp2
      have e1 : p = 0 := by have := hget_lt hp; simp at this; exact this
      have e2 : p2 = 0 := by have := hget_lt hp2; simp at this; exact this
      subst e1 e2
      rw [hp] at hp2
      rw [Option.some.inj hp2]
    · intro x hx
      apply hc
      rcases hsrc with ⟨_, hl⟩ | ⟨_, _, hl⟩
      · rw [hl]
        exact List.mem_cons_of_mem _ hx
      · rw [← hl]
        exact hx
  refine driver_induction_gen (fun g => 0 ≤ g.poisson) (fun s => SInvA s ∧ SInvB s) ?_
    inputs hi s0 s ⟨a0, b0⟩ h1
  intro s i g s2 hP hg hs
  unfold driverIter at hs
  simp only [Option.map_eq_some'] at hs
  obtain ⟨s1, hs1, rfl⟩ := hs
  have x1 : SInvA s1 := hP.1.of_checkEvent hs1
  have x2 : SInvB s1 := SInvB.of_checkEvent_arr hP.1 hP.2 hg hs1
  exact ⟨x1, x2⟩

/-- How one call of `checkEvent` changes the wait queue: not at all, by
appending a train, or by removing the head. -/
theorem checkEvent_trainQ {s s2 : State} {i : Nat} {g : Gen} (h : checkEvent i g s = some s2) :
    s2.trainQ = s.trainQ ∨ (∃ p, s2.trainQ = s.trainQ ++ [p]) ∨ (∃ p, s.trainQ = p :: s2.trainQ) := by
  obtain ⟨e, t, he, _, ht, hcase⟩ := checkEvent_some h
  rcases hcase with ⟨hd, rfl⟩ | ⟨hnd, hd⟩
  · exact Or.inl rfl
  · have hst : deref (popAt i e s) e.train = some t := ht
    cases hf : e.function with
    | arrival =>
      rw [hf] at hd
      obtain ⟨s1, h1, _, h3⟩ := arrival_some hst hd
      have hq : s1.trainQ = s.trainQ := by
        rcases arrivalNext_some h1 with rfl | ⟨ts, rest, rfl, _⟩ <;> rfl
      rcases h3 with ⟨_, _, rfl⟩ | ⟨_, rfl⟩
      · exact Or.inl hq
      · exact Or.inr (Or.inl ⟨e.train, by simp [enqueueAt, hq]⟩)
    | departure =>
      rw [hf] at hd
      by_cases hc : t.crewStatus = cStat.HOGGED_OUT
      · rw [show dispatch EventFunc.departure e.train g (popAt i e s)
            = departure e.train (popAt i e s) from rfl, departure_stale hst hc] at hd
        rw [← Option.some.inj hd]
        exact Or.inl rfl
      · obtain ⟨stt, h3⟩ := departure_some hst hc hd
        rcases h3 with ⟨_, rfl⟩ | ⟨front, rest, f, hl, hf, ⟨_, rfl⟩ | ⟨_, rfl⟩⟩
        · exact Or.inl rfl
        · exact Or.inr (Or.inr ⟨front, hl⟩)
        · exact Or.inl rfl
    | hogout =>
      rw [hf] at hd
      obtain ⟨d, tt, rfl, _⟩ := hogout_some hst hd
      exact Or.inl rfl
    | newCrew =>
      rw [hf] at hd
      rcases newCrew_some hst hd with
        ⟨_, hq, front, rest, f, hl, hf, hid, ⟨hfp, rfl⟩ | ⟨hfp, rfl⟩⟩ | ⟨hsv, rfl⟩ | ⟨hq, _, rfl⟩ |
          ⟨_, _, rfl⟩
      · exact Or.inr (Or.inr ⟨front, hl⟩)
      · exact Or.inr (Or.inr ⟨front, hl⟩)
      · exact Or.inl rfl
      · exact Or.inl rfl
      · exact Or.inl rfl

/-- The head of the wait queue has the earliest arrival among waiting trains. -/
theorem head_earliest {s : State} (a : SInvA s) (b : SInvB s) {p : Nat} {rest : List Nat}
    (hq : s.trainQ = p :: rest) :
    ∃ t, deref s p = some t ∧ t.trainStatus = tStat.INQ ∧
      ∀ p2 t2, deref s p2 = some t2 → t2.trainStatus = tStat.INQ →
        t.arrivalTime ≤ t2.arrivalTime := by
  obtain ⟨t, ht, hs⟩ := a.q_inq p (by rw [hq]; exact List.mem_cons_self _ _)
  refine ⟨t, ht, hs, ?_⟩
  intro p2 t2 ht2 hs2
  have hm : p2 ∈ s.trainQ := (a.trains p2 t2 ht2).inq hs2
  have hsort : (p :: rest).Pairwise (fun a b => a < b) := hq ▸ a.q_sorted
  rw [hq] at hm
  have hle : p ≤ p2 := by
    rcases List.mem_cons.1 hm with h1 | h1
    · omega
    · exact Nat.le_of_lt ((List.pairwise_cons.1 hsort).1 p2 h1)
  exact b.arr_mono p p2 t t2 hle ht ht2

/-- C6 (counterexample).  Replay input `backCfg`, whose third arrival gap is
-2.  Train 1 arrives at 5 and joins the queue; train 2, created then with
arrivalTime 5 - 2 = 3, has its arrival processed next and joins the queue
behind train 1.  After three iterations the queue is [1, 2], both trains are
INQ, and the event `top()` returns is the departure of train 0 at 10.  That
departure removes the head, train 1 (arrivalTime 5), while train 2
(arrivalTime 3) is still waiting: the train removed does not have the smallest
arrivalTime among the waiting trains. -/
theorem C6_counterexample :
    (mainRun backCfg hogGen backRun).map (fun s => (s.trainQ, s.eventQ.get? 0, isTop s.eventQ 0))
      = some ([1, 2],
          some { function := EventFunc.departure, train := 0, eventTime := 10 }, true) ∧
    (mainRun backCfg hogGen backRun).map
        (fun s => ((deref s 1).map (fun t => (t.trainStatus, t.arrivalTime)),
          (deref s 2).map (fun t => (t.trainStatus, t.arrivalTime))))
      = some (some (tStat.INQ, 5), some (tStat.INQ, 3)) ∧
    (mainRun backCfg hogGen (backRun ++ [(0, hogGen)])).map (fun s => (s.globalTime, s.trainQ))
      = some (10, [2]) ∧
    (mainRun backCfg hogGen (backRun ++ [(0, hogGen)])).map
        (fun s => ((deref s 1).map (fun t => (t.trainStatus, t.arrivalTime)),
          (deref s 2).map (fun t => (t.trainStatus, t.arrivalTime))))
      = some (some (tStat.SERVICE, 5), some (tStat.INQ, 3)) :=
  ⟨by decide!, by decide!, by decide!, by decide!⟩

/-- C6 (amended).  FIFO / head-of-line law.  Let `s` be a state reached by the
loop of `main` in a run whose arrival gaps (generated or pre-made) are not
negative, and let one more driver iteration lead from `s` to `s2`.  Then the wait queue
is unchanged, or one train is appended, or the train removed is the queue head
and it has the smallest arrivalTime among all trains with status INQ.  And
when the iteration is a Departure of a train whose crew is on the clock while
the crew of the queue head is HOGGED_OUT, no train is removed: the queue is
unchanged and the dock is left IDLE, whatever trains wait behind the head. -/
theorem C6_fifo_head_of_line (c : Config) (g0 : Gen) (inputs : List (Nat × Gen)) (s : State)
    (hgapc : ∀ ts ∈ c.trainSchedule, 0 ≤ ts.arrivalTime)
    (hgapi : ∀ x ∈ inputs, 0 ≤ x.2.poisson)
    (hrun : mainRun c g0 inputs = some s)
    (i : Nat) (g : Gen) (s2 : State) (hstep : driverIter i g s = some s2) :
    (s2.trainQ = s.trainQ ∨ (∃ p, s2.trainQ = s.trainQ ++ [p]) ∨
      ∃ p t, s.trainQ = p :: s2.trainQ ∧ deref s p = some t ∧ t.trainStatus = tStat.INQ ∧
        ∀ p2 t2, deref s p2 = some t2 → t2.trainStatus = tStat.INQ →
          t.arrivalTime ≤ t2.arrivalTime) ∧
    (∀ e t front rest f, s.eventQ.get? i = some e → e.function = EventFunc.departure →
      deref s e.train = some t → t.trainStatus ≠ tStat.DEPARTED →
      t.crewStatus = cStat.ON_CLOCK →
      s.trainQ = front :: rest → deref s front = some f → f.crewStatus = cStat.HOGGED_OUT →
      s2.trainQ = s.trainQ ∧ s2.dock.dockStatus = dStat.IDLE) := by
  obtain ⟨a, b⟩ := SInvB.of_mainRun_arr hgapc hgapi hrun
  unfold driverIter at hstep
  simp only [Option.map_eq_some'] at hstep
  obtain ⟨s1, h1, rfl⟩ := hstep
  constructor
  · rcases checkEvent_trainQ h1 with h2 | h2 | ⟨p, h2⟩
    · exact Or.inl h2
    · exact Or.inr (Or.inl h2)
    · right; right
      obtain ⟨t, ht, hs, hmin⟩ := head_earliest a b h2
      exact ⟨p, t, h2, ht, hs, hmin⟩
  · intro e t front rest f he hf ht hnd hc hq hfr hfc
    obtain ⟨e2, t2, he2, _, ht2, hcase⟩ := checkEvent_some h1
    rw [he] at he2
    have := Option.some.inj he2
    subst this
    rw [ht] at ht2
    have := Option.some.inj ht2
    subst this
    rcases hcase with ⟨hd, _⟩ | ⟨_, hd⟩
    · exact absurd hd hnd
    · rw [hf] at hd
      have hst : deref (popAt i e s) e.train = some t := ht
      have hc2 : t.crewStatus ≠ cStat.HOGGED_OUT := by rw [hc]; decide
      obtain ⟨stt, h3⟩ := departure_some hst hc2 hd
      have hq2 : (popAt i e s).trainQ = front :: rest := hq
      rcases h3 with ⟨hnil, _⟩ | ⟨front2, rest2, f2, hl, hf2, ⟨hon, _⟩ | ⟨_, rfl⟩⟩
      · rw [hq2] at hnil
        exact absurd hnil (by simp)
      · exfalso
        rw [hq2] at hl
        obtain ⟨e1, _⟩ := List.cons.inj hl
        subst e1
        rcases hget_set_some_cases hf2 with ⟨h4, _⟩ | ⟨_, h5⟩
        · rw [h4] at hfr
          rw [ht] at hfr
          rw [← Option.some.inj hfr, hc] at hfc
          exact absurd hfc (by decide)
        · have h6 : deref s front = some f2 := h5
          rw [hfr] at h6
          rw [← Option.some.inj h6, hfc] at hon
          exact absurd hon (by decide)
      · exact ⟨rfl, rfl⟩

/-- C6 (witness).  In the state after `blockRun` the queue is [1, 2] with the
crew of train 1 hogged out and train 2, which arrived later, on the clock.
The departure of train 0 at time 10 leaves the queue [1, 2] and the dock
IDLE. -/
theorem C6_fifo_head_of_line_witness :
    ((∀ ts ∈ (genCfg 1).trainSchedule, 0 ≤ ts.arrivalTime) ∧
     (∀ x ∈ blockRun, 0 ≤ x.2.poisson) ∧
     mainRun (genCfg 1) blockGenA blockRun = some blockBefore ∧
     driverIter 0 blockGenA blockBefore = some blockAfter) ∧
    (blockBefore.trainQ = [1, 2] ∧
     (deref blockBefore 1).map (fun t => (t.crewStatus, t.arrivalTime))
        = some (cStat.HOGGED_OUT, 1) ∧
     (deref blockBefore 2).map (fun t => (t.crewStatus, t.arrivalTime))
        = some (cStat.ON_CLOCK, 2) ∧
     blockAfter.globalTime = 10) ∧
    (blockAfter.trainQ = blockBefore.trainQ ∧ blockAfter.dock.dockStatus = dStat.IDLE) :=
  ⟨⟨by decide, by decide!, by decide!, by decide!⟩,
   ⟨by decide!, by decide!, by decide!, by decide!⟩,
   (C6_fifo_head_of_line (genCfg 1) blockGenA blockRun blockBefore (by decide) (by decide!)
      (by decide!) 0 blockGenA blockAfter (by decide!)).2
      { function := EventFunc.departure, train := 0, eventTime := 10 }
      { tid := 0, cid := 0, hogouts := 0, arrivalTime := 0, endQTime := 0, endDockTime := 0
        crewArrivalTime := 0, timeTillHogout := 100, unloadTime := 10
        trainStatus := tStat.SERVICE, crewStatus := cStat.ON_CLOCK }
      1 [2]
      { tid := 1, cid := 3, hogouts := 1, arrivalTime := 1, endQTime := 1, endDockTime := 1
        crewArrivalTime := 1, timeTillHogout := 2, unloadTime := 2
        trainStatus := tStat.INQ, crewStatus := cStat.HOGGED_OUT }
      (by decide!) rfl (by decide!) (by decide) rfl (by decide!) (by decide!) rfl⟩

/-! ## Time invariant

`InvC` says that no pending event lies in the past and orders the time stamps
of every train.  It needs the drawn values to be non-negative and the
replacement delays to be at most `SHIFT_TIME`.
-/

/-- A train keeps `TrainOKC` when the clock advances, its departures stay
pending and no other event of it is added. -/
theorem TrainOKC.frame_time {q q2 : List Event} {now now2 : ℚ} {p : Nat} {t : Train}
    (a : TrainOKC q now p t) (hnow : now ≤ now2)
    (hold : ∀ e ∈ q2, e.train = p → e.function ≠ EventFunc.departure → e ∈ q)
    (hdep : ∀ e ∈ q, e.train = p → e.function = EventFunc.departure → e ∈ q2) :
    TrainOKC q2 now2 p t := by
  constructor
  · exact a.unload
  · intro e he hp hf hs
    obtain ⟨e2, he2, h1, h2, h3⟩ := a.hogdep e (hold e he hp (by rw [hf]; decide)) hp hf hs
    exact ⟨e2, hdep e2 he2 h2 h1, h1, h2, h3⟩
  · exact fun e he hp hf => a.crew_tth e (hold e he hp (by rw [hf]; decide)) hp hf
  · exact a.arrived_tth
  · exact fun hs => le_trans (a.inq_time hs) hnow
  · exact fun hs => ⟨(a.svc_time hs).1, le_trans (a.svc_time hs).2 hnow⟩
  · exact a.dep_time

/-- The pre-made values may get fewer. -/
theorem InvC.inputs {q : List Event} {h : List (Option Train)} {now : ℚ}
    {sched sched2 : List TrainSchedule} {travel travel2 : List ℚ}
    (a : InvC q h now sched travel) (h1 : ∀ ts ∈ sched2, ts ∈ sched)
    (h2 : ∀ d ∈ travel2, d ∈ travel) : InvC q h now sched2 travel2 :=
  ⟨a.ev_ge, a.trains, fun ts hts => a.sched_ok ts (h1 ts hts),
    fun d hd => a.travel_ok d (h2 d hd)⟩

/-- Every train but the one of a popped departure keeps `TrainOKC` when the
top event is popped and the clock is set to its time. -/
theorem TrainOKC.pop_train {l1 l2 : List Event} {e : Event} {now : ℚ} {p : Nat} {t : Train}
    (a : TrainOKC (l1 ++ e :: l2) now p t) (hnow : now ≤ e.eventTime)
    (hne : e.train ≠ p ∨ e.function ≠ EventFunc.departure) :
    TrainOKC (l1 ++ l2) e.eventTime p t := by
  refine a.frame_time hnow (fun x hx _ _ => mem_pop hx) ?_
  intro x hx hp hf
  simp only [List.mem_append, List.mem_cons] at hx ⊢
  rcases hx with hx | hx | hx
  · exact Or.inl hx
  · subst hx
    rcases hne with hne | hne
    · exact absurd hp hne
    · exact absurd hf hne
  · exact Or.inr hx

/-- Popping a top event that is no departure keeps `InvC`, with the clock at
its time. -/
theorem InvC.pop_time {l1 l2 : List Event} {e : Event} {h : List (Option Train)} {now : ℚ}
    {sched : List TrainSchedule} {travel : List ℚ} (a : InvC (l1 ++ e :: l2) h now sched travel)
    (htop : ∀ x ∈ l1 ++ e :: l2, e.eventTime ≤ x.eventTime)
    (hne : e.function ≠ EventFunc.departure) :
    InvC (l1 ++ l2) h e.eventTime sched travel := by
  have hnow : now ≤ e.eventTime := a.ev_ge e (by simp)
  exact ⟨fun x hx => htop x (mem_pop hx),
    fun p t hp => (a.trains p t hp).pop_train hnow (Or.inr hne), a.sched_ok, a.travel_ok⟩

/-- Dropping the event of a departed train and freeing the train. -/
theorem InvC.drop_time {l1 l2 : List Event} {e : Event} {h : List (Option Train)} {now : ℚ}
    {sched : List TrainSchedule} {travel : List ℚ} (a : InvC (l1 ++ e :: l2) h now sched travel) :
    InvC (l1 ++ l2) (h.set e.train none) now sched travel := by
  refine ⟨fun x hx => a.ev_ge x (mem_pop hx), ?_, a.sched_ok, a.travel_ok⟩
  intro p t hp
  obtain ⟨hpe, hp2⟩ := hget_set_none_some hp
  refine (a.trains p t hp2).frame_time (le_refl _) (fun x hx _ _ => mem_pop hx) ?_
  intro x hx hxp _
  simp only [List.mem_append, List.mem_cons] at hx ⊢
  rcases hx with hx | hx | hx
  · exact Or.inl hx
  · subst hx
    exact absurd hxp.symm hpe
  · exact Or.inr hx

/-- Writing a train and pushing events of that train. -/
theorem InvC.set_push {q l : List Event} {h : List (Option Train)} {now : ℚ}
    {sched : List TrainSchedule} {travel : List ℚ} {p : Nat} {t1 : Train}
    (a : InvC q h now sched travel)
    (hxs : ∀ x ∈ l, x.train = p ∧ now ≤ x.eventTime)
    (ok : TrainOKC (q ++ l) now p t1) :
    InvC (q ++ l) (h.set p (some t1)) now sched travel := by
  refine ⟨?_, ?_, a.sched_ok, a.travel_ok⟩
  · intro e he
    rcases List.mem_append.1 he with he | he
    · exact a.ev_ge e he
    · exact (hxs e he).2
  · intro x u hu
    rcases hget_set_some_cases hu with ⟨rfl, rfl⟩ | ⟨hxp, hu2⟩
    · exact ok
    · refine (a.trains x u hu2).frame_time (le_refl _) ?_ (fun e he _ _ => List.mem_append_left _ he)
      intro e he hp _
      rcases List.mem_append.1 he with he | he
      · exact he
      · exact absurd ((hxs e he).1.symm.trans hp).symm hxp

/-- Pushing events of a train that keeps its record. -/
theorem InvC.push_time {q l : List Event} {h : List (Option Train)} {now : ℚ}
    {sched : List TrainSchedule} {travel : List ℚ} {p : Nat}
    (a : InvC q h now sched travel)
    (hxs : ∀ x ∈ l, x.train = p ∧ now ≤ x.eventTime)
    (ok : ∀ t, hget h p = some t → TrainOKC (q ++ l) now p t) :
    InvC (q ++ l) h now sched travel := by
  refine ⟨?_, ?_, a.sched_ok, a.travel_ok⟩
  · intro e he
    rcases List.mem_append.1 he with he | he
    · exact a.ev_ge e he
    · exact (hxs e he).2
  · intro x u hu
    by_cases hxp : x = p
    · subst hxp
      exact ok u hu
    · refine (a.trains x u hu).frame_time (le_refl _) ?_ (fun e he _ _ => List.mem_append_left _ he)
      intro e he hp _
      rcases List.mem_append.1 he with he | he
      · exact he
      · exact absurd ((hxs e he).1.symm.trans hp).symm hxp

theorem mem_push {q : List Event} {x e : Event} (he : e ∈ q ++ [x]) : e ∈ q ∨ e = x := by
  rcases List.mem_append.1 he with he | he
  · exact Or.inl he
  · exact Or.inr (List.mem_singleton.1 he)

/-- The head of the wait queue enters the dock: time invariant. -/
theorem InvC.startQ_time {q : List Event} {h : List (Option Train)} {now : ℚ}
    {sched : List TrainSchedule} {travel : List ℚ} {p : Nat} {f : Train}
    (c : InvC q h now sched travel) (hf : hget h p = some f)
    (hinq : f.trainStatus = tStat.INQ)
    (hnc : ∀ x ∈ q, x.train = p → x.function ≠ EventFunc.newCrew) :
    InvC (q ++ [{ function := EventFunc.departure, train := p
                  eventTime := f.unloadTime + now }])
      (h.set p (some (serviceTrain now f))) now sched travel := by
  have ok := c.trains p f hf
  refine c.set_push ?_ ?_
  · intro x hx
    rw [List.mem_singleton.1 hx]
    exact ⟨rfl, by have := ok.unload; simp only; linarith⟩
  · constructor
    · exact ok.unload
    · intro e he hp hfn _
      refine ⟨_, List.mem_append_right _ (List.mem_singleton_self _), rfl, rfl, ?_⟩
      simp only [serviceTrain]
      exact add_comm _ _
    · intro e he hp hfn
      rcases mem_push he with he | he
      · exact absurd hfn (hnc e he hp)
      · rw [he] at hfn
        simp at hfn
    · intro hs
      simp [serviceTrain] at hs
    · intro hs
      simp [serviceTrain] at hs
    · intro _
      exact ⟨ok.inq_time hinq, le_refl _⟩
    · intro hs
      simp [serviceTrain] at hs

/-- The hogout handler keeps the time invariant. -/
theorem SInvC.of_hogout_time {st s2 : State} {p : Nat} {t : Train} {g : Gen} (c : SInvC st)
    (hg : GoodGen g) (ht : deref st p = some t) (hs : t.trainStatus ≠ tStat.ARRIVED)
    (hnd : t.trainStatus ≠ tStat.DEPARTED)
    (hcnt : st.eventQ.countP (isChain p) = 0)
    (hle : t.trainStatus = tStat.SERVICE → st.globalTime ≤ t.endQTime + t.unloadTime)
    (h : hogout p g st = some s2) : SInvC s2 := by
  obtain ⟨d, tt, rfl, hsrc⟩ := hogout_some ht h
  have ok := c.trains p t ht
  have hd : 0 ≤ d ∧ d ≤ SHIFT_TIME := by
    rcases hsrc with ⟨_, hl⟩ | ⟨_, hl, _⟩
    · exact c.travel_ok d (by rw [hl]; simp)
    · rw [hl]; exact ⟨hg.2.2.2.1, hg.2.2.2.2⟩
  have hsub : ∀ x ∈ tt, x ∈ st.travelTime := by
    rcases hsrc with ⟨_, hl⟩ | ⟨_, _, hl⟩
    · intro x hx
      rw [hl]
      exact List.mem_cons_of_mem _ hx
    · intro x hx
      rw [← hl]
      exact hx
  have c2 : InvC
      (st.eventQ ++ [{ function := EventFunc.newCrew, train := p, eventTime := st.globalTime + d }])
      (st.heap.set p (some (hoggedTrain st.globalTime d st.nextCrewId t))) st.globalTime
      st.trainSchedule st.travelTime := by
    refine InvC.set_push c ?_ ?_
    · intro x hx
      rw [List.mem_singleton.1 hx]
      exact ⟨rfl, by simp only; linarith [hd.1]⟩
    · constructor
      · simp only [hoggedTrain]
        split
        · exact ok.unload
        · rename_i hq
          have hsv : t.trainStatus = tStat.SERVICE := by
            cases hst : t.trainStatus
            · exact absurd hst hs
            · exact absurd hst hq
            · rfl
            · exact absurd hst hnd
          have := hle hsv
          linarith
      · intro e he hp hfn _
        rcases mem_push he with he | he
        · exact absurd hfn (not_chain_of_count hcnt he hp).1
        · rw [he] at hfn
          simp at hfn
      · intro _ _ _ _
        simp only [hoggedTrain]
        linarith [hd.2]
      · intro hst
        exact absurd hst hs
      · exact ok.inq_time
      · exact ok.svc_time
      · exact ok.dep_time
  exact c2.inputs (fun _ hx => hx) hsub

/-- The structural invariant after `newCrew` has written the crew fields. -/
theorem InvA.crewOn {q : List Event} {tq : List Nat} {h : List (Option Train)} {nid : Int}
    {p : Nat} {t : Train} (a : InvA q tq h nid) (ht : hget h p = some t)
    (hs : t.trainStatus ≠ tStat.ARRIVED) (hcnt : q.countP (isChain p) = 0) (now : ℚ) :
    InvA q tq (h.set p (some (crewOnTrain now t))) nid := by
  refine InvA.set_q a ht ?_ (fun _ _ => Iff.rfl) ?_ a.q_sorted
  · exact (a.trains p t ht).crew_change hs hcnt rfl rfl
  · exact fun hm => (a.inq_of_mem ht hm : t.trainStatus = tStat.INQ)

/-- The crew-replacement handler keeps the time invariant. -/
theorem SInvC.of_newCrew_time {st s2 : State} {p : Nat} {t : Train} (a : SInvA st) (c : SInvC st)
    (ht : deref st p = some t) (hs : t.trainStatus ≠ tStat.ARRIVED)
    (hcnt : st.eventQ.countP (isChain p) = 0) (htth : 0 ≤ t.timeTillHogout)
    (h : newCrew p st = some s2) : SInvC s2 := by
  have hlt : p < st.heap.length := hget_lt ht
  have ok := c.trains p t ht
  have okOn : TrainOKC st.eventQ st.globalTime p (crewOnTrain st.globalTime t) := by
    constructor
    · exact ok.unload
    · exact fun e he hp hfn _ => absurd hfn (not_chain_of_count hcnt he hp).1
    · exact fun e he hp hfn => absurd hfn (not_chain_of_count hcnt he hp).2
    · exact fun hst => absurd hst hs
    · exact ok.inq_time
    · exact ok.svc_time
    · exact ok.dep_time
  have c1 : InvC st.eventQ (st.heap.set p (some (crewOnTrain st.globalTime t))) st.globalTime
      st.trainSchedule st.travelTime := by
    have := InvC.set_push (l := []) c (fun x hx => absurd hx (by simp))
      (by simpa using okOn)
    simpa using this
  have hself : hget (st.heap.set p (some (crewOnTrain st.globalTime t))) p
      = some (crewOnTrain st.globalTime t) := by
    simp [hget_set_some, hlt]
  rcases newCrew_some ht h with
    ⟨_, hq, front, rest, f, hl, hf, hid, ⟨hfp, rfl⟩ | ⟨hfp, _⟩⟩ | ⟨hsv, rfl⟩ | ⟨hq, _, rfl⟩ |
      ⟨_, _, rfl⟩
  · subst hfp
    have hf2 : hget (st.heap.set front (some (crewOnTrain st.globalTime t))) front = some f := hf
    rw [hself] at hf2
    have e1 := (Option.some.inj hf2).symm
    subst e1
    exact c1.startQ_time hself hq (fun x hx hp => (not_chain_of_count hcnt hx hp).2)
  · exfalso
    have hf2 : hget st.heap front = some f := by
      rcases hget_set_some_cases hf with ⟨h1, _⟩ | ⟨_, h2⟩
      · exact absurd h1 hfp
      · exact h2
    have e1 := (a.trains front f hf2).tid
    have e2 := (a.trains p t ht).tid
    rw [hid, e2] at e1
    exact hfp (by exact_mod_cast e1.symm)
  · show InvC
      (st.eventQ ++ [{ function := EventFunc.departure, train := p
                       eventTime := st.globalTime + t.unloadTime }])
      (st.heap.set p (some (crewOnTrain st.globalTime t))) st.globalTime st.trainSchedule
      st.travelTime
    refine InvC.push_time (p := p) c1 ?_ ?_
    · intro x hx
      rw [List.mem_singleton.1 hx]
      exact ⟨rfl, by simp only; linarith [ok.unload]⟩
    · intro u hu
      rw [hself] at hu
      rw [← Option.some.inj hu]
      refine okOn.frame_time (le_refl _) ?_ (fun e he _ _ => List.mem_append_left _ he)
      intro e he hp hfn
      rcases mem_push he with he | he
      · exact he
      · rw [he] at hfn
        simp at hfn
  · show InvC (st.eventQ ++ [nextHogout p t st])
      (st.heap.set p (some (crewOnTrain st.globalTime t))) st.globalTime st.trainSchedule
      st.travelTime
    refine InvC.push_time (p := p) c1 ?_ ?_
    · intro x hx
      rw [List.mem_singleton.1 hx]
      exact ⟨rfl, by simp only [nextHogout, crewOnTrain]; linarith⟩
    · intro u hu
      rw [hself] at hu
      rw [← Option.some.inj hu]
      constructor
      · exact ok.unload
      · intro e he hp hfn hst
        rw [show (crewOnTrain st.globalTime t).trainStatus = t.trainStatus from rfl, hq] at hst
        exact absurd hst (by decide)
      · intro e he hp hfn
        rcases mem_push he with he | he
        · exact absurd hfn (not_chain_of_count hcnt he hp).2
        · rw [he] at hfn
          simp [nextHogout] at hfn
      · exact fun hst => absurd hst hs
      · exact ok.inq_time
      · exact ok.svc_time
      · exact ok.dep_time
  · exact c1

/-- Creating the next train and scheduling its arrival: time invariant. -/
theorem InvC.alloc_time {q : List Event} {h : List (Option Train)} {now : ℚ}
    {sched : List TrainSchedule} {travel : List ℚ} (c : InvC q h now sched travel)
    (hptr : ∀ e ∈ q, e.train < h.length) (nid cid : Int) (gap hT uT : ℚ)
    (hgap : 0 ≤ gap) (hT0 : 0 ≤ hT) (hu0 : 0 ≤ uT) :
    InvC (q ++ [{ function := EventFunc.arrival, train := h.length, eventTime := gap + now }])
      (h ++ [some (newTrain nid cid (gap + now) hT uT)]) now sched travel := by
  refine ⟨?_, ?_, c.sched_ok, c.travel_ok⟩
  · intro e he
    rcases mem_push he with he | he
    · exact c.ev_ge e he
    · rw [he]
      simp only
      linarith
  · intro x u hu
    rcases hget_append_cases hu with ⟨rfl, rfl⟩ | ⟨hlt, hu2⟩
    · have hfn : ∀ e ∈ q ++ [(Event.mk EventFunc.arrival h.length (gap + now))],
          e.train = h.length → e.function = EventFunc.arrival := by
        intro e he hp
        rcases mem_push he with he | he
        · have := hptr e he
          omega
        · rw [he]
      constructor
      · exact hu0
      · intro e he hp hf
        rw [hfn e he hp] at hf
        exact absurd hf (by decide)
      · intro e he hp hf
        rw [hfn e he hp] at hf
        exact absurd hf (by decide)
      · exact fun _ => hT0
      · intro hs
        simp [newTrain] at hs
      · intro hs
        simp [newTrain] at hs
      · intro hs
        simp [newTrain] at hs
    · refine (c.trains x u hu2).frame_time (le_refl _) ?_ (fun e he _ _ => List.mem_append_left _ he)
      intro e he hp _
      rcases mem_push he with he | he
      · exact he
      · rw [he] at hp
        simp only at hp
        omega

/-- The arrival handler keeps the time invariant. -/
theorem SInvC.of_arrival_time {st s2 : State} {p : Nat} {t : Train} {g : Gen} (a : SInvA st)
    (c : SInvC st) (hg : GoodGen g) (ht : deref st p = some t)
    (hs : t.trainStatus = tStat.ARRIVED) (harr : t.arrivalTime = st.globalTime)
    (hcrew : t.crewArrivalTime = st.globalTime)
    (h0 : st.eventQ.countP isArrival = 0)
    (h : arrival p g st = some s2) : SInvC s2 := by
  obtain ⟨_, _, hev⟩ := (a.trains p t ht).arrived hs
  have hnone : ∀ e ∈ st.eventQ, e.train ≠ p := by
    intro e he hp
    have h1 := hev e he hp
    have h2 := (List.countP_eq_zero.1 h0) e he
    simp [isArrival, h1] at h2
  have ok := c.trains p t ht
  obtain ⟨s1, h1, ht1, h3⟩ := arrival_some ht h
  have c1 : SInvC s1 ∧ s1.globalTime = st.globalTime ∧ (∀ e ∈ s1.eventQ, e.train ≠ p) := by
    rcases arrivalNext_some h1 with rfl | ⟨ts, rest, rfl, hsrc⟩
    · exact ⟨c, rfl, hnone⟩
    · have hts : 0 ≤ ts.arrivalTime ∧ 0 ≤ ts.unloadTime ∧ 0 ≤ ts.remainingCrewHours := by
        rcases hsrc with ⟨_, hl⟩ | ⟨_, _, hts, _⟩
        · exact c.sched_ok ts (by rw [hl]; simp)
        · rw [hts]
          exact ⟨hg.1, hg.2.1, hg.2.2.1⟩
      have hsub : ∀ x ∈ rest, x ∈ st.trainSchedule := by
        rcases hsrc with ⟨_, hl⟩ | ⟨_, _, _, hl⟩
        · intro x hx
          rw [hl]
          exact List.mem_cons_of_mem _ hx
        · intro x hx
          rw [← hl]
          exact hx
      refine ⟨?_, rfl, ?_⟩
      · exact (InvC.alloc_time c a.ev_ptr st.nextTrainId st.nextCrewId ts.arrivalTime
          ts.remainingCrewHours ts.unloadTime hts.1 hts.2.2 hts.2.1).inputs hsub (fun _ hx => hx)
      · intro e he
        rcases mem_push he with he | he
        · exact hnone e he
        · rw [he]
          have := hget_lt ht
          simp only
          omega
  obtain ⟨c1, hnow, hnone1⟩ := c1
  have harr1 : t.arrivalTime = s1.globalTime := harr.trans hnow.symm
  have hcrew1 : t.crewArrivalTime = s1.globalTime := hcrew.trans hnow.symm
  rcases h3 with ⟨_, _, rfl⟩ | ⟨_, rfl⟩
  · show InvC (s1.eventQ ++
        [{ function := EventFunc.departure, train := p, eventTime := t.unloadTime + s1.globalTime },
         { function := EventFunc.hogout, train := p
           eventTime := (serviceTrain s1.globalTime t).timeTillHogout + s1.globalTime }])
      (s1.heap.set p (some (serviceTrain s1.globalTime t))) s1.globalTime s1.trainSchedule
      s1.travelTime
    refine InvC.set_push c1 ?_ ?_
    · intro x hx
      have h5 := ok.unload
      have h6 := ok.arrived_tth hs
      simp only [List.mem_cons, List.mem_singleton, List.not_mem_nil, or_false] at hx
      rcases hx with rfl | rfl
      · exact ⟨rfl, by simp only; linarith⟩
      · exact ⟨rfl, by simp only [serviceTrain]; linarith⟩
    · constructor
      · exact ok.unload
      · intro e he hp hfn _
        refine ⟨{ function := EventFunc.departure, train := p
                  eventTime := t.unloadTime + s1.globalTime }, by simp, rfl, rfl, ?_⟩
        simp only [serviceTrain]
        exact add_comm _ _
      · intro e he hp hfn
        rcases List.mem_append.1 he with he | he
        · exact absurd hp (hnone1 e he)
        · simp only [List.mem_cons, List.mem_singleton, List.not_mem_nil, or_false] at he
          rcases he with rfl | rfl <;> simp at hfn
      · intro hst
        simp [serviceTrain] at hst
      · intro hst
        simp [serviceTrain] at hst
      · intro _
        exact ⟨le_of_eq harr1, le_refl _⟩
      · intro hst
        simp [serviceTrain] at hst
  · show InvC (s1.eventQ ++
        [{ function := EventFunc.hogout, train := p, eventTime := t.timeTillHogout + s1.globalTime }])
      (s1.heap.set p (some { t with trainStatus := tStat.INQ })) s1.globalTime s1.trainSchedule
      s1.travelTime
    refine InvC.set_push c1 ?_ ?_
    · intro x hx
      have h6 := ok.arrived_tth hs
      rw [List.mem_singleton.1 hx]
      exact ⟨rfl, by simp only; linarith⟩
    · constructor
      · exact ok.unload
      · intro e he hp hfn hst
        simp at hst
      · intro e he hp hfn
        rcases mem_push he with he | he
        · exact absurd hp (hnone1 e he)
        · rw [he] at hfn
          simp at hfn
      · intro hst
        simp at hst
      · intro _
        exact le_of_eq harr1
      · intro hst
        simp at hst
      · intro hst
        simp at hst

/-- The departure handler keeps the time invariant.  The statement starts from
the state before the event is popped, because the popped departure is the one
a pending hogout of the train relies on. -/
theorem SInvC.of_departure_time {s s2 : State} {i : Nat} {e : Event} {t : Train}
    {l1 l2 : List Event} (a : SInvA s) (c : SInvC s) (hq : s.eventQ = l1 ++ e :: l2)
    (hers : s.eventQ.eraseIdx i = l1 ++ l2)
    (htop : ∀ x ∈ s.eventQ, e.eventTime ≤ x.eventTime)
    (ht : deref s e.train = some t) (hsv : t.trainStatus = tStat.SERVICE)
    (h : departure e.train (popAt i e s) = some s2) : SInvC s2 := by
  have a2 : InvA (l1 ++ e :: l2) s.trainQ s.heap s.nextTrainId := hq ▸ a
  have c2 : InvC (l1 ++ e :: l2) s.heap s.globalTime s.trainSchedule s.travelTime := hq ▸ c
  have hnow : s.globalTime ≤ e.eventTime := c2.ev_ge e (by simp)
  have ht2 : hget s.heap e.train = some t := ht
  have ok := c2.trains e.train t ht2
  have okA := a2.trains e.train t ht2
  have ap : InvA (l1 ++ l2) s.trainQ s.heap s.nextTrainId := a2.pop
  have hev : ∀ x ∈ l1 ++ l2, e.eventTime ≤ x.eventTime :=
    fun x hx => htop x (hq ▸ mem_pop hx)
  have hoth : ∀ x u, x ≠ e.train → hget s.heap x = some u →
      TrainOKC (l1 ++ l2) e.eventTime x u :=
    fun x u hx hu => (c2.trains x u hu).pop_train hnow (Or.inl (Ne.symm hx))
  have hst : deref (popAt i e s) e.train = some t := ht
  by_cases hc : t.crewStatus = cStat.HOGGED_OUT
  · rw [departure_stale hst hc] at h
    rw [← Option.some.inj h]
    show InvC (s.eventQ.eraseIdx i) s.heap e.eventTime s.trainSchedule s.travelTime
    rw [hers]
    refine ⟨hev, ?_, c2.sched_ok, c2.travel_ok⟩
    intro x u hu
    by_cases hx : x = e.train
    · subst hx
      rw [ht2] at hu
      rw [← Option.some.inj hu]
      constructor
      · exact ok.unload
      · intro y hy hp hfn _
        have := okA.hog y (mem_pop hy) hp hfn
        rw [hc] at this
        exact absurd this (by decide)
      · exact fun y hy hp hfn => ok.crew_tth y (mem_pop hy) hp hfn
      · exact ok.arrived_tth
      · exact fun hs => le_trans (ok.inq_time hs) hnow
      · exact fun hs => ⟨(ok.svc_time hs).1, le_trans (ok.svc_time hs).2 hnow⟩
      · exact ok.dep_time
    · exact hoth x u hx hu
  · obtain ⟨stt, h3⟩ := departure_some hst hc h
    have cd : InvC (l1 ++ l2) (s.heap.set e.train (some (departedTrain e.eventTime t)))
        e.eventTime s.trainSchedule s.travelTime := by
      refine ⟨hev, ?_, c2.sched_ok, c2.travel_ok⟩
      intro x u hu
      rcases hget_set_some_cases hu with ⟨hx, hu1⟩ | ⟨hxp, hu2⟩
      · subst hx
        subst hu1
        constructor
        · exact ok.unload
        · intro y hy hp hfn hs
          simp [departedTrain] at hs
        · exact fun y hy hp hfn => ok.crew_tth y (mem_pop hy) hp hfn
        · intro hs
          simp [departedTrain] at hs
        · intro hs
          simp [departedTrain] at hs
        · intro hs
          simp [departedTrain] at hs
        · intro _
          exact ⟨(ok.svc_time hsv).1, le_trans (ok.svc_time hsv).2 hnow⟩
      · exact hoth x u hxp hu2
    have hnq : e.train ∉ s.trainQ := by
      intro hm
      have := ap.inq_of_mem ht2 hm
      rw [hsv] at this
      exact absurd this (by decide)
    have ad : InvA (l1 ++ l2) s.trainQ
        (s.heap.set e.train (some (departedTrain e.eventTime t))) s.nextTrainId := by
      refine InvA.set_q ap ht2 ?_ (fun _ _ => Iff.rfl) (fun hm => absurd hm hnq) ap.q_sorted
      exact (ap.trains e.train t ht2).to_service (by rw [hsv]; decide) rfl rfl (Or.inr rfl)
    rcases h3 with ⟨_, rfl⟩ | ⟨front, rest, f, hl, hf, ⟨hon, rfl⟩ | ⟨_, rfl⟩⟩
    · show InvC (s.eventQ.eraseIdx i) (s.heap.set e.train (some (departedTrain e.eventTime t)))
        e.eventTime s.trainSchedule s.travelTime
      rw [hers]
      exact cd
    · show InvC (s.eventQ.eraseIdx i ++
          [{ function := EventFunc.departure, train := front
             eventTime := f.unloadTime + e.eventTime }])
        ((s.heap.set e.train (some (departedTrain e.eventTime t))).set front
          (some (serviceTrain e.eventTime f))) e.eventTime s.trainSchedule s.travelTime
      rw [hers]
      have hf2 : hget (s.heap.set e.train (some (departedTrain e.eventTime t))) front
          = some f := hf
      have hl2 : s.trainQ = front :: rest := hl
      have hinq : f.trainStatus = tStat.INQ :=
        ad.inq_of_mem hf2 (by rw [hl2]; exact List.mem_cons_self _ _)
      refine cd.startQ_time hf2 hinq ?_
      intro x hx hp hfn
      have := (ad.trains front f hf2).crew x hx hp hfn
      rw [hon] at this
      exact absurd this (by decide)
    · show InvC (s.eventQ.eraseIdx i) (s.heap.set e.train (some (departedTrain e.eventTime t)))
        e.eventTime s.trainSchedule s.travelTime
      rw [hers]
      exact cd

/-- One call of `checkEvent` keeps the time invariant. -/
theorem SInvC.of_checkEvent_time {s s2 : State} {i : Nat} {g : Gen} (a : SInvA s) (c : SInvC s)
    (hg : GoodGen g) (h : checkEvent i g s = some s2) : SInvC s2 := by
  obtain ⟨e, t, he, htop, ht, hcase⟩ := checkEvent_some h
  obtain ⟨l1, l2, hq, hers⟩ := get?_split he
  have a2 : InvA (l1 ++ e :: l2) s.trainQ s.heap s.nextTrainId := hq ▸ a
  have c2 : InvC (l1 ++ e :: l2) s.heap s.globalTime s.trainSchedule s.travelTime := hq ▸ c
  have hle := isTop_le he htop
  have hm : e ∈ l1 ++ e :: l2 := by simp
  have ht2 : hget s.heap e.train = some t := ht
  have ok := c2.trains e.train t ht2
  obtain ⟨p1, p2, p3, _, _⟩ := a2.popped ht
  rcases hcase with ⟨hd, rfl⟩ | ⟨hnd, hd⟩
  · show InvC (s.eventQ.eraseIdx i) (s.heap.set e.train none) s.globalTime s.trainSchedule
      s.travelTime
    rw [hers]
    exact c2.drop_time
  · have hst : deref (popAt i e s) e.train = some t := ht
    have hq2 : (popAt i e s).eventQ = l1 ++ l2 := hers
    have ast : SInvA (popAt i e s) := by
      show InvA (s.eventQ.eraseIdx i) s.trainQ s.heap s.nextTrainId
      rw [hers]
      exact a2.pop
    have cst : e.function ≠ EventFunc.departure → SInvC (popAt i e s) := by
      intro hne
      show InvC (s.eventQ.eraseIdx i) s.heap e.eventTime s.trainSchedule s.travelTime
      rw [hers]
      exact c2.pop_time (hq ▸ hle) hne
    cases hf : e.function with
    | arrival =>
      rw [hf] at hd
      obtain ⟨h1, h2, h3, _, h5⟩ := p1 hf
      exact SInvC.of_arrival_time ast (cst (by rw [hf]; decide)) hg hst h1 h2 h3 (hq2 ▸ h5) hd
    | departure =>
      rw [hf] at hd
      rcases p2 hf with h1 | h1
      · exact SInvC.of_departure_time a c hq hers hle ht h1 hd
      · exact absurd h1 hnd
    | hogout =>
      rw [hf] at hd
      obtain ⟨h1, h2⟩ := p3 (Or.inl hf)
      refine SInvC.of_hogout_time (cst (by rw [hf]; decide)) hg hst h1 hnd (hq2 ▸ h2) ?_ hd
      intro hsv
      obtain ⟨e2, he2, _, _, h6⟩ := ok.hogdep e hm rfl hf hsv
      have := hle e2 (hq ▸ he2)
      rw [h6] at this
      exact this
    | newCrew =>
      rw [hf] at hd
      obtain ⟨h1, h2⟩ := p3 (Or.inr hf)
      exact SInvC.of_newCrew_time ast (cst (by rw [hf]; decide)) hst h1 (hq2 ▸ h2)
        (ok.crew_tth e hm rfl hf) hd

theorem InvC.empty_time {sched : List TrainSchedule} {travel : List ℚ}
    (h1 : ∀ ts ∈ sched, 0 ≤ ts.arrivalTime ∧ 0 ≤ ts.unloadTime ∧ 0 ≤ ts.remainingCrewHours)
    (h2 : ∀ d ∈ travel, 0 ≤ d ∧ d ≤ SHIFT_TIME) : InvC [] [] 0 sched travel := by
  refine ⟨by simp, ?_, h1, h2⟩
  intro p t hp
  simp [hget] at hp

theorem SInvC.of_mainInit_time {c : Config} {g : Gen} {s : State} (hc : GoodConfig c)
    (hg : GoodGen g) (h : mainInit c g = some s) : SInvC s := by
  obtain ⟨ts, rest, rfl, hsrc⟩ := mainInit_some h
  have hts : 0 ≤ ts.unloadTime ∧ 0 ≤ ts.remainingCrewHours := by
    rcases hsrc with ⟨_, hl⟩ | ⟨_, hts, _⟩
    · have := hc.1 ts (by rw [hl]; simp)
      exact ⟨this.2.1, this.2.2⟩
    · rw [hts]
      exact ⟨hg.2.1, hg.2.2.1⟩
  have hsub : ∀ x ∈ rest, x ∈ c.trainSchedule := by
    rcases hsrc with ⟨_, hl⟩ | ⟨_, _, hl⟩
    · intro x hx
      rw [hl]
      exact List.mem_cons_of_mem _ hx
    · intro x hx
      rw [hl] at hx
      exact hx
  have := InvC.alloc_time (InvC.empty_time (fun x hx => hc.1 x (hsub x hx)) hc.2) (by simp) 0 0 0
    ts.remainingCrewHours ts.unloadTime (le_refl _) hts.2 hts.1
  simp only [zero_add, List.nil_append, List.length_nil] at this
  exact this

/-- Every state reached by the loop of `main` satisfies the structural and the
time invariant, when the pre-made and the drawn values are admissible. -/
theorem SInvC.of_mainRun_time {c : Config} {g0 : Gen} {inputs : List (Nat × Gen)} {s : State}
    (hc : GoodConfig c) (hg0 : GoodGen g0) (hi : ∀ x ∈ inputs, GoodGen x.2)
    (h : mainRun c g0 inputs = some s) : SInvA s ∧ SInvC s := by
  unfold mainRun at h
  simp only [Option.bind_eq_some] at h
  obtain ⟨s0, h0, h1⟩ := h
  refine driver_induction_gen GoodGen (fun s => SInvA s ∧ SInvC s) ?_
    inputs hi s0 s ⟨SInvA.of_mainInit h0, SInvC.of_mainInit_time hc hg0 h0⟩ h1
  intro s i g s2 hP hg hs
  unfold driverIter at hs
  simp only [Option.map_eq_some'] at hs
  obtain ⟨s1, hs1, rfl⟩ := hs
  have x1 : SInvA s1 := hP.1.of_checkEvent hs1
  have x2 : SInvC s1 := SInvC.of_checkEvent_time hP.1 hP.2 hg hs1
  exact ⟨x1, x2⟩

/-- No handler writes the clock. -/
theorem dispatch_globalTime {f : EventFunc} {p : Nat} {g : Gen} {s s2 : State} {t : Train}
    (ht : deref s p = some t) (h : dispatch f p g s = some s2) :
    s2.globalTime = s.globalTime := by
  cases f with
  | arrival =>
    obtain ⟨s1, h1, _, h3⟩ := arrival_some ht h
    have e1 : s1.globalTime = s.globalTime := by
      rcases arrivalNext_some h1 with rfl | ⟨ts, rest, rfl, _⟩ <;> rfl
    rcases h3 with ⟨_, _, rfl⟩ | ⟨_, rfl⟩
    · exact e1
    · exact e1
  | departure =>
    by_cases hc : t.crewStatus = cStat.HOGGED_OUT
    · have h2 : departure p s = some s2 := h
      rw [departure_stale ht hc] at h2
      rw [← Option.some.inj h2]
    · obtain ⟨st, h3⟩ := departure_some ht hc h
      rcases h3 with ⟨_, rfl⟩ | ⟨front, rest, f, _, _, ⟨_, rfl⟩ | ⟨_, rfl⟩⟩ <;> rfl
  | hogout =>
    obtain ⟨d, tt, rfl, _⟩ := hogout_some ht h
    rfl
  | newCrew =>
    rcases newCrew_some ht h with
      ⟨_, _, front, rest, f, _, _, _, ⟨_, rfl⟩ | ⟨_, rfl⟩⟩ | ⟨_, rfl⟩ | ⟨_, _, rfl⟩ | ⟨_, _, rfl⟩ <;>
      rfl

/-- One driver iteration leaves the clock alone or sets it to the time of the
event it extracts. -/
theorem driverIter_globalTime {i : Nat} {g : Gen} {s s2 : State}
    (h : driverIter i g s = some s2) :
    ∃ e, s.eventQ.get? i = some e ∧
      (s2.globalTime = s.globalTime ∨ s2.globalTime = e.eventTime) := by
  unfold driverIter at h
  simp only [Option.map_eq_some'] at h
  obtain ⟨s1, h1, rfl⟩ := h
  obtain ⟨e, t, he, _, ht, ⟨_, rfl⟩ | ⟨_, hd⟩⟩ := checkEvent_some h1
  · exact ⟨e, he, Or.inl rfl⟩
  · have ht2 : deref (popAt i e s) e.train = some t := ht
    have := dispatch_globalTime ht2 hd
    exact ⟨e, he, Or.inr this⟩

/-- In exact arithmetic (the first embedding): let `s` be a state reached by
the loop of `main` in a run whose pre-made and drawn values (arrival gap,
unload duration, remaining shift, replacement delay) are not negative and whose
replacement delays are at most `SHIFT_TIME`.  Then every train of `s` whose
trainStatus is DEPARTED satisfies endDockTime ≥ endQTime ≥ arrivalTime. -/
theorem departed_times_ordered_exact (c : Config) (g0 : Gen) (inputs : List (Nat × Gen))
    (s : State) (hc : GoodConfig c) (hg0 : GoodGen g0) (hi : ∀ x ∈ inputs, GoodGen x.2)
    (hrun : mainRun c g0 inputs = some s) (p : Nat) (t : Train)
    (ht : deref s p = some t) (hd : t.trainStatus = tStat.DEPARTED) :
    t.endDockTime ≥ t.endQTime ∧ t.endQTime ≥ t.arrivalTime := by
  obtain ⟨_, x⟩ := SInvC.of_mainRun_time hc hg0 hi hrun
  have := (x.trains p t ht).dep_time hd
  exact ⟨this.2, this.1⟩

/-- In exact arithmetic (the first embedding): let `s` be a state reached by
the loop of `main` in a run whose pre-made and drawn values are not negative
and whose replacement delays are at most `SHIFT_TIME`.  Then every event
pending in `s` has eventTime ≥ globalTime; and every further driver iteration,
from `s` to `s2`, leaves globalTime equal to or greater than its value in `s`,
and either does not change it or sets it to the time of the event it
extracts. -/
theorem time_never_decreases_exact (c : Config) (g0 : Gen) (inputs : List (Nat × Gen))
    (s : State) (hc : GoodConfig c) (hg0 : GoodGen g0) (hi : ∀ x ∈ inputs, GoodGen x.2)
    (hrun : mainRun c g0 inputs = some s) :
    (∀ e ∈ s.eventQ, e.eventTime ≥ s.globalTime) ∧
    (∀ i g s2, driverIter i g s = some s2 →
      s2.globalTime ≥ s.globalTime ∧
      (s2.globalTime = s.globalTime ∨
        ∃ e, s.eventQ.get? i = some e ∧ s2.globalTime = e.eventTime)) := by
  obtain ⟨_, x⟩ := SInvC.of_mainRun_time hc hg0 hi hrun
  refine ⟨x.ev_ge, ?_⟩
  intro i g s2 hstep
  obtain ⟨e, he, h1 | h1⟩ := driverIter_globalTime hstep
  · exact ⟨by rw [h1], Or.inl h1⟩
  · refine ⟨?_, Or.inr ⟨e, he, h1⟩⟩
    rw [h1]
    exact x.ev_ge e (List.get?_mem he)

/-! ## Pending events per train

`InvE` bounds the number of pending events that target one train and says
that every pending event targets a train that is still stored.
-/

theorem evCount_append (q l : List Event) (p : Nat) :
    evCount (q ++ l) p = evCount q p + evCount l p := by
  simp [evCount, List.countP_append]

theorem evCount_split (l1 l2 : List Event) (e : Event) (p : Nat) :
    evCount (l1 ++ e :: l2) p = evCount (l1 ++ l2) p + (if e.train = p then 1 else 0) := by
  simp only [evCount, List.countP_append, List.countP_cons, decide_eq_true_eq]
  omega

theorem evCount_eq_length {l : List Event} {p : Nat} (h : ∀ x ∈ l, x.train = p) :
    evCount l p = l.length := by
  unfold evCount
  rw [List.countP_eq_length]
  intro x hx
  simp [h x hx]

theorem evCount_eq_zero {l : List Event} {p : Nat} :
    evCount l p = 0 ↔ ∀ x ∈ l, x.train ≠ p := by
  unfold evCount
  rw [List.countP_eq_zero]
  simp

/-- Popping an event: the invariant is kept, and the train of the popped event
is now the target of fewer events than its bound. -/
theorem InvE.pop_ev {l1 l2 : List Event} {e : Event} {h : List (Option Train)}
    (a : InvE (l1 ++ e :: l2) h) :
    InvE (l1 ++ l2) h ∧
      ∀ t, hget h e.train = some t → evCount (l1 ++ l2) e.train + 1 ≤ evBound t.trainStatus := by
  refine ⟨⟨fun x hx => a.live x (mem_pop hx), ?_⟩, ?_⟩
  · intro p t hp
    have := a.bound p t hp
    rw [evCount_split] at this
    omega
  · intro t ht
    have := a.bound e.train t ht
    rw [evCount_split] at this
    simpa using this

/-- Dropping the last event of a departed train and freeing the train. -/
theorem InvE.drop_ev {l1 l2 : List Event} {e : Event} {h : List (Option Train)} {t : Train}
    (a : InvE (l1 ++ e :: l2) h) (ht : hget h e.train = some t)
    (hd : t.trainStatus = tStat.DEPARTED) :
    InvE (l1 ++ l2) (h.set e.train none) ∧ ∀ x ∈ l1 ++ l2, x.train ≠ e.train := by
  obtain ⟨b, hs⟩ := a.pop_ev
  have h0 : evCount (l1 ++ l2) e.train = 0 := by
    have := hs t ht
    rw [hd] at this
    simp only [evBound] at this
    omega
  have hne := evCount_eq_zero.1 h0
  refine ⟨⟨?_, ?_⟩, hne⟩
  · intro x hx
    obtain ⟨u, hu⟩ := b.live x hx
    refine ⟨u, ?_⟩
    rw [hget_set_none]
    simp [hne x hx, hu]
  · intro p u hu
    exact b.bound p u (hget_set_none_some hu).2

/-- Writing a train and pushing events of that train. -/
theorem InvE.set_push_ev {q l : List Event} {h : List (Option Train)} {p : Nat} {t t1 : Train}
    (a : InvE q h) (hp : hget h p = some t) (hl : ∀ x ∈ l, x.train = p)
    (hb : evCount q p + l.length ≤ evBound t1.trainStatus) :
    InvE (q ++ l) (h.set p (some t1)) := by
  have hlt := hget_lt hp
  constructor
  · intro x hx
    rw [hget_set_some]
    by_cases hxp : x.train = p
    · exact ⟨t1, by simp [hxp, hlt]⟩
    · rcases List.mem_append.1 hx with hx | hx
      · obtain ⟨u, hu⟩ := a.live x hx
        exact ⟨u, by simp [hxp, hu]⟩
      · exact absurd (hl x hx) hxp
  · intro x u hu
    rcases hget_set_some_cases hu with ⟨rfl, rfl⟩ | ⟨hxp, hu2⟩
    · rw [evCount_append, evCount_eq_length hl]
      exact hb
    · have h0 : evCount l x = 0 := by
        apply evCount_eq_zero.2
        intro y hy hyx
        exact hxp ((hl y hy).symm.trans hyx).symm
      rw [evCount_append, h0]
      exact a.bound x u hu2

/-- Writing a train whose status keeps its bound. -/
theorem InvE.set_ev {q : List Event} {h : List (Option Train)} {p : Nat} {t t1 : Train}
    (a : InvE q h) (hp : hget h p = some t)
    (hb : evCount q p ≤ evBound t1.trainStatus) : InvE q (h.set p (some t1)) := by
  have := a.set_push_ev (l := []) hp (fun x hx => absurd hx (by simp)) (by simpa using hb)
  simpa using this

/-- Creating the next train and scheduling its arrival. -/
theorem InvE.alloc_ev {q : List Event} {h : List (Option Train)} (a : InvE q h)
    (hptr : ∀ e ∈ q, e.train < h.length) (t0 : Train) (time : ℚ) :
    InvE (q ++ [{ function := EventFunc.arrival, train := h.length, eventTime := time }])
      (h ++ [some t0]) := by
  have hz : evCount q h.length = 0 := by
    apply evCount_eq_zero.2
    intro x hx
    have := hptr x hx
    omega
  constructor
  · intro x hx
    rw [hget_append]
    rcases mem_push hx with hx | hx
    · obtain ⟨u, hu⟩ := a.live x hx
      have := hptr x hx
      exact ⟨u, by simp [Nat.ne_of_lt this, hu]⟩
    · exact ⟨t0, by simp [hx]⟩
  · intro x u hu
    rw [evCount_append]
    rcases hget_append_cases hu with ⟨rfl, rfl⟩ | ⟨hlt, hu2⟩
    · rw [hz]
      have : evBound u.trainStatus ≥ 1 := by cases u.trainStatus <;> simp [evBound]
      simp only [evCount, List.countP_cons, List.countP_nil, decide_True, if_true]
      omega
    · have h0 : evCount [Event.mk EventFunc.arrival h.length time] x = 0 := by
        apply evCount_eq_zero.2
        intro y hy
        rw [List.mem_singleton.1 hy]
        simp only
        omega
      rw [h0]
      exact a.bound x u hu2

theorem evBound_le (x : tStat) : evBound x ≤ 2 := by
  cases x <;> simp [evBound]

/-- The hogout handler keeps the event-count invariant. -/
theorem SInvE.of_hogout_ev {st s2 : State} {p : Nat} {t : Train} {g : Gen} (b : SInvE st)
    (ht : deref st p = some t) (hb : evCount st.eventQ p + 1 ≤ evBound t.trainStatus)
    (h : hogout p g st = some s2) : SInvE s2 := by
  obtain ⟨d, tt, rfl, _⟩ := hogout_some ht h
  show InvE (st.eventQ ++ [Event.mk EventFunc.newCrew p (st.globalTime + d)])
    (st.heap.set p (some (hoggedTrain st.globalTime d st.nextCrewId t)))
  exact InvE.set_push_ev b ht (by simp) (by simpa [hoggedTrain] using hb)

/-- The crew-replacement handler keeps the event-count invariant. -/
theorem SInvE.of_newCrew_ev {st s2 : State} {p : Nat} {t : Train} (a : SInvA st) (b : SInvE st)
    (ht : deref st p = some t) (hb : evCount st.eventQ p + 1 ≤ evBound t.trainStatus)
    (h : newCrew p st = some s2) : SInvE s2 := by
  have hlt : p < st.heap.length := hget_lt ht
  have hself : hget (st.heap.set p (some (crewOnTrain st.globalTime t))) p
      = some (crewOnTrain st.globalTime t) := by
    simp [hget_set_some, hlt]
  have hb0 : evCount st.eventQ p ≤ evBound t.trainStatus := by omega
  have b1 : InvE st.eventQ (st.heap.set p (some (crewOnTrain st.globalTime t))) :=
    InvE.set_ev b ht (by simpa [crewOnTrain] using hb0)
  rcases newCrew_some ht h with
    ⟨_, hq, front, rest, f, hl, hf, hid, ⟨hfp, rfl⟩ | ⟨hfp, _⟩⟩ | ⟨hsv, rfl⟩ | ⟨hq, _, rfl⟩ |
      ⟨_, _, rfl⟩
  · subst hfp
    show InvE (st.eventQ ++ [Event.mk EventFunc.departure front (f.unloadTime + st.globalTime)])
      ((st.heap.set front (some (crewOnTrain st.globalTime t))).set front
        (some (serviceTrain st.globalTime f)))
    refine InvE.set_push_ev b1 hself (by simp) ?_
    rw [hq] at hb
    simp only [evBound] at hb
    simp only [serviceTrain, evBound, List.length_singleton]
    omega
  · exfalso
    have hf2 : hget st.heap front = some f := by
      rcases hget_set_some_cases hf with ⟨h1, _⟩ | ⟨_, h2⟩
      · exact absurd h1 hfp
      · exact h2
    have e1 := (a.trains front f hf2).tid
    have e2 := (a.trains p t ht).tid
    rw [hid, e2] at e1
    exact hfp (by exact_mod_cast e1.symm)
  · show InvE (st.eventQ ++ [Event.mk EventFunc.departure p (st.globalTime + t.unloadTime)])
      (st.heap.set p (some (crewOnTrain st.globalTime t)))
    exact InvE.set_push_ev b ht (by simp) (by simpa [crewOnTrain] using hb)
  · show InvE (st.eventQ ++ [nextHogout p t st])
      (st.heap.set p (some (crewOnTrain st.globalTime t)))
    exact InvE.set_push_ev b ht (by simp [nextHogout]) (by simpa [crewOnTrain] using hb)
  · exact b1

/-- The departure handler keeps the event-count invariant. -/
theorem SInvE.of_departure_ev {st s2 : State} {p : Nat} {t : Train} (a : SInvA st)
    (b : SInvE st) (ht : deref st p = some t)
    (hb : evCount st.eventQ p + 1 ≤ evBound t.trainStatus)
    (h : departure p st = some s2) : SInvE s2 := by
  by_cases hc : t.crewStatus = cStat.HOGGED_OUT
  · rw [departure_stale ht hc] at h
    exact (Option.some.inj h) ▸ b
  · obtain ⟨stt, h3⟩ := departure_some ht hc h
    have b1 : InvE st.eventQ (st.heap.set p (some (departedTrain st.globalTime t))) := by
      refine InvE.set_ev b ht ?_
      have := evBound_le t.trainStatus
      simp only [departedTrain, evBound]
      omega
    rcases h3 with ⟨_, rfl⟩ | ⟨front, rest, f, hl, hf, ⟨_, rfl⟩ | ⟨_, rfl⟩⟩
    · exact b1
    · have hf2 : hget (st.heap.set p (some (departedTrain st.globalTime t))) front = some f := hf
      have hfb : evCount st.eventQ front + 1 ≤ 2 := by
        have := b1.bound front f hf2
        rcases hget_set_some_cases hf2 with ⟨_, rfl⟩ | ⟨_, hu⟩
        · simp only [departedTrain, evBound] at this
          omega
        · have hm : front ∈ st.trainQ := by
            rw [hl]
            exact List.mem_cons_self _ _
          have hi := a.inq_of_mem hu hm
          rw [hi] at this
          simp only [evBound] at this
          omega
      show InvE (st.eventQ ++ [Event.mk EventFunc.departure front (f.unloadTime + st.globalTime)])
        ((st.heap.set p (some (departedTrain st.globalTime t))).set front
          (some (serviceTrain st.globalTime f)))
      exact InvE.set_push_ev b1 hf2 (by simp) (by simpa [serviceTrain, evBound] using hfb)
    · exact b1

/-- The arrival handler keeps the event-count invariant. -/
theorem SInvE.of_arrival_ev {st s2 : State} {p : Nat} {t : Train} {g : Gen} (a : SInvA st)
    (b : SInvE st) (ht : deref st p = some t) (h0 : evCount st.eventQ p = 0)
    (h : arrival p g st = some s2) : SInvE s2 := by
  obtain ⟨s1, h1, ht1, h3⟩ := arrival_some ht h
  have hlt := hget_lt ht
  have b1 : SInvE s1 ∧ evCount s1.eventQ p = 0 := by
    rcases arrivalNext_some h1 with rfl | ⟨ts, rest, rfl, _⟩
    · exact ⟨b, h0⟩
    · refine ⟨InvE.alloc_ev b a.ev_ptr _ _, ?_⟩
      show evCount (st.eventQ ++
        [Event.mk EventFunc.arrival st.heap.length (ts.arrivalTime + st.globalTime)]) p = 0
      rw [evCount_append, h0, Nat.zero_add]
      apply evCount_eq_zero.2
      intro y hy
      rw [List.mem_singleton.1 hy]
      simp only
      omega
  obtain ⟨b1, h01⟩ := b1
  rcases h3 with ⟨_, _, rfl⟩ | ⟨_, rfl⟩
  · show InvE (s1.eventQ ++
        [Event.mk EventFunc.departure p (t.unloadTime + s1.globalTime),
         Event.mk EventFunc.hogout p ((serviceTrain s1.globalTime t).timeTillHogout
           + s1.globalTime)])
      (s1.heap.set p (some (serviceTrain s1.globalTime t)))
    exact InvE.set_push_ev b1 ht1 (by simp) (by simp [serviceTrain, evBound, h01])
  · show InvE (s1.eventQ ++ [Event.mk EventFunc.hogout p (t.timeTillHogout + s1.globalTime)])
      (s1.heap.set p (some { t with trainStatus := tStat.INQ }))
    exact InvE.set_push_ev b1 ht1 (by simp) (by simp [evBound, h01])

/-- One call of `checkEvent` keeps the event-count invariant. -/
theorem SInvE.of_checkEvent_ev {s s2 : State} {i : Nat} {g : Gen} (a : SInvA s) (b : SInvE s)
    (h : checkEvent i g s = some s2) : SInvE s2 := by
  obtain ⟨e, t, he, _, ht, hcase⟩ := checkEvent_some h
  obtain ⟨l1, l2, hq, hers⟩ := get?_split he
  have a2 : InvA (l1 ++ e :: l2) s.trainQ s.heap s.nextTrainId := hq ▸ a
  have b2 : InvE (l1 ++ e :: l2) s.heap := hq ▸ b
  obtain ⟨p1, _, _, _, _⟩ := a2.popped ht
  obtain ⟨bp, hs⟩ := b2.pop_ev
  have hb := hs t ht
  rcases hcase with ⟨hd, rfl⟩ | ⟨hnd, hd⟩
  · show InvE (s.eventQ.eraseIdx i) (s.heap.set e.train none)
    rw [hers]
    exact (b2.drop_ev ht hd).1
  · have ast : SInvA (popAt i e s) := by
      show InvA (s.eventQ.eraseIdx i) s.trainQ s.heap s.nextTrainId
      rw [hers]
      exact a2.pop
    have bst : SInvE (popAt i e s) := by
      show InvE (s.eventQ.eraseIdx i) s.heap
      rw [hers]
      exact bp
    have hst : deref (popAt i e s) e.train = some t := ht
    have hq2 : (popAt i e s).eventQ = l1 ++ l2 := hers
    have hb2 : evCount (popAt i e s).eventQ e.train + 1 ≤ evBound t.trainStatus := by
      rw [hq2]
      exact hb
    cases hf : e.function with
    | arrival =>
      rw [hf] at hd
      obtain ⟨h1, _⟩ := p1 hf
      rw [h1] at hb2
      simp only [evBound] at hb2
      exact SInvE.of_arrival_ev ast bst hst (by omega) hd
    | departure =>
      rw [hf] at hd
      exact SInvE.of_departure_ev ast bst hst hb2 hd
    | hogout =>
      rw [hf] at hd
      exact SInvE.of_hogout_ev bst hst hb2 hd
    | newCrew =>
      rw [hf] at hd
      exact SInvE.of_newCrew_ev ast bst hst hb2 hd

theorem InvE.empty_ev : InvE [] [] := by
  constructor
  · simp
  · intro p t hp
    simp [hget] at hp

theorem SInvE.of_mainInit_ev {c : Config} {g : Gen} {s : State} (h : mainInit c g = some s) :
    SInvE s := by
  obtain ⟨ts, rest, rfl, _⟩ := mainInit_some h
  have := InvE.alloc_ev InvE.empty_ev (by simp)
    (newTrain 0 0 0 ts.remainingCrewHours ts.unloadTime) 0
  exact this

/-- Every state the loop of `main` reaches satisfies the structural and the
event-count invariant. -/
theorem SInvE.of_mainRun_ev {c : Config} {g0 : Gen} {inputs : List (Nat × Gen)} {s : State}
    (h : mainRun c g0 inputs = some s) : SInvA s ∧ SInvE s := by
  unfold mainRun at h
  simp only [Option.bind_eq_some] at h
  obtain ⟨s0, h0, h1⟩ := h
  refine driver_induction (fun x => SInvA x ∧ SInvE x) ?_ inputs s0 s
    ⟨SInvA.of_mainInit h0, SInvE.of_mainInit_ev h0⟩ h1
  intro x i g x2 hP _ hs
  refine ⟨hP.1.of_driverIter hs, ?_⟩
  unfold driverIter at hs
  simp only [Option.map_eq_some'] at hs
  obtain ⟨x1, hx1, rfl⟩ := hs
  have : SInvE x1 := SInvE.of_checkEvent_ev hP.1 hP.2 hx1
  exact this

/-- C11.  Train storage is released only when no pending event references it.
Let `s` be a state reached by the loop of `main`.  Then every train of `s`
whose trainStatus is DEPARTED is the target of at most one pending event; every
pending event targets a train that is still stored; and when `checkEvent`
extracts an event `e` whose train is DEPARTED, it returns the state in which the
event is removed and the train is deleted, and in that state no pending event
targets the deleted train and the wait queue does not hold it. -/
theorem C11_release_unreferenced (c : Config) (g0 : Gen) (inputs : List (Nat × Gen))
    (s : State) (hrun : mainRun c g0 inputs = some s) :
    (∀ p t, deref s p = some t → t.trainStatus = tStat.DEPARTED → evCount s.eventQ p ≤ 1) ∧
    (∀ e ∈ s.eventQ, ∃ t, deref s e.train = some t) ∧
    (∀ i g e t, s.eventQ.get? i = some e → isTop s.eventQ i = true →
      deref s e.train = some t → t.trainStatus = tStat.DEPARTED →
      checkEvent i g s = some (dropAt i e s) ∧
      (dropAt i e s).eventQ = s.eventQ.eraseIdx i ∧
      deref (dropAt i e s) e.train = none ∧
      (∀ x ∈ (dropAt i e s).eventQ, x.train ≠ e.train) ∧
      e.train ∉ (dropAt i e s).trainQ) := by
  obtain ⟨a, b⟩ := SInvE.of_mainRun_ev hrun
  refine ⟨?_, b.live, ?_⟩
  · intro p t hp hd
    have := b.bound p t hp
    rw [hd] at this
    exact this
  · intro i g e t he htop ht hd
    obtain ⟨l1, l2, hq, hers⟩ := get?_split he
    have b2 : InvE (l1 ++ e :: l2) s.heap := hq ▸ b
    refine ⟨checkEvent_drop he htop ht hd, rfl, ?_, ?_, ?_⟩
    · show hget (s.heap.set e.train none) e.train = none
      rw [hget_set_none]
      simp
    · show ∀ x ∈ s.eventQ.eraseIdx i, x.train ≠ e.train
      rw [hers]
      exact (b2.drop_ev ht hd).2
    · intro hm
      have hm2 : e.train ∈ s.trainQ := hm
      have := a.inq_of_mem ht hm2
      rw [hd] at this
      exact absurd this (by decide)

/-- C11 (witness).  In `hogDeparted` the departed train 0 is the target of one
pending event, the departure at 12; extracting it deletes the train and leaves
no pending event. -/
theorem C11_release_unreferenced_witness :
    (mainRun (genCfg (-1)) hogGen (hogRun.take 4) = some hogDeparted ∧
     deref hogDeparted 0 = some hogDepartedTrain ∧ evCount hogDeparted.eventQ 0 = 1 ∧
     checkEvent 0 hogGen hogDeparted = some { hogDeparted with eventQ := [], heap := [none] }) ∧
    ((∀ p t, deref hogDeparted p = some t → t.trainStatus = tStat.DEPARTED →
        evCount hogDeparted.eventQ p ≤ 1) ∧
     (∀ e ∈ hogDeparted.eventQ, ∃ t, deref hogDeparted e.train = some t) ∧
     (∀ i g e t, hogDeparted.eventQ.get? i = some e → isTop hogDeparted.eventQ i = true →
       deref hogDeparted e.train = some t → t.trainStatus = tStat.DEPARTED →
       checkEvent i g hogDeparted = some (dropAt i e hogDeparted) ∧
       (dropAt i e hogDeparted).eventQ = hogDeparted.eventQ.eraseIdx i ∧
       deref (dropAt i e hogDeparted) e.train = none ∧
       (∀ x ∈ (dropAt i e hogDeparted).eventQ, x.train ≠ e.train) ∧
       e.train ∉ (dropAt i e hogDeparted).trainQ)) :=
  ⟨⟨hogDeparted_eq, by decide!, by decide!, by decide!⟩,
   C11_release_unreferenced (genCfg (-1)) hogGen (hogRun.take 4) hogDeparted hogDeparted_eq⟩

/-- C20.  Handler status assumptions are always met.  Let `s` be a state
reached by the loop of `main`.  Then every pending departure event targets a
stored train whose trainStatus is SERVICE or DEPARTED, and every pending hogout
event targets a stored train whose trainStatus is INQ, SERVICE or DEPARTED.
And whenever `checkEvent` returns from `s`, it either dropped the event of a
DEPARTED train without calling a handler, or it called the handler of the
extracted event on a train that is not DEPARTED; in the second case a departure
handler runs on a SERVICE train, and a hogout handler runs on an INQ or SERVICE
train, so its else branch (trainStatus not INQ) is taken for a SERVICE train
only. -/
theorem C20_handler_status_met (c : Config) (g0 : Gen) (inputs : List (Nat × Gen))
    (s : State) (hrun : mainRun c g0 inputs = some s) :
    (∀ e ∈ s.eventQ, e.function = EventFunc.departure →
      ∃ t, deref s e.train = some t ∧
        (t.trainStatus = tStat.SERVICE ∨ t.trainStatus = tStat.DEPARTED)) ∧
    (∀ e ∈ s.eventQ, e.function = EventFunc.hogout →
      ∃ t, deref s e.train = some t ∧
        (t.trainStatus = tStat.INQ ∨ t.trainStatus = tStat.SERVICE ∨
          t.trainStatus = tStat.DEPARTED)) ∧
    (∀ i g s2, checkEvent i g s = some s2 →
      ∃ e t, s.eventQ.get? i = some e ∧ deref s e.train = some t ∧
        ((t.trainStatus = tStat.DEPARTED ∧ s2 = dropAt i e s) ∨
         (t.trainStatus ≠ tStat.DEPARTED ∧
          deref (popAt i e s) e.train = some t ∧
          dispatch e.function e.train g (popAt i e s) = some s2 ∧
          (e.function = EventFunc.departure → t.trainStatus = tStat.SERVICE) ∧
          (e.function = EventFunc.hogout →
            (t.trainStatus = tStat.INQ ∨ t.trainStatus = tStat.SERVICE) ∧
            (t.trainStatus ≠ tStat.INQ → t.trainStatus = tStat.SERVICE))))) := by
  obtain ⟨a, b⟩ := SInvE.of_mainRun_ev hrun
  have hdep : ∀ e ∈ s.eventQ, e.function = EventFunc.departure →
      ∃ t, deref s e.train = some t ∧
        (t.trainStatus = tStat.SERVICE ∨ t.trainStatus = tStat.DEPARTED) := by
    intro e he hf
    obtain ⟨t, ht⟩ := b.live e he
    exact ⟨t, ht, (a.trains e.train t ht).dep e he rfl hf⟩
  have hhog : ∀ e ∈ s.eventQ, e.function = EventFunc.hogout →
      ∃ t, deref s e.train = some t ∧
        (t.trainStatus = tStat.INQ ∨ t.trainStatus = tStat.SERVICE ∨
          t.trainStatus = tStat.DEPARTED) := by
    intro e he hf
    obtain ⟨t, ht⟩ := b.live e he
    refine ⟨t, ht, ?_⟩
    have hna : t.trainStatus ≠ tStat.ARRIVED := by
      intro hs
      have := ((a.trains e.train t ht).arrived hs).2.2 e he rfl
      rw [hf] at this
      exact absurd this (by decide)
    cases hs : t.trainStatus with
    | ARRIVED => exact absurd hs hna
    | INQ => exact Or.inl rfl
    | SERVICE => exact Or.inr (Or.inl rfl)
    | DEPARTED => exact Or.inr (Or.inr rfl)
  refine ⟨hdep, hhog, ?_⟩
  intro i g s2 h
  obtain ⟨e, t, he, _, ht, hcase⟩ := checkEvent_some h
  refine ⟨e, t, he, ht, ?_⟩
  have hm : e ∈ s.eventQ := List.get?_mem he
  rcases hcase with ⟨hd, rfl⟩ | ⟨hnd, hd⟩
  · exact Or.inl ⟨hd, rfl⟩
  · refine Or.inr ⟨hnd, ht, hd, ?_, ?_⟩
    · intro hf
      obtain ⟨u, hu, hs⟩ := hdep e hm hf
      rw [ht] at hu
      have := Option.some.inj hu
      subst this
      rcases hs with hs | hs
      · exact hs
      · exact absurd hs hnd
    · intro hf
      obtain ⟨u, hu, hs⟩ := hhog e hm hf
      rw [ht] at hu
      have := Option.some.inj hu
      subst this
      rcases hs with hs | hs | hs
      · exact ⟨Or.inl hs, fun hn => absurd hs hn⟩
      · exact ⟨Or.inr hs, fun _ => hs⟩
      · exact absurd hs hnd

/-- C20 (witness).  After the arrival of `hogRun` the train is in the dock with
a departure pending at 10 and a hogout pending at 3; the hogout is extracted
next and its handler runs on the SERVICE train. -/
theorem C20_handler_status_met_witness :
    (mainRun (genCfg (-1)) hogGen (hogRun.take 1) = some hogService ∧
     checkEvent 1 hogGen hogService = hogout 0 hogGen (popAt 1
       { function := EventFunc.hogout, train := 0, eventTime := 3 } hogService) ∧
     (checkEvent 1 hogGen hogService).isSome = true) ∧
    ((∀ e ∈ hogService.eventQ, e.function = EventFunc.departure →
      ∃ t, deref hogService e.train = some t ∧
        (t.trainStatus = tStat.SERVICE ∨ t.trainStatus = tStat.DEPARTED)) ∧
    (∀ e ∈ hogService.eventQ, e.function = EventFunc.hogout →
      ∃ t, deref hogService e.train = some t ∧
        (t.trainStatus = tStat.INQ ∨ t.trainStatus = tStat.SERVICE ∨
          t.trainStatus = tStat.DEPARTED)) ∧
    (∀ i g s2, checkEvent i g hogService = some s2 →
      ∃ e t, hogService.eventQ.get? i = some e ∧ deref hogService e.train = some t ∧
        ((t.trainStatus = tStat.DEPARTED ∧ s2 = dropAt i e hogService) ∨
         (t.trainStatus ≠ tStat.DEPARTED ∧
          deref (popAt i e hogService) e.train = some t ∧
          dispatch e.function e.train g (popAt i e hogService) = some s2 ∧
          (e.function = EventFunc.departure → t.trainStatus = tStat.SERVICE) ∧
          (e.function = EventFunc.hogout →
            (t.trainStatus = tStat.INQ ∨ t.trainStatus = tStat.SERVICE) ∧
            (t.trainStatus ≠ tStat.INQ → t.trainStatus = tStat.SERVICE)))))) :=
  ⟨⟨by decide!, by decide!, by decide!⟩,
   C20_handler_status_met (genCfg (-1)) hogGen (hogRun.take 1) hogService (by decide!)⟩

/-! ## Scheduler order and replay exhaustion
-/

/-- C18 (counterexample).  Four events with time 50 are scheduled for the
trains 0, 1, 2, 3 in this order.  `comp` orders none of them below another, so
each of them may be what `top()` returns.  The extraction of the event of train
0 followed by the extraction of the event of train 2 is an execution of
`checkEvent`: the second extraction takes the event of train 2 although the
event of train 1 has the same time, was scheduled earlier and is still
pending.  (This is the order in which the binary heap of libstdc++ hands out
four elements that `comp` does not distinguish.) -/
theorem C18_counterexample :
    pendingOf tieQ = [(0, 50), (1, 50), (2, 50), (3, 50)] ∧
    (checkEvent 0 hogGen tieQ).map pendingOf = some [(1, 50), (2, 50), (3, 50)] ∧
    ((checkEvent 0 hogGen tieQ).bind (checkEvent 1 hogGen)).map pendingOf
      = some [(1, 50), (3, 50)] := by
  decide!

/-- C18.  Scheduler order.  `schedule` adds the new event to the pending
events and changes nothing else.  `comp` compares two events by eventTime
only.  Whenever `checkEvent` returns, the event it extracted has the smallest
eventTime among all pending events, the handler (if one is called) starts from
the pending events without the extracted one, and any pending event with the
smallest eventTime may be the one that `top()` returns: insertion order plays
no part. -/
theorem C18_extract_smallest_time (s : State) :
    (∀ f p time, (schedule f p time s).eventQ
        = s.eventQ ++ [{ function := f, train := p, eventTime := time }] ∧
      schedule f p time s = { s with eventQ := (schedule f p time s).eventQ }) ∧
    (∀ a b : Event, comp a b = true ↔ a.eventTime > b.eventTime) ∧
    (∀ i e, s.eventQ.get? i = some e →
      (isTop s.eventQ i = true ↔ ∀ x ∈ s.eventQ, e.eventTime ≤ x.eventTime)) ∧
    (∀ i g s2, checkEvent i g s = some s2 →
      ∃ e, s.eventQ.get? i = some e ∧ (∀ x ∈ s.eventQ, e.eventTime ≤ x.eventTime) ∧
        (popAt i e s).eventQ = s.eventQ.eraseIdx i ∧
        (s2 = dropAt i e s ∨ dispatch e.function e.train g (popAt i e s) = some s2)) := by
  refine ⟨fun f p time => ⟨rfl, rfl⟩, ?_, ?_, ?_⟩
  · intro a b
    simp [comp]
  · intro i e he
    constructor
    · exact fun h => isTop_le he h
    · intro h
      unfold isTop
      rw [he]
      simp only [List.all_eq_true, Bool.not_eq_true', comp, decide_eq_false_iff_not, gt_iff_lt,
        not_lt]
      exact h
  · intro i g s2 h
    obtain ⟨e, t, he, htop, _, hcase⟩ := checkEvent_some h
    refine ⟨e, he, isTop_le he htop, rfl, ?_⟩
    rcases hcase with ⟨_, h1⟩ | ⟨_, h1⟩
    · exact Or.inl h1
    · exact Or.inr h1

/-- C18 (witness).  The first extraction from `tieQ`: the event of train 0 at
time 50 is extracted and the train, which has departed, is deleted. -/
theorem C18_extract_smallest_time_witness :
    (checkEvent 0 hogGen tieQ).isSome = true ∧
    ((∀ f p time, (schedule f p time tieQ).eventQ
        = tieQ.eventQ ++ [{ function := f, train := p, eventTime := time }] ∧
      schedule f p time tieQ = { tieQ with eventQ := (schedule f p time tieQ).eventQ }) ∧
    (∀ a b : Event, comp a b = true ↔ a.eventTime > b.eventTime) ∧
    (∀ i e, tieQ.eventQ.get? i = some e →
      (isTop tieQ.eventQ i = true ↔ ∀ x ∈ tieQ.eventQ, e.eventTime ≤ x.eventTime)) ∧
    (∀ i g s2, checkEvent i g tieQ = some s2 →
      ∃ e, tieQ.eventQ.get? i = some e ∧ (∀ x ∈ tieQ.eventQ, e.eventTime ≤ x.eventTime) ∧
        (popAt i e tieQ).eventQ = tieQ.eventQ.eraseIdx i ∧
        (s2 = dropAt i e tieQ ∨ dispatch e.function e.train g (popAt i e tieQ) = some s2))) :=
  ⟨by decide!, C18_extract_smallest_time tieQ⟩

/-- C19 (the code at the failing input).  Replay input: three trains, no
replacement delay.  After the arrival of the first train the replacement-delay
sequence is empty, the train sequence is not, and the loop condition of `main`
holds: the loop does not stop.  The event `top()` returns next is the hogout of
train 0 at time 3 (every other pending event is later); its handler calls
`getCrewArrivalTime`, which reads the front of the empty sequence, so the
iteration is undefined behaviour.  The arrival handler, by contrast, leaves
`getTrainValues` alone when the train sequence is empty. -/
theorem C19_hogout_reads_empty_delays :
    mainRun exhaustCfg hogGen [(0, hogGen)] = some exhaustState ∧
    exhaustState.premade = true ∧ exhaustState.travelTime = [] ∧
    loopCond exhaustState = true ∧
    exhaustState.eventQ.get? 2
      = some { function := EventFunc.hogout, train := 0, eventTime := 3 } ∧
    isTop exhaustState.eventQ 2 = true ∧
    isTop exhaustState.eventQ 0 = false ∧ isTop exhaustState.eventQ 1 = false ∧
    getCrewArrivalTime hogGen
      (popAt 2 { function := EventFunc.hogout, train := 0, eventTime := 3 } exhaustState)
      = none ∧
    hogout 0 hogGen
      (popAt 2 { function := EventFunc.hogout, train := 0, eventTime := 3 } exhaustState)
      = none ∧
    driverIter 2 hogGen exhaustState = none ∧
    arrivalNext hogGen { exhaustState with trainSchedule := [] }
      = some { exhaustState with trainSchedule := [] } := by
  decide!

/-! ## Crew ids and the hogout handler
-/

theorem CidLt.set_cid {h : List (Option Train)} {n m : Int} {p : Nat} {t1 : Train}
    (a : CidLt h n) (hnm : n ≤ m) (h1 : t1.cid < m) : CidLt (h.set p (some t1)) m := by
  intro q u hu
  rcases hget_set_some_cases hu with ⟨_, rfl⟩ | ⟨_, hu2⟩
  · exact h1
  · exact lt_of_lt_of_le (a q u hu2) hnm

theorem CidLt.drop_cid {h : List (Option Train)} {n : Int} (a : CidLt h n) (p : Nat) :
    CidLt (h.set p none) n :=
  fun q u hu => a q u (hget_set_none_some hu).2

theorem CidLt.alloc_cid {h : List (Option Train)} {n m : Int} {t1 : Train}
    (a : CidLt h n) (hnm : n ≤ m) (h1 : t1.cid < m) : CidLt (h ++ [some t1]) m := by
  intro q u hu
  rcases hget_append_cases hu with ⟨_, rfl⟩ | ⟨_, hu2⟩
  · exact h1
  · exact lt_of_lt_of_le (a q u hu2) hnm

/-- A handler keeps the crew ids below the counter and does not lower the
counter. -/
theorem dispatch_cid {f : EventFunc} {p : Nat} {g : Gen} {s s2 : State} {t : Train}
    (a : CidLt s.heap s.nextCrewId) (ht : deref s p = some t)
    (h : dispatch f p g s = some s2) :
    CidLt s2.heap s2.nextCrewId ∧ s.nextCrewId ≤ s2.nextCrewId := by
  have htc : t.cid < s.nextCrewId := a p t ht
  cases f with
  | arrival =>
    obtain ⟨s1, h1, ht1, h3⟩ := arrival_some ht h
    have a1 : CidLt s1.heap s1.nextCrewId ∧ s.nextCrewId ≤ s1.nextCrewId := by
      rcases arrivalNext_some h1 with rfl | ⟨ts, rest, rfl, _⟩
      · exact ⟨a, le_refl _⟩
      · refine ⟨?_, ?_⟩
        · show CidLt (s.heap ++ [some (newTrain s.nextTrainId s.nextCrewId
            (ts.arrivalTime + s.globalTime) ts.remainingCrewHours ts.unloadTime)])
            (s.nextCrewId + 1)
          exact a.alloc_cid (by omega) (by simp [newTrain])
        · show s.nextCrewId ≤ s.nextCrewId + 1
          omega
    have htc1 : t.cid < s1.nextCrewId := a1.1 p t ht1
    rcases h3 with ⟨_, _, rfl⟩ | ⟨_, rfl⟩
    · exact ⟨a1.1.set_cid (le_refl _) (by simpa [serviceTrain] using htc1), a1.2⟩
    · exact ⟨a1.1.set_cid (le_refl _) (by simpa using htc1), a1.2⟩
  | departure =>
    by_cases hc : t.crewStatus = cStat.HOGGED_OUT
    · have h2 : departure p s = some s2 := h
      rw [departure_stale ht hc] at h2
      rw [← Option.some.inj h2]
      exact ⟨a, le_refl _⟩
    · obtain ⟨st, h3⟩ := departure_some ht hc h
      have a1 : CidLt (s.heap.set p (some (departedTrain s.globalTime t))) s.nextCrewId :=
        a.set_cid (le_refl _) (by simpa [departedTrain] using htc)
      rcases h3 with ⟨_, rfl⟩ | ⟨front, rest, f, _, hf, ⟨_, rfl⟩ | ⟨_, rfl⟩⟩
      · exact ⟨a1, le_refl _⟩
      · have hfc : f.cid < s.nextCrewId := a1 front f hf
        exact ⟨a1.set_cid (le_refl _) (by simpa [serviceTrain] using hfc), le_refl _⟩
      · exact ⟨a1, le_refl _⟩
  | hogout =>
    obtain ⟨d, tt, rfl, _⟩ := hogout_some ht h
    refine ⟨?_, ?_⟩
    · show CidLt (s.heap.set p (some (hoggedTrain s.globalTime d s.nextCrewId t)))
        (s.nextCrewId + 1)
      exact a.set_cid (by omega) (by simp [hoggedTrain])
    · show s.nextCrewId ≤ s.nextCrewId + 1
      omega
  | newCrew =>
    have a1 : CidLt (s.heap.set p (some (crewOnTrain s.globalTime t))) s.nextCrewId :=
      a.set_cid (le_refl _) (by simpa [crewOnTrain] using htc)
    have a2 : ∀ front f, deref (crewOnAt p t s) front = some f →
        CidLt ((s.heap.set p (some (crewOnTrain s.globalTime t))).set front
          (some (serviceTrain s.globalTime f))) s.nextCrewId := by
      intro front f hf
      have hfc : f.cid < s.nextCrewId := a1 front f hf
      exact a1.set_cid (le_refl _) (by simpa [serviceTrain] using hfc)
    rcases newCrew_some ht h with
      ⟨_, _, front, rest, f, _, hf, _, ⟨_, rfl⟩ | ⟨_, rfl⟩⟩ | ⟨_, rfl⟩ | ⟨_, _, rfl⟩ | ⟨_, _, rfl⟩
    · exact ⟨a2 front f hf, le_refl _⟩
    · exact ⟨a2 front f hf, le_refl _⟩
    · exact ⟨a1, le_refl _⟩
    · exact ⟨a1, le_refl _⟩
    · exact ⟨a1, le_refl _⟩

theorem driverIter_cid {i : Nat} {g : Gen} {s s2 : State} (a : CidLt s.heap s.nextCrewId)
    (h : driverIter i g s = some s2) :
    CidLt s2.heap s2.nextCrewId ∧ s.nextCrewId ≤ s2.nextCrewId := by
  unfold driverIter at h
  simp only [Option.map_eq_some'] at h
  obtain ⟨s1, h1, rfl⟩ := h
  obtain ⟨e, t, _, _, ht, ⟨_, rfl⟩ | ⟨_, hd⟩⟩ := checkEvent_some h1
  · exact ⟨a.drop_cid _, le_refl _⟩
  · have ht2 : deref (popAt i e s) e.train = some t := ht
    have a2 : CidLt (popAt i e s).heap (popAt i e s).nextCrewId := a
    have := dispatch_cid a2 ht2 hd
    exact this

theorem mainRun_cid {c : Config} {g0 : Gen} {inputs : List (Nat × Gen)} {s : State}
    (h : mainRun c g0 inputs = some s) : CidLt s.heap s.nextCrewId := by
  unfold mainRun at h
  simp only [Option.bind_eq_some] at h
  obtain ⟨s0, h0, h1⟩ := h
  refine driver_induction (fun x => CidLt x.heap x.nextCrewId)
    (fun _ _ _ _ hP _ hs => (driverIter_cid hP hs).1) inputs s0 s ?_ h1
  obtain ⟨ts, rest, rfl, _⟩ := mainInit_some h0
  intro q u hu
  rcases hget_append_cases (h := []) hu with ⟨_, rfl⟩ | ⟨hlt, _⟩
  · simp [newTrain]
  · simp at hlt

/-- The hogout handler returns whenever the train is stored and a replacement
delay can be drawn. -/
theorem hogout_eq {p : Nat} {t : Train} {g : Gen} {s s1 : State} {d : ℚ}
    (h : deref s p = some t) (hd : getCrewArrivalTime g s = some (d, s1)) :
    hogout p g s = some (hogoutAt p t d s1.travelTime s) := by
  obtain ⟨e1, _⟩ := getCrewArrivalTime_some hd
  unfold hogout
  rw [h]
  simp only [Option.bind_eq_bind, Option.some_bind]
  rw [hd]
  simp only [Option.some_bind]
  rw [e1]
  by_cases hq : t.trainStatus = tStat.INQ
  · simp [hogoutAt, hoggedTrain, store, schedule, hq]
  · simp [hogoutAt, hoggedTrain, store, schedule, hq]

/-! ## The crew-replacement handler
-/

/-- For an event of a train that has not departed, `checkEvent` is the call of
its handler on the state with the event popped and the clock set. -/
theorem checkEvent_dispatch {i : Nat} {g : Gen} {s : State} {e : Event} {t : Train}
    (he : s.eventQ.get? i = some e) (htop : isTop s.eventQ i = true)
    (ht : deref s e.train = some t) (hnd : t.trainStatus ≠ tStat.DEPARTED) :
    checkEvent i g s = dispatch e.function e.train g (popAt i e s) := by
  unfold checkEvent
  rw [he]
  simp only [Option.bind_eq_bind, Option.some_bind, htop, Bool.true_eq_false, if_false,
    Option.pure_def]
  have : deref { s with eventQ := s.eventQ.eraseIdx i } e.train = some t := ht
  rw [this]
  simp only [Option.some_bind, if_neg hnd]
  rfl

/-- In a state that satisfies the structural invariant the crew-replacement
handler returns: when it looks at the head of the wait queue, the queue is not
empty and its head is stored. -/
theorem newCrew_total {st : State} {p : Nat} {t : Train} (a : SInvA st)
    (ht : deref st p = some t) : ∃ s2, newCrew p st = some s2 := by
  have hlt : p < st.heap.length := hget_lt ht
  have hself : deref (crewOnAt p t st) p = some (crewOnTrain st.globalTime t) := by
    simp [deref_eq, crewOnAt, hget_set_some, hlt]
  have fin : ∀ s1 : State, (∃ t3, deref s1 p = some t3) →
      ∃ s2, ((deref s1 p).bind (fun t3 =>
        if t3.trainStatus = tStat.INQ then
          some (schedule EventFunc.hogout p (s1.globalTime + t3.timeTillHogout) s1)
        else some s1)) = some s2 := by
    rintro s1 ⟨t3, h3⟩
    rw [h3]
    simp only [Option.some_bind]
    split
    · exact ⟨_, rfl⟩
    · exact ⟨_, rfl⟩
  rw [newCrew_unfold, ht]
  simp only [Option.some_bind]
  have mid : ∃ s1, newCrewMid p t st = some s1 ∧ ∃ t3, deref s1 p = some t3 := by
    unfold newCrewMid
    by_cases hc : st.dock.dockStatus = dStat.IDLE ∧ t.trainStatus = tStat.INQ
    · rw [if_pos hc]
      have hm := (a.trains p t ht).inq hc.2
      cases hl : st.trainQ with
      | nil =>
        rw [hl] at hm
        simp at hm
      | cons front rest =>
        simp only
        obtain ⟨u, hu, _⟩ := a.q_inq front (by rw [hl]; exact List.mem_cons_self _ _)
        obtain ⟨f, hf⟩ : ∃ f, deref (crewOnAt p t st) front = some f := by
          by_cases hfp : front = p
          · subst hfp
            exact ⟨_, hself⟩
          · exact ⟨u, by simp [deref_eq, crewOnAt, hget_set_some, hfp, hu]⟩
        rw [hf]
        simp only [Option.some_bind]
        by_cases hid : f.tid = t.tid
        · rw [if_pos hid]
          have hf2 : deref { crewOnAt p t st with trainQ := rest } front = some f := hf
          rw [startService_eq hf2]
          refine ⟨_, rfl, ?_⟩
          by_cases hfp : p = front
          · subst hfp
            exact ⟨serviceTrain st.globalTime f, by
              simp [deref_eq, startServiceAt, crewOnAt, hget_set_some, hlt]⟩
          · have hfl : front < st.heap.length := hget_lt hu
            exact ⟨crewOnTrain st.globalTime t, by
              simp [deref_eq, startServiceAt, crewOnAt, hget_set_some, hlt, hfp, hfl]⟩
        · rw [if_neg hid]
          have hns : ¬ t.trainStatus = tStat.SERVICE := by rw [hc.2]; decide
          rw [if_neg hns]
          exact ⟨_, rfl, _, hself⟩
    · rw [if_neg hc]
      by_cases hs : t.trainStatus = tStat.SERVICE
      · rw [if_pos hs]
        exact ⟨_, rfl, _, hself⟩
      · rw [if_neg hs]
        exact ⟨_, rfl, _, hself⟩
  obtain ⟨s1, h1, h3⟩ := mid
  rw [h1]
  simp only [Option.some_bind]
  exact fin s1 h3

/-- C16.  CrewReplacement handler postcondition.  Let `s` be a state reached by
the loop of `main` and let `checkEvent` extract a crew-replacement event `e` of
a train that has not departed; write `now` for `e.eventTime`.  Then
`checkEvent` returns the result `s2` of `newCrew`, and in `s2` the train has
crewStatus ON_CLOCK, crewArrivalTime `now` and the unloadTime it had.  (a) If
the dock is IDLE, the train is INQ and it is the head of the wait queue, the
head is popped, the train is SERVICE with endQTime `now`, the dock is BUSY and
the pending events are the remaining ones followed by one departure of the
train at `unloadTime + now`.  (b) Else, if the train is SERVICE, the dock is
BUSY, the wait queue is unchanged and the pending events are the remaining
ones followed by one departure of the train at `now + unloadTime`.  (c) Else
the dock and the wait queue are unchanged and the train keeps its
trainStatus.  If the train is INQ at the end of the handler, the pending
events are the remaining ones followed by one hogout of the train at
`now + timeTillHogout`; if it is not INQ at the end (it is SERVICE in cases a
and b), no hogout of the train is pending. -/
theorem C16_newCrew_postcondition (c : Config) (g0 : Gen) (inputs : List (Nat × Gen))
    (s : State) (hrun : mainRun c g0 inputs = some s) (i : Nat) (g : Gen) (e : Event)
    (t : Train) (he : s.eventQ.get? i = some e) (htop : isTop s.eventQ i = true)
    (hf : e.function = EventFunc.newCrew) (ht : deref s e.train = some t)
    (hnd : t.trainStatus ≠ tStat.DEPARTED) :
    ∃ s2 t2, checkEvent i g s = some s2 ∧ newCrew e.train (popAt i e s) = some s2 ∧
      deref s2 e.train = some t2 ∧
      t2.crewStatus = cStat.ON_CLOCK ∧ t2.crewArrivalTime = e.eventTime ∧
      t2.unloadTime = t.unloadTime ∧
      ((s.dock.dockStatus = dStat.IDLE ∧ t.trainStatus = tStat.INQ ∧
          s.trainQ.head? = some e.train) →
        s2.trainQ = s.trainQ.tail ∧ t2.trainStatus = tStat.SERVICE ∧
        t2.endQTime = e.eventTime ∧ s2.dock.dockStatus = dStat.BUSY ∧
        s2.eventQ = s.eventQ.eraseIdx i ++
          [{ function := EventFunc.departure, train := e.train
             eventTime := t.unloadTime + e.eventTime }]) ∧
      (¬ (s.dock.dockStatus = dStat.IDLE ∧ t.trainStatus = tStat.INQ ∧
          s.trainQ.head? = some e.train) →
        t.trainStatus = tStat.SERVICE →
        s2.dock.dockStatus = dStat.BUSY ∧ s2.trainQ = s.trainQ ∧
        t2.trainStatus = tStat.SERVICE ∧
        s2.eventQ = s.eventQ.eraseIdx i ++
          [{ function := EventFunc.departure, train := e.train
             eventTime := e.eventTime + t.unloadTime }]) ∧
      (¬ (s.dock.dockStatus = dStat.IDLE ∧ t.trainStatus = tStat.INQ ∧
          s.trainQ.head? = some e.train) →
        t.trainStatus ≠ tStat.SERVICE →
        s2.dock = s.dock ∧ s2.trainQ = s.trainQ ∧ t2.trainStatus = t.trainStatus) ∧
      (t2.trainStatus = tStat.INQ →
        s2.eventQ = s.eventQ.eraseIdx i ++
          [{ function := EventFunc.hogout, train := e.train
             eventTime := e.eventTime + t2.timeTillHogout }]) ∧
      (t2.trainStatus ≠ tStat.INQ →
        ∀ x ∈ s2.eventQ, x.train = e.train → x.function ≠ EventFunc.hogout) := by
  have a : SInvA s := SInvA.of_mainRun hrun
  obtain ⟨l1, l2, hq, hers⟩ := get?_split he
  have a2 : InvA (l1 ++ e :: l2) s.trainQ s.heap s.nextTrainId := hq ▸ a
  obtain ⟨_, _, p3, _, _⟩ := a2.popped ht
  obtain ⟨_, hcnt⟩ := p3 (Or.inr hf)
  have ast : SInvA (popAt i e s) := by
    show InvA (s.eventQ.eraseIdx i) s.trainQ s.heap s.nextTrainId
    rw [hers]
    exact a2.pop
  have hst : deref (popAt i e s) e.train = some t := ht
  have hold : ∀ x ∈ s.eventQ.eraseIdx i, x.train = e.train → x.function ≠ EventFunc.hogout := by
    intro x hx hp
    rw [hers] at hx
    exact (not_chain_of_count hcnt hx hp).1
  have hlt : e.train < s.heap.length := hget_lt ht
  obtain ⟨s2, h2⟩ := newCrew_total ast hst
  have hce : checkEvent i g s = some s2 := by
    rw [checkEvent_dispatch he htop ht hnd, hf]
    exact h2
  have hself : deref (crewOnAt e.train t (popAt i e s)) e.train
      = some (crewOnTrain e.eventTime t) := by
    simp [deref_eq, crewOnAt, popAt, hget_set_some, hlt]
  rcases newCrew_some hst h2 with
    ⟨hd, hq1, front, rest, f, hl, hf1, hid, ⟨hfp, rfl⟩ | ⟨hfp, _⟩⟩ | ⟨hsv, rfl⟩ |
      ⟨hq1, hno, rfl⟩ | ⟨hnq, hns, rfl⟩
  · subst hfp
    rw [hself] at hf1
    have ef := (Option.some.inj hf1).symm
    subst ef
    have hl2 : s.trainQ = e.train :: rest := hl
    refine ⟨_, serviceTrain e.eventTime (crewOnTrain e.eventTime t), hce, h2, ?_, rfl, rfl, rfl,
      ?_, ?_, ?_, ?_, ?_⟩
    · simp [deref_eq, startServiceAt, crewOnAt, popAt, hget_set_some, hlt]
    · intro _
      refine ⟨?_, rfl, rfl, rfl, rfl⟩
      show rest = s.trainQ.tail
      rw [hl2]
      rfl
    · intro hn
      exact absurd ⟨hd, hq1, by rw [hl2]; rfl⟩ hn
    · intro hn
      exact absurd ⟨hd, hq1, by rw [hl2]; rfl⟩ hn
    · intro h
      simp [serviceTrain] at h
    · intro _ x hx hp
      rcases List.mem_append.1 hx with hx | hx
      · exact hold x hx hp
      · rw [List.mem_singleton.1 hx]
        simp
  · exfalso
    have hf2 : hget s.heap front = some f := by
      rcases hget_set_some_cases hf1 with ⟨h1, _⟩ | ⟨_, h2⟩
      · exact absurd h1 hfp
      · exact h2
    have e1 := (a.trains front f hf2).tid
    have e2 := (a.trains e.train t ht).tid
    rw [hid, e2] at e1
    exact hfp (by exact_mod_cast e1.symm)
  · have hnA : ¬ (s.dock.dockStatus = dStat.IDLE ∧ t.trainStatus = tStat.INQ ∧
        s.trainQ.head? = some e.train) := by
      intro h
      rw [hsv] at h
      exact absurd h.2.1 (by decide)
    refine ⟨_, crewOnTrain e.eventTime t, hce, h2, hself, rfl, rfl, rfl, ?_, ?_, ?_, ?_, ?_⟩
    · exact fun h => absurd h hnA
    · intro _ _
      exact ⟨rfl, rfl, hsv, rfl⟩
    · exact fun _ h => absurd hsv h
    · intro h
      have h1 : t.trainStatus = tStat.INQ := h
      rw [hsv] at h1
      exact absurd h1 (by decide)
    · intro _ x hx hp
      rcases List.mem_append.1 hx with hx | hx
      · exact hold x hx hp
      · rw [List.mem_singleton.1 hx]
        simp
  · have hnA : ¬ (s.dock.dockStatus = dStat.IDLE ∧ t.trainStatus = tStat.INQ ∧
        s.trainQ.head? = some e.train) := by
      rintro ⟨h1, _, h3⟩
      rcases hno with hno | ⟨front, rest, f, hl, hf1, hid⟩
      · exact hno h1
      · have hl2 : s.trainQ = front :: rest := hl
        rw [hl2] at h3
        have hfp : front = e.train := by simpa using h3
        subst hfp
        rw [hself] at hf1
        rw [← Option.some.inj hf1] at hid
        exact hid rfl
    have hns : t.trainStatus ≠ tStat.SERVICE := by rw [hq1]; decide
    refine ⟨_, crewOnTrain e.eventTime t, hce, h2, hself, rfl, rfl, rfl, ?_, ?_, ?_, ?_, ?_⟩
    · exact fun h => absurd h hnA
    · exact fun _ h => absurd h hns
    · intro _ _
      exact ⟨rfl, rfl, rfl⟩
    · intro _
      rfl
    · intro h
      exact absurd hq1 h
  · have hnA : ¬ (s.dock.dockStatus = dStat.IDLE ∧ t.trainStatus = tStat.INQ ∧
        s.trainQ.head? = some e.train) := fun h => hnq h.2.1
    refine ⟨_, crewOnTrain e.eventTime t, hce, h2, hself, rfl, rfl, rfl, ?_, ?_, ?_, ?_, ?_⟩
    · exact fun h => absurd h hnA
    · exact fun _ h => absurd h hns
    · intro _ _
      exact ⟨rfl, rfl, rfl⟩
    · intro h
      exact absurd h hnq
    · intro _ x hx hp
      exact hold x hx hp

/-- C16 (witness).  The crew replacement of `hogRun` at time 5: the train is
in the dock with 7 hours of unloading left, so case (b) applies; the dock is
BUSY again and a departure at 12 is pending besides the one at 10. -/
theorem C16_newCrew_postcondition_witness :
    (mainRun (genCfg (-1)) hogGen (hogRun.take 2) = some hogHogged ∧
     hogHogged.eventQ.get? 1
       = some { function := EventFunc.newCrew, train := 0, eventTime := 5 } ∧
     isTop hogHogged.eventQ 1 = true ∧
     (deref hogHogged 0).map (fun t => (t.trainStatus, t.unloadTime))
       = some (tStat.SERVICE, 7)) ∧
    (∃ s2 t2, checkEvent 1 hogGen hogHogged = some s2 ∧ deref s2 0 = some t2 ∧
      t2.crewStatus = cStat.ON_CLOCK ∧ t2.crewArrivalTime = 5 ∧
      s2.dock.dockStatus = dStat.BUSY ∧ s2.trainQ = [] ∧
      s2.eventQ = [{ function := EventFunc.departure, train := 0, eventTime := 10 },
                   { function := EventFunc.departure, train := 0, eventTime := 5 + 7 }]) :=
  ⟨⟨hogHogged_eq, by decide!, by decide!, by decide!⟩, by
    obtain ⟨s2, t2, h1, _, h3, h4, h5, _, _, hb, _, _, _⟩ :=
      C16_newCrew_postcondition (genCfg (-1)) hogGen (hogRun.take 2) hogHogged hogHogged_eq
        1 hogGen { function := EventFunc.newCrew, train := 0, eventTime := 5 }
        { tid := 0, cid := 1, hogouts := 1, arrivalTime := 0, endQTime := 0
          endDockTime := 0, crewArrivalTime := 0, timeTillHogout := 10, unloadTime := 7
          trainStatus := tStat.SERVICE, crewStatus := cStat.HOGGED_OUT }
        (by decide!) (by decide!) rfl (by decide!) (by decide!)
    obtain ⟨b1, b2, _, b4⟩ := hb (by decide!) rfl
    exact ⟨s2, t2, h1, h3, h4, h5, b1, b2, b4⟩⟩

/-! ## The arrival handler
-/

theorem updateStat_eq {p : Nat} {t : Train} {s : State} (h : deref s p = some t) :
    updateStat p s =
      if t.hogouts > 100 then
        some { s with statistics := statAfter t s.trainQ.length s.statistics }
      else
        (histIncr (t.hogouts + 1).toNat s.statistics.histogram).map (fun r =>
          { s with statistics :=
              { statAfter t s.trainQ.length s.statistics with histogram := r } }) := by
  unfold updateStat
  rw [h]
  simp only [Option.bind_eq_bind, Option.some_bind]
  split
  · rfl
  · cases histIncr (t.hogouts + 1).toNat s.statistics.histogram <;> rfl

theorem histIncr_none : ∀ (n : Nat) (l : List Int), l.length < n → histIncr n l = none
  | 0, l, h => by simp at h
  | n + 1, [], _ => rfl
  | n + 1, x :: xs, h => by
    have := histIncr_none n xs (by simpa using h)
    simp [histIncr, this]

theorem histIncr_zero (l : List Int) : histIncr 0 l = some l := by
  cases l <;> rfl

/-- What the loop leaves in each bucket. -/
theorem histIncr_get : ∀ (n : Nat) (l r : List Int), histIncr n l = some r →
    n ≤ l.length ∧ r.length = l.length ∧
    ∀ i, r.get? i = (l.get? i).map (fun x => if i < n then x + 1 else x)
  | 0, l, r, h => by
    rw [histIncr_zero] at h
    have := Option.some.inj h
    subst this
    refine ⟨by simp, rfl, ?_⟩
    intro i
    cases l.get? i <;> simp
  | n + 1, [], r, h => by simp [histIncr] at h
  | n + 1, x :: xs, r, h => by
    simp only [histIncr, Option.map_eq_some'] at h
    obtain ⟨r1, h1, rfl⟩ := h
    obtain ⟨a1, a2, a3⟩ := histIncr_get n xs r1 h1
    refine ⟨by simpa using a1, by simp [a2], ?_⟩
    intro i
    cases i with
    | zero => simp
    | succ k =>
      simp only [List.get?_cons_succ, a3 k]
      cases xs.get? k <;> simp

theorem NonIncr.of_histIncr {n : Nat} {l r : List Int} (a : NonIncr l)
    (h : histIncr n l = some r) : NonIncr r := by
  obtain ⟨_, _, hg⟩ := histIncr_get n l r h
  intro i x y hx hy
  rw [hg i] at hx
  rw [hg (i + 1)] at hy
  simp only [Option.map_eq_some'] at hx hy
  obtain ⟨x0, hx0, rfl⟩ := hx
  obtain ⟨y0, hy0, rfl⟩ := hy
  have := a i x0 y0 hx0 hy0
  by_cases h1 : i + 1 < n
  · have h2 : i < n := by omega
    simp only [h1, h2, if_true]
    omega
  · simp only [h1, if_false]
    split <;> omega

theorem NonIncr.replicate (n : Nat) (x : Int) : NonIncr (List.replicate n x) := by
  intro i a b ha hb
  rw [List.get?_eq_getElem?, List.getElem?_replicate] at ha hb
  split at ha
  · split at hb
    · rw [← Option.some.inj ha, ← Option.some.inj hb]
    · simp at hb
  · simp at ha

/-- What a real departure does to the statistics. -/
theorem departure_hist {p : Nat} {t : Train} {s s2 : State} (h : deref s p = some t)
    (hc : t.crewStatus ≠ cStat.HOGGED_OUT) (h2 : departure p s = some s2) :
    s2.statistics.numOfTrainsServed = s.statistics.numOfTrainsServed + 1 ∧
    ((t.hogouts > 100 ∧ s2.statistics.histogram = s.statistics.histogram) ∨
     (t.hogouts ≤ 100 ∧
      histIncr (t.hogouts + 1).toNat s.statistics.histogram = some s2.statistics.histogram)) := by
  have hlt := hget_lt h
  obtain ⟨st, h3⟩ := departure_some h hc h2
  have hst : s2.statistics = st := by
    rcases h3 with ⟨_, rfl⟩ | ⟨front, rest, f, _, _, ⟨_, rfl⟩ | ⟨_, rfl⟩⟩ <;> rfl
  unfold departure at h2
  rw [h] at h2
  simp only [Option.bind_eq_bind, Option.some_bind, hc, if_false, Option.bind_eq_some] at h2
  obtain ⟨s1, h1, h4⟩ := h2
  have hs1 : s1.statistics = st := by
    have e1 : s1.trainQ = s.trainQ := by
      obtain ⟨x, hx⟩ := updateStat_some h1
      rw [hx]
      rfl
    rcases h3 with ⟨hq, rfl⟩ | ⟨front, rest, f, hq, _, ⟨hon, rfl⟩ | ⟨hoff, rfl⟩⟩
    · rw [e1, hq] at h4
      rw [Option.some.inj h4]
      rfl
    · rw [e1, hq] at h4
      simp only [Option.bind_eq_some] at h4
      obtain ⟨f2, hf2, h4⟩ := h4
      split at h4
      · obtain ⟨u, _, hu⟩ := startService_some h4
        have : (startServiceAt front u { s1 with trainQ := rest }).statistics
            = (startServiceAt front f { departAt p t st s with trainQ := rest }).statistics := by
          rw [hu]
        exact this
      · rw [Option.some.inj h4]
        rfl
    · rw [e1, hq] at h4
      simp only [Option.bind_eq_some] at h4
      obtain ⟨f2, hf2, h4⟩ := h4
      split at h4
      · obtain ⟨u, _, hu⟩ := startService_some h4
        have : (startServiceAt front u { s1 with trainQ := rest }).statistics
            = (departAt p t st s).statistics := by
          rw [hu]
        exact this
      · rw [Option.some.inj h4]
        rfl
  have hd : deref (departAt p t s.statistics s) p = some (departedTrain s.globalTime t) := by
    simp [deref_eq, departAt, hget_set_some, hlt]
  have h5 : updateStat p (departAt p t s.statistics s) = some s1 := h1
  rw [updateStat_eq hd] at h5
  rw [hst, ← hs1]
  have hh : (departedTrain s.globalTime t).hogouts = t.hogouts := rfl
  rw [hh] at h5
  by_cases hbig : t.hogouts > 100
  · rw [if_pos hbig] at h5
    rw [← Option.some.inj h5]
    exact ⟨rfl, Or.inl ⟨hbig, rfl⟩⟩
  · rw [if_neg hbig] at h5
    simp only [Option.map_eq_some'] at h5
    obtain ⟨r, hr, h5⟩ := h5
    rw [← h5]
    exact ⟨rfl, Or.inr ⟨by omega, hr⟩⟩

/-- A handler other than a real departure leaves the statistics alone. -/
theorem dispatch_stat {f : EventFunc} {p : Nat} {g : Gen} {s s2 : State} {t : Train}
    (ht : deref s p = some t) (h : dispatch f p g s = some s2)
    (hf : f = EventFunc.departure → t.crewStatus = cStat.HOGGED_OUT) :
    s2.statistics = s.statistics := by
  cases f with
  | arrival =>
    obtain ⟨s1, h1, _, h3⟩ := arrival_some ht h
    have e1 : s1.statistics = s.statistics := by
      rcases arrivalNext_some h1 with rfl | ⟨ts, rest, rfl, _⟩ <;> rfl
    rcases h3 with ⟨_, _, rfl⟩ | ⟨_, rfl⟩
    · exact e1
    · exact e1
  | departure =>
    have h2 : departure p s = some s2 := h
    rw [departure_stale ht (hf rfl)] at h2
    rw [← Option.some.inj h2]
  | hogout =>
    obtain ⟨d, tt, rfl, _⟩ := hogout_some ht h
    rfl
  | newCrew =>
    rcases newCrew_some ht h with
      ⟨_, _, front, rest, f, _, _, _, ⟨_, rfl⟩ | ⟨_, rfl⟩⟩ | ⟨_, rfl⟩ | ⟨_, _, rfl⟩ | ⟨_, _, rfl⟩ <;>
      rfl

theorem InvH.init : InvH {} := by
  refine ⟨by simp, NonIncr.replicate 100 0, ?_⟩
  intro a ha
  have : (List.replicate 100 (0 : Int)).get? 0 = some 0 := by
    rw [List.get?_eq_getElem?, List.getElem?_replicate]
    simp
  have e : ({} : Stat).histogram = List.replicate 100 0 := rfl
  rw [e, this] at ha
  rw [← Option.some.inj ha]

theorem checkEvent_hist {i : Nat} {g : Gen} {s s2 : State} (a : InvH s.statistics)
    (h : checkEvent i g s = some s2) : InvH s2.statistics := by
  obtain ⟨e, t, _, _, ht, ⟨_, rfl⟩ | ⟨_, hd⟩⟩ := checkEvent_some h
  · exact a
  · have ht2 : deref (popAt i e s) e.train = some t := ht
    by_cases hreal : e.function = EventFunc.departure ∧ t.crewStatus ≠ cStat.HOGGED_OUT
    · have hd2 : departure e.train (popAt i e s) = some s2 := by
        rw [hreal.1] at hd
        exact hd
      obtain ⟨h1, h2⟩ := departure_hist ht2 hreal.2 hd2
      have h1b : s2.statistics.numOfTrainsServed = s.statistics.numOfTrainsServed + 1 := h1
      obtain ⟨a1, a2, a3⟩ := a
      rcases h2 with ⟨_, h2⟩ | ⟨_, h2⟩
      · have h2b : s2.statistics.histogram = s.statistics.histogram := h2
        refine ⟨by rw [h2b]; exact a1, by rw [h2b]; exact a2, ?_⟩
        intro x hx
        rw [h2b] at hx
        have := a3 x hx
        omega
      · have h2b : histIncr (t.hogouts + 1).toNat s.statistics.histogram
            = some s2.statistics.histogram := h2
        obtain ⟨_, b2, b3⟩ := histIncr_get _ _ _ h2b
        refine ⟨by rw [b2]; exact a1, a2.of_histIncr h2b, ?_⟩
        intro x hx
        rw [b3 0] at hx
        simp only [Option.map_eq_some'] at hx
        obtain ⟨x0, hx0, rfl⟩ := hx
        have := a3 x0 hx0
        split <;> omega
    · have := dispatch_stat ht2 hd (fun hf => by
        by_contra hc
        exact hreal ⟨hf, hc⟩)
      have e1 : s2.statistics = s.statistics := this
      rw [e1]
      exact a

theorem mainRun_hist {c : Config} {g0 : Gen} {inputs : List (Nat × Gen)} {s : State}
    (h : mainRun c g0 inputs = some s) : InvH s.statistics := by
  unfold mainRun at h
  simp only [Option.bind_eq_some] at h
  obtain ⟨s0, h0, h1⟩ := h
  refine driver_induction (fun x => InvH x.statistics) ?_ inputs s0 s ?_ h1
  · intro x i g x2 hP _ hs
    unfold driverIter at hs
    simp only [Option.map_eq_some'] at hs
    obtain ⟨x1, hx1, rfl⟩ := hs
    have : InvH x1.statistics := checkEvent_hist hP hx1
    exact this
  · obtain ⟨ts, rest, rfl, _⟩ := mainInit_some h0
    exact InvH.init

/-- C13.  Histogram monotonicity.  In every state reached by the loop of
`main`, `histogram[i] ≥ histogram[i+1]` for every index `i` with both entries
inside the histogram. -/
theorem C13_histogram_monotone (c : Config) (g0 : Gen) (inputs : List (Nat × Gen))
    (s : State) (hrun : mainRun c g0 inputs = some s) :
    ∀ i a b, s.statistics.histogram.get? i = some a →
      s.statistics.histogram.get? (i + 1) = some b → a ≥ b :=
  (mainRun_hist hrun).2.1

/-- C13 (witness).  At the end of `hogRun` the histogram is 1, 1, 0, 0, … -/
theorem C13_histogram_monotone_witness :
    (mainRun (genCfg (-1)) hogGen hogRun = some hogFinal ∧
     hogFinal.statistics.histogram = 1 :: 1 :: List.replicate 98 0) ∧
    (∀ i a b, hogFinal.statistics.histogram.get? i = some a →
      hogFinal.statistics.histogram.get? (i + 1) = some b → a ≥ b) :=
  ⟨⟨hogRun_eq, rfl⟩, C13_histogram_monotone (genCfg (-1)) hogGen hogRun hogFinal hogRun_eq⟩

theorem hget_set_other {h : List (Option Train)} {p q : Nat} (c : Option Train) (hq : q ≠ p) :
    hget (h.set p c) q = hget h q := by
  cases c with
  | none => simp [hget_set_none, hq]
  | some t => simp [hget_set_some, hq]

/-- Writing a train that is not SERVICE before or after. -/
theorem InvD.set_other {h : List (Option Train)} {d : dStat} {p : Nat} {t t1 : Train}
    (a : InvD h d) (hp : hget h p = some t) (h0 : t.trainStatus ≠ tStat.SERVICE)
    (h1 : t1.trainStatus ≠ tStat.SERVICE) : InvD (h.set p (some t1)) d := by
  constructor
  · intro q u hu hs
    rcases hget_set_some_cases hu with ⟨_, rfl⟩ | ⟨_, hu2⟩
    · exact absurd hs h1
    · exact a.occ q u hu2 hs
  · intro q q2 u u2 hu hu2 hs hs2
    rcases hget_set_some_cases hu with ⟨_, rfl⟩ | ⟨_, hu⟩
    · exact absurd hs h1
    · rcases hget_set_some_cases hu2 with ⟨_, rfl⟩ | ⟨_, hu2⟩
      · exact absurd hs2 h1
      · exact a.uniq q q2 u u2 hu hu2 hs hs2
  · intro hd
    obtain ⟨q, u, hu, hs⟩ := a.busy hd
    have hqp : q ≠ p := by
      intro e
      subst e
      rw [hp] at hu
      exact h0 ((Option.some.inj hu) ▸ hs)
    exact ⟨q, u, by rw [hget_set_other _ hqp]; exact hu, hs⟩

/-- Writing the train in the dock, with the dock status that fits its crew. -/
theorem InvD.set_occ {h : List (Option Train)} {d d2 : dStat} {p : Nat} {t t1 : Train}
    (a : InvD h d) (hp : hget h p = some t) (h0 : t.trainStatus = tStat.SERVICE)
    (h1 : t1.trainStatus = tStat.SERVICE)
    (hd2 : (d2 = dStat.BUSY ∧ t1.crewStatus = cStat.ON_CLOCK) ∨
      (d2 = dStat.IDLE_HOGGED ∧ t1.crewStatus = cStat.HOGGED_OUT)) :
    InvD (h.set p (some t1)) d2 := by
  have hlt := hget_lt hp
  have hself : hget (h.set p (some t1)) p = some t1 := by simp [hget_set_some, hlt]
  have only : ∀ q u, hget (h.set p (some t1)) q = some u → u.trainStatus = tStat.SERVICE →
      q = p ∧ u = t1 := by
    intro q u hu hs
    rcases hget_set_some_cases hu with ⟨e1, e2⟩ | ⟨_, hu2⟩
    · exact ⟨e1, e2⟩
    · have := a.uniq q p u t hu2 hp hs h0
      subst this
      rw [hself] at hu
      exact ⟨rfl, (Option.some.inj hu).symm⟩
  constructor
  · intro q u hu hs
    obtain ⟨_, rfl⟩ := only q u hu hs
    exact hd2
  · intro q q2 u u2 hu hu2 hs hs2
    rw [(only q u hu hs).1, (only q2 u2 hu2 hs2).1]
  · exact fun _ => ⟨p, t1, hself, h1⟩

/-- The train in the dock leaves it. -/
theorem InvD.leave {h : List (Option Train)} {d : dStat} {p : Nat} {t t1 : Train}
    (a : InvD h d) (hp : hget h p = some t) (h0 : t.trainStatus = tStat.SERVICE)
    (h1 : t1.trainStatus ≠ tStat.SERVICE) : InvD (h.set p (some t1)) dStat.IDLE := by
  have none_svc : ∀ q u, hget (h.set p (some t1)) q = some u →
      u.trainStatus ≠ tStat.SERVICE := by
    intro q u hu hs
    rcases hget_set_some_cases hu with ⟨_, rfl⟩ | ⟨hqp, hu2⟩
    · exact h1 hs
    · exact hqp (a.uniq q p u t hu2 hp hs h0)
  constructor
  · exact fun q u hu hs => absurd hs (none_svc q u hu)
  · exact fun q _ u _ hu _ hs _ => absurd hs (none_svc q u hu)
  · exact fun hd => absurd rfl hd

/-- A train enters the idle dock. -/
theorem InvD.enter {h : List (Option Train)} {p : Nat} {t t1 : Train}
    (a : InvD h dStat.IDLE) (hp : hget h p = some t) (h1 : t1.trainStatus = tStat.SERVICE)
    (hc : t1.crewStatus = cStat.ON_CLOCK) : InvD (h.set p (some t1)) dStat.BUSY := by
  have hlt := hget_lt hp
  have hself : hget (h.set p (some t1)) p = some t1 := by simp [hget_set_some, hlt]
  have old : ∀ q u, hget h q = some u → u.trainStatus ≠ tStat.SERVICE := by
    intro q u hu hs
    rcases a.occ q u hu hs with ⟨hd, _⟩ | ⟨hd, _⟩ <;> exact absurd hd (by decide)
  have only : ∀ q u, hget (h.set p (some t1)) q = some u → u.trainStatus = tStat.SERVICE →
      q = p ∧ u = t1 := by
    intro q u hu hs
    rcases hget_set_some_cases hu with ⟨e1, e2⟩ | ⟨_, hu2⟩
    · exact ⟨e1, e2⟩
    · exact absurd hs (old q u hu2)
  constructor
  · intro q u hu hs
    obtain ⟨_, rfl⟩ := only q u hu hs
    exact Or.inl ⟨rfl, hc⟩
  · intro q q2 u u2 hu hu2 hs hs2
    rw [(only q u hu hs).1, (only q2 u2 hu2 hs2).1]
  · exact fun _ => ⟨p, t1, hself, h1⟩

/-- Creating a train. -/
theorem InvD.alloc_dock {h : List (Option Train)} {d : dStat} (a : InvD h d) (t0 : Train)
    (h0 : t0.trainStatus ≠ tStat.SERVICE) : InvD (h ++ [some t0]) d := by
  constructor
  · intro q u hu hs
    rcases hget_append_cases hu with ⟨_, rfl⟩ | ⟨_, hu2⟩
    · exact absurd hs h0
    · exact a.occ q u hu2 hs
  · intro q q2 u u2 hu hu2 hs hs2
    rcases hget_append_cases hu with ⟨_, rfl⟩ | ⟨_, hu⟩
    · exact absurd hs h0
    · rcases hget_append_cases hu2 with ⟨_, rfl⟩ | ⟨_, hu2⟩
      · exact absurd hs2 h0
      · exact a.uniq q q2 u u2 hu hu2 hs hs2
  · intro hd
    obtain ⟨q, u, hu, hs⟩ := a.busy hd
    have hlt := hget_lt hu
    have hne : ¬ q = h.length := by omega
    exact ⟨q, u, by simp [hget_append, hne, hu], hs⟩

/-- Deleting a train that is not SERVICE. -/
theorem InvD.drop_dock {h : List (Option Train)} {d : dStat} {p : Nat} {t : Train}
    (a : InvD h d) (hp : hget h p = some t) (h0 : t.trainStatus ≠ tStat.SERVICE) :
    InvD (h.set p none) d := by
  constructor
  · exact fun q u hu hs => a.occ q u (hget_set_none_some hu).2 hs
  · exact fun q q2 u u2 hu hu2 hs hs2 =>
      a.uniq q q2 u u2 (hget_set_none_some hu).2 (hget_set_none_some hu2).2 hs hs2
  · intro hd
    obtain ⟨q, u, hu, hs⟩ := a.busy hd
    have hqp : q ≠ p := by
      intro e
      subst e
      rw [hp] at hu
      exact h0 ((Option.some.inj hu) ▸ hs)
    exact ⟨q, u, by rw [hget_set_other _ hqp]; exact hu, hs⟩

theorem updateDockTimes_status (s : State) :
    (updateDockTimes s).dock.dockStatus = s.dock.dockStatus ∧
    (updateDockTimes s).heap = s.heap := by
  unfold updateDockTimes
  cases hd : s.dock.dockStatus <;> simp [hd]

/-- Counting with one cell emptied. -/
theorem svcCount_set_none : ∀ (h : List (Option Train)) (p : Nat) (t : Train),
    hget h p = some t → t.trainStatus = tStat.SERVICE →
    svcCount h = svcCount (h.set p none) + 1
  | [], p, t, hp, _ => by simp [hget] at hp
  | c :: cs, 0, t, hp, hs => by
    have : c = some t := by simpa [hget] using hp
    subst this
    simp [svcCount, isSvc, hs]
  | c :: cs, p + 1, t, hp, hs => by
    have hp2 : hget cs p = some t := by simpa [hget] using hp
    have ih := svcCount_set_none cs p t hp2 hs
    unfold svcCount at ih ⊢
    simp only [List.set_cons_succ, List.countP_cons, ih]
    omega

theorem svcCount_eq_zero {h : List (Option Train)}
    (a : ∀ q u, hget h q = some u → u.trainStatus ≠ tStat.SERVICE) : svcCount h = 0 := by
  unfold svcCount
  rw [List.countP_eq_zero]
  intro c hc
  cases c with
  | none => simp [isSvc]
  | some u =>
    obtain ⟨q, hq⟩ := List.get?_of_mem hc
    have : hget h q = some u := by
      unfold hget
      rw [hq]
      rfl
    simpa [isSvc] using a q u this

/-- The number of SERVICE trains, from the invariant. -/
theorem InvD.count {h : List (Option Train)} {d : dStat} (a : InvD h d) :
    svcCount h = if d = dStat.IDLE then 0 else 1 := by
  by_cases hd : d = dStat.IDLE
  · rw [if_pos hd]
    apply svcCount_eq_zero
    intro q u hu hs
    rcases a.occ q u hu hs with ⟨h1, _⟩ | ⟨h1, _⟩ <;> rw [hd] at h1 <;> exact absurd h1 (by decide)
  · rw [if_neg hd]
    obtain ⟨p, t, hp, hs⟩ := a.busy hd
    rw [svcCount_set_none h p t hp hs]
    have : svcCount (h.set p none) = 0 := by
      apply svcCount_eq_zero
      intro q u hu hs2
      obtain ⟨hqp, hu2⟩ := hget_set_none_some hu
      exact hqp (a.uniq q p u t hu2 hp hs2 hs)
    rw [this]

/-- The hogout handler keeps the dock-occupancy invariant. -/
theorem SInvD.of_hogout_dock {st s2 : State} {p : Nat} {t : Train} {g : Gen} (d : SInvD st)
    (ht : deref st p = some t)
    (hs : t.trainStatus = tStat.INQ ∨ t.trainStatus = tStat.SERVICE)
    (h : hogout p g st = some s2) : SInvD s2 := by
  obtain ⟨x, tt, rfl, _⟩ := hogout_some ht h
  rcases hs with hq | hsv
  · show InvD (st.heap.set p (some (hoggedTrain st.globalTime x st.nextCrewId t)))
      (if t.trainStatus = tStat.INQ then st.dock
        else { st.dock with dockStatus := dStat.IDLE_HOGGED }).dockStatus
    rw [if_pos hq]
    exact InvD.set_other d ht (by rw [hq]; decide) (by simp [hoggedTrain, hq])
  · have hnq : ¬ t.trainStatus = tStat.INQ := by rw [hsv]; decide
    show InvD (st.heap.set p (some (hoggedTrain st.globalTime x st.nextCrewId t)))
      (if t.trainStatus = tStat.INQ then st.dock
        else { st.dock with dockStatus := dStat.IDLE_HOGGED }).dockStatus
    rw [if_neg hnq]
    exact InvD.set_occ d ht hsv (by simp [hoggedTrain, hsv]) (Or.inr ⟨rfl, rfl⟩)

/-- The crew-replacement handler keeps the dock-occupancy invariant. -/
theorem SInvD.of_newCrew_dock {st s2 : State} {p : Nat} {t : Train} (a : SInvA st)
    (d : SInvD st) (ht : deref st p = some t) (h : newCrew p st = some s2) : SInvD s2 := by
  have hlt : p < st.heap.length := hget_lt ht
  have hself : hget (st.heap.set p (some (crewOnTrain st.globalTime t))) p
      = some (crewOnTrain st.globalTime t) := by
    simp [hget_set_some, hlt]
  rcases newCrew_some ht h with
    ⟨hd, hq, front, rest, f, hl, hf, hid, ⟨hfp, rfl⟩ | ⟨hfp, _⟩⟩ | ⟨hsv, rfl⟩ | ⟨hq, _, rfl⟩ |
      ⟨_, hns, rfl⟩
  · subst hfp
    have d1 : InvD (st.heap.set front (some (crewOnTrain st.globalTime t))) dStat.IDLE := by
      have d0 : InvD st.heap dStat.IDLE := hd ▸ d
      exact d0.set_other ht (by rw [hq]; decide) (by simp [crewOnTrain, hq])
    have hf2 : hget (st.heap.set front (some (crewOnTrain st.globalTime t))) front = some f := hf
    rw [hself] at hf2
    have ef := (Option.some.inj hf2).symm
    subst ef
    show InvD ((st.heap.set front (some (crewOnTrain st.globalTime t))).set front
      (some (serviceTrain st.globalTime (crewOnTrain st.globalTime t)))) dStat.BUSY
    exact d1.enter hself rfl rfl
  · exfalso
    have hf2 : hget st.heap front = some f := by
      rcases hget_set_some_cases hf with ⟨h1, _⟩ | ⟨_, h2⟩
      · exact absurd h1 hfp
      · exact h2
    have e1 := (a.trains front f hf2).tid
    have e2 := (a.trains p t ht).tid
    rw [hid, e2] at e1
    exact hfp (by exact_mod_cast e1.symm)
  · show InvD (st.heap.set p (some (crewOnTrain st.globalTime t))) dStat.BUSY
    exact InvD.set_occ d ht hsv hsv (Or.inl ⟨rfl, rfl⟩)
  · show InvD (st.heap.set p (some (crewOnTrain st.globalTime t))) st.dock.dockStatus
    exact InvD.set_other d ht (by rw [hq]; decide) (by simp [crewOnTrain, hq])
  · show InvD (st.heap.set p (some (crewOnTrain st.globalTime t))) st.dock.dockStatus
    exact InvD.set_other d ht hns hns

/-- The departure handler keeps the dock-occupancy invariant. -/
theorem SInvD.of_departure_dock {st s2 : State} {p : Nat} {t : Train}
    (d : SInvD st) (ht : deref st p = some t) (hs : t.trainStatus = tStat.SERVICE)
    (h : departure p st = some s2) : SInvD s2 := by
  by_cases hc : t.crewStatus = cStat.HOGGED_OUT
  · rw [departure_stale ht hc] at h
    exact (Option.some.inj h) ▸ d
  · obtain ⟨stt, h3⟩ := departure_some ht hc h
    have d1 : InvD (st.heap.set p (some (departedTrain st.globalTime t))) dStat.IDLE :=
      InvD.leave d ht hs (by simp [departedTrain])
    rcases h3 with ⟨_, rfl⟩ | ⟨front, rest, f, hl, hf, ⟨hon, rfl⟩ | ⟨_, rfl⟩⟩
    · exact d1
    · have hf2 : hget (st.heap.set p (some (departedTrain st.globalTime t))) front = some f := hf
      show InvD ((st.heap.set p (some (departedTrain st.globalTime t))).set front
        (some (serviceTrain st.globalTime f))) dStat.BUSY
      exact d1.enter hf2 rfl hon
    · exact d1

/-- The arrival handler keeps the dock-occupancy invariant. -/
theorem SInvD.of_arrival_dock {st s2 : State} {p : Nat} {t : Train} {g : Gen} (d : SInvD st)
    (ht : deref st p = some t) (hs : t.trainStatus = tStat.ARRIVED)
    (hc : t.crewStatus = cStat.ON_CLOCK) (h : arrival p g st = some s2) : SInvD s2 := by
  obtain ⟨s1, h1, ht1, h3⟩ := arrival_some ht h
  have d1 : SInvD s1 ∧ s1.dock = st.dock := by
    rcases arrivalNext_some h1 with rfl | ⟨ts, rest, rfl, _⟩
    · exact ⟨d, rfl⟩
    · refine ⟨?_, rfl⟩
      show InvD (st.heap ++ [some (newTrain st.nextTrainId st.nextCrewId
        (ts.arrivalTime + st.globalTime) ts.remainingCrewHours ts.unloadTime)])
        st.dock.dockStatus
      exact InvD.alloc_dock d _ (by simp [newTrain])
  obtain ⟨d1, hdock⟩ := d1
  rcases h3 with ⟨_, hidle, rfl⟩ | ⟨_, rfl⟩
  · have d2 : InvD s1.heap dStat.IDLE := by
      have : s1.dock.dockStatus = dStat.IDLE := by rw [hdock]; exact hidle
      exact this ▸ d1
    show InvD (s1.heap.set p (some (serviceTrain s1.globalTime t))) dStat.BUSY
    exact d2.enter ht1 rfl hc
  · show InvD (s1.heap.set p (some { t with trainStatus := tStat.INQ })) s1.dock.dockStatus
    exact InvD.set_other d1 ht1 (by rw [hs]; decide) (by simp)

/-- One call of `checkEvent` keeps the dock-occupancy invariant. -/
theorem SInvD.of_checkEvent_dock {s s2 : State} {i : Nat} {g : Gen} (a : SInvA s) (d : SInvD s)
    (h : checkEvent i g s = some s2) : SInvD s2 := by
  obtain ⟨e, t, he, _, ht, hcase⟩ := checkEvent_some h
  obtain ⟨l1, l2, hq, hers⟩ := get?_split he
  have a2 : InvA (l1 ++ e :: l2) s.trainQ s.heap s.nextTrainId := hq ▸ a
  obtain ⟨p1, p2, p3, _, _⟩ := a2.popped ht
  rcases hcase with ⟨hd, rfl⟩ | ⟨hnd, hd⟩
  · show InvD (s.heap.set e.train none) s.dock.dockStatus
    exact InvD.drop_dock d ht (by rw [hd]; decide)
  · have ast : SInvA (popAt i e s) := by
      show InvA (s.eventQ.eraseIdx i) s.trainQ s.heap s.nextTrainId
      rw [hers]
      exact a2.pop
    have dst : SInvD (popAt i e s) := d
    have hst : deref (popAt i e s) e.train = some t := ht
    cases hf : e.function with
    | arrival =>
      rw [hf] at hd
      obtain ⟨h1, _⟩ := p1 hf
      have hcrew := ((a.trains e.train t ht).arrived h1).1
      exact SInvD.of_arrival_dock dst hst h1 hcrew hd
    | departure =>
      rw [hf] at hd
      rcases p2 hf with h1 | h1
      · exact SInvD.of_departure_dock dst hst h1 hd
      · exact absurd h1 hnd
    | hogout =>
      rw [hf] at hd
      obtain ⟨h1, _⟩ := p3 (Or.inl hf)
      have hs : t.trainStatus = tStat.INQ ∨ t.trainStatus = tStat.SERVICE := by
        cases hx : t.trainStatus with
        | ARRIVED => exact absurd hx h1
        | INQ => exact Or.inl rfl
        | SERVICE => exact Or.inr rfl
        | DEPARTED => exact absurd hx hnd
      exact SInvD.of_hogout_dock dst hst hs hd
    | newCrew =>
      rw [hf] at hd
      exact SInvD.of_newCrew_dock ast dst hst hd

/-- Every state the loop of `main` reaches satisfies the dock-occupancy
invariant. -/
theorem SInvD.of_mainRun_dock {c : Config} {g0 : Gen} {inputs : List (Nat × Gen)} {s : State}
    (h : mainRun c g0 inputs = some s) : SInvD s := by
  unfold mainRun at h
  simp only [Option.bind_eq_some] at h
  obtain ⟨s0, h0, h1⟩ := h
  have init : SInvD s0 := by
    obtain ⟨ts, rest, rfl, _⟩ := mainInit_some h0
    have e : InvD ([] : List (Option Train)) dStat.IDLE := by
      constructor
      · intro p t hp
        simp [hget] at hp
      · intro p _ t _ hp
        simp [hget] at hp
      · exact fun hd => absurd rfl hd
    have := InvD.alloc_dock e (newTrain 0 0 0 ts.remainingCrewHours ts.unloadTime)
      (by simp [newTrain])
    exact this
  have := driver_induction (fun x => SInvA x ∧ SInvD x) ?_ inputs s0 s
    ⟨SInvA.of_mainInit h0, init⟩ h1
  · exact this.2
  · intro x i g x2 hP _ hs
    refine ⟨hP.1.of_driverIter hs, ?_⟩
    unfold driverIter at hs
    simp only [Option.map_eq_some'] at hs
    obtain ⟨x1, hx1, rfl⟩ := hs
    have d1 : InvD x1.heap x1.dock.dockStatus := SInvD.of_checkEvent_dock hP.1 hP.2 hx1
    show InvD (updateDockTimes x1).heap (updateDockTimes x1).dock.dockStatus
    rw [(updateDockTimes_status x1).1, (updateDockTimes_status x1).2]
    exact d1

/-- C12.  Dock occupancy invariant.  Let `s` be a state reached by the loop of
`main` (a state between two driver iterations).  Then the number of stored
trains with trainStatus SERVICE is 1 when the dock status is BUSY or
IDLE_HOGGED and 0 when it is IDLE; and for every train with trainStatus SERVICE
the dock is BUSY exactly when the crew of that train is ON_CLOCK and
IDLE_HOGGED exactly when it is HOGGED_OUT. -/
theorem C12_dock_occupancy (c : Config) (g0 : Gen) (inputs : List (Nat × Gen))
    (s : State) (hrun : mainRun c g0 inputs = some s) :
    ((s.dock.dockStatus = dStat.BUSY ∨ s.dock.dockStatus = dStat.IDLE_HOGGED) →
      svcCount s.heap = 1) ∧
    (s.dock.dockStatus = dStat.IDLE → svcCount s.heap = 0) ∧
    (∀ p t, deref s p = some t → t.trainStatus = tStat.SERVICE →
      (s.dock.dockStatus = dStat.BUSY ↔ t.crewStatus = cStat.ON_CLOCK) ∧
      (s.dock.dockStatus = dStat.IDLE_HOGGED ↔ t.crewStatus = cStat.HOGGED_OUT)) := by
  have d : InvD s.heap s.dock.dockStatus := SInvD.of_mainRun_dock hrun
  have hcount := d.count
  refine ⟨?_, ?_, ?_⟩
  · intro hb
    have : ¬ s.dock.dockStatus = dStat.IDLE := by
      rcases hb with hb | hb <;> rw [hb] <;> decide
    rw [if_neg this] at hcount
    exact hcount
  · intro hi
    rw [if_pos hi] at hcount
    exact hcount
  · intro p t ht hs
    rcases d.occ p t ht hs with ⟨h1, h2⟩ | ⟨h1, h2⟩
    · rw [h1, h2]
      exact ⟨⟨fun _ => rfl, fun _ => rfl⟩,
        ⟨fun h => absurd h (by decide), fun h => absurd h (by decide)⟩⟩
    · rw [h1, h2]
      exact ⟨⟨fun h => absurd h (by decide), fun h => absurd h (by decide)⟩,
        ⟨fun _ => rfl, fun _ => rfl⟩⟩

/-- C12 (witness).  After the hogout of `hogRun` the dock is IDLE_HOGGED and
the one stored train is SERVICE with its crew HOGGED_OUT. -/
theorem C12_dock_occupancy_witness :
    (mainRun (genCfg (-1)) hogGen (hogRun.take 2) = some hogHogged ∧
     hogHogged.dock.dockStatus = dStat.IDLE_HOGGED ∧ svcCount hogHogged.heap = 1 ∧
     (deref hogHogged 0).map (fun t => (t.trainStatus, t.crewStatus))
       = some (tStat.SERVICE, cStat.HOGGED_OUT)) ∧
    (((hogHogged.dock.dockStatus = dStat.BUSY ∨ hogHogged.dock.dockStatus = dStat.IDLE_HOGGED) →
      svcCount hogHogged.heap = 1) ∧
    (hogHogged.dock.dockStatus = dStat.IDLE → svcCount hogHogged.heap = 0) ∧
    (∀ p t, deref hogHogged p = some t → t.trainStatus = tStat.SERVICE →
      (hogHogged.dock.dockStatus = dStat.BUSY ↔ t.crewStatus = cStat.ON_CLOCK) ∧
      (hogHogged.dock.dockStatus = dStat.IDLE_HOGGED ↔ t.crewStatus = cStat.HOGGED_OUT))) :=
  ⟨⟨hogHogged_eq, rfl, by decide!, by decide!⟩,
   C12_dock_occupancy (genCfg (-1)) hogGen (hogRun.take 2) hogHogged hogHogged_eq⟩

/-! ## Hogouts of a train in the dock

`PastHog` is the situation of a train after its hogout in the dock, or after
it entered the dock with no hogout pending: no hogout of it is pending and it
is SERVICE or DEPARTED.  The situation is stable.  `UStep` relates the unload
times of the trains before and after a step.
-/

theorem NoHog.append_hog {q l : List Event} {p : Nat} (a : NoHog q p)
    (hl : ∀ x ∈ l, x.train = p → x.function ≠ EventFunc.hogout) : NoHog (q ++ l) p := by
  intro x hx
  rcases List.mem_append.1 hx with hx | hx
  · exact a x hx
  · exact hl x hx

theorem SvcOrDep.set_hog {h : List (Option Train)} {p q : Nat} {t1 : Train}
    (a : SvcOrDep h p)
    (h1 : q = p → t1.trainStatus = tStat.SERVICE ∨ t1.trainStatus = tStat.DEPARTED) :
    SvcOrDep (h.set q (some t1)) p := by
  intro t ht
  rcases hget_set_some_cases ht with ⟨e1, rfl⟩ | ⟨_, ht2⟩
  · exact h1 e1.symm
  · exact a t ht2

theorem SvcOrDep.alloc_hog {h : List (Option Train)} {p : Nat} (a : SvcOrDep h p)
    (hp : p < h.length) (t0 : Train) : SvcOrDep (h ++ [some t0]) p := by
  intro t ht
  rcases hget_append_cases ht with ⟨e1, _⟩ | ⟨_, ht2⟩
  · omega
  · exact a t ht2

theorem UStep.refl_unload (h : List (Option Train)) : UStep h h :=
  ⟨le_refl _, fun _ u2 _ hu => ⟨u2, hu, rfl⟩⟩

theorem UStep.trans_unload {h h1 h2 : List (Option Train)} (a : UStep h h1) (b : UStep h1 h2) :
    UStep h h2 := by
  refine ⟨le_trans a.len b.len, ?_⟩
  intro q u2 hq hu2
  obtain ⟨u1, hu1, e1⟩ := b.back q u2 (lt_of_lt_of_le hq a.len) hu2
  obtain ⟨u, hu, e0⟩ := a.back q u1 hq hu1
  exact ⟨u, hu, e1.trans e0⟩

theorem UStep.set_unload {h : List (Option Train)} {p : Nat} {t t1 : Train}
    (hp : hget h p = some t) (h1 : t1.unloadTime = t.unloadTime) :
    UStep h (h.set p (some t1)) := by
  refine ⟨by simp, ?_⟩
  intro q u2 _ hu
  rcases hget_set_some_cases hu with ⟨rfl, rfl⟩ | ⟨_, hu2⟩
  · exact ⟨t, hp, h1⟩
  · exact ⟨u2, hu2, rfl⟩

theorem UStep.drop_unload (h : List (Option Train)) (p : Nat) : UStep h (h.set p none) :=
  ⟨by simp, fun _ u2 _ hu => ⟨u2, (hget_set_none_some hu).2, rfl⟩⟩

theorem UStep.alloc_unload (h : List (Option Train)) (t0 : Train) : UStep h (h ++ [some t0]) := by
  refine ⟨by simp, ?_⟩
  intro q u2 hq hu
  rcases hget_append_cases hu with ⟨e1, _⟩ | ⟨_, hu2⟩
  · omega
  · exact ⟨u2, hu2, rfl⟩

/-- A handler other than a hogout of a train that is not INQ keeps every
unloadTime. -/
theorem dispatch_unload {f : EventFunc} {p : Nat} {g : Gen} {s s2 : State} {t : Train}
    (ht : deref s p = some t) (h : dispatch f p g s = some s2)
    (hf : f = EventFunc.hogout → t.trainStatus = tStat.INQ) : UStep s.heap s2.heap := by
  have ht0 : hget s.heap p = some t := ht
  cases f with
  | arrival =>
    obtain ⟨s1, h1, ht1, h3⟩ := arrival_some ht h
    have u1 : UStep s.heap s1.heap := by
      rcases arrivalNext_some h1 with rfl | ⟨ts, rest, rfl, _⟩
      · exact UStep.refl_unload _
      · exact UStep.alloc_unload _ _
    rcases h3 with ⟨_, _, rfl⟩ | ⟨_, rfl⟩
    · exact u1.trans_unload (UStep.set_unload ht1 rfl)
    · exact u1.trans_unload (UStep.set_unload ht1 rfl)
  | departure =>
    by_cases hc : t.crewStatus = cStat.HOGGED_OUT
    · have h2 : departure p s = some s2 := h
      rw [departure_stale ht hc] at h2
      rw [← Option.some.inj h2]
      exact UStep.refl_unload _
    · obtain ⟨st, h3⟩ := departure_some ht hc h
      have u1 : UStep s.heap (s.heap.set p (some (departedTrain s.globalTime t))) :=
        UStep.set_unload ht0 rfl
      rcases h3 with ⟨_, rfl⟩ | ⟨front, rest, f, _, hf1, ⟨_, rfl⟩ | ⟨_, rfl⟩⟩
      · exact u1
      · have hf2 : hget (s.heap.set p (some (departedTrain s.globalTime t))) front = some f := hf1
        exact u1.trans_unload (UStep.set_unload hf2 rfl)
      · exact u1
  | hogout =>
    obtain ⟨d, tt, rfl, _⟩ := hogout_some ht h
    have hq := hf rfl
    exact UStep.set_unload ht0 (by simp [hoggedTrain, hq])
  | newCrew =>
    have u1 : UStep s.heap (s.heap.set p (some (crewOnTrain s.globalTime t))) :=
      UStep.set_unload ht0 rfl
    have u2 : ∀ front f, deref (crewOnAt p t s) front = some f →
        UStep s.heap ((s.heap.set p (some (crewOnTrain s.globalTime t))).set front
          (some (serviceTrain s.globalTime f))) := by
      intro front f hf1
      have hf2 : hget (s.heap.set p (some (crewOnTrain s.globalTime t))) front = some f := hf1
      exact u1.trans_unload (UStep.set_unload hf2 rfl)
    rcases newCrew_some ht h with
      ⟨_, _, front, rest, f, _, hf1, _, ⟨_, rfl⟩ | ⟨_, rfl⟩⟩ | ⟨_, rfl⟩ | ⟨_, _, rfl⟩ | ⟨_, _, rfl⟩
    · exact u2 front f hf1
    · exact u2 front f hf1
    · exact u1
    · exact u1
    · exact u1

/-- One call of `checkEvent` changes an unloadTime only in the hogout of a
train that is neither INQ nor DEPARTED, and there by the time since
`endQTime`. -/
theorem checkEvent_unload {s s2 : State} {i : Nat} {g : Gen} (h : checkEvent i g s = some s2) :
    ∃ e t, s.eventQ.get? i = some e ∧ deref s e.train = some t ∧
      s.heap.length ≤ s2.heap.length ∧
      ∀ q u2, q < s.heap.length → hget s2.heap q = some u2 →
        ∃ u, hget s.heap q = some u ∧
          (u2.unloadTime = u.unloadTime ∨
           (q = e.train ∧ e.function = EventFunc.hogout ∧ t.trainStatus ≠ tStat.DEPARTED ∧
            t.trainStatus ≠ tStat.INQ ∧
            u2.unloadTime = u.unloadTime - (e.eventTime - u.endQTime))) := by
  obtain ⟨e, t, he, _, ht, hcase⟩ := checkEvent_some h
  refine ⟨e, t, he, ht, ?_⟩
  have of_step : UStep s.heap s2.heap → s.heap.length ≤ s2.heap.length ∧
      ∀ q u2, q < s.heap.length → hget s2.heap q = some u2 →
        ∃ u, hget s.heap q = some u ∧
          (u2.unloadTime = u.unloadTime ∨
           (q = e.train ∧ e.function = EventFunc.hogout ∧ t.trainStatus ≠ tStat.DEPARTED ∧
            t.trainStatus ≠ tStat.INQ ∧
            u2.unloadTime = u.unloadTime - (e.eventTime - u.endQTime))) := by
    intro u
    refine ⟨u.len, ?_⟩
    intro q u2 hq hu2
    obtain ⟨u0, h0, e0⟩ := u.back q u2 hq hu2
    exact ⟨u0, h0, Or.inl e0⟩
  rcases hcase with ⟨_, rfl⟩ | ⟨hnd, hd⟩
  · exact of_step (UStep.drop_unload _ _)
  · have hst : deref (popAt i e s) e.train = some t := ht
    by_cases hx : e.function = EventFunc.hogout ∧ t.trainStatus ≠ tStat.INQ
    · rw [hx.1] at hd
      obtain ⟨d, tt, rfl, _⟩ := hogout_some hst hd
      refine ⟨by simp [hogoutAt, popAt], ?_⟩
      intro q u2 _ hu2
      have hu3 : hget (s.heap.set e.train (some (hoggedTrain e.eventTime d s.nextCrewId t))) q
          = some u2 := hu2
      rcases hget_set_some_cases hu3 with ⟨e1, rfl⟩ | ⟨_, hu4⟩
      · refine ⟨t, by rw [e1]; exact ht, Or.inr ⟨e1, hx.1, hnd, hx.2, ?_⟩⟩
        simp [hoggedTrain, hx.2]
      · exact ⟨u2, hu4, Or.inl rfl⟩
    · have := dispatch_unload hst hd (fun hf => by
        by_contra hc
        exact hx ⟨hf, hc⟩)
      exact of_step this

/-- A handler keeps `PastHog` of `p` when it is not the arrival or the hogout
of `p`. -/
theorem PastHog.of_dispatch_hog {f : EventFunc} {p q : Nat} {g : Gen} {s s2 : State}
    {t : Train} (b : PastHog s p) (ht : deref s q = some t)
    (h : dispatch f q g s = some s2)
    (hf : f = EventFunc.arrival ∨ f = EventFunc.hogout → q ≠ p) : PastHog s2 p := by
  obtain ⟨hlt, hno, hst⟩ := b
  have ht0 : hget s.heap q = some t := ht
  have hqp : q = p → t.trainStatus = tStat.SERVICE ∨ t.trainStatus = tStat.DEPARTED := by
    intro e
    rw [e] at ht0
    exact hst t ht0
  cases f with
  | arrival =>
    have hne : q ≠ p := hf (Or.inl rfl)
    obtain ⟨s1, h1, ht1, h3⟩ := arrival_some ht h
    have b1 : p < s1.heap.length ∧ NoHog s1.eventQ p ∧ SvcOrDep s1.heap p := by
      rcases arrivalNext_some h1 with rfl | ⟨ts, rest, rfl, _⟩
      · exact ⟨hlt, hno, hst⟩
      · refine ⟨?_, ?_, ?_⟩
        · show p < (s.heap ++ [_]).length
          simp only [List.length_append, List.length_singleton]
          omega
        · exact hno.append_hog (by simp)
        · exact hst.alloc_hog hlt _
    obtain ⟨b1, b2, b3⟩ := b1
    rcases h3 with ⟨_, _, rfl⟩ | ⟨_, rfl⟩
    · refine ⟨by simpa [enterServiceAt] using b1, ?_, b3.set_hog (fun e => absurd e hne)⟩
      refine b2.append_hog ?_
      intro x hx hp
      simp only [List.mem_cons, List.mem_singleton, List.not_mem_nil, or_false] at hx
      rcases hx with rfl | rfl
      · simp
      · exact absurd hp hne
    · refine ⟨by simpa [enqueueAt] using b1, ?_, b3.set_hog (fun e => absurd e hne)⟩
      refine b2.append_hog ?_
      intro x hx hp
      rw [List.mem_singleton.1 hx] at hp
      exact absurd hp hne
  | departure =>
    by_cases hc : t.crewStatus = cStat.HOGGED_OUT
    · have h2 : departure q s = some s2 := h
      rw [departure_stale ht hc] at h2
      rw [← Option.some.inj h2]
      exact ⟨hlt, hno, hst⟩
    · obtain ⟨st, h3⟩ := departure_some ht hc h
      have b3 : SvcOrDep (s.heap.set q (some (departedTrain s.globalTime t))) p :=
        hst.set_hog (fun _ => Or.inr rfl)
      rcases h3 with ⟨_, rfl⟩ | ⟨front, rest, f, _, _, ⟨_, rfl⟩ | ⟨_, rfl⟩⟩
      · exact ⟨by simpa [departAt] using hlt, hno, b3⟩
      · refine ⟨by simpa [startServiceAt, departAt] using hlt, ?_,
          b3.set_hog (fun _ => Or.inl rfl)⟩
        exact hno.append_hog (by simp)
      · exact ⟨by simpa [departAt] using hlt, hno, b3⟩
  | hogout =>
    have hne : q ≠ p := hf (Or.inr rfl)
    obtain ⟨d, tt, rfl, _⟩ := hogout_some ht h
    refine ⟨by simpa [hogoutAt] using hlt, ?_, hst.set_hog (fun e => absurd e hne)⟩
    exact hno.append_hog (by simp)
  | newCrew =>
    have b3 : SvcOrDep (s.heap.set q (some (crewOnTrain s.globalTime t))) p :=
      hst.set_hog hqp
    have hinq : t.trainStatus = tStat.INQ → q ≠ p := by
      intro hs e
      rcases hqp e with h1 | h1 <;> rw [hs] at h1 <;> exact absurd h1 (by decide)
    rcases newCrew_some ht h with
      ⟨_, hq1, front, rest, f, _, _, _, ⟨_, rfl⟩ | ⟨_, rfl⟩⟩ | ⟨_, rfl⟩ | ⟨hq1, _, rfl⟩ |
        ⟨_, _, rfl⟩
    · refine ⟨by simpa [startServiceAt, crewOnAt] using hlt, ?_,
        b3.set_hog (fun _ => Or.inl rfl)⟩
      exact hno.append_hog (by simp)
    · refine ⟨by simpa [startServiceAt, crewOnAt] using hlt, ?_,
        b3.set_hog (fun _ => Or.inl rfl)⟩
      have n1 : NoHog (s.eventQ ++ [Event.mk EventFunc.departure front
          (f.unloadTime + s.globalTime)]) p := hno.append_hog (by simp)
      refine n1.append_hog ?_
      intro x hx hp
      rw [List.mem_singleton.1 hx] at hp
      exact absurd hp (hinq hq1)
    · exact ⟨by simpa [crewOnAt] using hlt, hno.append_hog (by simp), b3⟩
    · refine ⟨by simpa [crewOnAt] using hlt, ?_, b3⟩
      refine hno.append_hog ?_
      intro x hx hp
      rw [List.mem_singleton.1 hx] at hp
      exact absurd hp (hinq hq1)
    · exact ⟨by simpa [crewOnAt] using hlt, hno, b3⟩

/-- One call of `checkEvent` keeps `PastHog`. -/
theorem PastHog.of_checkEvent_hog {s s2 : State} {i : Nat} {g : Gen} {p : Nat} (a : SInvA s)
    (b : PastHog s p) (h : checkEvent i g s = some s2) : PastHog s2 p := by
  obtain ⟨e, t, he, _, ht, hcase⟩ := checkEvent_some h
  obtain ⟨l1, l2, hq, hers⟩ := get?_split he
  have a2 : InvA (l1 ++ e :: l2) s.trainQ s.heap s.nextTrainId := hq ▸ a
  obtain ⟨p1, _, _, _, _⟩ := a2.popped ht
  obtain ⟨hlt, hno, hst⟩ := b
  have hmem : e ∈ s.eventQ := List.get?_mem he
  have hsub : ∀ x ∈ s.eventQ.eraseIdx i, x ∈ s.eventQ := by
    intro x hx
    rw [hers] at hx
    rw [hq]
    exact mem_pop hx
  have hno1 : NoHog (s.eventQ.eraseIdx i) p := fun x hx => hno x (hsub x hx)
  rcases hcase with ⟨hd, rfl⟩ | ⟨hnd, hd⟩
  · refine ⟨by simpa [dropAt] using hlt, hno1, ?_⟩
    intro u hu
    exact hst u (hget_set_none_some hu).2
  · have bst : PastHog (popAt i e s) p := ⟨hlt, hno1, hst⟩
    have hst2 : deref (popAt i e s) e.train = some t := ht
    refine bst.of_dispatch_hog hst2 hd ?_
    rintro (hf | hf)
    · intro e1
      obtain ⟨h1, _⟩ := p1 hf
      have := hst t (by rw [← e1]; exact ht)
      rw [h1] at this
      rcases this with h | h <;> exact absurd h (by decide)
    · intro e1
      exact hno e hmem e1 hf

/-- The hogout of a train in the dock: the unloadTime is reduced by the time
since `endQTime`, and `PastHog` holds afterwards. -/
theorem PastHog.of_hogout_svc {s s2 : State} {i : Nat} {g : Gen} {e : Event} {t : Train}
    (a : SInvA s) (he : s.eventQ.get? i = some e) (hf : e.function = EventFunc.hogout)
    (ht : deref s e.train = some t) (hsv : t.trainStatus = tStat.SERVICE)
    (h : checkEvent i g s = some s2) :
    PastHog s2 e.train ∧
    ∃ t2, deref s2 e.train = some t2 ∧ t2.trainStatus = tStat.SERVICE ∧
      t2.unloadTime = t.unloadTime - (e.eventTime - t.endQTime) := by
  obtain ⟨e1, t1, he1, _, ht1, hcase⟩ := checkEvent_some h
  rw [he] at he1
  have ee := Option.some.inj he1
  subst ee
  rw [ht] at ht1
  have et := Option.some.inj ht1
  subst et
  obtain ⟨l1, l2, hq, hers⟩ := get?_split he
  have a2 : InvA (l1 ++ e :: l2) s.trainQ s.heap s.nextTrainId := hq ▸ a
  have hcnt := a2.pop_chain (Or.inl hf)
  have hlt : e.train < s.heap.length := hget_lt ht
  have hnq : ¬ t.trainStatus = tStat.INQ := by rw [hsv]; decide
  rcases hcase with ⟨hd, _⟩ | ⟨_, hd⟩
  · rw [hsv] at hd
    exact absurd hd (by decide)
  · have hst : deref (popAt i e s) e.train = some t := ht
    rw [hf] at hd
    obtain ⟨d, tt, rfl, _⟩ := hogout_some hst hd
    have hno : NoHog (s.eventQ.eraseIdx i) e.train := by
      intro x hx hp
      rw [hers] at hx
      exact (not_chain_of_count hcnt hx hp).1
    refine ⟨⟨by simpa [hogoutAt, popAt] using hlt, ?_, ?_⟩, ?_⟩
    · exact hno.append_hog (by simp)
    · intro u hu
      have hu2 : hget (s.heap.set e.train (some (hoggedTrain e.eventTime d s.nextCrewId t)))
          e.train = some u := hu
      rw [hget_set_self ht hu2]
      exact Or.inl hsv
    · refine ⟨hoggedTrain e.eventTime d s.nextCrewId t, ?_, hsv, ?_⟩
      · simp [deref_eq, hogoutAt, popAt, hget_set_some, hlt]
      · simp [hoggedTrain, hnq]

/-- Along the loop of `main`, `PastHog` of a train stays and its unloadTime
keeps its value. -/
theorem PastHog.of_driver_hog {p : Nat} {u0 : ℚ} (inputs : List (Nat × Gen)) (s s3 : State)
    (a : SInvA s) (b : PastHog s p) (hu : ∀ t, deref s p = some t → t.unloadTime = u0)
    (h : driver inputs s = some s3) :
    SInvA s3 ∧ PastHog s3 p ∧ ∀ t, deref s3 p = some t → t.unloadTime = u0 := by
  refine driver_induction
    (fun x => SInvA x ∧ PastHog x p ∧ ∀ t, deref x p = some t → t.unloadTime = u0)
    ?_ inputs s s3 ⟨a, b, hu⟩ h
  intro x i g x2 hP _ hs
  obtain ⟨ax, bx, ux⟩ := hP
  refine ⟨ax.of_driverIter hs, ?_⟩
  unfold driverIter at hs
  simp only [Option.map_eq_some'] at hs
  obtain ⟨x1, hx1, rfl⟩ := hs
  have b1 : PastHog x1 p := bx.of_checkEvent_hog ax hx1
  refine ⟨b1, ?_⟩
  intro t3 h3
  have h4 : hget x1.heap p = some t3 := h3
  obtain ⟨e, t, he, _, _, hback⟩ := checkEvent_unload hx1
  obtain ⟨u, hu1, hcase⟩ := hback p t3 bx.1 h4
  rcases hcase with h5 | ⟨h5, h6, _⟩
  · rw [h5]
    exact ux u hu1
  · exact absurd h6 (bx.2.1 e (List.get?_mem he) h5.symm)

/-! ## The unload time stays non-negative

Only the unload values have to be non-negative for this: a train in service
with a pending hogout still has the departure of `startService` pending, and
the event that `top()` returns is not later than that departure.
-/

theorem TrainOKU.frame_u {q q2 : List Event} {p : Nat} {t : Train} (a : TrainOKU q p t)
    (hold : ∀ e ∈ q2, e.train = p → e.function = EventFunc.hogout → e ∈ q)
    (hdep : ∀ e ∈ q, e.train = p → e.function = EventFunc.departure → e ∈ q2) :
    TrainOKU q2 p t := by
  refine ⟨a.unl, ?_⟩
  intro e he hp hf hs
  obtain ⟨e2, h1, h2, h3, h4⟩ := a.hogdep_u e (hold e he hp hf) hp hf hs
  exact ⟨e2, hdep e2 h1 h3 h2, h2, h3, h4⟩

theorem InvU.to_x {q : List Event} {h : List (Option Train)} {sched : List TrainSchedule}
    (a : InvU q h sched) (p : Nat) : InvUx q h sched p :=
  ⟨fun x u _ hu => a.trains_u x u hu, a.sched_u⟩

/-- Removing an event keeps the invariant of the other trains. -/
theorem InvUx.pop_x {l1 l2 : List Event} {e : Event} {h : List (Option Train)}
    {sched : List TrainSchedule} (a : InvU (l1 ++ e :: l2) h sched) :
    InvUx (l1 ++ l2) h sched e.train := by
  refine ⟨?_, a.sched_u⟩
  intro x u hx hu
  refine (a.trains_u x u hu).frame_u (fun y hy _ _ => mem_pop hy) ?_
  intro y hy hp _
  rcases List.mem_append.1 hy with h1 | h1
  · exact List.mem_append_left _ h1
  · rcases List.mem_cons.1 h1 with h2 | h2
    · rw [h2] at hp
      exact absurd hp.symm hx
    · exact List.mem_append_right _ h2

/-- Removing an event that is no departure keeps the invariant. -/
theorem InvU.pop_u {l1 l2 : List Event} {e : Event} {h : List (Option Train)}
    {sched : List TrainSchedule} (a : InvU (l1 ++ e :: l2) h sched)
    (hne : e.function ≠ EventFunc.departure) : InvU (l1 ++ l2) h sched := by
  refine ⟨?_, a.sched_u⟩
  intro x u hu
  refine (a.trains_u x u hu).frame_u (fun y hy _ _ => mem_pop hy) ?_
  intro y hy _ hf
  rcases List.mem_append.1 hy with h1 | h1
  · exact List.mem_append_left _ h1
  · rcases List.mem_cons.1 h1 with h2 | h2
    · rw [h2] at hf
      exact absurd hf hne
    · exact List.mem_append_right _ h2

/-- Writing the train at `p` and pushing events of `p`. -/
theorem InvUx.set_push_u {q l : List Event} {h : List (Option Train)}
    {sched : List TrainSchedule} {p : Nat} {t1 : Train} (a : InvUx q h sched p)
    (hl : ∀ x ∈ l, x.train = p) (ok : TrainOKU (q ++ l) p t1) :
    InvU (q ++ l) (h.set p (some t1)) sched := by
  refine ⟨?_, a.2⟩
  intro x u hu
  rcases hget_set_some_cases hu with ⟨hx, hu1⟩ | ⟨hxp, hu2⟩
  · subst hx
    subst hu1
    exact ok
  · refine (a.1 x u hxp hu2).frame_u ?_ (fun e he _ _ => List.mem_append_left _ he)
    intro e he hp _
    rcases List.mem_append.1 he with h1 | h1
    · exact h1
    · have := hl e h1
      rw [hp] at this
      exact absurd this hxp

/-- Writing the train at `p` without a new event. -/
theorem InvUx.set_u {q : List Event} {h : List (Option Train)}
    {sched : List TrainSchedule} {p : Nat} {t1 : Train} (a : InvUx q h sched p)
    (ok : TrainOKU q p t1) : InvU q (h.set p (some t1)) sched := by
  have := InvUx.set_push_u (l := []) a (fun x hx => absurd hx (by simp)) (by simpa using ok)
  simpa using this

/-- Pushing events of the train at `p` without writing it. -/
theorem InvU.push_u {q l : List Event} {h : List (Option Train)}
    {sched : List TrainSchedule} {p : Nat} (a : InvU q h sched)
    (hl : ∀ x ∈ l, x.train = p) (ok : ∀ t, hget h p = some t → TrainOKU (q ++ l) p t) :
    InvU (q ++ l) h sched := by
  refine ⟨?_, a.sched_u⟩
  intro x u hu
  by_cases hx : x = p
  · subst hx
    exact ok u hu
  · refine (a.trains_u x u hu).frame_u ?_ (fun e he _ _ => List.mem_append_left _ he)
    intro e he hp _
    rcases List.mem_append.1 he with h1 | h1
    · exact h1
    · have := hl e h1
      rw [hp] at this
      exact absurd this hx

/-- Creating the next train and scheduling its arrival. -/
theorem InvU.alloc_u {q : List Event} {h : List (Option Train)}
    {sched sched2 : List TrainSchedule} (a : InvU q h sched)
    (hptr : ∀ e ∈ q, e.train < h.length) (nid cid : Int) (gap now hT uT : ℚ)
    (hu0 : 0 ≤ uT) (hsub : ∀ x ∈ sched2, x ∈ sched) :
    InvU (q ++ [{ function := EventFunc.arrival, train := h.length, eventTime := gap + now }])
      (h ++ [some (newTrain nid cid (gap + now) hT uT)]) sched2 := by
  refine ⟨?_, fun x hx => a.sched_u x (hsub x hx)⟩
  intro x u hu
  rcases hget_append_cases hu with ⟨rfl, rfl⟩ | ⟨hlt, hu2⟩
  · refine ⟨hu0, ?_⟩
    intro e he hp hf
    rcases mem_push he with he | he
    · have := hptr e he
      omega
    · rw [he] at hf
      simp at hf
  · refine (a.trains_u x u hu2).frame_u ?_ (fun e he _ _ => List.mem_append_left _ he)
    intro e he hp _
    rcases mem_push he with he | he
    · exact he
    · rw [he] at hp
      simp only at hp
      omega

/-- The head of the wait queue enters the dock. -/
theorem InvU.startQ_u {q : List Event} {h : List (Option Train)} {sched : List TrainSchedule}
    {p : Nat} {f : Train} (a : InvU q h sched) (hf : hget h p = some f) (now : ℚ) :
    InvU (q ++ [{ function := EventFunc.departure, train := p
                  eventTime := f.unloadTime + now }])
      (h.set p (some (serviceTrain now f))) sched := by
  have ok := a.trains_u p f hf
  refine (a.to_x p).set_push_u ?_ ?_
  · intro x hx
    rw [List.mem_singleton.1 hx]
  · refine ⟨ok.unl, ?_⟩
    intro e he hp hfn _
    refine ⟨_, List.mem_append_right _ (List.mem_singleton_self _), rfl, rfl, ?_⟩
    simp only [serviceTrain]
    exact add_comm _ _

/-- The hogout handler keeps the unload invariant, when the extracted hogout
of a train in service is not later than the end of its unloading. -/
theorem SInvU.of_hogout_u {st s2 : State} {p : Nat} {t : Train} {g : Gen}
    (u : InvUx st.eventQ st.heap st.trainSchedule p) (ht : deref st p = some t)
    (hcnt : st.eventQ.countP (isChain p) = 0) (hun : 0 ≤ t.unloadTime)
    (hle : t.trainStatus ≠ tStat.INQ → st.globalTime ≤ t.endQTime + t.unloadTime)
    (h : hogout p g st = some s2) : SInvU s2 := by
  obtain ⟨d, tt, rfl, _⟩ := hogout_some ht h
  have c2 : InvU
      (st.eventQ ++ [{ function := EventFunc.newCrew, train := p, eventTime := st.globalTime + d }])
      (st.heap.set p (some (hoggedTrain st.globalTime d st.nextCrewId t)))
      st.trainSchedule := by
    refine InvUx.set_push_u u ?_ ?_
    · intro x hx
      rw [List.mem_singleton.1 hx]
    · constructor
      · simp only [hoggedTrain]
        split
        · exact hun
        · rename_i hq
          have := hle hq
          linarith
      · intro e he hp hfn _
        rcases mem_push he with he | he
        · exact absurd hfn (not_chain_of_count hcnt he hp).1
        · rw [he] at hfn
          simp at hfn
  exact c2

/-- The crew-replacement handler keeps the unload invariant. -/
theorem SInvU.of_newCrew_u {st s2 : State} {p : Nat} {t : Train} (a : SInvA st)
    (u : InvUx st.eventQ st.heap st.trainSchedule p) (ht : deref st p = some t)
    (hcnt : st.eventQ.countP (isChain p) = 0) (hun : 0 ≤ t.unloadTime)
    (h : newCrew p st = some s2) : SInvU s2 := by
  have hlt : p < st.heap.length := hget_lt ht
  have okOn : TrainOKU st.eventQ p (crewOnTrain st.globalTime t) :=
    ⟨hun, fun e he hp hfn _ => absurd hfn (not_chain_of_count hcnt he hp).1⟩
  have c1 : InvU st.eventQ (st.heap.set p (some (crewOnTrain st.globalTime t)))
      st.trainSchedule := u.set_u okOn
  have hself : hget (st.heap.set p (some (crewOnTrain st.globalTime t))) p
      = some (crewOnTrain st.globalTime t) := by
    simp [hget_set_some, hlt]
  rcases newCrew_some ht h with
    ⟨_, hq, front, rest, f, hl, hf, hid, ⟨hfp, rfl⟩ | ⟨hfp, _⟩⟩ | ⟨hsv, rfl⟩ | ⟨hq, _, rfl⟩ |
      ⟨_, _, rfl⟩
  · subst hfp
    have hf2 : hget (st.heap.set front (some (crewOnTrain st.globalTime t))) front = some f := hf
    rw [hself] at hf2
    have e1 := (Option.some.inj hf2).symm
    subst e1
    exact c1.startQ_u hself st.globalTime
  · exfalso
    have hf2 : hget st.heap front = some f := by
      rcases hget_set_some_cases hf with ⟨h1, _⟩ | ⟨_, h2⟩
      · exact absurd h1 hfp
      · exact h2
    have e1 := (a.trains front f hf2).tid
    have e2 := (a.trains p t ht).tid
    rw [hid, e2] at e1
    exact hfp (by exact_mod_cast e1.symm)
  · show InvU
      (st.eventQ ++ [{ function := EventFunc.departure, train := p
                       eventTime := st.globalTime + t.unloadTime }])
      (st.heap.set p (some (crewOnTrain st.globalTime t))) st.trainSchedule
    refine InvU.push_u (p := p) c1 ?_ ?_
    · intro x hx
      rw [List.mem_singleton.1 hx]
    · intro u hu
      rw [hself] at hu
      rw [← Option.some.inj hu]
      refine okOn.frame_u ?_ (fun e he _ _ => List.mem_append_left _ he)
      intro e he hp hfn
      rcases mem_push he with he | he
      · exact he
      · rw [he] at hfn
        simp at hfn
  · show InvU (st.eventQ ++ [nextHogout p t st])
      (st.heap.set p (some (crewOnTrain st.globalTime t))) st.trainSchedule
    refine InvU.push_u (p := p) c1 ?_ ?_
    · intro x hx
      rw [List.mem_singleton.1 hx]
      rfl
    · intro u hu
      rw [hself] at hu
      rw [← Option.some.inj hu]
      refine ⟨hun, ?_⟩
      intro e he hp hfn hst
      rw [show (crewOnTrain st.globalTime t).trainStatus = t.trainStatus from rfl, hq] at hst
      exact absurd hst (by decide)
  · exact c1

/-- The arrival handler keeps the unload invariant. -/
theorem SInvU.of_arrival_u {st s2 : State} {p : Nat} {t : Train} {g : Gen} (a : SInvA st)
    (u : SInvU st) (hg : 0 ≤ g.unload) (ht : deref st p = some t)
    (hnone : ∀ e ∈ st.eventQ, e.train ≠ p)
    (h : arrival p g st = some s2) : SInvU s2 := by
  obtain ⟨s1, h1, ht1, h3⟩ := arrival_some ht h
  have c1 : SInvU s1 ∧ (∀ e ∈ s1.eventQ, e.train ≠ p) := by
    rcases arrivalNext_some h1 with rfl | ⟨ts, rest, rfl, hsrc⟩
    · exact ⟨u, hnone⟩
    · have hts : 0 ≤ ts.unloadTime := by
        rcases hsrc with ⟨_, hl⟩ | ⟨_, _, hts, _⟩
        · exact u.sched_u ts (by rw [hl]; simp)
        · rw [hts]
          exact hg
      have hsub : ∀ x ∈ rest, x ∈ st.trainSchedule := by
        rcases hsrc with ⟨_, hl⟩ | ⟨_, _, _, hl⟩
        · intro x hx
          rw [hl]
          exact List.mem_cons_of_mem _ hx
        · intro x hx
          rw [← hl]
          exact hx
      refine ⟨?_, ?_⟩
      · exact InvU.alloc_u u a.ev_ptr st.nextTrainId st.nextCrewId ts.arrivalTime st.globalTime
          ts.remainingCrewHours ts.unloadTime hts hsub
      · intro e he
        rcases mem_push he with he | he
        · exact hnone e he
        · rw [he]
          have := hget_lt ht
          simp only
          omega
  obtain ⟨c1, hnone1⟩ := c1
  have ht2 : hget s1.heap p = some t := ht1
  have ok := c1.trains_u p t ht2
  rcases h3 with ⟨_, _, rfl⟩ | ⟨_, rfl⟩
  · show InvU (s1.eventQ ++
        [{ function := EventFunc.departure, train := p, eventTime := t.unloadTime + s1.globalTime },
         { function := EventFunc.hogout, train := p
           eventTime := (serviceTrain s1.globalTime t).timeTillHogout + s1.globalTime }])
      (s1.heap.set p (some (serviceTrain s1.globalTime t))) s1.trainSchedule
    refine InvUx.set_push_u (c1.to_x p) ?_ ?_
    · intro x hx
      simp only [List.mem_cons, List.mem_singleton, List.not_mem_nil, or_false] at hx
      rcases hx with rfl | rfl <;> rfl
    · refine ⟨ok.unl, ?_⟩
      intro e he hp hfn _
      refine ⟨{ function := EventFunc.departure, train := p
                eventTime := t.unloadTime + s1.globalTime }, by simp, rfl, rfl, ?_⟩
      simp only [serviceTrain]
      exact add_comm _ _
  · show InvU (s1.eventQ ++
        [{ function := EventFunc.hogout, train := p, eventTime := t.timeTillHogout + s1.globalTime }])
      (s1.heap.set p (some { t with trainStatus := tStat.INQ })) s1.trainSchedule
    refine InvUx.set_push_u (c1.to_x p) ?_ ?_
    · intro x hx
      rw [List.mem_singleton.1 hx]
    · refine ⟨ok.unl, ?_⟩
      intro e he hp hfn hst
      simp at hst

/-- The departure handler keeps the unload invariant.  The statement starts
from the state before the event is popped. -/
theorem SInvU.of_departure_u {s s2 : State} {i : Nat} {e : Event} {t : Train}
    {l1 l2 : List Event} (a : SInvA s) (u : SInvU s) (hq : s.eventQ = l1 ++ e :: l2)
    (hers : s.eventQ.eraseIdx i = l1 ++ l2)
    (ht : deref s e.train = some t)
    (h : departure e.train (popAt i e s) = some s2) : SInvU s2 := by
  have a2 : InvA (l1 ++ e :: l2) s.trainQ s.heap s.nextTrainId := hq ▸ a
  have u2 : InvU (l1 ++ e :: l2) s.heap s.trainSchedule := hq ▸ u
  have ht2 : hget s.heap e.train = some t := ht
  have ok := u2.trains_u e.train t ht2
  have okA := a2.trains e.train t ht2
  have ap : InvA (l1 ++ l2) s.trainQ s.heap s.nextTrainId := a2.pop
  have ux : InvUx (l1 ++ l2) s.heap s.trainSchedule e.train := InvUx.pop_x u2
  have hst : deref (popAt i e s) e.train = some t := ht
  by_cases hc : t.crewStatus = cStat.HOGGED_OUT
  · rw [departure_stale hst hc] at h
    rw [← Option.some.inj h]
    show InvU (s.eventQ.eraseIdx i) s.heap s.trainSchedule
    rw [hers]
    refine ⟨?_, u2.sched_u⟩
    intro x v hv
    by_cases hx : x = e.train
    · subst hx
      rw [ht2] at hv
      rw [← Option.some.inj hv]
      refine ⟨ok.unl, ?_⟩
      intro y hy hp hfn _
      have := okA.hog y (mem_pop hy) hp hfn
      rw [hc] at this
      exact absurd this (by decide)
    · exact ux.1 x v hx hv
  · obtain ⟨stt, h3⟩ := departure_some hst hc h
    have cd : InvU (l1 ++ l2) (s.heap.set e.train (some (departedTrain e.eventTime t)))
        s.trainSchedule := by
      refine ux.set_u ⟨ok.unl, ?_⟩
      intro y hy hp hfn hs
      simp [departedTrain] at hs
    rcases h3 with ⟨_, rfl⟩ | ⟨front, rest, f, hl, hf, ⟨hon, rfl⟩ | ⟨_, rfl⟩⟩
    · show InvU (s.eventQ.eraseIdx i) (s.heap.set e.train (some (departedTrain e.eventTime t)))
        s.trainSchedule
      rw [hers]
      exact cd
    · show InvU (s.eventQ.eraseIdx i ++
          [{ function := EventFunc.departure, train := front
             eventTime := f.unloadTime + e.eventTime }])
        ((s.heap.set e.train (some (departedTrain e.eventTime t))).set front
          (some (serviceTrain e.eventTime f))) s.trainSchedule
      rw [hers]
      have hf2 : hget (s.heap.set e.train (some (departedTrain e.eventTime t))) front
          = some f := hf
      exact cd.startQ_u hf2 e.eventTime
    · show InvU (s.eventQ.eraseIdx i) (s.heap.set e.train (some (departedTrain e.eventTime t)))
        s.trainSchedule
      rw [hers]
      exact cd

/-- A hogout extracted as `top()` for a train in service is not later than the
end of the unloading, `endQTime + unloadTime`. -/
theorem SInvU.hogout_le {s : State} {i : Nat} {e : Event} {t : Train} (u : SInvU s)
    (he : s.eventQ.get? i = some e) (htop : isTop s.eventQ i = true)
    (hf : e.function = EventFunc.hogout) (ht : deref s e.train = some t)
    (hsv : t.trainStatus = tStat.SERVICE) : e.eventTime ≤ t.endQTime + t.unloadTime := by
  have ht2 : hget s.heap e.train = some t := ht
  obtain ⟨e2, he2, _, _, h6⟩ := (u.trains_u e.train t ht2).hogdep_u e (List.get?_mem he) rfl hf hsv
  have := isTop_le he htop e2 he2
  rw [h6] at this
  exact this

/-- One call of `checkEvent` keeps the unload invariant. -/
theorem SInvU.of_checkEvent_u {s s2 : State} {i : Nat} {g : Gen} (a : SInvA s) (u : SInvU s)
    (hg : 0 ≤ g.unload) (h : checkEvent i g s = some s2) : SInvU s2 := by
  obtain ⟨e, t, he, htop, ht, hcase⟩ := checkEvent_some h
  obtain ⟨l1, l2, hq, hers⟩ := get?_split he
  have a2 : InvA (l1 ++ e :: l2) s.trainQ s.heap s.nextTrainId := hq ▸ a
  have u2 : InvU (l1 ++ e :: l2) s.heap s.trainSchedule := hq ▸ u
  have ht2 : hget s.heap e.train = some t := ht
  have ok := u2.trains_u e.train t ht2
  obtain ⟨p1, p2, p3, _, _⟩ := a2.popped ht
  have ux : InvUx (l1 ++ l2) s.heap s.trainSchedule e.train := InvUx.pop_x u2
  rcases hcase with ⟨hd, rfl⟩ | ⟨hnd, hd⟩
  · show InvU (s.eventQ.eraseIdx i) (s.heap.set e.train none) s.trainSchedule
    rw [hers]
    refine ⟨?_, u2.sched_u⟩
    intro x v hv
    obtain ⟨hx, hv2⟩ := hget_set_none_some hv
    exact ux.1 x v hx hv2
  · have hst : deref (popAt i e s) e.train = some t := ht
    have hq2 : (popAt i e s).eventQ = l1 ++ l2 := hers
    have ast : SInvA (popAt i e s) := by
      show InvA (s.eventQ.eraseIdx i) s.trainQ s.heap s.nextTrainId
      rw [hers]
      exact a2.pop
    have uxs : InvUx (popAt i e s).eventQ (popAt i e s).heap (popAt i e s).trainSchedule
        e.train := by
      show InvUx (s.eventQ.eraseIdx i) s.heap s.trainSchedule e.train
      rw [hers]
      exact ux
    cases hf : e.function with
    | arrival =>
      rw [hf] at hd
      obtain ⟨h1, _, _, _, h5⟩ := p1 hf
      have ust : SInvU (popAt i e s) := by
        show InvU (s.eventQ.eraseIdx i) s.heap s.trainSchedule
        rw [hers]
        exact u2.pop_u (by rw [hf]; decide)
      obtain ⟨_, _, hev⟩ := (ast.trains e.train t hst).arrived h1
      have hnone : ∀ x ∈ (popAt i e s).eventQ, x.train ≠ e.train := by
        intro x hx hp
        have h6 := hev x hx hp
        rw [hq2] at hx
        have h7 := (List.countP_eq_zero.1 h5) x hx
        simp [isArrival, h6] at h7
      exact SInvU.of_arrival_u ast ust hg hst hnone hd
    | departure =>
      rw [hf] at hd
      exact SInvU.of_departure_u a u hq hers ht hd
    | hogout =>
      rw [hf] at hd
      obtain ⟨h1, h2⟩ := p3 (Or.inl hf)
      refine SInvU.of_hogout_u uxs hst (hq2 ▸ h2) ok.unl ?_ hd
      intro hni
      have hsv : t.trainStatus = tStat.SERVICE := by
        cases hx : t.trainStatus with
        | ARRIVED => exact absurd hx h1
        | INQ => exact absurd hx hni
        | SERVICE => rfl
        | DEPARTED => exact absurd hx hnd
      exact u.hogout_le he htop hf ht hsv
    | newCrew =>
      rw [hf] at hd
      obtain ⟨_, h2⟩ := p3 (Or.inr hf)
      exact SInvU.of_newCrew_u ast uxs hst (hq2 ▸ h2) ok.unl hd

theorem SInvU.of_mainInit_u {c : Config} {g : Gen} {s : State}
    (hc : ∀ ts ∈ c.trainSchedule, 0 ≤ ts.unloadTime) (hg : 0 ≤ g.unload)
    (h : mainInit c g = some s) : SInvU s := by
  obtain ⟨ts, rest, rfl, hsrc⟩ := mainInit_some h
  have hts : 0 ≤ ts.unloadTime := by
    rcases hsrc with ⟨_, hl⟩ | ⟨_, hts, _⟩
    · exact hc ts (by rw [hl]; simp)
    · rw [hts]
      exact hg
  have hsub : ∀ x ∈ rest, x ∈ c.trainSchedule := by
    rcases hsrc with ⟨_, hl⟩ | ⟨_, _, hl⟩
    · intro x hx
      rw [hl]
      exact List.mem_cons_of_mem _ hx
    · intro x hx
      rw [hl] at hx
      exact hx
  have e0 : InvU [] [] c.trainSchedule := by
    refine ⟨?_, hc⟩
    intro p t hp
    simp [hget] at hp
  have := InvU.alloc_u e0 (by simp) 0 0 0 0 ts.remainingCrewHours ts.unloadTime hts hsub
  simp only [zero_add, List.nil_append, List.length_nil] at this
  exact this

/-- Every state reached by the loop of `main` satisfies the structural and the
unload invariant, when the pre-made and the drawn unload values are not
negative. -/
theorem SInvU.of_mainRun_u {c : Config} {g0 : Gen} {inputs : List (Nat × Gen)} {s : State}
    (hc : ∀ ts ∈ c.trainSchedule, 0 ≤ ts.unloadTime) (hg0 : 0 ≤ g0.unload)
    (hi : ∀ x ∈ inputs, 0 ≤ x.2.unload)
    (h : mainRun c g0 inputs = some s) : SInvA s ∧ SInvU s := by
  unfold mainRun at h
  simp only [Option.bind_eq_some] at h
  obtain ⟨s0, h0, h1⟩ := h
  refine driver_induction_gen (fun g => 0 ≤ g.unload) (fun s => SInvA s ∧ SInvU s) ?_
    inputs hi s0 s ⟨SInvA.of_mainInit h0, SInvU.of_mainInit_u hc hg0 h0⟩ h1
  intro s i g s2 hP hg hs
  unfold driverIter at hs
  simp only [Option.map_eq_some'] at hs
  obtain ⟨s1, hs1, rfl⟩ := hs
  have x1 : SInvA s1 := hP.1.of_checkEvent hs1
  have x2 : SInvU s1 := SInvU.of_checkEvent_u hP.1 hP.2 hg hs1
  exact ⟨x1, x2⟩

/-- In exact arithmetic (the first embedding): let `s` be a state reached by
the loop of `main`.  (1) At most one hogout or crew-replacement event is
pending per train.  (2) When a driver iteration runs the hogout handler on a
train that is SERVICE, the train stays SERVICE with unloadTime reduced by
`now - endQTime`, and in every state the loop reaches afterwards no hogout of
that train is pending, so the handler never runs on it again, and the
unloadTime of the train keeps the reduced value.  (3) While a crew replacement
is pending for a SERVICE train, and in every state reached afterwards, no
hogout of that train is pending.  (4) A driver iteration changes the unloadTime
of a stored train only in the case of (2).  (5) If no pre-made and no drawn
unload time is negative, no stored train has a negative unloadTime, and the
value `unloadTime - (now - endQTime)` that a hogout on a SERVICE train writes
is not negative. -/
theorem single_service_hogout_exact (c : Config) (g0 : Gen) (inputs : List (Nat × Gen))
    (s : State) (hrun : mainRun c g0 inputs = some s) :
    (∀ p, s.eventQ.countP (isChain p) ≤ 1) ∧
    (∀ i g e t s2, s.eventQ.get? i = some e → e.function = EventFunc.hogout →
      deref s e.train = some t → t.trainStatus = tStat.SERVICE →
      driverIter i g s = some s2 →
      ∃ t2, deref s2 e.train = some t2 ∧ t2.trainStatus = tStat.SERVICE ∧
        t2.unloadTime = t.unloadTime - (e.eventTime - t.endQTime) ∧
        ∀ inputs2 s3, driver inputs2 s2 = some s3 →
          (∀ x ∈ s3.eventQ, x.train = e.train → x.function ≠ EventFunc.hogout) ∧
          (∀ t3, deref s3 e.train = some t3 → t3.unloadTime = t2.unloadTime)) ∧
    (∀ e ∈ s.eventQ, e.function = EventFunc.newCrew →
      ∀ t, deref s e.train = some t → t.trainStatus = tStat.SERVICE →
      ∀ inputs2 s3, driver inputs2 s = some s3 →
        ∀ x ∈ s3.eventQ, x.train = e.train → x.function ≠ EventFunc.hogout) ∧
    (∀ i g e s2, s.eventQ.get? i = some e → driverIter i g s = some s2 →
      ∀ p t t2, deref s p = some t → deref s2 p = some t2 →
        t2.unloadTime = t.unloadTime ∨
        (p = e.train ∧ e.function = EventFunc.hogout ∧ t.trainStatus = tStat.SERVICE ∧
          t2.unloadTime = t.unloadTime - (e.eventTime - t.endQTime))) ∧
    ((∀ ts ∈ c.trainSchedule, 0 ≤ ts.unloadTime) → 0 ≤ g0.unload →
      (∀ x ∈ inputs, 0 ≤ x.2.unload) →
      (∀ p t, deref s p = some t → 0 ≤ t.unloadTime) ∧
      (∀ i g e t s2, s.eventQ.get? i = some e → e.function = EventFunc.hogout →
        deref s e.train = some t → t.trainStatus = tStat.SERVICE →
        driverIter i g s = some s2 → 0 ≤ t.unloadTime - (e.eventTime - t.endQTime))) := by
  have a : SInvA s := SInvA.of_mainRun hrun
  refine ⟨a.chain_one, ?_, ?_, ?_, ?_⟩
  · intro i g e t s2 he hf ht hsv hstep
    have a2 : SInvA s2 := a.of_driverIter hstep
    unfold driverIter at hstep
    simp only [Option.map_eq_some'] at hstep
    obtain ⟨s1, h1, rfl⟩ := hstep
    obtain ⟨b1, t2, h2, h3, h4⟩ := PastHog.of_hogout_svc a he hf ht hsv h1
    have b2 : PastHog (updateDockTimes s1) e.train := b1
    have h2b : deref (updateDockTimes s1) e.train = some t2 := h2
    refine ⟨t2, h2b, h3, h4, ?_⟩
    intro inputs2 s3 hcont
    have hu : ∀ t3, deref (updateDockTimes s1) e.train = some t3 →
        t3.unloadTime = t2.unloadTime := by
      intro t3 h5
      rw [h2b] at h5
      rw [← Option.some.inj h5]
    obtain ⟨_, b3, u3⟩ := PastHog.of_driver_hog inputs2 _ s3 a2 b2 hu hcont
    exact ⟨b3.2.1, u3⟩
  · intro e he hf t ht hsv inputs2 s3 hcont
    have hno : NoHog s.eventQ e.train := by
      intro x hx hp hfx
      have hcnt := a.chain_one e.train
      by_cases hxe : x = e
      · rw [hxe, hf] at hfx
        exact absurd hfx (by decide)
      · obtain ⟨l1, l2, hq⟩ := List.append_of_mem he
        rw [hq] at hcnt hx
        have hce : isChain e.train e = true := by simp [isChain, hf]
        have hcx : isChain e.train x = true := by simp [isChain, hp, hfx]
        have hx2 : x ∈ l1 ++ l2 := by
          simp only [List.mem_append, List.mem_cons] at hx ⊢
          rcases hx with h | h | h
          · exact Or.inl h
          · exact absurd h hxe
          · exact Or.inr h
        have hpos : 0 < (l1 ++ l2).countP (isChain e.train) :=
          List.countP_pos_iff.2 ⟨x, hx2, hcx⟩
        simp only [List.countP_append, List.countP_cons, hce, if_true] at hcnt hpos
        omega
    have b : PastHog s e.train := by
      refine ⟨hget_lt ht, hno, ?_⟩
      intro u hu
      have hu2 : deref s e.train = some u := hu
      rw [ht] at hu2
      rw [← Option.some.inj hu2]
      exact Or.inl hsv
    have hu : ∀ t3, deref s e.train = some t3 → t3.unloadTime = t.unloadTime := by
      intro t3 h5
      rw [ht] at h5
      rw [← Option.some.inj h5]
    exact (PastHog.of_driver_hog inputs2 s s3 a b hu hcont).2.1.2.1
  · intro i g e s2 he hstep p t t2 ht ht2
    unfold driverIter at hstep
    simp only [Option.map_eq_some'] at hstep
    obtain ⟨s1, h1, rfl⟩ := hstep
    have ht3 : hget s1.heap p = some t2 := ht2
    obtain ⟨e1, t1, he1, hte, _, hback⟩ := checkEvent_unload h1
    rw [he] at he1
    have ee := Option.some.inj he1
    subst ee
    obtain ⟨u, hu, hcase⟩ := hback p t2 (hget_lt ht) ht3
    have hu2 : deref s p = some u := hu
    rw [ht] at hu2
    have eu := Option.some.inj hu2
    subst eu
    rcases hcase with h5 | ⟨h5, h6, h7, h8, h9⟩
    · exact Or.inl h5
    · right
      refine ⟨h5, h6, ?_, h9⟩
      subst h5
      rw [ht] at hte
      have et := Option.some.inj hte
      subst et
      obtain ⟨l1, l2, hq, _⟩ := get?_split he
      have a2 : InvA (l1 ++ e :: l2) s.trainQ s.heap s.nextTrainId := hq ▸ a
      obtain ⟨_, _, p3, _, _⟩ := a2.popped ht
      have hna := (p3 (Or.inl h6)).1
      cases hx : t.trainStatus with
      | ARRIVED => exact absurd hx hna
      | INQ => exact absurd hx h8
      | SERVICE => rfl
      | DEPARTED => exact absurd hx h7
  · intro hc hg0 hi
    obtain ⟨_, x⟩ := SInvU.of_mainRun_u hc hg0 hi hrun
    refine ⟨fun p t ht => (x.trains_u p t ht).unl, ?_⟩
    intro i g e t s2 he hf ht hsv hstep
    unfold driverIter at hstep
    simp only [Option.map_eq_some'] at hstep
    obtain ⟨s1, h1, _⟩ := hstep
    obtain ⟨e1, _, he1, htop, _, _⟩ := checkEvent_some h1
    rw [he] at he1
    have ee := Option.some.inj he1
    subst ee
    have := x.hogout_le he htop hf ht hsv
    linarith

/-! ## Closed forms of the machine-arithmetic embedding

The closed forms and frame facts of the first embedding, proved again for the
functions behind the prefix `Mach`.
-/

theorem Mach.deref_eq_m (s : State) (p : Nat) : deref s p = hget s.heap p := rfl

theorem Mach.hget_lt_m {h : List (Option Train)} {p : Nat} {t : Train} (e : hget h p = some t) :
    p < h.length := by
  unfold hget at e
  by_contra hc
  rw [List.get?_eq_getElem?, List.getElem?_eq_none (by omega)] at e
  simp at e

theorem Mach.hget_set_some_m (h : List (Option Train)) (p : Nat) (t : Train) (q : Nat) :
    hget (h.set p (some t)) q = if q = p ∧ p < h.length then some t else hget h q := by
  unfold hget
  rw [List.get?_eq_getElem?, List.get?_eq_getElem?, List.getElem?_set]
  by_cases hq : q = p
  · subst hq
    by_cases hp : q < h.length
    · simp [hp]
    · have : h.length ≤ q := by omega
      simp [hp, List.getElem?_eq_none this]
  · have : ¬ p = q := fun e => hq e.symm
    simp [hq, this]

theorem Mach.hget_set_none_m (h : List (Option Train)) (p q : Nat) :
    hget (h.set p none) q = if q = p then none else hget h q := by
  unfold hget
  rw [List.get?_eq_getElem?, List.get?_eq_getElem?, List.getElem?_set]
  by_cases hq : q = p
  · subst hq
    by_cases hp : q < h.length <;> simp [hp]
  · have : ¬ p = q := fun e => hq e.symm
    simp [hq, this]

theorem Mach.hget_append_m (h : List (Option Train)) (t : Train) (q : Nat) :
    hget (h ++ [some t]) q = if q = h.length then some t else hget h q := by
  unfold hget
  rw [List.get?_eq_getElem?, List.get?_eq_getElem?, List.getElem?_append]
  by_cases hq : q < h.length
  · have : ¬ q = h.length := by omega
    simp [hq, this]
  · by_cases he : q = h.length
    · subst he
      simp
    · have h1 : h.length ≤ q := by omega
      have h2 : ¬ q - h.length = 0 := by omega
      rw [List.getElem?_eq_none h1]
      have h3 : ([some t] : List (Option Train))[q - h.length]? = none := by
        apply List.getElem?_eq_none
        simp
        omega
      simp [hq, he, h3]

theorem Mach.incr_some_m {x y : Int} (h : incr x = some y) : x < INT_MAX ∧ y = x + 1 := by
  unfold incr at h
  split at h
  · rename_i hx
    exact ⟨hx, (Option.some.inj h).symm⟩
  · exact absurd h (by simp)

theorem Mach.incr_eq_m {x : Int} (h : x < INT_MAX) : incr x = some (x + 1) := by
  unfold incr
  rw [if_pos h]

theorem Mach.startService_eq_m {p : Nat} {t : Train} {s : State} (h : deref s p = some t) :
    startService p s = some (startServiceAt p t s) := by
  unfold startService
  rw [h]
  rfl

theorem Mach.startService_some_m {p : Nat} {s s2 : State} (h : startService p s = some s2) :
    ∃ t, deref s p = some t ∧ s2 = startServiceAt p t s := by
  cases ht : deref s p with
  | none =>
    unfold startService at h
    rw [ht] at h
    exact absurd h (by simp)
  | some t =>
    rw [startService_eq_m ht] at h
    exact ⟨t, rfl, (Option.some.inj h).symm⟩

theorem Mach.updateStat_some_m {p : Nat} {s s2 : State} (h : updateStat p s = some s2) :
    ∃ st, s2 = { s with statistics := st } := by
  unfold updateStat at h
  simp only [Option.bind_eq_bind, Option.bind_eq_some] at h
  obtain ⟨t, _, n, _, h⟩ := h
  split at h
  · exact ⟨_, (Option.some.inj h).symm⟩
  · simp only [Option.bind_eq_some, Option.some.injEq] at h
    obtain ⟨hh, _, h⟩ := h
    exact ⟨_, h.symm⟩

theorem Mach.departure_stale_m {p : Nat} {t : Train} {s : State} (h : deref s p = some t)
    (hc : t.crewStatus = cStat.HOGGED_OUT) : departure p s = some s := by
  unfold departure
  rw [h]
  simp [hc]

theorem Mach.departure_some_m {p : Nat} {t : Train} {s s2 : State} (h : deref s p = some t)
    (hc : t.crewStatus ≠ cStat.HOGGED_OUT) (h2 : departure p s = some s2) :
    ∃ st, (s.trainQ = [] ∧ s2 = departAt p t st s) ∨
      (∃ front rest f, s.trainQ = front :: rest ∧ deref (departAt p t st s) front = some f ∧
        ((f.crewStatus = cStat.ON_CLOCK ∧
            s2 = startServiceAt front f { departAt p t st s with trainQ := rest }) ∨
         (f.crewStatus ≠ cStat.ON_CLOCK ∧ s2 = departAt p t st s))) := by
  unfold departure at h2
  rw [h] at h2
  simp only [Option.bind_eq_bind, Option.some_bind, hc, if_false, Option.bind_eq_some] at h2
  obtain ⟨s1, h1, h2⟩ := h2
  obtain ⟨st, hst⟩ := updateStat_some_m h1
  have e1 : s1 = departAt p t st s := hst
  subst e1
  refine ⟨st, ?_⟩
  have eq : (departAt p t st s).trainQ = s.trainQ := rfl
  cases hq : s.trainQ with
  | nil =>
    left
    rw [eq, hq] at h2
    exact ⟨rfl, (Option.some.inj h2).symm⟩
  | cons front rest =>
    right
    rw [eq, hq] at h2
    simp only [Option.bind_eq_some] at h2
    obtain ⟨f, hf, h2⟩ := h2
    refine ⟨front, rest, f, rfl, hf, ?_⟩
    by_cases hfc : f.crewStatus = cStat.ON_CLOCK
    · left
      simp only [hfc, if_true] at h2
      have hf2 : deref { departAt p t st s with trainQ := rest } front = some f := hf
      rw [startService_eq_m hf2] at h2
      exact ⟨hfc, (Option.some.inj h2).symm⟩
    · right
      simp only [hfc, if_false] at h2
      exact ⟨hfc, (Option.some.inj h2).symm⟩

theorem Mach.getCrewArrivalTime_some_m {g : Gen} {s s1 : State} {d : F64}
    (h : getCrewArrivalTime g s = some (d, s1)) :
    s1 = { s with travelTime := s1.travelTime } ∧
      ((s.premade = true ∧ s.travelTime = d :: s1.travelTime) ∨
       (s.premade = false ∧ d = g.crew ∧ s1.travelTime = s.travelTime)) := by
  unfold getCrewArrivalTime at h
  by_cases hp : s.premade = true
  · rw [if_pos hp] at h
    cases ht : s.travelTime with
    | nil =>
      rw [ht] at h
      simp at h
    | cons x rest =>
      rw [ht] at h
      simp only [Option.some.injEq, Prod.mk.injEq] at h
      obtain ⟨rfl, rfl⟩ := h
      exact ⟨rfl, Or.inl ⟨hp, rfl⟩⟩
  · rw [if_neg hp] at h
    simp only [Option.some.injEq, Prod.mk.injEq] at h
    obtain ⟨rfl, rfl⟩ := h
    exact ⟨rfl, Or.inr ⟨by simpa using hp, rfl, rfl⟩⟩

theorem Mach.getTrainValues_some_m {g : Gen} {s s1 : State} {ts : TrainSchedule}
    (h : getTrainValues g s = some (ts, s1)) :
    s1 = { s with trainSchedule := s1.trainSchedule } ∧
      ((s.premade = true ∧ s.trainSchedule = ts :: s1.trainSchedule) ∨
       (s.premade = false ∧
        ts = { arrivalTime := g.poisson, unloadTime := g.unload, remainingCrewHours := g.remain } ∧
        s1.trainSchedule = s.trainSchedule)) := by
  unfold getTrainValues at h
  by_cases hp : s.premade = true
  · rw [if_pos hp] at h
    cases ht : s.trainSchedule with
    | nil =>
      rw [ht] at h
      simp at h
    | cons x rest =>
      rw [ht] at h
      simp only [Option.some.injEq, Prod.mk.injEq] at h
      obtain ⟨rfl, rfl⟩ := h
      exact ⟨rfl, Or.inl ⟨hp, rfl⟩⟩
  · rw [if_neg hp] at h
    simp only [Option.some.injEq, Prod.mk.injEq] at h
    obtain ⟨rfl, rfl⟩ := h
    exact ⟨rfl, Or.inr ⟨by simpa using hp, rfl, rfl⟩⟩

theorem Mach.hogout_some_m {p : Nat} {t : Train} {g : Gen} {s s2 : State} (h : deref s p = some t)
    (h2 : hogout p g s = some s2) :
    ∃ d tt, s2 = hogoutAt p t d tt s ∧ t.hogouts < INT_MAX ∧ s.nextCrewId < INT_MAX ∧
      ((s.premade = true ∧ s.travelTime = d :: tt) ∨
       (s.premade = false ∧ d = g.crew ∧ tt = s.travelTime)) := by
  unfold hogout at h2
  rw [h] at h2
  simp only [Option.bind_eq_bind, Option.some_bind, Option.bind_eq_some] at h2
  obtain ⟨hn, hh, ⟨d, s1⟩, h1, h2⟩ := h2
  obtain ⟨hh1, rfl⟩ := incr_some_m hh
  obtain ⟨e1, hd⟩ := getCrewArrivalTime_some_m h1
  rw [e1] at h2
  by_cases hq : t.trainStatus = tStat.INQ
  · simp only [hq, if_true] at h2
    obtain ⟨nc, hnc, h2⟩ := h2
    obtain ⟨hnc1, rfl⟩ := incr_some_m hnc
    refine ⟨d, s1.travelTime, ?_, hh1, hnc1, hd⟩
    rw [← Option.some.inj h2]
    simp [hogoutAt, hoggedTrain, store, schedule, hq]
  · simp only [hq, if_false] at h2
    obtain ⟨nc, hnc, h2⟩ := h2
    obtain ⟨hnc1, rfl⟩ := incr_some_m hnc
    refine ⟨d, s1.travelTime, ?_, hh1, hnc1, hd⟩
    rw [← Option.some.inj h2]
    simp [hogoutAt, hoggedTrain, store, schedule, hq]

theorem Mach.newCrew_unfold_m (p : Nat) (s : State) :
    newCrew p s = (deref s p).bind (fun t => (newCrewMid p t s).bind (fun s1 =>
      (deref s1 p).bind (fun t3 =>
        if t3.trainStatus = tStat.INQ then
          some (schedule EventFunc.hogout p (s1.globalTime + t3.timeTillHogout) s1)
        else some s1))) := by
  unfold newCrew newCrewMid
  cases deref s p with
  | none => rfl
  | some t =>
    simp only [Option.bind_eq_bind, Option.some_bind]
    by_cases hc : s.dock.dockStatus = dStat.IDLE ∧ t.trainStatus = tStat.INQ
    · rw [if_pos hc]
      split
      · rename_i hc2
        cases hq : s.trainQ with
        | nil =>
          have : (store p { t with crewStatus := cStat.ON_CLOCK, crewArrivalTime := s.globalTime } s).trainQ = [] := hq
          simp only [this]
        | cons front rest =>
          have : (store p { t with crewStatus := cStat.ON_CLOCK, crewArrivalTime := s.globalTime } s).trainQ = front :: rest := hq
          simp only [this]
          cases hf : deref (crewOnAt p t s) front with
          | none =>
            have : deref (store p { t with crewStatus := cStat.ON_CLOCK, crewArrivalTime := s.globalTime } s) front = none := hf
            simp only [this]
            rfl
          | some f =>
            have : deref (store p { t with crewStatus := cStat.ON_CLOCK, crewArrivalTime := s.globalTime } s) front = some f := hf
            simp only [this, Option.some_bind]
            by_cases hid : f.tid = t.tid
            · simp only [if_pos hid]
              rfl
            · simp only [if_neg hid]
              have hs : ¬ t.trainStatus = tStat.SERVICE := by rw [hc.2]; decide
              simp only [if_neg hs]
              rfl
      · rename_i hc2
        exact absurd hc hc2
    · rw [if_neg hc]
      split
      · rename_i hc2
        exact absurd hc2 hc
      · by_cases hs : t.trainStatus = tStat.SERVICE
        · simp only [if_pos hs]
          rfl
        · simp only [if_neg hs]
          rfl

theorem Mach.newCrew_some_m {p : Nat} {t : Train} {s s2 : State} (h : deref s p = some t)
    (h2 : newCrew p s = some s2) :
    (s.dock.dockStatus = dStat.IDLE ∧ t.trainStatus = tStat.INQ ∧
      ∃ front rest f, s.trainQ = front :: rest ∧ deref (crewOnAt p t s) front = some f ∧
        f.tid = t.tid ∧
        ((front = p ∧ s2 = startServiceAt front f { crewOnAt p t s with trainQ := rest }) ∨
         (front ≠ p ∧
          s2 = { startServiceAt front f { crewOnAt p t s with trainQ := rest } with
                 eventQ := (startServiceAt front f { crewOnAt p t s with trainQ := rest }).eventQ
                            ++ [nextHogout p t s] }))) ∨
    (t.trainStatus = tStat.SERVICE ∧
      s2 = { crewOnAt p t s with
             dock := { s.dock with dockStatus := dStat.BUSY }
             eventQ := s.eventQ ++
               [{ function := EventFunc.departure, train := p
                  eventTime := s.globalTime + t.unloadTime }] }) ∨
    (t.trainStatus = tStat.INQ ∧
      (s.dock.dockStatus ≠ dStat.IDLE ∨
        ∃ front rest f, s.trainQ = front :: rest ∧ deref (crewOnAt p t s) front = some f ∧
          f.tid ≠ t.tid) ∧
      s2 = { crewOnAt p t s with eventQ := s.eventQ ++ [nextHogout p t s] }) ∨
    (t.trainStatus ≠ tStat.INQ ∧ t.trainStatus ≠ tStat.SERVICE ∧ s2 = crewOnAt p t s) := by
  have hp : p < s.heap.length := hget_lt_m h
  have hself : deref (crewOnAt p t s) p = some (crewOnTrain s.globalTime t) := by
    simp [deref_eq_m, crewOnAt, hget_set_some_m, hp]
  rw [newCrew_unfold_m, h] at h2
  simp only [Option.some_bind] at h2
  cases h1 : newCrewMid p t s with
  | none =>
    rw [h1] at h2
    simp at h2
  | some s1 =>
  rw [h1] at h2
  simp only [Option.some_bind] at h2
  unfold newCrewMid at h1
  cases h3 : deref s1 p with
  | none =>
    rw [h3] at h2
    simp at h2
  | some t3 =>
  rw [h3] at h2
  simp only [Option.some_bind] at h2
  by_cases hc : s.dock.dockStatus = dStat.IDLE ∧ t.trainStatus = tStat.INQ
  · rw [if_pos hc] at h1
    obtain ⟨hd, hq⟩ := hc
    cases hl : s.trainQ with
    | nil =>
      rw [hl] at h1
      simp at h1
    | cons front rest =>
      rw [hl] at h1
      simp only [Option.bind_eq_some] at h1
      obtain ⟨f, hf, h1⟩ := h1
      by_cases hid : f.tid = t.tid
      · left
        rw [if_pos hid] at h1
        have hf2 : deref { crewOnAt p t s with trainQ := rest } front = some f := hf
        rw [startService_eq_m hf2] at h1
        have e1 := (Option.some.inj h1).symm
        subst e1
        refine ⟨hd, hq, front, rest, f, rfl, hf, hid, ?_⟩
        have hfl : front < s.heap.length := by
          have := hget_lt_m hf
          simpa [crewOnAt] using this
        by_cases hfp : front = p
        · left
          subst hfp
          have e3 : t3 = serviceTrain s.globalTime f := by
            have : deref (startServiceAt front f { crewOnAt front t s with trainQ := rest }) front
                = some (serviceTrain s.globalTime f) := by
              simp [deref_eq_m, startServiceAt, crewOnAt, hget_set_some_m, hp]
            rw [this] at h3
            exact (Option.some.inj h3).symm
          subst e3
          simp only [serviceTrain, reduceCtorEq, if_false] at h2
          exact ⟨rfl, (Option.some.inj h2).symm⟩
        · right
          have e3 : t3 = crewOnTrain s.globalTime t := by
            have hpf : ¬ p = front := fun e => hfp e.symm
            have : deref (startServiceAt front f { crewOnAt p t s with trainQ := rest }) p
                = some (crewOnTrain s.globalTime t) := by
              simp [deref_eq_m, startServiceAt, crewOnAt, hget_set_some_m, hp, hfl, hpf]
            rw [this] at h3
            exact (Option.some.inj h3).symm
          subst e3
          simp only [crewOnTrain, hq, if_true] at h2
          exact ⟨hfp, (Option.some.inj h2).symm⟩
      · right; right; left
        have hns : ¬ t.trainStatus = tStat.SERVICE := by rw [hq]; decide
        rw [if_neg hid, if_neg hns] at h1
        have e1 := (Option.some.inj h1).symm
        subst e1
        rw [hself] at h3
        have e3 := (Option.some.inj h3).symm
        subst e3
        simp only [crewOnTrain, hq, if_true] at h2
        exact ⟨hq, Or.inr ⟨front, rest, f, rfl, hf, hid⟩, (Option.some.inj h2).symm⟩
  · rw [if_neg hc] at h1
    by_cases hs : t.trainStatus = tStat.SERVICE
    · right; left
      rw [if_pos hs] at h1
      have e1 := (Option.some.inj h1).symm
      subst e1
      have : deref (schedule EventFunc.departure p (s.globalTime + t.unloadTime)
          { crewOnAt p t s with dock := { s.dock with dockStatus := dStat.BUSY } }) p
          = some (crewOnTrain s.globalTime t) := hself
      rw [this] at h3
      have e3 := (Option.some.inj h3).symm
      subst e3
      have hnq : ¬ t.trainStatus = tStat.INQ := by rw [hs]; decide
      simp only [crewOnTrain, hnq, if_false] at h2
      exact ⟨hs, (Option.some.inj h2).symm⟩
    · rw [if_neg hs] at h1
      have e1 := (Option.some.inj h1).symm
      subst e1
      rw [hself] at h3
      have e3 := (Option.some.inj h3).symm
      subst e3
      by_cases hq : t.trainStatus = tStat.INQ
      · right; right; left
        simp only [crewOnTrain, hq, if_true] at h2
        have hd : s.dock.dockStatus ≠ dStat.IDLE := fun e => hc ⟨e, hq⟩
        exact ⟨hq, Or.inl hd, (Option.some.inj h2).symm⟩
      · right; right; right
        simp only [crewOnTrain, hq, if_false] at h2
        exact ⟨hq, hs, (Option.some.inj h2).symm⟩

theorem Mach.arrival_unfold_m (p : Nat) (g : Gen) (s : State) :
    arrival p g s =
      (deref s p).bind (fun _ => (arrivalNext g s).bind (fun s1 => arrivalEnter p s1)) := by
  have key : ∀ s1 : State,
      (if (s1.trainQ.isEmpty && decide (s1.dock.dockStatus = dStat.IDLE)) = true then
          (startService p s1).bind (fun y => (deref y p).bind (fun t =>
            some (schedule EventFunc.hogout p (t.timeTillHogout + y.globalTime) y)))
        else
          (deref s1 p).bind (fun t =>
            (some { store p { t with trainStatus := tStat.INQ } s1 with
                    trainQ := (store p { t with trainStatus := tStat.INQ } s1).trainQ ++ [p] }).bind
              (fun y => (deref y p).bind (fun t =>
                some (schedule EventFunc.hogout p (t.timeTillHogout + y.globalTime) y)))))
      = arrivalEnter p s1 := by
    intro s1
    unfold arrivalEnter
    cases ht : deref s1 p with
    | none =>
      split
      · unfold startService
        rw [ht]
        rfl
      · rfl
    | some t =>
      have hp : p < s1.heap.length := hget_lt_m ht
      split
      · rw [startService_eq_m ht]
        simp only [Option.some_bind]
        have : deref (startServiceAt p t s1) p = some (serviceTrain s1.globalTime t) := by
          simp [deref_eq_m, startServiceAt, hget_set_some_m, hp]
        rw [this]
        simp [schedule, startServiceAt, enterServiceAt]
      · simp only [Option.some_bind]
        have : deref { store p { t with trainStatus := tStat.INQ } s1 with
                    trainQ := (store p { t with trainStatus := tStat.INQ } s1).trainQ ++ [p] } p
              = some { t with trainStatus := tStat.INQ } := by
          simp [deref_eq_m, store, hget_set_some_m, hp]
        rw [this]
        simp [schedule, store, enqueueAt]
  unfold arrival arrivalNext
  cases deref s p with
  | none => rfl
  | some t =>
    simp only [Option.bind_eq_bind, Option.some_bind]
    split
    · cases hg : getTrainValues g s with
      | none => rfl
      | some x =>
        obtain ⟨ts, s1⟩ := x
        have hx : ∃ r, s1 = { s with trainSchedule := r } :=
          ⟨s1.trainSchedule, (getTrainValues_some_m hg).1⟩
        obtain ⟨r, rfl⟩ := hx
        simp only [Option.some_bind]
        cases h1 : incr s.nextTrainId with
        | none => rfl
        | some nt =>
          cases h2 : incr s.nextCrewId with
          | none =>
            rfl
          | some nc =>
            obtain ⟨_, rfl⟩ := incr_some_m h1
            obtain ⟨_, rfl⟩ := incr_some_m h2
            simp only [Option.some_bind]
            rw [← key]
            rfl
    · simp only [Option.some_bind]
      rw [← key]
      rfl

theorem Mach.arrivalNext_some_m {g : Gen} {s s1 : State} (h : arrivalNext g s = some s1) :
    s1 = s ∨ ∃ ts rest, s1 = nextTrainAt ts rest s ∧
      s.nextTrainId < INT_MAX ∧ s.nextCrewId < INT_MAX ∧
      ((s.premade = true ∧ s.trainSchedule = ts :: rest) ∨
       (s.premade = false ∧ F64.le s.globalTime s.simTime = true ∧
        ts = { arrivalTime := g.poisson, unloadTime := g.unload, remainingCrewHours := g.remain } ∧
        rest = s.trainSchedule)) := by
  unfold arrivalNext at h
  split at h
  · rename_i hc
    right
    simp only [Option.bind_eq_some, Option.some.injEq] at h
    obtain ⟨⟨ts, s2⟩, hg, nt, h1, nc, h2, h⟩ := h
    obtain ⟨_, hd⟩ := getTrainValues_some_m hg
    refine ⟨ts, s2.trainSchedule, h.symm, (incr_some_m h1).1, (incr_some_m h2).1, ?_⟩
    rcases hd with ⟨hp, hl⟩ | ⟨hp, hts, hl⟩
    · exact Or.inl ⟨hp, hl⟩
    · right
      simp only [hp, Bool.not_false, Bool.true_and, Bool.false_and, Bool.or_false] at hc
      exact ⟨hp, hc, hts, hl⟩
  · left
    exact (Option.some.inj h).symm

theorem Mach.arrival_some_m {p : Nat} {t : Train} {g : Gen} {s s2 : State} (h : deref s p = some t)
    (h2 : arrival p g s = some s2) :
    ∃ s1, arrivalNext g s = some s1 ∧ deref s1 p = some t ∧
      ((s.trainQ = [] ∧ s.dock.dockStatus = dStat.IDLE ∧ s2 = enterServiceAt p t s1) ∨
       (¬ (s.trainQ = [] ∧ s.dock.dockStatus = dStat.IDLE) ∧ s2 = enqueueAt p t s1)) := by
  rw [arrival_unfold_m, h] at h2
  simp only [Option.some_bind, Option.bind_eq_some] at h2
  obtain ⟨s1, h1, h2⟩ := h2
  have hp : p < s.heap.length := hget_lt_m h
  have hne : ¬ p = s.heap.length := by omega
  have hq : s1.trainQ = s.trainQ ∧ s1.dock = s.dock ∧ deref s1 p = some t := by
    rcases arrivalNext_some_m h1 with rfl | ⟨ts, rest, rfl, _⟩
    · exact ⟨rfl, rfl, h⟩
    · refine ⟨rfl, rfl, ?_⟩
      rw [deref_eq_m] at h
      simp [deref_eq_m, nextTrainAt, hget_append_m, hne, h]
  obtain ⟨hq1, hq2, hq3⟩ := hq
  refine ⟨s1, h1, hq3, ?_⟩
  unfold arrivalEnter at h2
  rw [hq3] at h2
  simp only [Option.some_bind, hq1, hq2] at h2
  by_cases hc : s.trainQ = [] ∧ s.dock.dockStatus = dStat.IDLE
  · left
    have : (s.trainQ.isEmpty && decide (s.dock.dockStatus = dStat.IDLE)) = true := by
      simp [hc.1, hc.2]
    rw [if_pos this] at h2
    exact ⟨hc.1, hc.2, (Option.some.inj h2).symm⟩
  · right
    have : ¬ (s.trainQ.isEmpty && decide (s.dock.dockStatus = dStat.IDLE)) = true := by
      simpa [List.isEmpty_iff] using hc
    rw [if_neg this] at h2
    exact ⟨hc, (Option.some.inj h2).symm⟩

theorem Mach.checkEvent_some_m {i : Nat} {g : Gen} {s s2 : State} (h : checkEvent i g s = some s2) :
    ∃ e t, s.eventQ.get? i = some e ∧ isTop s.eventQ i = true ∧ deref s e.train = some t ∧
      ((t.trainStatus = tStat.DEPARTED ∧ s2 = dropAt i e s) ∨
       (t.trainStatus ≠ tStat.DEPARTED ∧ dispatch e.function e.train g (popAt i e s) = some s2)) := by
  unfold checkEvent at h
  cases he : s.eventQ.get? i with
  | none =>
    rw [he] at h
    simp at h
  | some e =>
    rw [he] at h
    simp only [Option.bind_eq_bind, Option.some_bind] at h
    cases htop : isTop s.eventQ i with
    | false =>
      rw [htop] at h
      simp at h
    | true =>
      rw [htop] at h
      simp only [Bool.true_eq_false, if_false, Option.pure_def, Option.some_bind] at h
      cases ht : deref s e.train with
      | none =>
        have : deref { s with eventQ := s.eventQ.eraseIdx i } e.train = none := ht
        rw [this] at h
        simp at h
      | some t =>
        have : deref { s with eventQ := s.eventQ.eraseIdx i } e.train = some t := ht
        rw [this] at h
        simp only [Option.some_bind] at h
        refine ⟨e, t, rfl, rfl, ht, ?_⟩
        by_cases hd : t.trainStatus = tStat.DEPARTED
        · left
          rw [if_pos hd] at h
          exact ⟨hd, (Option.some.inj h).symm⟩
        · right
          rw [if_neg hd] at h
          exact ⟨hd, h⟩

theorem Mach.checkEvent_drop_m {i : Nat} {g : Gen} {s : State} {e : Event} {t : Train}
    (he : s.eventQ.get? i = some e) (htop : isTop s.eventQ i = true)
    (ht : deref s e.train = some t) (hd : t.trainStatus = tStat.DEPARTED) :
    checkEvent i g s = some (dropAt i e s) := by
  unfold checkEvent
  rw [he]
  simp only [Option.bind_eq_bind, Option.some_bind, htop, Bool.true_eq_false, if_false,
    Option.pure_def]
  have : deref { s with eventQ := s.eventQ.eraseIdx i } e.train = some t := ht
  rw [this]
  simp only [Option.some_bind, if_pos hd]
  rfl

theorem Mach.hget_set_none_some_m {h : List (Option Train)} {p q : Nat} {u : Train}
    (hu : hget (h.set p none) q = some u) : q ≠ p ∧ hget h q = some u := by
  rw [hget_set_none_m] at hu
  by_cases hq : q = p
  · simp [hq] at hu
  · simp only [hq, if_false] at hu
    exact ⟨hq, hu⟩

theorem Mach.hget_set_some_cases_m {h : List (Option Train)} {p q : Nat} {t u : Train}
    (hu : hget (h.set p (some t)) q = some u) :
    (q = p ∧ u = t) ∨ (q ≠ p ∧ hget h q = some u) := by
  rw [hget_set_some_m] at hu
  by_cases hq : q = p
  · by_cases hp : p < h.length
    · simp only [hq, hp, and_self, if_true, Option.some.injEq] at hu
      exact Or.inl ⟨hq, hu.symm⟩
    · have : hget h p = none := by
        unfold hget
        rw [List.get?_eq_getElem?, List.getElem?_eq_none (by omega)]
        rfl
      simp [hq, hp, this] at hu
  · simp only [hq, false_and, if_false] at hu
    exact Or.inr ⟨hq, hu⟩

theorem Mach.hget_append_cases_m {h : List (Option Train)} {t u : Train} {q : Nat}
    (hu : hget (h ++ [some t]) q = some u) :
    (q = h.length ∧ u = t) ∨ (q < h.length ∧ hget h q = some u) := by
  rw [hget_append_m] at hu
  by_cases hq : q = h.length
  · simp only [hq, if_true, Option.some.injEq] at hu
    exact Or.inl ⟨hq, hu.symm⟩
  · simp only [hq, if_false] at hu
    exact Or.inr ⟨hget_lt_m hu, hu⟩

theorem Mach.SameAcc.refl_m (s : State) : SameAcc s s := ⟨rfl, rfl, rfl, rfl⟩

theorem Mach.dispatch_sameAcc_m {f : EventFunc} {p : Nat} {g : Gen} {s s2 : State} {t : Train}
    (ht : deref s p = some t) (h : dispatch f p g s = some s2) : SameAcc s s2 := by
  cases f with
  | arrival =>
    obtain ⟨s1, h1, _, h3⟩ := arrival_some_m ht h
    have e1 : s1.dock = s.dock := by
      rcases arrivalNext_some_m h1 with rfl | ⟨ts, rest, rfl, _⟩ <;> rfl
    rcases h3 with ⟨_, _, rfl⟩ | ⟨_, rfl⟩
    · simp [SameAcc, enterServiceAt, e1]
    · simp [SameAcc, enqueueAt, e1]
  | departure =>
    by_cases hc : t.crewStatus = cStat.HOGGED_OUT
    · have e := departure_stale_m ht hc
      have h' : departure p s = some s2 := h
      rw [e] at h'
      rw [← Option.some.inj h']
      exact SameAcc.refl_m s
    · obtain ⟨st, h3⟩ := departure_some_m ht hc h
      rcases h3 with ⟨_, rfl⟩ | ⟨front, rest, f, _, _, ⟨_, rfl⟩ | ⟨_, rfl⟩⟩ <;>
        simp [SameAcc, departAt, startServiceAt]
  | hogout =>
    obtain ⟨d, tt, rfl, _⟩ := hogout_some_m ht h
    by_cases hq : t.trainStatus = tStat.INQ <;> simp [SameAcc, hogoutAt, hq]
  | newCrew =>
    rcases newCrew_some_m ht h with
      ⟨_, _, front, rest, f, _, _, _, ⟨_, rfl⟩ | ⟨_, rfl⟩⟩ | ⟨_, rfl⟩ | ⟨_, _, rfl⟩ | ⟨_, _, rfl⟩ <;>
      simp [SameAcc, startServiceAt, crewOnAt]

theorem Mach.checkEvent_sameAcc_m {i : Nat} {g : Gen} {s s2 : State} (h : checkEvent i g s = some s2) :
    SameAcc s s2 := by
  obtain ⟨e, t, _, _, ht, ⟨_, rfl⟩ | ⟨_, hd⟩⟩ := checkEvent_some_m h
  · exact SameAcc.refl_m s
  · have ht2 : deref (popAt i e s) e.train = some t := ht
    exact dispatch_sameAcc_m (s := popAt i e s) ht2 hd

/-- Induction along the loop of `main`. -/
theorem Mach.driver_induction_m (P : State → Prop)
    (hstep : ∀ s i g s2, P s → loopCond s = true → driverIter i g s = some s2 → P s2) :
    ∀ (inputs : List (Nat × Gen)) (s s2 : State), P s → driver inputs s = some s2 → P s2 := by
  intro inputs
  induction inputs with
  | nil =>
    intro s s2 hP h
    simp only [driver, Option.some.injEq] at h
    exact h ▸ hP
  | cons x rest ih =>
    intro s s2 hP h
    obtain ⟨i, g⟩ := x
    simp only [driver] at h
    split at h
    · rename_i hc
      simp only [Option.bind_eq_some] at h
      obtain ⟨s1, h1, h2⟩ := h
      exact ih s1 s2 (hstep s i g s1 hP hc h1) h2
    · exact absurd h (by simp)

theorem Mach.mainInit_some_m {c : Config} {g : Gen} {s : State} (h : mainInit c g = some s) :
    ∃ ts rest, s =
      { eventQ := [{ function := EventFunc.arrival, train := 0, eventTime := F64.fin 0 }]
        trainQ := []
        trainSchedule := rest
        travelTime := c.travelTime
        nextTrainId := 0 + 1
        nextCrewId := 0 + 1
        globalTime := F64.fin 0
        simTime := c.simTime
        rate := c.rate
        premade := c.premade
        dock := {}
        statistics := {}
        heap := [some (newTrain 0 0 (F64.fin 0) ts.remainingCrewHours ts.unloadTime)] } ∧
      ((c.premade = true ∧ c.trainSchedule = ts :: rest) ∨
       (c.premade = false ∧
        ts = { arrivalTime := g.poisson, unloadTime := g.unload, remainingCrewHours := g.remain } ∧
        rest = c.trainSchedule)) := by
  unfold mainInit at h
  simp only [Option.bind_eq_bind, Option.bind_eq_some] at h
  obtain ⟨⟨ts, s1⟩, h1, h⟩ := h
  obtain ⟨e1, hd⟩ := getTrainValues_some_m h1
  refine ⟨ts, s1.trainSchedule, ?_, hd⟩
  rw [e1] at h
  exact (Option.some.inj h).symm

theorem Mach.CidLt.set_cid_m {h : List (Option Train)} {n m : Int} {p : Nat} {t1 : Train}
    (a : CidLt h n) (hnm : n ≤ m) (h1 : t1.cid < m) : CidLt (h.set p (some t1)) m := by
  intro q u hu
  rcases hget_set_some_cases_m hu with ⟨_, rfl⟩ | ⟨_, hu2⟩
  · exact h1
  · exact lt_of_lt_of_le (a q u hu2) hnm

theorem Mach.CidLt.drop_cid_m {h : List (Option Train)} {n : Int} (a : CidLt h n) (p : Nat) :
    CidLt (h.set p none) n :=
  fun q u hu => a q u (hget_set_none_some_m hu).2

theorem Mach.CidLt.alloc_cid_m {h : List (Option Train)} {n m : Int} {t1 : Train}
    (a : CidLt h n) (hnm : n ≤ m) (h1 : t1.cid < m) : CidLt (h ++ [some t1]) m := by
  intro q u hu
  rcases hget_append_cases_m hu with ⟨_, rfl⟩ | ⟨_, hu2⟩
  · exact h1
  · exact lt_of_lt_of_le (a q u hu2) hnm

/-- A handler keeps the crew ids below the counter and does not lower the
counter. -/
theorem Mach.dispatch_cid_m {f : EventFunc} {p : Nat} {g : Gen} {s s2 : State} {t : Train}
    (a : CidLt s.heap s.nextCrewId) (ht : deref s p = some t)
    (h : dispatch f p g s = some s2) :
    CidLt s2.heap s2.nextCrewId ∧ s.nextCrewId ≤ s2.nextCrewId := by
  have htc : t.cid < s.nextCrewId := a p t ht
  cases f with
  | arrival =>
    obtain ⟨s1, h1, ht1, h3⟩ := arrival_some_m ht h
    have a1 : CidLt s1.heap s1.nextCrewId ∧ s.nextCrewId ≤ s1.nextCrewId := by
      rcases arrivalNext_some_m h1 with rfl | ⟨ts, rest, rfl, _⟩
      · exact ⟨a, le_refl _⟩
      · refine ⟨?_, ?_⟩
        · show CidLt (s.heap ++ [some (newTrain s.nextTrainId s.nextCrewId
            (ts.arrivalTime + s.globalTime) ts.remainingCrewHours ts.unloadTime)])
            (s.nextCrewId + 1)
          exact a.alloc_cid_m (by omega) (by simp [newTrain])
        · show s.nextCrewId ≤ s.nextCrewId + 1
          omega
    have htc1 : t.cid < s1.nextCrewId := a1.1 p t ht1
    rcases h3 with ⟨_, _, rfl⟩ | ⟨_, rfl⟩
    · exact ⟨a1.1.set_cid_m (le_refl _) (by simpa [serviceTrain] using htc1), a1.2⟩
    · exact ⟨a1.1.set_cid_m (le_refl _) (by simpa using htc1), a1.2⟩
  | departure =>
    by_cases hc : t.crewStatus = cStat.HOGGED_OUT
    · have h2 : departure p s = some s2 := h
      rw [departure_stale_m ht hc] at h2
      rw [← Option.some.inj h2]
      exact ⟨a, le_refl _⟩
    · obtain ⟨st, h3⟩ := departure_some_m ht hc h
      have a1 : CidLt (s.heap.set p (some (departedTrain s.globalTime t))) s.nextCrewId :=
        a.set_cid_m (le_refl _) (by simpa [departedTrain] using htc)
      rcases h3 with ⟨_, rfl⟩ | ⟨front, rest, f, _, hf, ⟨_, rfl⟩ | ⟨_, rfl⟩⟩
      · exact ⟨a1, le_refl _⟩
      · have hfc : f.cid < s.nextCrewId := a1 front f hf
        exact ⟨a1.set_cid_m (le_refl _) (by simpa [serviceTrain] using hfc), le_refl _⟩
      · exact ⟨a1, le_refl _⟩
  | hogout =>
    obtain ⟨d, tt, rfl, _⟩ := hogout_some_m ht h
    refine ⟨?_, ?_⟩
    · show CidLt (s.heap.set p (some (hoggedTrain s.globalTime d s.nextCrewId t)))
        (s.nextCrewId + 1)
      exact a.set_cid_m (by omega) (by simp [hoggedTrain])
    · show s.nextCrewId ≤ s.nextCrewId + 1
      omega
  | newCrew =>
    have a1 : CidLt (s.heap.set p (some (crewOnTrain s.globalTime t))) s.nextCrewId :=
      a.set_cid_m (le_refl _) (by simpa [crewOnTrain] using htc)
    have a2 : ∀ front f, deref (crewOnAt p t s) front = some f →
        CidLt ((s.heap.set p (some (crewOnTrain s.globalTime t))).set front
          (some (serviceTrain s.globalTime f))) s.nextCrewId := by
      intro front f hf
      have hfc : f.cid < s.nextCrewId := a1 front f hf
      exact a1.set_cid_m (le_refl _) (by simpa [serviceTrain] using hfc)
    rcases newCrew_some_m ht h with
      ⟨_, _, front, rest, f, _, hf, _, ⟨_, rfl⟩ | ⟨_, rfl⟩⟩ | ⟨_, rfl⟩ | ⟨_, _, rfl⟩ | ⟨_, _, rfl⟩
    · exact ⟨a2 front f hf, le_refl _⟩
    · exact ⟨a2 front f hf, le_refl _⟩
    · exact ⟨a1, le_refl _⟩
    · exact ⟨a1, le_refl _⟩
    · exact ⟨a1, le_refl _⟩

theorem Mach.driverIter_cid_m {i : Nat} {g : Gen} {s s2 : State} (a : CidLt s.heap s.nextCrewId)
    (h : driverIter i g s = some s2) :
    CidLt s2.heap s2.nextCrewId ∧ s.nextCrewId ≤ s2.nextCrewId := by
  unfold driverIter at h
  simp only [Option.map_eq_some'] at h
  obtain ⟨s1, h1, rfl⟩ := h
  obtain ⟨e, t, _, _, ht, ⟨_, rfl⟩ | ⟨_, hd⟩⟩ := checkEvent_some_m h1
  · exact ⟨a.drop_cid_m _, le_refl _⟩
  · have ht2 : deref (popAt i e s) e.train = some t := ht
    have a2 : CidLt (popAt i e s).heap (popAt i e s).nextCrewId := a
    have := dispatch_cid_m a2 ht2 hd
    exact this

theorem Mach.mainRun_cid_m {c : Config} {g0 : Gen} {inputs : List (Nat × Gen)} {s : State}
    (h : mainRun c g0 inputs = some s) : CidLt s.heap s.nextCrewId := by
  unfold mainRun at h
  simp only [Option.bind_eq_some] at h
  obtain ⟨s0, h0, h1⟩ := h
  refine driver_induction_m (fun x => CidLt x.heap x.nextCrewId)
    (fun _ _ _ _ hP _ hs => (driverIter_cid_m hP hs).1) inputs s0 s ?_ h1
  obtain ⟨ts, rest, rfl, _⟩ := mainInit_some_m h0
  intro q u hu
  rcases hget_append_cases_m (h := []) hu with ⟨_, rfl⟩ | ⟨hlt, _⟩
  · simp [newTrain]
  · simp at hlt

/-- The hogout handler returns whenever the train is stored, a replacement
delay can be drawn and neither counter is at `INT_MAX`. -/
theorem Mach.hogout_eq_m {p : Nat} {t : Train} {g : Gen} {s s1 : State} {d : F64}
    (h : deref s p = some t) (hh : t.hogouts < INT_MAX) (hn : s.nextCrewId < INT_MAX)
    (hd : getCrewArrivalTime g s = some (d, s1)) :
    hogout p g s = some (hogoutAt p t d s1.travelTime s) := by
  obtain ⟨e1, _⟩ := getCrewArrivalTime_some_m hd
  unfold hogout
  rw [h]
  simp only [Option.bind_eq_bind, Option.some_bind]
  rw [hd]
  simp only [Option.some_bind]
  rw [e1]
  by_cases hq : t.trainStatus = tStat.INQ
  · simp [hogoutAt, hoggedTrain, store, schedule, hq, incr_eq_m hh, incr_eq_m hn]
  · simp [hogoutAt, hoggedTrain, store, schedule, hq, incr_eq_m hh, incr_eq_m hn]

/-! ## Time accounting, clock and crew ids in machine arithmetic
-/

/-- What `updateDockTimes` does to the accumulators, by dock status. -/
theorem Mach.updateDockTimes_credit_m (s : Mach.State) :
    (Mach.updateDockTimes s).dock.prevTime = s.globalTime ∧
    (Mach.updateDockTimes s).globalTime = s.globalTime ∧
    (Mach.updateDockTimes s).dock.dockStatus = s.dock.dockStatus ∧
    (s.dock.dockStatus = dStat.IDLE →
      (Mach.updateDockTimes s).dock.idleTime
        = s.dock.idleTime + (s.globalTime - s.dock.prevTime) ∧
      (Mach.updateDockTimes s).dock.busyTime = s.dock.busyTime ∧
      (Mach.updateDockTimes s).dock.idleHogTime = s.dock.idleHogTime) ∧
    (s.dock.dockStatus = dStat.BUSY →
      (Mach.updateDockTimes s).dock.busyTime
        = s.dock.busyTime + (s.globalTime - s.dock.prevTime) ∧
      (Mach.updateDockTimes s).dock.idleTime = s.dock.idleTime ∧
      (Mach.updateDockTimes s).dock.idleHogTime = s.dock.idleHogTime) ∧
    (s.dock.dockStatus = dStat.IDLE_HOGGED →
      (Mach.updateDockTimes s).dock.idleTime
        = s.dock.idleTime + (s.globalTime - s.dock.prevTime) ∧
      (Mach.updateDockTimes s).dock.idleHogTime
        = s.dock.idleHogTime + (s.globalTime - s.dock.prevTime) ∧
      (Mach.updateDockTimes s).dock.busyTime = s.dock.busyTime) := by
  unfold Mach.updateDockTimes
  cases hd : s.dock.dockStatus <;> simp [hd]

/-- One driver iteration from a state whose sample watermark is the clock:
the watermark is the clock again, and the interval between the two clocks is
added to the accumulators of the dock status the handler has left. -/
theorem Mach.driverIter_credit_m {i : Nat} {g : Mach.Gen} {s s2 : Mach.State}
    (hp : s.dock.prevTime = s.globalTime) (h : Mach.driverIter i g s = some s2) :
    s2.dock.prevTime = s2.globalTime ∧
    (s2.dock.dockStatus = dStat.IDLE →
      s2.dock.idleTime = s.dock.idleTime + (s2.globalTime - s.globalTime) ∧
      s2.dock.busyTime = s.dock.busyTime ∧ s2.dock.idleHogTime = s.dock.idleHogTime) ∧
    (s2.dock.dockStatus = dStat.BUSY →
      s2.dock.busyTime = s.dock.busyTime + (s2.globalTime - s.globalTime) ∧
      s2.dock.idleTime = s.dock.idleTime ∧ s2.dock.idleHogTime = s.dock.idleHogTime) ∧
    (s2.dock.dockStatus = dStat.IDLE_HOGGED →
      s2.dock.idleTime = s.dock.idleTime + (s2.globalTime - s.globalTime) ∧
      s2.dock.idleHogTime = s.dock.idleHogTime + (s2.globalTime - s.globalTime) ∧
      s2.dock.busyTime = s.dock.busyTime) := by
  unfold Mach.driverIter at h
  simp only [Option.map_eq_some'] at h
  obtain ⟨s1, h1, rfl⟩ := h
  obtain ⟨a1, a2, a3, a4⟩ := Mach.checkEvent_sameAcc_m h1
  obtain ⟨b1, b2, b3, b4, b5, b6⟩ := Mach.updateDockTimes_credit_m s1
  rw [b1, b2, b3, ← hp, ← a1]
  refine ⟨rfl, ?_, ?_, ?_⟩
  · intro hs
    obtain ⟨c1, c2, c3⟩ := b4 hs
    rw [c1, c2, c3, a2, a3, a4]
    exact ⟨rfl, rfl, rfl⟩
  · intro hs
    obtain ⟨c1, c2, c3⟩ := b5 hs
    rw [c1, c2, c3, a2, a3, a4]
    exact ⟨rfl, rfl, rfl⟩
  · intro hs
    obtain ⟨c1, c2, c3⟩ := b6 hs
    rw [c1, c2, c3, a2, a3, a4]
    exact ⟨rfl, rfl, rfl⟩

/-- In every state the loop of `main` reaches, the sample watermark of the
dock is the clock. -/
theorem Mach.mainRun_prev_m {c : Mach.Config} {g0 : Mach.Gen} {inputs : List (Nat × Mach.Gen)}
    {s : Mach.State} (h : Mach.mainRun c g0 inputs = some s) :
    s.dock.prevTime = s.globalTime := by
  unfold Mach.mainRun at h
  simp only [Option.bind_eq_some] at h
  obtain ⟨s0, h0, h1⟩ := h
  refine Mach.driver_induction_m (fun x => x.dock.prevTime = x.globalTime) ?_ inputs s0 s ?_ h1
  · intro a i g b _ _ hs
    unfold Mach.driverIter at hs
    simp only [Option.map_eq_some'] at hs
    obtain ⟨s1, _, rfl⟩ := hs
    obtain ⟨b1, b2, _⟩ := Mach.updateDockTimes_credit_m s1
    rw [b1, b2]
  · obtain ⟨ts, rest, rfl, _⟩ := Mach.mainInit_some_m h0
    rfl

/-- The loop of `main` on a concatenated input runs the first part and then
the second. -/
theorem Mach.driver_append_m (l1 l2 : List (Nat × Mach.Gen)) :
    ∀ (s : Mach.State), Mach.driver (l1 ++ l2) s = (Mach.driver l1 s).bind (Mach.driver l2) := by
  induction l1 with
  | nil =>
    intro s
    rfl
  | cons x rest ih =>
    intro s
    obtain ⟨i, g⟩ := x
    simp only [List.cons_append, Mach.driver]
    split
    · cases h1 : Mach.driverIter i g s with
      | none => rfl
      | some s1 =>
        simp only [Option.some_bind]
        exact ih s1
    · rfl

/-- Every iteration of a run of the loop of `main` starts in a state the loop
reaches and leads to the next one. -/
theorem Mach.mainRun_iter_m {c : Mach.Config} {g0 : Mach.Gen} {inputs : List (Nat × Mach.Gen)}
    {s : Mach.State} (h : Mach.mainRun c g0 inputs = some s) {k i : Nat} {g : Mach.Gen}
    (hk : inputs.get? k = some (i, g)) :
    ∃ a b, Mach.mainRun c g0 (inputs.take k) = some a ∧ Mach.driverIter i g a = some b ∧
      Mach.mainRun c g0 (inputs.take (k + 1)) = some b := by
  have e2 : inputs.take (k + 1) = inputs.take k ++ [(i, g)] := by
    rw [List.take_succ, ← List.get?_eq_getElem?, hk]
    rfl
  have e3 : inputs = (inputs.take k ++ [(i, g)]) ++ inputs.drop (k + 1) := by
    rw [← e2]
    exact (List.take_append_drop _ _).symm
  unfold Mach.mainRun at h ⊢
  simp only [Option.bind_eq_some] at h
  obtain ⟨s0, h0, h1⟩ := h
  rw [e3, Mach.driver_append_m, Mach.driver_append_m] at h1
  simp only [Option.bind_eq_some] at h1
  obtain ⟨b, ⟨a, h2, h3⟩, _⟩ := h1
  have h4 : Mach.driverIter i g a = some b := by
    simp only [Mach.driver] at h3
    split at h3
    · simp only [Option.bind_eq_some] at h3
      obtain ⟨x, hx1, hx2⟩ := h3
      rw [← Option.some.inj hx2]
      exact hx1
    · exact absurd h3 (by simp)
  refine ⟨a, b, ?_, h4, ?_⟩
  · rw [h0]
    exact h2
  · rw [e2, h0, Option.some_bind, Mach.driver_append_m, h2]
    exact h3

/-- C21 (counterexample).  The replay input `roundCfg` (train file `0 3.9 0.3`,
`1000 1 1000`, `1 1 1`, crew file `2.7`).  After the fourth driver iteration,
the departure at 3.9, the dock holds idleTime 1.2 and busyTime
2.7000000000000002 while globalTime is 3.9: the `double` sum of the two
accumulators is not globalTime, and neither is the exact sum of their
values.  The watermark prevTime equals globalTime. -/
theorem C21_counterexample :
    ∃ s, Mach.mainRun Mach.roundCfg Mach.zeroGen (Mach.roundRun.take 4) = some s ∧
      s.globalTime = F64.round (39 / 10) ∧ s.dock.idleTime = F64.round (12 / 10) ∧
      s.dock.busyTime = F64.round (27 / 10) ∧
      s.dock.idleTime + s.dock.busyTime ≠ s.globalTime ∧
      s.dock.idleTime.toRat + s.dock.busyTime.toRat ≠ s.globalTime.toRat ∧
      s.dock.prevTime = s.globalTime :=
  ⟨(Mach.mainRun Mach.roundCfg Mach.zeroGen (Mach.roundRun.take 4)).getD Mach.roundService,
    by decide!, by decide!, by decide!, by decide!, by decide!, by decide!, by decide!⟩

/-- C21 (amended).  Time accounting of the code in `double` arithmetic.  In
every state the loop of `main` reaches, dock.prevTime equals globalTime.  One
more driver iteration (`checkEvent` then `updateDockTimes`) leaves prevTime
equal to globalTime again and adds the interval between the two clocks to
idleTime when the dock is then IDLE, to busyTime when it is BUSY, and to both
idleTime and idleHogTime when it is IDLE_HOGGED, the other accumulators keeping
their value: the hogged-idle time is counted inside idleTime as well. -/
theorem C21_watermark_and_credit (c : Mach.Config) (g0 : Mach.Gen)
    (inputs : List (Nat × Mach.Gen)) (s : Mach.State)
    (hrun : Mach.mainRun c g0 inputs = some s) :
    s.dock.prevTime = s.globalTime ∧
    (∀ i g s2, Mach.driverIter i g s = some s2 →
      s2.dock.prevTime = s2.globalTime ∧
      (s2.dock.dockStatus = dStat.IDLE →
        s2.dock.idleTime = s.dock.idleTime + (s2.globalTime - s.globalTime) ∧
        s2.dock.busyTime = s.dock.busyTime ∧ s2.dock.idleHogTime = s.dock.idleHogTime) ∧
      (s2.dock.dockStatus = dStat.BUSY →
        s2.dock.busyTime = s.dock.busyTime + (s2.globalTime - s.globalTime) ∧
        s2.dock.idleTime = s.dock.idleTime ∧ s2.dock.idleHogTime = s.dock.idleHogTime) ∧
      (s2.dock.dockStatus = dStat.IDLE_HOGGED →
        s2.dock.idleTime = s.dock.idleTime + (s2.globalTime - s.globalTime) ∧
        s2.dock.idleHogTime = s.dock.idleHogTime + (s2.globalTime - s.globalTime) ∧
        s2.dock.busyTime = s.dock.busyTime)) :=
  ⟨Mach.mainRun_prev_m hrun,
   fun _ _ _ hstep => Mach.driverIter_credit_m (Mach.mainRun_prev_m hrun) hstep⟩

/-- C21 (witness).  The hogout of the run on `roundCfg`: the state before it
is `roundService`, at time 0 with all accumulators 0; the iteration moves the
clock to 0.3, leaves the dock IDLE_HOGGED and adds 0.3 to idleTime and to
idleHogTime. -/
theorem C21_watermark_and_credit_witness :
    (Mach.mainRun Mach.roundCfg Mach.zeroGen (Mach.roundRun.take 1) = some Mach.roundService ∧
     (Mach.driverIter 2 Mach.zeroGen Mach.roundService).map
        (fun s2 => (s2.globalTime, s2.dock.dockStatus, s2.dock.idleTime, s2.dock.idleHogTime,
          s2.dock.busyTime))
       = some (F64.round (3 / 10), dStat.IDLE_HOGGED, F64.round (3 / 10), F64.round (3 / 10),
          F64.fin 0)) ∧
    (Mach.roundService.dock.prevTime = Mach.roundService.globalTime ∧
     (∀ i g s2, Mach.driverIter i g Mach.roundService = some s2 →
      s2.dock.prevTime = s2.globalTime ∧
      (s2.dock.dockStatus = dStat.IDLE →
        s2.dock.idleTime
          = Mach.roundService.dock.idleTime + (s2.globalTime - Mach.roundService.globalTime) ∧
        s2.dock.busyTime = Mach.roundService.dock.busyTime ∧
        s2.dock.idleHogTime = Mach.roundService.dock.idleHogTime) ∧
      (s2.dock.dockStatus = dStat.BUSY →
        s2.dock.busyTime
          = Mach.roundService.dock.busyTime + (s2.globalTime - Mach.roundService.globalTime) ∧
        s2.dock.idleTime = Mach.roundService.dock.idleTime ∧
        s2.dock.idleHogTime = Mach.roundService.dock.idleHogTime) ∧
      (s2.dock.dockStatus = dStat.IDLE_HOGGED →
        s2.dock.idleTime
          = Mach.roundService.dock.idleTime + (s2.globalTime - Mach.roundService.globalTime) ∧
        s2.dock.idleHogTime
          = Mach.roundService.dock.idleHogTime
            + (s2.globalTime - Mach.roundService.globalTime) ∧
        s2.dock.busyTime = Mach.roundService.dock.busyTime))) :=
  ⟨⟨by decide!, by decide!⟩,
   C21_watermark_and_credit Mach.roundCfg Mach.zeroGen (Mach.roundRun.take 1) Mach.roundService
     (by decide!)⟩

/-- C1 (counterexample).  First, the by-design part: the completed run
`hogRun` ends at logical time 10 with idleTime 8, busyTime 2 and idleHogTime
3, so the three accumulators add up to 13, not to the final time.  Second, the
rounding: the completed run of the program on the replay input `roundCfg` ends
at time 1000 with idleTime 1.2, busyTime 998.80000000000007 and idleHogTime
0.3; neither the three accumulators nor idleTime and busyTime alone add up to
the final time, in `double` arithmetic or exactly. -/
theorem C1_counterexample :
    (∃ s, mainRun (genCfg (-1)) hogGen hogRun = some s ∧ Completed s ∧
      s.dock.idleTime + s.dock.busyTime + s.dock.idleHogTime ≠ s.globalTime) ∧
    (∃ s, Mach.mainRun Mach.roundCfg Mach.zeroGen Mach.roundRun = some s ∧
      Mach.loopCond s = false ∧ s.globalTime = F64.fin 1000 ∧
      s.dock.idleTime = F64.round (12 / 10) ∧ s.dock.idleHogTime = F64.round (3 / 10) ∧
      s.dock.idleTime + s.dock.busyTime + s.dock.idleHogTime ≠ s.globalTime ∧
      s.dock.idleTime + s.dock.busyTime ≠ s.globalTime ∧
      s.dock.idleTime.toRat + s.dock.busyTime.toRat + s.dock.idleHogTime.toRat
        ≠ s.globalTime.toRat ∧
      s.dock.idleTime.toRat + s.dock.busyTime.toRat ≠ s.globalTime.toRat) :=
  ⟨⟨hogFinal, hogRun_eq, by decide!, by decide!⟩,
   ⟨(Mach.mainRun Mach.roundCfg Mach.zeroGen Mach.roundRun).getD Mach.roundService,
    by decide!, by decide!, by decide!, by decide!, by decide!, by decide!, by decide!,
    by decide!, by decide!⟩⟩

/-- C1 (amended).  For every completed run of the driver loop, in `double`
arithmetic: the final dock.prevTime equals the final globalTime, and every
iteration of the run led from a state `a` to a state `b` with prevTime equal to
globalTime in both, adding the interval between the two clocks to idleTime when
the dock was then IDLE, to busyTime when BUSY, and to both idleTime and
idleHogTime when IDLE_HOGGED, the other accumulators keeping their value.  So
the hogged-idle time is counted inside idleTime as well. -/
theorem C1_time_accounting (c : Mach.Config) (g0 : Mach.Gen) (inputs : List (Nat × Mach.Gen))
    (s : Mach.State) (hrun : Mach.mainRun c g0 inputs = some s)
    (_hdone : Mach.loopCond s = false) :
    s.dock.prevTime = s.globalTime ∧
    (∀ k i g, inputs.get? k = some (i, g) →
      ∃ a b, Mach.mainRun c g0 (inputs.take k) = some a ∧ Mach.driverIter i g a = some b ∧
        Mach.mainRun c g0 (inputs.take (k + 1)) = some b ∧
        a.dock.prevTime = a.globalTime ∧ b.dock.prevTime = b.globalTime ∧
        (b.dock.dockStatus = dStat.IDLE →
          b.dock.idleTime = a.dock.idleTime + (b.globalTime - a.globalTime) ∧
          b.dock.busyTime = a.dock.busyTime ∧ b.dock.idleHogTime = a.dock.idleHogTime) ∧
        (b.dock.dockStatus = dStat.BUSY →
          b.dock.busyTime = a.dock.busyTime + (b.globalTime - a.globalTime) ∧
          b.dock.idleTime = a.dock.idleTime ∧ b.dock.idleHogTime = a.dock.idleHogTime) ∧
        (b.dock.dockStatus = dStat.IDLE_HOGGED →
          b.dock.idleTime = a.dock.idleTime + (b.globalTime - a.globalTime) ∧
          b.dock.idleHogTime = a.dock.idleHogTime + (b.globalTime - a.globalTime) ∧
          b.dock.busyTime = a.dock.busyTime)) := by
  refine ⟨Mach.mainRun_prev_m hrun, ?_⟩
  intro k i g hk
  obtain ⟨a, b, h1, h2, h3⟩ := Mach.mainRun_iter_m hrun hk
  have ha := Mach.mainRun_prev_m h1
  obtain ⟨c1, c2, c3, c4⟩ := Mach.driverIter_credit_m ha h2
  exact ⟨a, b, h1, h2, h3, ha, c1, c2, c3, c4⟩

/-- C1 (witness).  The completed run on `roundCfg`; its second iteration is the
hogout at 0.3, which starts in `roundService` and leaves the dock IDLE_HOGGED
with 0.3 added to idleTime and to idleHogTime. -/
theorem C1_time_accounting_witness :
    ((Mach.mainRun Mach.roundCfg Mach.zeroGen Mach.roundRun).map
        (fun s => (Mach.loopCond s, s.globalTime, s.dock.prevTime))
       = some (false, F64.fin 1000, F64.fin 1000) ∧
     Mach.roundRun.get? 1 = some (2, Mach.zeroGen) ∧
     Mach.mainRun Mach.roundCfg Mach.zeroGen (Mach.roundRun.take 1) = some Mach.roundService) ∧
    (∃ a b, Mach.mainRun Mach.roundCfg Mach.zeroGen (Mach.roundRun.take 1) = some a ∧
      Mach.driverIter 2 Mach.zeroGen a = some b ∧
      Mach.mainRun Mach.roundCfg Mach.zeroGen (Mach.roundRun.take (1 + 1)) = some b ∧
      a.dock.prevTime = a.globalTime ∧ b.dock.prevTime = b.globalTime ∧
      (b.dock.dockStatus = dStat.IDLE →
        b.dock.idleTime = a.dock.idleTime + (b.globalTime - a.globalTime) ∧
        b.dock.busyTime = a.dock.busyTime ∧ b.dock.idleHogTime = a.dock.idleHogTime) ∧
      (b.dock.dockStatus = dStat.BUSY →
        b.dock.busyTime = a.dock.busyTime + (b.globalTime - a.globalTime) ∧
        b.dock.idleTime = a.dock.idleTime ∧ b.dock.idleHogTime = a.dock.idleHogTime) ∧
      (b.dock.dockStatus = dStat.IDLE_HOGGED →
        b.dock.idleTime = a.dock.idleTime + (b.globalTime - a.globalTime) ∧
        b.dock.idleHogTime = a.dock.idleHogTime + (b.globalTime - a.globalTime) ∧
        b.dock.busyTime = a.dock.busyTime)) :=
  ⟨⟨by decide!, by decide!, by decide!⟩,
   (C1_time_accounting Mach.roundCfg Mach.zeroGen Mach.roundRun
      ((Mach.mainRun Mach.roundCfg Mach.zeroGen Mach.roundRun).getD Mach.roundService)
      (by decide!) (by decide!)).2 1 2 Mach.zeroGen (by decide!)⟩

/-- C22 (the code at the failing input).  Replay input `tieCfg`: every value
of the train file and the replacement delay 1.3 are positive, and the delay is
below `SHIFT_TIME`.  After three iterations the clock is 2, train 1 is in the
dock (SERVICE, endQTime 2, unloadTime 2.4, no hogout yet), and its hogout and
its departure are both pending at 4.4000000000000004, the `double` that both
3.4 + 1 and 2.4 + 2 give; `top()` may return the hogout.  The fourth iteration
runs the hogout handler on the train, once, and leaves it SERVICE with
unloadTime 2.4 - (4.4000000000000004 - 2) = -4.44e-16, a negative value. -/
theorem C22_reduced_unload_negative :
    (∀ ts ∈ Mach.tieCfg.trainSchedule,
      F64.lt (F64.fin 0) ts.arrivalTime = true ∧ F64.lt (F64.fin 0) ts.unloadTime = true ∧
      F64.lt (F64.fin 0) ts.remainingCrewHours = true) ∧
    (∀ d ∈ Mach.tieCfg.travelTime,
      F64.lt (F64.fin 0) d = true ∧ F64.lt d Mach.SHIFT_TIME = true) ∧
    (Mach.mainRun Mach.tieCfg Mach.zeroGen (Mach.tieRun.take 3)).map
        (fun s => (s.globalTime, s.eventQ.get? 2, s.eventQ.get? 3))
      = some (F64.fin 2,
          some { function := EventFunc.hogout, train := 1, eventTime := F64.round (44 / 10) },
          some { function := EventFunc.departure, train := 1
                 eventTime := F64.round (44 / 10) }) ∧
    (Mach.mainRun Mach.tieCfg Mach.zeroGen (Mach.tieRun.take 3)).map
        (fun s => Mach.isTop s.eventQ 2) = some true ∧
    (Mach.mainRun Mach.tieCfg Mach.zeroGen (Mach.tieRun.take 3)).map
        (fun s => (Mach.deref s 1).map (fun t => (t.trainStatus, t.endQTime, t.unloadTime)))
      = some (some (tStat.SERVICE, F64.fin 2, F64.round (24 / 10))) ∧
    (Mach.mainRun Mach.tieCfg Mach.zeroGen (Mach.tieRun.take 3)).map
        (fun s => (Mach.deref s 1).map (fun t => t.hogouts)) = some (some 0) ∧
    (Mach.mainRun Mach.tieCfg Mach.zeroGen (Mach.tieRun.take 4)).map
        (fun s => (s.globalTime,
          (Mach.deref s 1).map (fun t => (t.trainStatus, t.hogouts))))
      = some (F64.round (44 / 10), some (tStat.SERVICE, 1)) ∧
    (Mach.mainRun Mach.tieCfg Mach.zeroGen (Mach.tieRun.take 4)).map
        (fun s => (Mach.deref s 1).map (fun t => (t.unloadTime,
            F64.lt t.unloadTime (F64.fin 0))))
      = some (some (F64.fin (-1 / 2251799813685248), true)) :=
  ⟨by decide!, by decide!, by decide!, by decide!, by decide!, by decide!, by decide!,
   by decide!⟩

/-- C8 (the code at the failing input).  Replay input `tieCfg`: all values
positive, the replacement delay 1.3 below `SHIFT_TIME`.  After seven
iterations, the crew replacement of train 1, the clock is 5.7000000000000002
and the departure that `newCrew` has scheduled for the train is pending at
5.6999999999999993, before the clock: the handler added the negative
unloadTime left by the hogout.  It is the event `top()` returns next, and the
eighth iteration sets the clock back to 5.6999999999999993. -/
theorem C8_clock_steps_back :
    (∀ ts ∈ Mach.tieCfg.trainSchedule,
      F64.lt (F64.fin 0) ts.arrivalTime = true ∧ F64.lt (F64.fin 0) ts.unloadTime = true ∧
      F64.lt (F64.fin 0) ts.remainingCrewHours = true) ∧
    (∀ d ∈ Mach.tieCfg.travelTime,
      F64.lt (F64.fin 0) d = true ∧ F64.lt d Mach.SHIFT_TIME = true) ∧
    (Mach.mainRun Mach.tieCfg Mach.zeroGen (Mach.tieRun.take 7)).map
        (fun s => (s.globalTime, s.eventQ.get? 3, Mach.isTop s.eventQ 3,
          s.eventQ.map (fun e => F64.lt e.eventTime s.globalTime)))
      = some (F64.round (57 / 10),
          some { function := EventFunc.departure, train := 1
                 eventTime := F64.fin (1604407367250739 / 281474976710656) },
          true, [false, false, false, true]) ∧
    (Mach.mainRun Mach.tieCfg Mach.zeroGen (Mach.tieRun.take 8)).map
        (fun s => (s.globalTime, F64.lt s.globalTime (F64.round (57 / 10))))
      = some (F64.fin (1604407367250739 / 281474976710656), true) :=
  ⟨by decide!, by decide!, by decide!, by decide!⟩

/-- C7 (the code at the failing input).  Replay input `tieCfg`: all values
positive, the replacement delay 1.3 below the shift length.  Train 2 arrives
at 5.7000000000000002 and joins the queue; the departure of train 1 is then
processed at 5.6999999999999993 and moves train 2 into the dock.  After nine
iterations train 2 is DEPARTED with arrivalTime 5.7000000000000002 and
endQTime 5.6999999999999993: endQTime is below arrivalTime. -/
theorem C7_endQTime_below_arrivalTime :
    (∀ ts ∈ Mach.tieCfg.trainSchedule,
      F64.lt (F64.fin 0) ts.arrivalTime = true ∧ F64.lt (F64.fin 0) ts.unloadTime = true ∧
      F64.lt (F64.fin 0) ts.remainingCrewHours = true) ∧
    (∀ d ∈ Mach.tieCfg.travelTime,
      F64.lt (F64.fin 0) d = true ∧ F64.lt d Mach.SHIFT_TIME = true) ∧
    (Mach.mainRun Mach.tieCfg Mach.zeroGen (Mach.tieRun.take 6)).map
        (fun s => (s.globalTime, s.trainQ,
          (Mach.deref s 2).map (fun t => (t.trainStatus, t.arrivalTime))))
      = some (F64.round (57 / 10), [2], some (tStat.INQ, F64.round (57 / 10))) ∧
    (Mach.mainRun Mach.tieCfg Mach.zeroGen Mach.tieRun).map
        (fun s => (Mach.deref s 2).map (fun t => (t.trainStatus, t.arrivalTime, t.endQTime)))
      = some (some (tStat.DEPARTED, F64.round (57 / 10),
          F64.fin (1604407367250739 / 281474976710656))) ∧
    (Mach.mainRun Mach.tieCfg Mach.zeroGen Mach.tieRun).map
        (fun s => (Mach.deref s 2).map (fun t => (t.endDockTime,
          F64.lt t.endQTime t.arrivalTime, F64.le t.arrivalTime t.endQTime)))
      = some (some (F64.fin (1885882343961395 / 281474976710656), true, false)) :=
  ⟨by decide!, by decide!, by decide!, by decide!, by decide!⟩

/-- C15 (counterexample).  In `maxCrewState` train 0 is in the dock (SERVICE),
a replacement delay can be drawn, and the crew counter holds `INT_MAX`.  The
hogout handler evaluates `nextCrewId++` there: a signed overflow, undefined
behaviour, so the handler has no defined result and no crew id is guaranteed
to be new. -/
theorem C15_counterexample :
    (Mach.deref Mach.maxCrewState 0).map (fun t => (t.trainStatus, t.hogouts))
      = some (tStat.SERVICE, 0) ∧
    (Mach.getCrewArrivalTime Mach.zeroGen Mach.maxCrewState).map (fun x => x.1)
      = some (F64.round (27 / 10)) ∧
    Mach.maxCrewState.nextCrewId = 2147483647 ∧
    Mach.incr Mach.maxCrewState.nextCrewId = none ∧
    Mach.hogout 0 Mach.zeroGen Mach.maxCrewState = none :=
  ⟨by decide!, by decide!, by decide!, by decide!, by decide!⟩

/-- C15 (amended).  Hogout handler postcondition in machine arithmetic.  First
part, for every state `st`: if the train at `p` is stored with trainStatus INQ
or SERVICE, its hogout count and the crew counter are below `INT_MAX`, and
`getCrewArrivalTime` draws the replacement delay `d`, then `hogout` returns a
state `s2` in which the train has crewStatus HOGGED_OUT, one more hogout,
timeTillHogout `SHIFT_TIME - d`, the same trainStatus and the crew id
`st.nextCrewId`, the counter is one higher, and the pending events are those of
`st` followed by one crew replacement of the train at `now + d`.  For a SERVICE
train the dock is IDLE_HOGGED and unloadTime is reduced by `now - endQTime`; for
an INQ train dock, wait queue and unloadTime are unchanged.  If every crew id in
use in `st` is below the counter, the new id differs from every crew id in use
before and from the crew id of every other train after.  Second part: in
every state reached by the loop of `main`, and so in every state a handler is
called from, every crew id in use is below the counter, and a driver iteration
never lowers the counter.  All sums and differences are those of `double`. -/
theorem C15_hogout_postcondition :
    (∀ (st : Mach.State) (p : Nat) (t : Mach.Train) (g : Mach.Gen) (d : F64) (st1 : Mach.State),
      Mach.deref st p = some t →
      (t.trainStatus = tStat.INQ ∨ t.trainStatus = tStat.SERVICE) →
      t.hogouts < INT_MAX → st.nextCrewId < INT_MAX →
      Mach.getCrewArrivalTime g st = some (d, st1) →
      ∃ s2 t2, Mach.hogout p g st = some s2 ∧ Mach.deref s2 p = some t2 ∧
        t2.crewStatus = cStat.HOGGED_OUT ∧ t2.hogouts = t.hogouts + 1 ∧
        t2.timeTillHogout = Mach.SHIFT_TIME - d ∧ t2.trainStatus = t.trainStatus ∧
        t2.cid = st.nextCrewId ∧ s2.nextCrewId = st.nextCrewId + 1 ∧
        s2.eventQ = st.eventQ ++
          [{ function := EventFunc.newCrew, train := p, eventTime := st.globalTime + d }] ∧
        s2.trainQ = st.trainQ ∧
        (t.trainStatus = tStat.SERVICE →
          s2.dock.dockStatus = dStat.IDLE_HOGGED ∧
          t2.unloadTime = t.unloadTime - (st.globalTime - t.endQTime)) ∧
        (t.trainStatus = tStat.INQ →
          s2.dock = st.dock ∧ t2.unloadTime = t.unloadTime) ∧
        ((∀ q u, Mach.deref st q = some u → u.cid < st.nextCrewId) →
          (∀ q u, Mach.deref st q = some u → u.cid ≠ t2.cid) ∧
          (∀ q u, q ≠ p → Mach.deref s2 q = some u → u.cid ≠ t2.cid))) ∧
    (∀ (c : Mach.Config) (g0 : Mach.Gen) (inputs : List (Nat × Mach.Gen)) (s : Mach.State),
      Mach.mainRun c g0 inputs = some s →
      (∀ q u, Mach.deref s q = some u → u.cid < s.nextCrewId) ∧
      (∀ i e q u, Mach.deref (Mach.popAt i e s) q = some u →
        u.cid < (Mach.popAt i e s).nextCrewId) ∧
      (∀ i g s2, Mach.driverIter i g s = some s2 → s.nextCrewId ≤ s2.nextCrewId)) := by
  constructor
  · intro st p t g d st1 ht hs hh hn hd
    have hlt : p < st.heap.length := Mach.hget_lt_m ht
    have hself : Mach.deref (Mach.hogoutAt p t d st1.travelTime st) p
        = some (Mach.hoggedTrain st.globalTime d st.nextCrewId t) := by
      simp [Mach.deref_eq_m, Mach.hogoutAt, Mach.hget_set_some_m, hlt]
    refine ⟨Mach.hogoutAt p t d st1.travelTime st,
      Mach.hoggedTrain st.globalTime d st.nextCrewId t,
      Mach.hogout_eq_m ht hh hn hd, hself, rfl, rfl, rfl, rfl, rfl, rfl, rfl, rfl, ?_, ?_, ?_⟩
    · intro hsv
      have hq : ¬ t.trainStatus = tStat.INQ := by rw [hsv]; decide
      simp [Mach.hogoutAt, Mach.hoggedTrain, hq]
    · intro hq
      simp [Mach.hogoutAt, Mach.hoggedTrain, hq]
    · intro hfresh
      refine ⟨?_, ?_⟩
      · intro q u hu
        exact ne_of_lt (hfresh q u hu)
      · intro q u hqp hu
        have hu2 : Mach.hget
            (st.heap.set p (some (Mach.hoggedTrain st.globalTime d st.nextCrewId t))) q
            = some u := hu
        rcases Mach.hget_set_some_cases_m hu2 with ⟨h1, _⟩ | ⟨_, h2⟩
        · exact absurd h1 hqp
        · exact ne_of_lt (hfresh q u h2)
  · intro c g0 inputs s hrun
    have a := Mach.mainRun_cid_m hrun
    exact ⟨a, fun _ _ q u hu => a q u hu, fun i g s2 h => (Mach.driverIter_cid_m a h).2⟩

/-- C15 (witness).  The hogout of the run on `roundCfg`: the train is in the
dock at time 0.3 with `endQTime` 0 and unloadTime 3.9, the drawn delay is 2.7.
The handler leaves unloadTime 3.6, timeTillHogout 9.3000000000000007, crew id
2 and a crew replacement at time 3. -/
theorem C15_hogout_postcondition_witness :
    ((Mach.deref (Mach.popAt 2
        { function := EventFunc.hogout, train := 0, eventTime := F64.round (3 / 10) }
        Mach.roundService) 0).map
          (fun t => (t.trainStatus, t.hogouts, t.endQTime, t.unloadTime))
      = some (tStat.SERVICE, 0, F64.fin 0, F64.round (39 / 10)) ∧
     (Mach.getCrewArrivalTime Mach.zeroGen (Mach.popAt 2
        { function := EventFunc.hogout, train := 0, eventTime := F64.round (3 / 10) }
        Mach.roundService)).map (fun x => x.1) = some (F64.round (27 / 10)) ∧
     (Mach.popAt 2
        { function := EventFunc.hogout, train := 0, eventTime := F64.round (3 / 10) }
        Mach.roundService).nextCrewId = 2) ∧
    (∃ s2 t2,
        Mach.hogout 0 Mach.zeroGen (Mach.popAt 2
          { function := EventFunc.hogout, train := 0, eventTime := F64.round (3 / 10) }
          Mach.roundService) = some s2 ∧
        Mach.deref s2 0 = some t2 ∧ t2.crewStatus = cStat.HOGGED_OUT ∧ t2.hogouts = 0 + 1 ∧
        t2.timeTillHogout = F64.round (93 / 10) ∧ t2.cid = 2 ∧ s2.nextCrewId = 2 + 1 ∧
        s2.dock.dockStatus = dStat.IDLE_HOGGED ∧ t2.unloadTime = F64.round (36 / 10) ∧
        s2.eventQ.get? 2
          = some { function := EventFunc.newCrew, train := 0, eventTime := F64.fin 3 }) :=
  ⟨⟨by decide!, by decide!, by decide!⟩, by
    obtain ⟨s2, t2, h1, h2, h3, h4, h5, _, h7, h8, h9, _, h11, _, _⟩ :=
      C15_hogout_postcondition.1
        (Mach.popAt 2
          { function := EventFunc.hogout, train := 0, eventTime := F64.round (3 / 10) }
          Mach.roundService) 0
        { tid := 0, cid := 0, hogouts := 0, arrivalTime := F64.fin 0
          endQTime := F64.fin 0, endDockTime := F64.fin 0
          crewArrivalTime := F64.fin 0, timeTillHogout := F64.round (3 / 10)
          unloadTime := F64.round (39 / 10), trainStatus := tStat.SERVICE
          crewStatus := cStat.ON_CLOCK } Mach.zeroGen (F64.round (27 / 10))
        { Mach.popAt 2
            { function := EventFunc.hogout, train := 0, eventTime := F64.round (3 / 10) }
            Mach.roundService with travelTime := [] }
        (by decide!) (Or.inr rfl) (by decide!) (by decide!) (by decide!)
    refine ⟨s2, t2, h1, h2, h3, h4, ?_, h7, h8, (h11 rfl).1, ?_, ?_⟩
    · rw [h5]
      decide!
    · rw [(h11 rfl).2]
      decide!
    · rw [h9]
      decide!⟩

end TrainSim
